import Mathlib

/-!
# Hyperion: checkers, slope shaper and rule configuration

A shallow embedding of parts of the Hyperion load-generation harness:

* `driver/checking`: the block-height, block-hashes and rolling-blocks
  checkers and the checker list `Checks`;
* `load/shaper`: the slope shaper;
* `genesis/genesis`: the rule-configuration registry.

Go's `error` is an `Option`: `none` is `nil`.  Unsigned machine integers are
natural numbers reduced modulo `2 ^ w` at the places where Go wraps, signed
ones are integers.  Interfaces (`driver.Node`, `rpc.Client`,
`monitoring.Series`) are records of the answers their methods give.
-/

set_option autoImplicit false

deriving instance DecidableEq for Except

/-! ## `strconv` (Go standard library) -/

namespace strconv

/-- The two sentinel errors a `*NumError` can wrap. -/
inductive ErrKind where
  | ErrSyntax
  | ErrRange
deriving DecidableEq, Repr

/-- The struct `NumError{Func, Num, Err}`. -/
structure NumError where
  Func : String
  Num : String
  Err : ErrKind
deriving DecidableEq, Repr

/-- The value `1<<64 - 1`. -/
def maxUint64 : Nat := 2 ^ 64 - 1

/-- The helper `lower(c) = c | ('x' - 'X')` on a byte. -/
def lower (c : Nat) : Nat := c ||| 0x20

/-- The digit switch of the `ParseUint` loop for one byte `c` (the underscore
case needs base 0 and is never taken here): the digit value, or `none` for the
`default` branch.  A character outside ASCII is a run of bytes `>= 0x80`, each
of which takes the `default` branch. -/
def digitVal (c : Char) : Option Nat :=
  let b := c.toNat
  if 48 ≤ b ∧ b ≤ 57 then some (b - 48)
  else if b < 128 ∧ 97 ≤ lower b ∧ lower b ≤ 122 then some (lower b - 97 + 10)
  else none

/-- The loop of `ParseUint(s, base, 64)` over the bytes still to read, `n`
being the value accumulated so far.  The result pairs the returned number with
the error kind. -/
def parseUintLoop (base : Nat) : List Char → Nat → Nat × Option ErrKind
  | [], n => (n, none)
  | c :: cs, n =>
    match digitVal c with
    | none => (0, some .ErrSyntax)
    | some d =>
      if d ≥ base then (0, some .ErrSyntax)
      else if n ≥ maxUint64 / base + 1 then (maxUint64, some .ErrRange)
      else
        let n1 := n * base + d
        if n1 > maxUint64 then (maxUint64, some .ErrRange)
        else parseUintLoop base cs n1

/-- The call `strconv.ParseUint(s, base, 64)` for an explicit base
`2 <= base <= 36`: the returned number and error. -/
def ParseUint (s : String) (base : Nat) : Nat × Option NumError :=
  if s = "" then (0, some ⟨"ParseUint", s, .ErrSyntax⟩)
  else
    match parseUintLoop base s.data 0 with
    | (n, none) => (n, none)
    | (n, some k) => (n, some ⟨"ParseUint", s, k⟩)

/-- The call `strconv.ParseInt(s, base, 64)` for an explicit base. -/
def ParseInt (s : String) (base : Nat) : Int × Option NumError :=
  if s = "" then (0, some ⟨"ParseInt", s, .ErrSyntax⟩)
  else
    let (neg, rest) : Bool × List Char :=
      match s.data with
      | '+' :: cs => (false, cs)
      | '-' :: cs => (true, cs)
      | cs => (false, cs)
    let (un, err) := ParseUint (String.mk rest) base
    match err with
    | some ⟨_, _, .ErrSyntax⟩ => (0, some ⟨"ParseInt", s, .ErrSyntax⟩)
    | _ =>
      let cutoff : Nat := 2 ^ 63
      if !neg ∧ un ≥ cutoff then ((cutoff : Int) - 1, some ⟨"ParseInt", s, .ErrRange⟩)
      else if neg ∧ un > cutoff then (-(cutoff : Int), some ⟨"ParseInt", s, .ErrRange⟩)
      else (if neg then -(un : Int) else (un : Int), none)

end strconv

/-! ## `driver/checking` -/

/-- The 32-byte `common.Hash` of go-ethereum, read as a number; the zero value
is `0`. -/
abbrev common.Hash := Nat

namespace checking

/-- The struct `blockHashes`. -/
structure blockHashes where
  Hash : common.Hash
  StateRoot : common.Hash
  ReceiptsRoot : common.Hash
deriving DecidableEq, Repr

/-- The answers of an `rpc.Client` to the two calls the checkers make. -/
structure Client where
  /-- The outcome of `Call(&blockNumber, "eth_blockNumber")`. -/
  ethBlockNumber : Except String String
  /-- The outcome of `Call(&block, "eth_getBlockByNumber", n, false)`;
  `none` is the nil block. -/
  ethGetBlockByNumber : Nat → Except String (Option blockHashes)

/-- The part of `driver.Node` the checkers use. -/
structure Node where
  GetLabel : String
  IsExpectedFailure : Bool
  DialRpc : Except String Client

/-- The errors of the package, one constructor for each `fmt.Errorf` site. -/
inductive Error where
  /-- An error returned by `DialRpc` or `Call`, with its text. -/
  | external (msg : String)
  /-- The `*strconv.NumError` of `ParseInt`. -/
  | numError (e : strconv.NumError)
  /-- The text `failed to dial node RPC; %v`. -/
  | failedToDialNodeRpc (cause : Error)
  /-- The text `failed to get block number from RPC; %v`. -/
  | failedToGetBlockNumber (cause : Error)
  /-- The text `failed to get block height of node %s; %v`. -/
  | failedToGetBlockHeight (label : String) (cause : Error)
  /-- The text `node %s reports it is at block 1 (only genesis is applied)`. -/
  | onlyGenesis (label : String)
  /-- The text `node %s reports it is at invalid block %d`. -/
  | invalidBlock (label : String) (height : Int)
  /-- The text `node %s reports too old block %d (max block is %d)`. -/
  | tooOldBlock (label : String) (height maxHeight : Int)
  /-- The text
  `unexpected failure set to provide the block height, got %v, want %v`. -/
  | unexpectedFailureSetHeight (got want : Finset String)
  /-- The text `failed to dial RPC for node %s; %v`. -/
  | failedToDialRpc (label : String) (cause : Error)
  /-- The text `<field> of the block %d does not match`, the field being
  `stateRoot`, `receiptsRoot` or `hash`. -/
  | doesNotMatch (field : String) (blockNumber : Nat)
  /-- The text `failed to get block state root from RPC; %v`. -/
  | failedToGetBlockStateRoot (cause : Error)
  /-- The text `failed to get block %d detail at node %s; %v`. -/
  | failedToGetBlockDetail (blockNumber : Nat) (label : String) (cause : Error)
  /-- The text
  `unable to check block hashes - block %d does not exists at node %s`. -/
  | blockDoesNotExist (blockNumber : Nat) (label : String)
  /-- The text
  `unexpected failure set to provide the block hashes: got %v, want %v`. -/
  | unexpectedFailureSetHashes (got want : Finset String)
  /-- The text `network is down, nodes stopped producing blocks`. -/
  | networkDown
deriving DecidableEq

/-- The helper `strings.TrimPrefix(s, "0x")`. -/
def trimPrefix0x (s : String) : String :=
  match s.data with
  | '0' :: 'x' :: cs => String.mk cs
  | _ => s

/-- The function `getBlockHeight`. -/
def getBlockHeight (n : Node) : Except Error Int :=
  match n.DialRpc with
  | .error e => .error (.failedToDialNodeRpc (.external e))
  | .ok rpcClient =>
    match rpcClient.ethBlockNumber with
    | .error e => .error (.failedToGetBlockNumber (.external e))
    | .ok blockNumber =>
      match strconv.ParseInt (trimPrefix0x blockNumber) 16 with
      | (h, none) => .ok h
      | (_, some e) => .error (.numError e)

namespace blockHeightChecker

/-- The first loop of `Check` over the nodes still to visit: it returns the
heights of these nodes, the final `maxHeight` and the final
`expectedFailures`. -/
def collectHeights : List Node → Int → Finset String →
    Except Error (List Int × Int × Finset String)
  | [], maxHeight, expectedFailures => .ok ([], maxHeight, expectedFailures)
  | n :: rest, maxHeight, expectedFailures =>
    let expectedFailures :=
      if n.IsExpectedFailure then insert n.GetLabel expectedFailures else expectedFailures
    match getBlockHeight n with
    | .error err => .error (.failedToGetBlockHeight n.GetLabel err)
    | .ok height =>
      if height = 1 then .error (.onlyGenesis n.GetLabel)
      else if height < 1 then .error (.invalidBlock n.GetLabel height)
      else
        let maxHeight := if maxHeight < height then height else maxHeight
        match collectHeights rest maxHeight expectedFailures with
        | .error err => .error err
        | .ok (heights, m, ef) => .ok (height :: heights, m, ef)

/-- The second loop of `Check` over the nodes still to visit, paired with
their heights: the final `gotFailures`, or the error of the first lagging node
that is not expected to fail. -/
def collectFailures (maxHeight : Int) : List (Node × Int) → Finset String →
    Except Error (Finset String)
  | [], gotFailures => .ok gotFailures
  | (n, height) :: rest, gotFailures =>
    if height < maxHeight - 1 then
      if n.IsExpectedFailure then
        collectFailures maxHeight rest (insert n.GetLabel gotFailures)
      else .error (.tooOldBlock n.GetLabel height maxHeight)
    else collectFailures maxHeight rest gotFailures

/-- The method `blockHeightChecker.Check` on the list of active nodes. -/
def Check (nodes : List Node) : Option Error :=
  match collectHeights nodes 0 ∅ with
  | .error err => some err
  | .ok (heights, maxHeight, expectedFailures) =>
    match collectFailures maxHeight (nodes.zip heights) ∅ with
    | .error err => some err
    | .ok gotFailures =>
      if gotFailures ≠ expectedFailures then
        some (.unexpectedFailureSetHeight gotFailures expectedFailures)
      else none

end blockHeightChecker

/-! ### Vocabulary of the block-height claims -/

/-- The height a node reports (`0` when the query fails). -/
def heightOf (n : Node) : Int :=
  match getBlockHeight n with
  | .ok h => h
  | .error _ => 0

/-- The largest reported height, `0` for no node. -/
def maxHeightOf (nodes : List Node) : Int := (nodes.map heightOf).foldl max 0

/-- A lagger is a node whose height is below `maxHeight - 1`. -/
def isLagger (nodes : List Node) (n : Node) : Bool :=
  decide (heightOf n < maxHeightOf nodes - 1)

/-- The labels of the nodes of a list that satisfy `p`. -/
def labelsOf (p : Node → Bool) (nodes : List Node) : Finset String :=
  ((nodes.filter p).map Node.GetLabel).toFinset

/-- A node list on which an expected-failure node keeps up while another node
lags unexpectedly. -/
def laggingExample : List Node :=
  [ ⟨"A", false, .ok ⟨.ok "0x10", fun _ => .ok none⟩⟩,
    ⟨"B", false, .ok ⟨.ok "0x1000", fun _ => .ok none⟩⟩,
    ⟨"C", true, .ok ⟨.ok "0x1000", fun _ => .ok none⟩⟩ ]

/-- Two nodes, the second expected to fail and lagging behind. -/
def expectedLaggerExample : List Node :=
  [ ⟨"node1", false, .ok ⟨.ok "1000", fun _ => .ok none⟩⟩,
    ⟨"node2", true, .ok ⟨.ok "10", fun _ => .ok none⟩⟩ ]

end checking

namespace checking

namespace blocksHashesChecker

/-- The dialing loop of `Check` over the nodes still to visit: the RPC clients
of these nodes and the final `expectedFailures`. -/
def dialAll : List Node → Finset String → Except Error (List Client × Finset String)
  | [], expectedFailures => .ok ([], expectedFailures)
  | n :: rest, expectedFailures =>
    let expectedFailures :=
      if n.IsExpectedFailure then insert n.GetLabel expectedFailures else expectedFailures
    match n.DialRpc with
    | .error err => .error (.failedToDialRpc n.GetLabel (.external err))
    | .ok rpcClient =>
      match dialAll rest expectedFailures with
      | .error err => .error err
      | .ok (rpcClients, ef) => .ok (rpcClient :: rpcClients, ef)

/-- The closure `check` of `Check`. -/
def check (referenceHashes block : blockHashes) (blockNumber : Nat) : Option Error :=
  if referenceHashes.StateRoot ≠ block.StateRoot then
    some (.doesNotMatch "stateRoot" blockNumber)
  else if referenceHashes.ReceiptsRoot ≠ block.ReceiptsRoot then
    some (.doesNotMatch "receiptsRoot" blockNumber)
  else if referenceHashes.Hash ≠ block.Hash then
    some (.doesNotMatch "hash" blockNumber)
  else none

/-- The function `getBlockHashes`. -/
def getBlockHashes (rpcClient : Client) (blockNumber : Nat) :
    Except Error (Option blockHashes) :=
  match rpcClient.ethGetBlockByNumber blockNumber with
  | .error err => .error (.failedToGetBlockStateRoot (.external err))
  | .ok block => .ok block

/-- The loop of `Check` that fetches block `blockNumber` from the nodes still
to visit, paired with their clients: the fetched blocks and how many of them
are nil (`nodesLackingTheBlock`). -/
def fetchBlocks (blockNumber : Nat) : List (Node × Client) →
    Except Error (List (Option blockHashes) × Nat)
  | [] => .ok ([], 0)
  | (n, rpcClient) :: rest =>
    match getBlockHashes rpcClient blockNumber with
    | .error err => .error (.failedToGetBlockDetail blockNumber n.GetLabel err)
    | .ok block =>
      if block = none ∧ blockNumber ≤ 2 then
        .error (.blockDoesNotExist blockNumber n.GetLabel)
      else
        match fetchBlocks blockNumber rest with
        | .error err => .error err
        | .ok (hashes, lacking) =>
          .ok (block :: hashes, if block = none then lacking + 1 else lacking)

/-- The loop of `Check` that picks `referenceHashes`: the block of the first
node that has one and is not expected to fail, the zero value if there is
none. -/
def findReference : List (Node × Option blockHashes) → blockHashes
  | [] => ⟨0, 0, 0⟩
  | (_, none) :: rest => findReference rest
  | (n, some block) :: rest =>
    if !n.IsExpectedFailure then block else findReference rest

/-- The loop of `Check` that compares the fetched blocks with the reference:
the updated `gotFailures`, or the error of the first mismatching node that is
not expected to fail. -/
def compareBlocks (referenceHashes : blockHashes) (blockNumber : Nat) :
    List (Node × Option blockHashes) → Finset String → Except Error (Finset String)
  | [], gotFailures => .ok gotFailures
  | (n, none) :: rest, gotFailures =>
    compareBlocks referenceHashes blockNumber rest
      (if n.IsExpectedFailure then insert n.GetLabel gotFailures else gotFailures)
  | (n, some block) :: rest, gotFailures =>
    match check referenceHashes block blockNumber with
    | some err =>
      if n.IsExpectedFailure then
        compareBlocks referenceHashes blockNumber rest (insert n.GetLabel gotFailures)
      else .error err
    | none => compareBlocks referenceHashes blockNumber rest gotFailures

/-- The walk `for blockNumber := uint64(0); ; blockNumber++` of `Check`, from
block `blockNumber` with the failures gathered so far.  The loop has no bound
of its own: `fuel` bounds the number of blocks visited and `none` means that
the fuel ran out. -/
def walk (nodes : List Node) (rpcClients : List Client) (expectedFailures : Finset String) :
    Nat → Nat → Finset String → Option (Option Error)
  | 0, _, _ => none
  | fuel + 1, blockNumber, gotFailures =>
    match fetchBlocks blockNumber (nodes.zip rpcClients) with
    | .error err => some (some err)
    | .ok (hashes, nodesLackingTheBlock) =>
      if nodesLackingTheBlock = nodes.length then
        if gotFailures ≠ expectedFailures then
          some (some (.unexpectedFailureSetHashes gotFailures expectedFailures))
        else some none
      else
        match compareBlocks (findReference (nodes.zip hashes)) blockNumber
            (nodes.zip hashes) gotFailures with
        | .error err => some (some err)
        | .ok gotFailures =>
          walk nodes rpcClients expectedFailures fuel ((blockNumber + 1) % 2 ^ 64) gotFailures

/-- The method `blocksHashesChecker.Check` on the list of active nodes, with
the fuel of the walk: `some none` is the result nil. -/
def Check (fuel : Nat) (nodes : List Node) : Option (Option Error) :=
  match dialAll nodes ∅ with
  | .error err => some (some err)
  | .ok (rpcClients, expectedFailures) =>
    if expectedFailures.card = nodes.length then some none
    else walk nodes rpcClients expectedFailures fuel 0 ∅

end blocksHashesChecker

/-! ### Vocabulary of the block-hashes claims -/

/-- The block a node serves at a block number (`none` when it has none or a
call fails). -/
def blockOf (n : Node) (blockNumber : Nat) : Option blockHashes :=
  match n.DialRpc with
  | .error _ => none
  | .ok rpcClient =>
    match rpcClient.ethGetBlockByNumber blockNumber with
    | .error _ => none
    | .ok block => block

/-- The RPC client of a node (a client whose calls all fail when the node
cannot be dialed). -/
def clientOf (n : Node) : Client :=
  match n.DialRpc with
  | .ok rpcClient => rpcClient
  | .error err => ⟨.error err, fun _ => .error err⟩

/-- Dialing the node and every block query of it succeed. -/
def rpcSucceeds (n : Node) : Prop :=
  ∃ rpcClient, n.DialRpc = .ok rpcClient ∧
    ∀ blockNumber, ∃ block, rpcClient.ethGetBlockByNumber blockNumber = .ok block

/-- The reference triple at a block number: the triple of the first node not
marked expected-failure that serves the block, all zero if none serves it. -/
def referenceOf (nodes : List Node) (blockNumber : Nat) : blockHashes :=
  ((nodes.filter (fun n => !n.IsExpectedFailure)).filterMap
    (fun n => blockOf n blockNumber)).headD ⟨0, 0, 0⟩

/-- The node lacks the block or reports a triple different from the
reference. -/
def failsAt (nodes : List Node) (blockNumber : Nat) (n : Node) : Bool :=
  match blockOf n blockNumber with
  | none => true
  | some block => decide (block ≠ referenceOf nodes blockNumber)

/-- At a block number every node that is not marked expected-failure and
serves the block reports the reference triple. -/
def agreeAt (nodes : List Node) (blockNumber : Nat) : Prop :=
  ∀ n ∈ nodes, n.IsExpectedFailure = false →
    ∀ block, blockOf n blockNumber = some block → block = referenceOf nodes blockNumber

instance agreeAt.decidable (nodes : List Node) (blockNumber : Nat) :
    Decidable (agreeAt nodes blockNumber) :=
  decidable_of_iff
    (∀ n ∈ nodes, n.IsExpectedFailure = false →
      blockOf n blockNumber = none ∨
        blockOf n blockNumber = some (referenceOf nodes blockNumber))
    (by
      unfold agreeAt
      constructor
      · intro h n hn hef x hx
        rcases h n hn hef with h1 | h1
        · rw [h1] at hx; cases hx
        · rw [h1] at hx; cases hx; rfl
      · intro h n hn hef
        cases hx : blockOf n blockNumber with
        | none => exact Or.inl rfl
        | some x => exact Or.inr (by rw [h n hn hef x hx]))

/-- The setting of the block-hashes claims: every RPC call succeeds, every
node serves the blocks 0, 1 and 2, and `N` is the first block number that no
node serves. -/
structure Served (nodes : List Node) (N : Nat) : Prop where
  rpc : ∀ n ∈ nodes, rpcSucceeds n
  firstBlocks : ∀ n ∈ nodes, ∀ b ≤ 2, blockOf n b ≠ none
  bound : N < 2 ^ 64
  unserved : ∀ n ∈ nodes, blockOf n N = none
  minimal : ∀ b < N, ∃ n ∈ nodes, blockOf n b ≠ none

/-- A client serving the same triple for every block number below `height`. -/
def constantClient (height : Nat) (block : blockHashes) : Client :=
  ⟨.ok "0x0", fun blockNumber => .ok (if blockNumber < height then some block else none)⟩

/-- Two agreeing nodes with four blocks and an expected-failure node that
stops after three blocks. -/
def hashesExample : List Node :=
  [ ⟨"node1", false, .ok (constantClient 4 ⟨0x11, 0x22, 0x33⟩)⟩,
    ⟨"node2", false, .ok (constantClient 4 ⟨0x11, 0x22, 0x33⟩)⟩,
    ⟨"node3", true, .ok (constantClient 3 ⟨0x11, 0x22, 0x33⟩)⟩ ]

/-- The third node reports another receipts root for every block. -/
def divergingExample : List Node :=
  [ ⟨"node1", false, .ok (constantClient 4 ⟨0x11, 0x22, 0x33⟩)⟩,
    ⟨"node2", false, .ok (constantClient 3 ⟨0x11, 0x22, 0x33⟩)⟩,
    ⟨"node3", false, .ok ⟨.ok "0x0", fun blockNumber =>
      .ok (if blockNumber < 3 then some ⟨0x11, 0x22, 0x33⟩
        else if blockNumber < 4 then some ⟨0x11, 0x22, 0xFF⟩ else none)⟩⟩ ]

end checking

/-! ### The rolling-blocks checker -/

namespace monitoring

/-- The type `monitoring.Time`, a number of nanoseconds. -/
abbrev Time := Int

/-- The type `monitoring.Node`, the label of a monitored node. -/
abbrev Node := String

/-- The part of `monitoring.BlockStatus` the checker reads. -/
structure BlockStatus where
  BlockHeight : Nat
deriving DecidableEq, Repr, Inhabited

/-- A point of a series of block statuses. -/
structure DataPoint where
  Position : Time
  Value : BlockStatus
deriving DecidableEq, Repr

/-- The answers of a `monitoring.Series[Time, BlockStatus]`. -/
structure Series where
  /-- The latest point, `none` for the nil of an empty series. -/
  GetLatest : Option DataPoint
  /-- The points with positions in `[from, to)`. -/
  GetRange : Time → Time → List DataPoint

end monitoring

namespace checking

/-- The interface `MonitoringData`. -/
structure MonitoringData where
  GetNodes : List monitoring.Node
  GetData : monitoring.Node → monitoring.Series

/-- The struct `blocksRollingChecker`.  For `toleranceSamples = 0` the Go code
divides by zero at the first sample of a node; the model is meant for
`toleranceSamples >= 1`. -/
structure blocksRollingChecker where
  monitor : MonitoringData
  toleranceSamples : Nat

namespace blocksRollingChecker

/-- The inner loop of `Check` over the points still to visit, `i` being the
index of the first of them and `window` the ring buffer: the final
`nodeFunctional`. -/
def scan (toleranceSamples : Nat) :
    List monitoring.DataPoint → Nat → List monitoring.BlockStatus → Bool
  | [], _, _ => true
  | point :: rest, i, window =>
    let window := window.set (i % toleranceSamples) point.Value
    if (i : Int) < (toleranceSamples : Int) - 1 then
      scan toleranceSamples rest (i + 1) window
    else
      let prev := (((i : Int) - (toleranceSamples : Int) + 1) % (toleranceSamples : Int)).toNat
      if (window.getD prev default).BlockHeight ≥ point.Value.BlockHeight then false
      else scan toleranceSamples rest (i + 1) window

/-- The body of the outer loop of `Check` for one node with a latest point:
the value of `nodeFunctional` at its end. -/
def nodeFunctional (c : blocksRollingChecker) (series : monitoring.Series)
    (last : monitoring.DataPoint) : Bool :=
  let items := series.GetRange 0 last.Position
  let window := List.replicate c.toleranceSamples (default : monitoring.BlockStatus)
  scan c.toleranceSamples (items ++ [last]) 0 window

/-- The outer loop of `Check` over the nodes still to visit: the final
`networkFunctional`. -/
def nodesLoop (c : blocksRollingChecker) : List monitoring.Node → Bool → Bool
  | [], networkFunctional => networkFunctional
  | node :: rest, networkFunctional =>
    let series := c.monitor.GetData node
    match series.GetLatest with
    | none => nodesLoop c rest networkFunctional
    | some last => nodesLoop c rest (networkFunctional || nodeFunctional c series last)

/-- The method `blocksRollingChecker.Check`. -/
def Check (c : blocksRollingChecker) : Option Error :=
  if !nodesLoop c c.monitor.GetNodes false then some .networkDown else none

end blocksRollingChecker

/-! ### Vocabulary of the rolling-blocks claims -/

/-- The sample list of a series: the heights of the points
`GetRange(0, latest position)` followed by the latest point, empty for an
empty series. -/
def samples (series : monitoring.Series) : List Nat :=
  match series.GetLatest with
  | none => []
  | some last =>
    (series.GetRange 0 last.Position ++ [last]).map (fun p => p.Value.BlockHeight)

/-- A sample list is functional for the window size `w` when it is not empty
and every full window of `w` consecutive samples ends strictly higher than it
starts: `h[i-w+1] < h[i]` for every `i` with `w-1 <= i < n`. -/
def functional (w : Nat) (h : List Nat) : Prop :=
  h ≠ [] ∧ ∀ i, w ≤ i + 1 → i < h.length → h.getD (i + 1 - w) 0 < h.getD i 0

/-- The series `createBlockSeries` of the tests builds from block heights: the
positions are the indices. -/
def createBlockSeries (blocks : List Nat) : monitoring.Series :=
  let points : List monitoring.DataPoint :=
    (List.range blocks.length).zipWith (fun i b => ⟨(i : Int), ⟨b⟩⟩) blocks
  ⟨points.getLast?, fun lo hi => points.filter (fun p => lo ≤ p.Position ∧ p.Position < hi)⟩

/-- A checker of window 5 over one node `A` with the given block heights. -/
def rollingExample (blocks : List Nat) : blocksRollingChecker :=
  ⟨⟨["A"], fun _ => createBlockSeries blocks⟩, 5⟩

end checking

/-! ### The checker list -/

/-- The function `errors.Join` of the Go standard library: nil when every
argument is nil, otherwise a `joinError` wrapping the non-nil arguments in
their order, given here as the wrapped list. -/
def errors.Join {ε : Type} (errs : List (Option ε)) : Option (List ε) :=
  if (errs.filter Option.isSome).length = 0 then none
  else some (errs.filterMap id)

namespace checking

/-- The interface `Checker`: `Check` reads and changes the state `σ` of the
world (network, monitor, call log) and returns an error or nil. -/
structure Checker (σ ε : Type) where
  Check : σ → Option ε × σ

/-- The type `Checks`. -/
abbrev Checks (σ ε : Type) := List (Checker σ ε)

/-- The loop `for i, checker := range c { errs[i] = checker.Check() }`: the
slice `errs` and the state of the world after it. -/
def Checks.loop {σ ε : Type} : Checks σ ε → σ → List (Option ε) × σ
  | [], s => ([], s)
  | checker :: rest, s =>
    let (err, s1) := checker.Check s
    let (errs, s2) := Checks.loop rest s1
    (err :: errs, s2)

/-- The method `Checks.Check`. -/
def Checks.Check {σ ε : Type} (c : Checks σ ε) (s : σ) : Option (List ε) × σ :=
  let (errs, s1) := Checks.loop c s
  (errors.Join errs, s1)

/-- The checkers of a list, each recording its index (counted from `i`) in
a call log at every invocation. -/
def logged {σ ε : Type} : Nat → Checks σ ε → Checks (σ × List Nat) ε
  | _, [] => []
  | i, checker :: rest =>
    ⟨fun (s, log) => let (err, s1) := checker.Check s; (err, (s1, log ++ [i]))⟩ ::
      logged (i + 1) rest

/-- The state of the world before the checker at index `i` runs. -/
def stateBefore {σ ε : Type} (c : Checks σ ε) (s : σ) (i : Nat) : σ :=
  (c.take i).foldl (fun s checker => (checker.Check s).2) s

end checking

/-! ## `load/shaper` -/

namespace shaper

/-- The struct `SlopeShaper`.  The `float64` frequencies and the times (in
seconds) are elements of a linearly ordered field `α`, so that the arithmetic
of the shaper is exact; `α` is the rationals for evaluation and the reals for
the integral. -/
structure SlopeShaper (α : Type) where
  startFrequency : α
  incrementFrequency : α
  /-- The time when the wait time was first obtained. -/
  startTimeStamp : α

variable {α : Type} [LinearOrderedField α]

/-- The constructor `NewSlopeShaper`; the zero time is the origin. -/
def NewSlopeShaper (startFrequency incrementFrequency : α) : SlopeShaper α :=
  { startFrequency := startFrequency, incrementFrequency := incrementFrequency,
    startTimeStamp := 0 }

/-- The method `SlopeShaper.Start`. -/
def SlopeShaper.Start (s : SlopeShaper α) (start : α) : SlopeShaper α :=
  { s with startTimeStamp := start }

/-- The method `SlopeShaper.GetNumMessagesInInterval`. -/
def SlopeShaper.GetNumMessagesInInterval (s : SlopeShaper α) (start duration : α) : α :=
  let a := start - s.startTimeStamp
  let b := a + duration
  if s.incrementFrequency = 0 then (b - a) * s.startFrequency
  else
    let z := -s.startFrequency / s.incrementFrequency
    let a' := if s.incrementFrequency > 0 then max z a else min z a
    let b' := if s.incrementFrequency > 0 then max z b else min z b
    (s.incrementFrequency / 2) * (b' * b' - a' * a') + s.startFrequency * (b' - a')

end shaper

/-! ## `time.ParseDuration` (Go standard library) -/

namespace time

/-- The errors of `ParseDuration`, each with the strings it quotes. -/
inductive Error where
  /-- The text `time: invalid duration <orig>`. -/
  | invalidDuration (orig : String)
  /-- The text `time: missing unit in duration <orig>`. -/
  | missingUnit (orig : String)
  /-- The text `time: unknown unit <u> in duration <orig>`. -/
  | unknownUnit (u orig : String)
deriving DecidableEq, Repr

/-- The table `unitMap`: nanoseconds per unit. -/
def unitMap (u : String) : Option Nat :=
  if u = "ns" then some 1
  else if u = "us" then some 1000
  else if u = "µs" then some 1000
  else if u = "μs" then some 1000
  else if u = "ms" then some 1000000
  else if u = "s" then some 1000000000
  else if u = "m" then some 60000000000
  else if u = "h" then some 3600000000000
  else none

/-- A byte `'0' <= c <= '9'`. -/
def isDigit (c : Char) : Bool := decide (48 ≤ c.toNat ∧ c.toNat ≤ 57)

/-- The function `leadingInt` with `x` accumulated so far: the number and the
rest of the string, or `none` for `errLeadingInt`. -/
def leadingInt : List Char → Nat → Option (Nat × List Char)
  | [], x => some (x, [])
  | c :: cs, x =>
    if !isDigit c then some (x, c :: cs)
    else if x > 2 ^ 63 / 10 then none
    else
      let x1 := x * 10 + (c.toNat - 48)
      if x1 > 2 ^ 63 then none else leadingInt cs x1

/-- The function `leadingFraction` with `x`, `scale` and `overflow` as they
stand: the number, the scale (a power of ten, exact as a `float64`) and the
rest of the string. -/
def leadingFraction : List Char → Nat → Nat → Bool → Nat × Nat × List Char
  | [], x, scale, _ => (x, scale, [])
  | c :: cs, x, scale, overflow =>
    if !isDigit c then (x, scale, c :: cs)
    else if overflow then leadingFraction cs x scale true
    else if x > (2 ^ 63 - 1) / 10 then leadingFraction cs x scale true
    else
      let y := x * 10 + (c.toNat - 48)
      if y > 2 ^ 63 then leadingFraction cs x scale true
      else leadingFraction cs y (scale * 10) false

/-- The unit of a term: the bytes up to the next `'.'` or digit, and the
rest. -/
def spanUnit : List Char → List Char × List Char
  | [] => ([], [])
  | c :: cs =>
    if c = '.' ∨ isDigit c then ([], c :: cs)
    else ((spanUnit cs).1.cons c, (spanUnit cs).2)

/-- The loop `for s != ""` of `ParseDuration` with `d` accumulated so far;
`fuel` bounds the number of terms (every term consumes a byte).  The argument
`frac f unit scale` stands for the floating-point expression
`uint64(float64(f) * (float64(unit) / scale))`. -/
def parseTerms (frac : Nat → Nat → Nat → Nat) (orig : String) :
    Nat → List Char → Nat → Except Error Nat
  | 0, _, d => .ok d
  | _ + 1, [], d => .ok d
  | fuel + 1, c :: cs, d =>
    if !(c = '.' ∨ isDigit c) then .error (.invalidDuration orig)
    else
      match leadingInt (c :: cs) 0 with
      | none => .error (.invalidDuration orig)
      | some (v, s1) =>
        let pre := decide ((c :: cs).length ≠ s1.length)
        let (f, scale, s2, post) : Nat × Nat × List Char × Bool :=
          match s1 with
          | '.' :: s1' =>
            let r := leadingFraction s1' 0 1 false
            (r.1, r.2.1, r.2.2, decide (s1'.length ≠ r.2.2.length))
          | _ => (0, 1, s1, false)
        if !pre ∧ !post then .error (.invalidDuration orig)
        else
          let u := spanUnit s2
          if u.1.length = 0 then .error (.missingUnit orig)
          else
            match unitMap (String.mk u.1) with
            | none => .error (.unknownUnit (String.mk u.1) orig)
            | some unit =>
              if v > 2 ^ 63 / unit then .error (.invalidDuration orig)
              else
                let v1 := v * unit
                let v2 := if f > 0 then (v1 + frac f unit scale) % 2 ^ 64 else v1
                if f > 0 ∧ v2 > 2 ^ 63 then .error (.invalidDuration orig)
                else
                  let d1 := (d + v2) % 2 ^ 64
                  if d1 > 2 ^ 63 then .error (.invalidDuration orig)
                  else parseTerms frac orig fuel u.2 d1

/-- The function `time.ParseDuration`: the duration in nanoseconds (an
`int64`). -/
def ParseDuration (frac : Nat → Nat → Nat → Nat) (orig : String) : Except Error Int :=
  let (neg, s) : Bool × List Char :=
    match orig.data with
    | '-' :: cs => (true, cs)
    | '+' :: cs => (false, cs)
    | cs => (false, cs)
  if s = ['0'] then .ok 0
  else if s = [] then .error (.invalidDuration orig)
  else
    match parseTerms frac orig s.length s 0 with
    | .error err => .error err
    | .ok d =>
      if neg then .ok (-(d : Int))
      else if d > 2 ^ 63 - 1 then .error (.invalidDuration orig)
      else .ok d

end time

/-! ## `big.Int.SetString` (Go standard library) -/

namespace big

/-- The digit loop of `nat.scan` for base 10 without fractions: the value and
the number of digits read, and the bytes left unread. -/
def scanDigits : List Char → Nat → Nat → Nat × Nat × List Char
  | [], x, count => (x, count, [])
  | c :: cs, x, count =>
    if time.isDigit c then scanDigits cs (x * 10 + (c.toNat - 48)) (count + 1)
    else (x, count, c :: cs)

/-- The call `new(big.Int).SetString(s, 10)`: the number, or `none` for the
result `(nil, false)`. -/
def SetString (s : String) : Option Int :=
  match s.data with
  | [] => none
  | c :: cs =>
    let (neg, rest) : Bool × List Char :=
      if c = '-' then (true, cs) else if c = '+' then (false, cs) else (false, c :: cs)
    let r := scanDigits rest 0 0
    if r.2.1 = 0 then none
    else if r.2.2 ≠ [] then none
    else some (if neg then -(r.1 : Int) else (r.1 : Int))

end big

/-! ## `genesis/genesis`: the rule configuration -/

namespace idx

/-- The width of `idx.Event` (lachesis-base declares `type Event uint32`). -/
def EventBits : Nat := 32

/-- The width of `idx.Block` (lachesis-base declares `type Block uint64`). -/
def BlockBits : Nat := 64

end idx

namespace opera

/-- The struct `opera.BlocksRules`; an `inter.Timestamp` is a `uint64` of
nanoseconds. -/
structure BlocksRules where
  MaxBlockGas : Nat
  MaxEmptyBlockSkipPeriod : Nat
deriving DecidableEq, Repr

/-- The struct `opera.EpochsRules`. -/
structure EpochsRules where
  MaxEpochGas : Nat
  MaxEpochDuration : Nat
deriving DecidableEq, Repr

/-- The struct `opera.EmitterRules`. -/
structure EmitterRules where
  Interval : Nat
  StallThreshold : Nat
  StalledInterval : Nat
deriving DecidableEq, Repr

/-- The part of the struct `opera.Upgrades` the updaters write. -/
structure Upgrades where
  Berlin : Bool
  London : Bool
  Llr : Bool
  Sonic : Bool
  Allegro : Bool
deriving DecidableEq, Repr

/-- The struct `opera.GasRules`. -/
structure GasRules where
  MaxEventGas : Nat
  EventGas : Nat
  ParentGas : Nat
  ExtraDataGas : Nat
  BlockVotesBaseGas : Nat
  BlockVoteGas : Nat
  EpochVoteGas : Nat
  MisbehaviourProofGas : Nat
deriving DecidableEq, Repr

/-- The struct `opera.GasPowerRules`. -/
structure GasPowerRules where
  AllocPerSec : Nat
  MaxAllocPeriod : Nat
  StartupAllocPeriod : Nat
  MinStartupGas : Nat
deriving DecidableEq, Repr

/-- The struct `opera.EconomyRules`; a `*big.Int` is an optional integer,
`none` being the nil pointer. -/
structure EconomyRules where
  BlockMissedSlack : Nat
  Gas : GasRules
  MinGasPrice : Option Int
  MinBaseFee : Option Int
  ShortGasPower : GasPowerRules
  LongGasPower : GasPowerRules
deriving DecidableEq, Repr

/-- The struct `opera.DagRules`. -/
structure DagRules where
  MaxParents : Nat
  MaxFreeParents : Nat
  MaxExtraData : Nat
deriving DecidableEq, Repr

/-- The struct `opera.Rules`. -/
structure Rules where
  Name : String
  NetworkID : Nat
  Dag : DagRules
  Emitter : EmitterRules
  Epochs : EpochsRules
  Blocks : BlocksRules
  Economy : EconomyRules
  Upgrades : Upgrades
deriving DecidableEq, Repr

end opera

namespace genesis

open opera

/-- The errors the rule updaters return. -/
inductive Error where
  /-- The `*strconv.NumError` of `ParseUint`. -/
  | numError (e : strconv.NumError)
  /-- The error of `time.ParseDuration`. -/
  | duration (e : time.Error)
  /-- The text `cannot parse %s as a number`. -/
  | cannotParse (value : String)
deriving DecidableEq, Repr

/-- The type `NetworkRules`, a key value mapping: the value of a key is the
first pair with this key. -/
abbrev NetworkRules := List (String × String)

/-- The type `ruleUpdater`: the updated rules and the returned error. -/
abbrev ruleUpdater := String → Rules → Rules × Option Error

/-- The conversion of an `int64` to the `uint64` of `inter.Timestamp`. -/
def toUint64 (x : Int) : Nat := (x % 2 ^ 64).toNat

section updaters

variable (frac : Nat → Nat → Nat → Nat)

/-- The updater `maxBlockGas` (key `MAX_BLOCK_GAS`). -/
def maxBlockGas : ruleUpdater := fun value rules =>
  let r := strconv.ParseUint value 10
  ({ rules with Blocks.MaxBlockGas := r.1 }, r.2.map Error.numError)

/-- The updater `maxEmptyBlockSkipPeriod` (key `MAX_EMPTY_BLOCK_SKIP_PERIOD`). -/
def maxEmptyBlockSkipPeriod : ruleUpdater := fun value rules =>
  match time.ParseDuration frac value with
  | .error err => (rules, some (.duration err))
  | .ok duration => ({ rules with Blocks.MaxEmptyBlockSkipPeriod := toUint64 duration }, none)

/-- The updater `maxEpochGas` (key `MAX_EPOCH_GAS`). -/
def maxEpochGas : ruleUpdater := fun value rules =>
  let r := strconv.ParseUint value 10
  ({ rules with Epochs.MaxEpochGas := r.1 }, r.2.map Error.numError)

/-- The updater `maxEpochDuration` (key `MAX_EPOCH_DURATION`). -/
def maxEpochDuration : ruleUpdater := fun value rules =>
  match time.ParseDuration frac value with
  | .error err => (rules, some (.duration err))
  | .ok duration => ({ rules with Epochs.MaxEpochDuration := toUint64 duration }, none)

/-- The updater `emitterInterval` (key `EMITTER_INTERVAL`). -/
def emitterInterval : ruleUpdater := fun value rules =>
  match time.ParseDuration frac value with
  | .error err => (rules, some (.duration err))
  | .ok duration => ({ rules with Emitter.Interval := toUint64 duration }, none)

/-- The updater `emitterStallThreshold` (key `EMITTER_STALL_THRESHOLD`). -/
def emitterStallThreshold : ruleUpdater := fun value rules =>
  match time.ParseDuration frac value with
  | .error err => (rules, some (.duration err))
  | .ok duration => ({ rules with Emitter.StallThreshold := toUint64 duration }, none)

/-- The updater `emitterStallInterval` (key `EMITTER_STALLED_INTERVAL`). -/
def emitterStallInterval : ruleUpdater := fun value rules =>
  match time.ParseDuration frac value with
  | .error err => (rules, some (.duration err))
  | .ok duration => ({ rules with Emitter.StalledInterval := toUint64 duration }, none)

/-- The updater `upgradesBerlin` (key `UPGRADES_BERLIN`). -/
def upgradesBerlin : ruleUpdater := fun value rules =>
  ({ rules with Upgrades.Berlin := decide (value = "true") }, none)

/-- The updater `upgradesLondon` (key `UPGRADES_LONDON`). -/
def upgradesLondon : ruleUpdater := fun value rules =>
  ({ rules with Upgrades.London := decide (value = "true") }, none)

/-- The updater `upgradesLlr` (key `UPGRADES_LLR`). -/
def upgradesLlr : ruleUpdater := fun value rules =>
  ({ rules with Upgrades.Llr := decide (value = "true") }, none)

/-- The updater `upgradesSonic` (key `UPGRADES_SONIC`). -/
def upgradesSonic : ruleUpdater := fun value rules =>
  ({ rules with Upgrades.Sonic := decide (value = "true") }, none)

/-- The updater `upgradesAllegro` (key `UPGRADES_ALLEGRO`). -/
def upgradesAllegro : ruleUpdater := fun value rules =>
  ({ rules with Upgrades.Allegro := decide (value = "true") }, none)

/-- The updater `minGasPrice` (key `MIN_GAS_PRICE`). -/
def minGasPrice : ruleUpdater := fun value rules =>
  let number := big.SetString value
  ({ rules with Economy.MinGasPrice := number },
    if number.isNone then some (.cannotParse value) else none)

/-- The updater `minBaseFee` (key `MIN_BASE_FEE`). -/
def minBaseFee : ruleUpdater := fun value rules =>
  let number := big.SetString value
  ({ rules with Economy.MinBaseFee := number },
    if number.isNone then some (.cannotParse value) else none)

/-- The updater `blockMissedSlack` (key `BLOCK_MISSED_SLACK`). -/
def blockMissedSlack : ruleUpdater := fun value rules =>
  let r := strconv.ParseUint value 10
  ({ rules with Economy.BlockMissedSlack := r.1 % 2 ^ idx.BlockBits }, r.2.map Error.numError)

/-- The updater `maxEventGas` (key `MAX_EVENT_GAS`). -/
def maxEventGas : ruleUpdater := fun value rules =>
  let r := strconv.ParseUint value 10
  ({ rules with Economy.Gas.MaxEventGas := r.1 }, r.2.map Error.numError)

/-- The updater `eventGas` (key `EVENT_GAS`). -/
def eventGas : ruleUpdater := fun value rules =>
  let r := strconv.ParseUint value 10
  ({ rules with Economy.Gas.EventGas := r.1 }, r.2.map Error.numError)

/-- The updater `parentGas` (key `PARENT_GAS`). -/
def parentGas : ruleUpdater := fun value rules =>
  let r := strconv.ParseUint value 10
  ({ rules with Economy.Gas.ParentGas := r.1 }, r.2.map Error.numError)

/-- The updater `extraDataGas` (key `EXTRA_DATA_GAS`). -/
def extraDataGas : ruleUpdater := fun value rules =>
  let r := strconv.ParseUint value 10
  ({ rules with Economy.Gas.ExtraDataGas := r.1 }, r.2.map Error.numError)

/-- The updater `blockVotesBaseGas` (key `BLOCK_VOTES_BASE_GAS`). -/
def blockVotesBaseGas : ruleUpdater := fun value rules =>
  let r := strconv.ParseUint value 10
  ({ rules with Economy.Gas.BlockVotesBaseGas := r.1 }, r.2.map Error.numError)

/-- The updater `blockVoteGas` (key `BLOCK_VOTE_GAS`). -/
def blockVoteGas : ruleUpdater := fun value rules =>
  let r := strconv.ParseUint value 10
  ({ rules with Economy.Gas.BlockVoteGas := r.1 }, r.2.map Error.numError)

/-- The updater `epochVoteGas` (key `EPOCH_VOTE_GAS`). -/
def epochVoteGas : ruleUpdater := fun value rules =>
  let r := strconv.ParseUint value 10
  ({ rules with Economy.Gas.EpochVoteGas := r.1 }, r.2.map Error.numError)

/-- The updater `misbehaviourProofGas` (key `MISBEHAVIOUR_PROOF_GAS`). -/
def misbehaviourProofGas : ruleUpdater := fun value rules =>
  let r := strconv.ParseUint value 10
  ({ rules with Economy.Gas.MisbehaviourProofGas := r.1 }, r.2.map Error.numError)

/-- The updater `shortAllocPerSec` (key `SHORT_ALLOC_PER_SEC`). -/
def shortAllocPerSec : ruleUpdater := fun value rules =>
  let r := strconv.ParseUint value 10
  ({ rules with Economy.ShortGasPower.AllocPerSec := r.1 }, r.2.map Error.numError)

/-- The updater `shortMaxAllocPeriod` (key `SHORT_MAX_ALLOC_PERIOD`). -/
def shortMaxAllocPeriod : ruleUpdater := fun value rules =>
  match time.ParseDuration frac value with
  | .error err => (rules, some (.duration err))
  | .ok duration => ({ rules with Economy.ShortGasPower.MaxAllocPeriod := toUint64 duration }, none)

/-- The updater `shortStartupAllocPeriod` (key `SHORT_STARTUP_ALLOC_PERIOD`). -/
def shortStartupAllocPeriod : ruleUpdater := fun value rules =>
  match time.ParseDuration frac value with
  | .error err => (rules, some (.duration err))
  | .ok duration => ({ rules with Economy.ShortGasPower.StartupAllocPeriod := toUint64 duration }, none)

/-- The updater `shortMinStartupGas` (key `SHORT_MIN_STARTUP_GAS`). -/
def shortMinStartupGas : ruleUpdater := fun value rules =>
  let r := strconv.ParseUint value 10
  ({ rules with Economy.ShortGasPower.MinStartupGas := r.1 }, r.2.map Error.numError)

/-- The updater `longAllocPerSec` (key `LONG_ALLOC_PER_SEC`). -/
def longAllocPerSec : ruleUpdater := fun value rules =>
  let r := strconv.ParseUint value 10
  ({ rules with Economy.LongGasPower.AllocPerSec := r.1 }, r.2.map Error.numError)

/-- The updater `longMaxAllocPeriod` (key `LONG_MAX_ALLOC_PERIOD`). -/
def longMaxAllocPeriod : ruleUpdater := fun value rules =>
  match time.ParseDuration frac value with
  | .error err => (rules, some (.duration err))
  | .ok duration => ({ rules with Economy.LongGasPower.MaxAllocPeriod := toUint64 duration }, none)

/-- The updater `longStartupAllocPeriod` (key `LONG_STARTUP_ALLOC_PERIOD`). -/
def longStartupAllocPeriod : ruleUpdater := fun value rules =>
  match time.ParseDuration frac value with
  | .error err => (rules, some (.duration err))
  | .ok duration => ({ rules with Economy.LongGasPower.StartupAllocPeriod := toUint64 duration }, none)

/-- The updater `longMinStartupGas` (key `LONG_MIN_STARTUP_GAS`). -/
def longMinStartupGas : ruleUpdater := fun value rules =>
  let r := strconv.ParseUint value 10
  ({ rules with Economy.LongGasPower.MinStartupGas := r.1 }, r.2.map Error.numError)

/-- The updater `maxParents` (key `MAX_PARENTS`). -/
def maxParents : ruleUpdater := fun value rules =>
  let r := strconv.ParseUint value 10
  ({ rules with Dag.MaxParents := r.1 % 2 ^ idx.EventBits }, r.2.map Error.numError)

/-- The updater `maxFreeParents` (key `MAX_FREE_PARENTS`). -/
def maxFreeParents : ruleUpdater := fun value rules =>
  let r := strconv.ParseUint value 10
  ({ rules with Dag.MaxFreeParents := r.1 % 2 ^ idx.EventBits }, r.2.map Error.numError)

/-- The updater `maxExtraData` (key `MAX_EXTRA_DATA`). -/
def maxExtraData : ruleUpdater := fun value rules =>
  let r := strconv.ParseUint value 10
  ({ rules with Dag.MaxExtraData := r.1 % 2 ^ 32 }, r.2.map Error.numError)

/-- The registry `supportedNetworkRulesConfigurations` as `init` fills it,
in the order of the `register` calls. -/
def supportedNetworkRulesConfigurations : List (String × ruleUpdater) :=
  [ ("MAX_BLOCK_GAS", maxBlockGas),
    ("MAX_EMPTY_BLOCK_SKIP_PERIOD", maxEmptyBlockSkipPeriod frac),
    ("MAX_EPOCH_GAS", maxEpochGas),
    ("MAX_EPOCH_DURATION", maxEpochDuration frac),
    ("EMITTER_INTERVAL", emitterInterval frac),
    ("EMITTER_STALL_THRESHOLD", emitterStallThreshold frac),
    ("EMITTER_STALLED_INTERVAL", emitterStallInterval frac),
    ("UPGRADES_BERLIN", upgradesBerlin),
    ("UPGRADES_LONDON", upgradesLondon),
    ("UPGRADES_LLR", upgradesLlr),
    ("UPGRADES_SONIC", upgradesSonic),
    ("UPGRADES_ALLEGRO", upgradesAllegro),
    ("MIN_GAS_PRICE", minGasPrice),
    ("MIN_BASE_FEE", minBaseFee),
    ("BLOCK_MISSED_SLACK", blockMissedSlack),
    ("MAX_EVENT_GAS", maxEventGas),
    ("EVENT_GAS", eventGas),
    ("PARENT_GAS", parentGas),
    ("EXTRA_DATA_GAS", extraDataGas),
    ("BLOCK_VOTES_BASE_GAS", blockVotesBaseGas),
    ("BLOCK_VOTE_GAS", blockVoteGas),
    ("EPOCH_VOTE_GAS", epochVoteGas),
    ("MISBEHAVIOUR_PROOF_GAS", misbehaviourProofGas),
    ("SHORT_ALLOC_PER_SEC", shortAllocPerSec),
    ("SHORT_MAX_ALLOC_PERIOD", shortMaxAllocPeriod frac),
    ("SHORT_STARTUP_ALLOC_PERIOD", shortStartupAllocPeriod frac),
    ("SHORT_MIN_STARTUP_GAS", shortMinStartupGas),
    ("LONG_ALLOC_PER_SEC", longAllocPerSec),
    ("LONG_MAX_ALLOC_PERIOD", longMaxAllocPeriod frac),
    ("LONG_STARTUP_ALLOC_PERIOD", longStartupAllocPeriod frac),
    ("LONG_MIN_STARTUP_GAS", longMinStartupGas),
    ("MAX_PARENTS", maxParents),
    ("MAX_FREE_PARENTS", maxFreeParents),
    ("MAX_EXTRA_DATA", maxExtraData) ]

end updaters

/-- The function `IsSupportedNetworkRule`. -/
def IsSupportedNetworkRule (key : String) : Bool :=
  ((supportedNetworkRulesConfigurations (fun _ _ _ => 0)).lookup key).isSome

/-- The loop of `ConfigureNetworkRulesMap` over the registry entries still to
visit: the rules and the slice `errs` after it. -/
def configureLoop (updates : NetworkRules) :
    List (String × ruleUpdater) → Rules → List (Option Error) → Rules × List (Option Error)
  | [], rules, errs => (rules, errs)
  | (k, v) :: rest, rules, errs =>
    match updates.lookup k with
    | some property =>
      let r := v property rules
      configureLoop updates rest r.1 (errs ++ [r.2])
    | none => configureLoop updates rest rules errs

/-- The function `ConfigureNetworkRulesMap`: the rules after the call and the
returned error.  Go leaves the order in which `range` visits a map open;
`order` is the order of this call, a permutation of the registry. -/
def ConfigureNetworkRulesMap (order : List (String × ruleUpdater)) (rules : Rules)
    (updates : NetworkRules) : Rules × Option (List Error) :=
  let r := configureLoop updates order rules []
  (r.1, errors.Join r.2)

/-! ### Vocabulary of the rule-configuration claims -/

/-- The value of a field of the rules. -/
inductive Value where
  | uint (n : Nat)
  | bool (b : Bool)
  | bigInt (x : Option Int)
deriving DecidableEq, Repr

/-- The field of the rules that belongs to each rule key. -/
def fieldTable : List (String × (Rules → Value)) :=
  [ ("MAX_BLOCK_GAS", fun rules => .uint rules.Blocks.MaxBlockGas),
    ("MAX_EMPTY_BLOCK_SKIP_PERIOD", fun rules => .uint rules.Blocks.MaxEmptyBlockSkipPeriod),
    ("MAX_EPOCH_GAS", fun rules => .uint rules.Epochs.MaxEpochGas),
    ("MAX_EPOCH_DURATION", fun rules => .uint rules.Epochs.MaxEpochDuration),
    ("EMITTER_INTERVAL", fun rules => .uint rules.Emitter.Interval),
    ("EMITTER_STALL_THRESHOLD", fun rules => .uint rules.Emitter.StallThreshold),
    ("EMITTER_STALLED_INTERVAL", fun rules => .uint rules.Emitter.StalledInterval),
    ("UPGRADES_BERLIN", fun rules => .bool rules.Upgrades.Berlin),
    ("UPGRADES_LONDON", fun rules => .bool rules.Upgrades.London),
    ("UPGRADES_LLR", fun rules => .bool rules.Upgrades.Llr),
    ("UPGRADES_SONIC", fun rules => .bool rules.Upgrades.Sonic),
    ("UPGRADES_ALLEGRO", fun rules => .bool rules.Upgrades.Allegro),
    ("MIN_GAS_PRICE", fun rules => .bigInt rules.Economy.MinGasPrice),
    ("MIN_BASE_FEE", fun rules => .bigInt rules.Economy.MinBaseFee),
    ("BLOCK_MISSED_SLACK", fun rules => .uint rules.Economy.BlockMissedSlack),
    ("MAX_EVENT_GAS", fun rules => .uint rules.Economy.Gas.MaxEventGas),
    ("EVENT_GAS", fun rules => .uint rules.Economy.Gas.EventGas),
    ("PARENT_GAS", fun rules => .uint rules.Economy.Gas.ParentGas),
    ("EXTRA_DATA_GAS", fun rules => .uint rules.Economy.Gas.ExtraDataGas),
    ("BLOCK_VOTES_BASE_GAS", fun rules => .uint rules.Economy.Gas.BlockVotesBaseGas),
    ("BLOCK_VOTE_GAS", fun rules => .uint rules.Economy.Gas.BlockVoteGas),
    ("EPOCH_VOTE_GAS", fun rules => .uint rules.Economy.Gas.EpochVoteGas),
    ("MISBEHAVIOUR_PROOF_GAS", fun rules => .uint rules.Economy.Gas.MisbehaviourProofGas),
    ("SHORT_ALLOC_PER_SEC", fun rules => .uint rules.Economy.ShortGasPower.AllocPerSec),
    ("SHORT_MAX_ALLOC_PERIOD", fun rules => .uint rules.Economy.ShortGasPower.MaxAllocPeriod),
    ("SHORT_STARTUP_ALLOC_PERIOD", fun rules => .uint rules.Economy.ShortGasPower.StartupAllocPeriod),
    ("SHORT_MIN_STARTUP_GAS", fun rules => .uint rules.Economy.ShortGasPower.MinStartupGas),
    ("LONG_ALLOC_PER_SEC", fun rules => .uint rules.Economy.LongGasPower.AllocPerSec),
    ("LONG_MAX_ALLOC_PERIOD", fun rules => .uint rules.Economy.LongGasPower.MaxAllocPeriod),
    ("LONG_STARTUP_ALLOC_PERIOD", fun rules => .uint rules.Economy.LongGasPower.StartupAllocPeriod),
    ("LONG_MIN_STARTUP_GAS", fun rules => .uint rules.Economy.LongGasPower.MinStartupGas),
    ("MAX_PARENTS", fun rules => .uint rules.Dag.MaxParents),
    ("MAX_FREE_PARENTS", fun rules => .uint rules.Dag.MaxFreeParents),
    ("MAX_EXTRA_DATA", fun rules => .uint rules.Dag.MaxExtraData) ]

/-- The field of a rule key in the rules, `none` for a key outside the
vocabulary. -/
def getField (key : String) (rules : Rules) : Option Value :=
  (fieldTable.lookup key).map (fun f => f rules)

/-- The kinds of rule keys: unsigned integers of a width, durations, big
integers and booleans. -/
inductive Kind where
  | unsigned (bits : Nat)
  | duration
  | bigInt
  | boolean
deriving DecidableEq, Repr

/-- The kind of each rule key. -/
def kindTable : List (String × Kind) :=
  [ ("MAX_BLOCK_GAS", .unsigned 64),
    ("MAX_EMPTY_BLOCK_SKIP_PERIOD", .duration),
    ("MAX_EPOCH_GAS", .unsigned 64),
    ("MAX_EPOCH_DURATION", .duration),
    ("EMITTER_INTERVAL", .duration),
    ("EMITTER_STALL_THRESHOLD", .duration),
    ("EMITTER_STALLED_INTERVAL", .duration),
    ("UPGRADES_BERLIN", .boolean),
    ("UPGRADES_LONDON", .boolean),
    ("UPGRADES_LLR", .boolean),
    ("UPGRADES_SONIC", .boolean),
    ("UPGRADES_ALLEGRO", .boolean),
    ("MIN_GAS_PRICE", .bigInt),
    ("MIN_BASE_FEE", .bigInt),
    ("BLOCK_MISSED_SLACK", .unsigned idx.BlockBits),
    ("MAX_EVENT_GAS", .unsigned 64),
    ("EVENT_GAS", .unsigned 64),
    ("PARENT_GAS", .unsigned 64),
    ("EXTRA_DATA_GAS", .unsigned 64),
    ("BLOCK_VOTES_BASE_GAS", .unsigned 64),
    ("BLOCK_VOTE_GAS", .unsigned 64),
    ("EPOCH_VOTE_GAS", .unsigned 64),
    ("MISBEHAVIOUR_PROOF_GAS", .unsigned 64),
    ("SHORT_ALLOC_PER_SEC", .unsigned 64),
    ("SHORT_MAX_ALLOC_PERIOD", .duration),
    ("SHORT_STARTUP_ALLOC_PERIOD", .duration),
    ("SHORT_MIN_STARTUP_GAS", .unsigned 64),
    ("LONG_ALLOC_PER_SEC", .unsigned 64),
    ("LONG_MAX_ALLOC_PERIOD", .duration),
    ("LONG_STARTUP_ALLOC_PERIOD", .duration),
    ("LONG_MIN_STARTUP_GAS", .unsigned 64),
    ("MAX_PARENTS", .unsigned idx.EventBits),
    ("MAX_FREE_PARENTS", .unsigned idx.EventBits),
    ("MAX_EXTRA_DATA", .unsigned 32) ]

/-- The kind of a rule key, `none` for a key outside the vocabulary. -/
def keyKind (key : String) : Option Kind := kindTable.lookup key

/-- The parser of a kind rejects the value: it is not a base-10 unsigned
64-bit integer, not a Go duration, not a base-10 integer; a boolean key
rejects nothing. -/
def rejects (frac : Nat → Nat → Nat → Nat) (kind : Kind) (value : String) : Bool :=
  match kind with
  | .unsigned _ => (strconv.ParseUint value 10).2.isSome
  | .duration => (time.ParseDuration frac value).toOption.isNone
  | .bigInt => (big.SetString value).isNone
  | .boolean => false

/-- The error the parser of a kind reports for a value, `none` when it accepts
the value. -/
def parseError (frac : Nat → Nat → Nat → Nat) (kind : Kind) (value : String) :
    Option Error :=
  match kind with
  | .unsigned _ => (strconv.ParseUint value 10).2.map Error.numError
  | .duration =>
    match time.ParseDuration frac value with
    | .error err => some (.duration err)
    | .ok _ => none
  | .bigInt => if (big.SetString value).isNone then some (.cannotParse value) else none
  | .boolean => none

/-- The value the field of a key of some kind holds after its updater has run
on a value, `old` being the value it held before: the parsed number reduced to
the width of the field (also when the parser reports an error), the parsed
duration as a `uint64` (the old value when the parser reports an error), the
parsed big integer (nil when the parser reports an error), or whether the
value is the string `true`. -/
def applied (frac : Nat → Nat → Nat → Nat) (kind : Kind) (value : String) (old : Value) :
    Value :=
  match kind with
  | .unsigned bits => .uint ((strconv.ParseUint value 10).1 % 2 ^ bits)
  | .duration =>
    match time.ParseDuration frac value with
    | .error _ => old
    | .ok duration => .uint (toUint64 duration)
  | .bigInt => .bigInt (big.SetString value)
  | .boolean => .bool (decide (value = "true"))

/-- The error the updater of a key reports for a value, `none` when it
reports none or the key is outside the vocabulary. -/
def keyError (frac : Nat → Nat → Nat → Nat) (key value : String) : Option Error :=
  (keyKind key).bind (fun kind => parseError frac kind value)

/-- Rules with every field zero. -/
def zeroRules : Rules :=
  { Name := "", NetworkID := 0,
    Dag := ⟨0, 0, 0⟩, Emitter := ⟨0, 0, 0⟩, Epochs := ⟨0, 0⟩, Blocks := ⟨0, 0⟩,
    Economy := ⟨0, ⟨0, 0, 0, 0, 0, 0, 0, 0⟩, some 0, some 0, ⟨0, 0, 0, 0⟩, ⟨0, 0, 0, 0⟩⟩,
    Upgrades := ⟨false, false, false, false, false⟩ }

/-- The floating-point expression of `time.ParseDuration` computed exactly,
for the evaluation of examples. -/
def exactFrac (f unit scale : Nat) : Nat := f * unit / scale

end genesis

namespace checking

/-- Two nodes reporting the heights 0 and 1. -/
def lowHeightExample : List Node :=
  [ ⟨"A", false, .ok ⟨.ok "0x0", fun _ => .ok none⟩⟩,
    ⟨"B", false, .ok ⟨.ok "0x1", fun _ => .ok none⟩⟩ ]

/-- The two nodes of `TestBlockHeightCheckerInvalid`, in the order
`descending`. -/
def tooOldExample : List Node :=
  [ ⟨"node1", false, .ok ⟨.ok "0x1234", fun _ => .ok none⟩⟩,
    ⟨"node2", false, .ok ⟨.ok "0x42", fun _ => .ok none⟩⟩ ]

end checking

namespace checking

/-- The query of block `b` at the node goes through: the node can be dialed,
the call succeeds, and the block is not a missing one of the blocks 0, 1
and 2. -/
def fetchGood (b : Nat) (n : Node) : Prop :=
  ∃ c, n.DialRpc = .ok c ∧ ∃ x, c.ethGetBlockByNumber b = .ok x ∧ ¬ (x = none ∧ b ≤ 2)

end checking

namespace checking

/-- Three nodes that are all marked expected-failure and serve different
blocks. -/
def allExpectedExample : List Node :=
  [ ⟨"node1", true, .ok (constantClient 4 ⟨0x11, 0x22, 0x33⟩)⟩,
    ⟨"node2", true, .ok (constantClient 1 ⟨0x11, 0x22, 0xFF⟩)⟩,
    ⟨"node3", true, .ok (constantClient 0 ⟨0, 0, 0⟩)⟩ ]

/-- Two agreeing nodes, the second of which has no block 2. -/
def missingThirdBlockExample : List Node :=
  [ ⟨"node1", false, .ok (constantClient 3 ⟨0x11, 0x22, 0x33⟩)⟩,
    ⟨"node2", false, .ok (constantClient 2 ⟨0x11, 0x22, 0x33⟩)⟩ ]

instance fetchGood.decidable (b : Nat) (n : Node) : Decidable (fetchGood b n) :=
  decidable_of_iff
    ((match n.DialRpc with
      | .error _ => false
      | .ok c =>
        match c.ethGetBlockByNumber b with
        | .error _ => false
        | .ok x => !(decide (x = none) && decide (b ≤ 2))) = true)
    (by
      unfold fetchGood
      cases hd : n.DialRpc with
      | error err => simp
      | ok c =>
        cases hx : c.ethGetBlockByNumber b with
        | error err => simp [hx]
        | ok x =>
          simp only [hx, Bool.not_eq_true', Bool.and_eq_false_imp, decide_eq_true_eq,
            decide_eq_false_iff_not, Except.ok.injEq, exists_eq_left', not_and])

end checking



namespace checking

/-- A node with four blocks, a node not marked expected-failure that stops
after three blocks, and an expected-failure node that stops after three
blocks. -/
def stoppedExample : List Node :=
  [ ⟨"node1", false, .ok (constantClient 4 ⟨0x11, 0x22, 0x33⟩)⟩,
    ⟨"node2", false, .ok (constantClient 3 ⟨0x11, 0x22, 0x33⟩)⟩,
    ⟨"node3", true, .ok (constantClient 3 ⟨0x11, 0x22, 0x33⟩)⟩ ]

end checking

namespace checking

/-- A run of `w` consecutive equal heights in a sample list: `w` samples from
some index on that all equal the first of them. -/
def hasRun (w : Nat) (h : List Nat) : Prop :=
  ∃ i, i + w ≤ h.length ∧ ∀ j < w, h.getD (i + j) 0 = h.getD i 0

instance hasRun.decidable (w : Nat) (h : List Nat) : Decidable (hasRun w h) :=
  decidable_of_iff
    (∃ i, i < h.length + 1 ∧ (i + w ≤ h.length ∧ ∀ j, j < w → h.getD (i + j) 0 = h.getD i 0))
    (by
      unfold hasRun
      constructor
      · rintro ⟨i, _, hi, hrun⟩
        exact ⟨i, hi, hrun⟩
      · rintro ⟨i, hi, hrun⟩
        exact ⟨i, by omega, hi, hrun⟩)

/-- A checker of window `w` over one node `A` with the given block heights. -/
def rollingChecker (w : Nat) (blocks : List Nat) : blocksRollingChecker :=
  ⟨⟨["A"], fun _ => createBlockSeries blocks⟩, w⟩

end checking

namespace genesis

open opera

/-- Rules with every field zero except a block gas limit of 1000. -/
def limitedRules : Rules :=
  { zeroRules with Blocks := ⟨1000, 0⟩ }

end genesis

/-! ## JSON values and the diff of rule trees -/

namespace json

/-- The values `json.Unmarshal` stores in an `any`: nil, `bool`, `float64`,
`string`, `[]any` and `map[string]any`.  The type `ν` stands for `float64`
(its values other than NaN, which no JSON text denotes); a map is the list of
its entries, the value of a key being the first entry with this key. -/
inductive Any (ν : Type) where
  | null
  | bool (b : Bool)
  | number (x : ν)
  | string (s : String)
  | array (items : List (Any ν))
  | object (fields : List (String × Any ν))

/-- The run-time panic of comparing two interface values of one dynamic type
that is not comparable. -/
inductive Panic where
  | uncomparable (typ : String)
deriving DecidableEq, Repr

variable {ν : Type}

/-- The comparison `value1 != value2` of two interface values: values of
different dynamic types differ, two slices or two maps panic. -/
def notEqual [DecidableEq ν] : Any ν → Any ν → Except Panic Bool
  | .null, .null => .ok false
  | .bool a, .bool b => .ok (a != b)
  | .number x, .number y => .ok (decide (x ≠ y))
  | .string s, .string t => .ok (s != t)
  | .array _, .array _ => .error (.uncomparable "[]interface \x7b\x7d")
  | .object _, .object _ => .error (.uncomparable "map[string]interface \x7b\x7d")
  | _, _ => .ok true

/-- The value is a `map[string]any`. -/
def Any.isObject : Any ν → Bool
  | .object _ => true
  | _ => false

/-- The value is a `[]any`. -/
def Any.isArray : Any ν → Bool
  | .array _ => true
  | _ => false

/-- The value at a path of keys in a tree of nested maps. -/
def getPath : Any ν → List String → Option (Any ν)
  | value, [] => some value
  | value, key :: path =>
    match value with
    | .object fields =>
      match fields.lookup key with
      | none => none
      | some value => getPath value path
    | _ => none

mutual
/-- No value of the tree, at any depth of nested maps, is a slice. -/
def scalarLeaves : Any ν → Bool
  | .array _ => false
  | .object fields => scalarFields fields
  | _ => true
/-- Every entry of the map satisfies `scalarLeaves`. -/
def scalarFields : List (String × Any ν) → Bool
  | [] => true
  | (_, value) :: rest => scalarLeaves value && scalarFields rest
end

mutual
/-- The keys of every map of the tree are pairwise distinct, as in a Go map. -/
def wellFormed : Any ν → Bool
  | .object fields => decide ((fields.map Prod.fst).Nodup) && wellFormedFields fields
  | _ => true
/-- Every entry of the map satisfies `wellFormed`. -/
def wellFormedFields : List (String × Any ν) → Bool
  | [] => true
  | (_, value) :: rest => wellFormed value && wellFormedFields rest
end

mutual
/-- Two trees have the same structure: where one holds a map the other holds
a map with the same keys, and the values of each key have the same structure. -/
def sameStructure : Any ν → Any ν → Bool
  | .object fields1, .object fields2 =>
    sameFields fields1 fields2 &&
      (fields2.map Prod.fst).all (fun key => (fields1.lookup key).isSome)
  | .object _, _ => false
  | _, .object _ => false
  | _, _ => true
/-- Every entry of the first map has an entry of the same structure in the
second. -/
def sameFields : List (String × Any ν) → List (String × Any ν) → Bool
  | [], _ => true
  | (key, value1) :: rest, fields2 =>
    (match fields2.lookup key with
      | none => false
      | some value2 => sameStructure value1 value2) && sameFields rest fields2
end

end json

namespace genesis

open json

variable {ν : Type} [DecidableEq ν]

mutual
/-- The function `diffMapsSameStructure`: the loop over the entries of `map1`
still to visit, giving the entries of `result` in the order of `map1`. -/
def diffMapsSameStructure :
    List (String × Any ν) → List (String × Any ν) → Except Panic (List (String × Any ν))
  | [], _ => .ok []
  | (key, value1) :: rest, map2 =>
    match map2.lookup key with
    | none => diffMapsSameStructure rest map2
    | some value2 =>
      match diffValue value1 value2 with
      | .error p => .error p
      | .ok entry =>
        match diffMapsSameStructure rest map2 with
        | .error p => .error p
        | .ok result => .ok ((entry.map (fun value => (key, value))).toList ++ result)
/-- The body of the loop of `diffMapsSameStructure` for a key that exists in
both maps: the value stored in `result` under the key, if any. -/
def diffValue : Any ν → Any ν → Except Panic (Option (Any ν))
  | .object nestedMap1, .object nestedMap2 =>
    match diffMapsSameStructure nestedMap1 nestedMap2 with
    | .error p => .error p
    | .ok nestedDiff => if nestedDiff.length > 0 then .ok (some (.object nestedDiff)) else .ok none
  | value1, value2 =>
    match notEqual value1 value2 with
    | .error p => .error p
    | .ok differ => if differ then .ok (some value2) else .ok none
end

end genesis




namespace genesis

open json

/-- A tree of rules before an update; the numbers are whole. -/
def treeBefore : List (String × Any Int) :=
  [ ("Name", .string "main"),
    ("Blocks", .object [("MaxBlockGas", .number 1000), ("MaxEmptyBlockSkipPeriod", .number 7)]),
    ("Upgrades", .object [("Berlin", .bool true)]) ]

/-- The tree `treeBefore` with another block gas limit. -/
def treeAfter : List (String × Any Int) :=
  [ ("Name", .string "main"),
    ("Blocks", .object [("MaxBlockGas", .number 2000), ("MaxEmptyBlockSkipPeriod", .number 7)]),
    ("Upgrades", .object [("Berlin", .bool true)]) ]

/-- A tree with a slice under a key. -/
def treeWithSlice : List (String × Any Int) :=
  [ ("Name", .string "main"), ("Validators", .array [.number 1, .number 2]) ]

end genesis

namespace json

/-- The errors of `json.Unmarshal` and `json.Marshal`. -/
inductive Error where
  /-- The `*json.UnmarshalTypeError` for a number that no `float64` holds. -/
  | unmarshalNumber (number : Int)
  /-- The `*json.UnsupportedValueError` of `json.Marshal`. -/
  | unsupportedValue (text : String)
deriving DecidableEq, Repr

/-- The whole number is too large for a `float64`: its magnitude is at least
`2^1024 - 2^970 = (2^54 - 1) * 2^970`, which rounds to infinity. -/
def overflowsFloat64 (x : Int) : Bool := decide (2 ^ 54 - 1 ≤ x.natAbs >>> 970)

/-- The `float64` of a whole number of at most 53 bits, which it holds
exactly, for the evaluation of examples. -/
def exactFloat64 (x : Int) : Int := x

variable {ν : Type}

mutual
/-- The values of a tree that are no maps, each with its path. -/
def leaves : Any ν → List (List String × Any ν)
  | .object fields => leavesFields fields
  | value => [([], value)]
/-- The values of the entries of a map that are no maps, each with its path. -/
def leavesFields : List (String × Any ν) → List (List String × Any ν)
  | [] => []
  | (key, value) :: rest =>
    (leaves value).map (fun e => (key :: e.1, e.2)) ++ leavesFields rest
end

end json

namespace genesis

open json opera

/-- The path of the field of each rule key in the JSON rendering of the
rules. -/
def pathTable : List (String × List String) :=
  [ ("MAX_BLOCK_GAS", ["Blocks", "MaxBlockGas"]),
    ("MAX_EMPTY_BLOCK_SKIP_PERIOD", ["Blocks", "MaxEmptyBlockSkipPeriod"]),
    ("MAX_EPOCH_GAS", ["Epochs", "MaxEpochGas"]),
    ("MAX_EPOCH_DURATION", ["Epochs", "MaxEpochDuration"]),
    ("EMITTER_INTERVAL", ["Emitter", "Interval"]),
    ("EMITTER_STALL_THRESHOLD", ["Emitter", "StallThreshold"]),
    ("EMITTER_STALLED_INTERVAL", ["Emitter", "StalledInterval"]),
    ("UPGRADES_BERLIN", ["Upgrades", "Berlin"]),
    ("UPGRADES_LONDON", ["Upgrades", "London"]),
    ("UPGRADES_LLR", ["Upgrades", "Llr"]),
    ("UPGRADES_SONIC", ["Upgrades", "Sonic"]),
    ("UPGRADES_ALLEGRO", ["Upgrades", "Allegro"]),
    ("MIN_GAS_PRICE", ["Economy", "MinGasPrice"]),
    ("MIN_BASE_FEE", ["Economy", "MinBaseFee"]),
    ("BLOCK_MISSED_SLACK", ["Economy", "BlockMissedSlack"]),
    ("MAX_EVENT_GAS", ["Economy", "Gas", "MaxEventGas"]),
    ("EVENT_GAS", ["Economy", "Gas", "EventGas"]),
    ("PARENT_GAS", ["Economy", "Gas", "ParentGas"]),
    ("EXTRA_DATA_GAS", ["Economy", "Gas", "ExtraDataGas"]),
    ("BLOCK_VOTES_BASE_GAS", ["Economy", "Gas", "BlockVotesBaseGas"]),
    ("BLOCK_VOTE_GAS", ["Economy", "Gas", "BlockVoteGas"]),
    ("EPOCH_VOTE_GAS", ["Economy", "Gas", "EpochVoteGas"]),
    ("MISBEHAVIOUR_PROOF_GAS", ["Economy", "Gas", "MisbehaviourProofGas"]),
    ("SHORT_ALLOC_PER_SEC", ["Economy", "ShortGasPower", "AllocPerSec"]),
    ("SHORT_MAX_ALLOC_PERIOD", ["Economy", "ShortGasPower", "MaxAllocPeriod"]),
    ("SHORT_STARTUP_ALLOC_PERIOD", ["Economy", "ShortGasPower", "StartupAllocPeriod"]),
    ("SHORT_MIN_STARTUP_GAS", ["Economy", "ShortGasPower", "MinStartupGas"]),
    ("LONG_ALLOC_PER_SEC", ["Economy", "LongGasPower", "AllocPerSec"]),
    ("LONG_MAX_ALLOC_PERIOD", ["Economy", "LongGasPower", "MaxAllocPeriod"]),
    ("LONG_STARTUP_ALLOC_PERIOD", ["Economy", "LongGasPower", "StartupAllocPeriod"]),
    ("LONG_MIN_STARTUP_GAS", ["Economy", "LongGasPower", "MinStartupGas"]),
    ("MAX_PARENTS", ["Dag", "MaxParents"]),
    ("MAX_FREE_PARENTS", ["Dag", "MaxFreeParents"]),
    ("MAX_EXTRA_DATA", ["Dag", "MaxExtraData"]) ]

section tree

variable {ν : Type} (float64 : Int → ν)

/-- The value `json.Unmarshal` stores for the JSON rendering of a field:
a `float64` for a number, a `bool`, and nil for the `null` of a nil
`*big.Int`.  The function `float64` gives the `float64` of a whole number. -/
def leaf : Value → Any ν
  | .uint n => .number (float64 n)
  | .bool b => .bool b
  | .bigInt none => .null
  | .bigInt (some x) => .number (float64 x)

/-- Modelled from the spec: the method `opera.Rules.String` is no part of the
sources.  The map `json.Unmarshal` stores for its text, the JSON rendering of
the rules: a nested map per struct, keyed by the names of the fields, as in
the expected texts of the tests. -/
def rulesTree (rules : Rules) : List (String × Any ν) :=
  [ ("Name", .string rules.Name),
    ("NetworkID", .number (float64 rules.NetworkID)),
    ("Dag", .object
      [ ("MaxParents", .number (float64 rules.Dag.MaxParents)),
        ("MaxFreeParents", .number (float64 rules.Dag.MaxFreeParents)),
        ("MaxExtraData", .number (float64 rules.Dag.MaxExtraData)) ]),
    ("Emitter", .object
      [ ("Interval", .number (float64 rules.Emitter.Interval)),
        ("StallThreshold", .number (float64 rules.Emitter.StallThreshold)),
        ("StalledInterval", .number (float64 rules.Emitter.StalledInterval)) ]),
    ("Epochs", .object
      [ ("MaxEpochGas", .number (float64 rules.Epochs.MaxEpochGas)),
        ("MaxEpochDuration", .number (float64 rules.Epochs.MaxEpochDuration)) ]),
    ("Blocks", .object
      [ ("MaxBlockGas", .number (float64 rules.Blocks.MaxBlockGas)),
        ("MaxEmptyBlockSkipPeriod", .number (float64 rules.Blocks.MaxEmptyBlockSkipPeriod)) ]),
    ("Economy", .object
      [ ("BlockMissedSlack", .number (float64 rules.Economy.BlockMissedSlack)),
        ("Gas", .object
          [ ("MaxEventGas", .number (float64 rules.Economy.Gas.MaxEventGas)),
            ("EventGas", .number (float64 rules.Economy.Gas.EventGas)),
            ("ParentGas", .number (float64 rules.Economy.Gas.ParentGas)),
            ("ExtraDataGas", .number (float64 rules.Economy.Gas.ExtraDataGas)),
            ("BlockVotesBaseGas", .number (float64 rules.Economy.Gas.BlockVotesBaseGas)),
            ("BlockVoteGas", .number (float64 rules.Economy.Gas.BlockVoteGas)),
            ("EpochVoteGas", .number (float64 rules.Economy.Gas.EpochVoteGas)),
            ("MisbehaviourProofGas", .number (float64 rules.Economy.Gas.MisbehaviourProofGas)) ]),
        ("MinGasPrice", leaf float64 (.bigInt rules.Economy.MinGasPrice)),
        ("MinBaseFee", leaf float64 (.bigInt rules.Economy.MinBaseFee)),
        ("ShortGasPower", .object
          [ ("AllocPerSec", .number (float64 rules.Economy.ShortGasPower.AllocPerSec)),
            ("MaxAllocPeriod", .number (float64 rules.Economy.ShortGasPower.MaxAllocPeriod)),
            ("StartupAllocPeriod", .number (float64 rules.Economy.ShortGasPower.StartupAllocPeriod)),
            ("MinStartupGas", .number (float64 rules.Economy.ShortGasPower.MinStartupGas)) ]),
        ("LongGasPower", .object
          [ ("AllocPerSec", .number (float64 rules.Economy.LongGasPower.AllocPerSec)),
            ("MaxAllocPeriod", .number (float64 rules.Economy.LongGasPower.MaxAllocPeriod)),
            ("StartupAllocPeriod", .number (float64 rules.Economy.LongGasPower.StartupAllocPeriod)),
            ("MinStartupGas", .number (float64 rules.Economy.LongGasPower.MinStartupGas)) ]) ]),
    ("Upgrades", .object
      [ ("Berlin", .bool rules.Upgrades.Berlin),
        ("London", .bool rules.Upgrades.London),
        ("Llr", .bool rules.Upgrades.Llr),
        ("Sonic", .bool rules.Upgrades.Sonic),
        ("Allegro", .bool rules.Upgrades.Allegro) ]) ]

/-- The error of `json.Unmarshal` for a big integer of the text that no
`float64` holds. -/
def numberError : Option Int → Option json.Error
  | some x => if overflowsFloat64 x then some (.unmarshalNumber x) else none
  | none => none

/-- The call `json.Unmarshal([]byte(rules.String()), &obj)`: it fails with the
first number of the text that no `float64` holds, which only a big integer
can be. -/
def unmarshalRules (rules : Rules) : Except json.Error (List (String × Any ν)) :=
  match numberError rules.Economy.MinGasPrice with
  | some err => .error err
  | none =>
    match numberError rules.Economy.MinBaseFee with
    | some err => .error err
    | none => .ok (rulesTree float64 rules)

end tree

/-- The outcomes of `GenerateJsonNetworkRulesUpdates` other than a text. -/
inductive GenerateError where
  /-- The text `failed to configure network rules: %w`. -/
  | configure (err : List Error)
  /-- An error of `json.Unmarshal` or `json.Marshal`. -/
  | json (err : json.Error)
  /-- A run-time panic of `diffMapsSameStructure`. -/
  | panic (p : Panic)

section generate

variable {ν : Type} [DecidableEq ν]

/-- The value `diff` of `GenerateJsonNetworkRulesUpdates`, the function up to
the call of `json.Marshal`. -/
def networkRulesDiff (float64 : Int → ν) (order : List (String × ruleUpdater))
    (rules : Rules) (updates : NetworkRules) :
    Except GenerateError (List (String × Any ν)) :=
  let r := ConfigureNetworkRulesMap order rules updates
  match r.2 with
  | some err => .error (.configure err)
  | none =>
    match unmarshalRules float64 rules with
    | .error err => .error (.json err)
    | .ok objA =>
      match unmarshalRules float64 r.1 with
      | .error err => .error (.json err)
      | .ok objB =>
        match diffMapsSameStructure objA objB with
        | .error p => .error (.panic p)
        | .ok diff => .ok diff

/-- The function `GenerateJsonNetworkRulesUpdates`; `Marshal` is
`json.Marshal` on a `map[string]any`. -/
def GenerateJsonNetworkRulesUpdates (float64 : Int → ν)
    (Marshal : List (String × Any ν) → Except json.Error String)
    (order : List (String × ruleUpdater)) (rules : Rules) (updates : NetworkRules) :
    Except GenerateError String :=
  match networkRulesDiff float64 order rules updates with
  | .error err => .error err
  | .ok diff =>
    match Marshal diff with
    | .error err => .error (.json err)
    | .ok b => .ok b

end generate

end genesis

namespace genesis

open json opera

/-- Every number of the JSON rendering of the rules is one a `float64`
holds: `json.Unmarshal` decodes the rendering. -/
def fits (rules : Rules) : Bool :=
  (numberError rules.Economy.MinGasPrice).isNone && (numberError rules.Economy.MinBaseFee).isNone

end genesis




/-! ## `driver/parser`, `load/shaper`: rates -/

namespace parser

/-- Modelled from the spec: the struct `parser.Slope` of a rate
`slope{start, increment}`; the `float32` values are elements of `α`. -/
structure Slope (α : Type) where
  Start : α
  Increment : α

/-- Modelled from the spec: the struct `parser.Auto` of a rate
`auto{increase?, decrease?}`; a missing value is a nil pointer. -/
structure Auto (α : Type) where
  Increase : Option α
  Decrease : Option α

/-- Modelled from the spec: the struct `parser.Wave` of a rate
`wave{min?, max, period}`. -/
structure Wave (α : Type) where
  Min : Option α
  Max : α
  Period : α

/-- Modelled from the spec: the struct `parser.Rate` with one pointer per
variant, nil when the variant is not set, as `ParseRate` reads it. -/
structure Rate (α : Type) where
  Constant : Option α
  Slope : Option (Slope α)
  Wave : Option (Wave α)
  Auto : Option (Auto α)

end parser

namespace shaper

variable {α : Type} [LinearOrderedField α]

/-- The shapers `ParseRate` returns, each given by the constructor call that
builds it: `NewConstantShaper`, `NewSlopeShaper`, `NewAutoShaper` and
`NewWaveShaper` with their arguments. -/
inductive Shaper (α : Type) where
  | constant (frequency : α)
  | slope (s : SlopeShaper α)
  | auto (increase decrease : α)
  | wave (min max period : α)

/-- The error of `ParseRate`, the text `unknown rate type`. -/
inductive Error where
  | unknownRateType
deriving DecidableEq, Repr

/-- The function `ParseRate`; the conversions from `float32` to `float64` are
exact. -/
def ParseRate (rate : Option (parser.Rate α)) : Except Error (Shaper α) :=
  match rate with
  | none => .ok (.constant 0)
  | some rate =>
    match rate.Constant with
    | some constant => .ok (.constant constant)
    | none =>
      match rate.Slope with
      | some slope => .ok (.slope (NewSlopeShaper slope.Start slope.Increment))
      | none =>
        match rate.Auto with
        | some auto =>
          let increase := match auto.Increase with
            | some x => x
            | none => 1
          let decrease := match auto.Decrease with
            | some x => x
            | none => 2 / 10
          .ok (.auto increase decrease)
        | none =>
          match rate.Wave with
          | some wave =>
            let min := match wave.Min with
              | some x => x
              | none => 0
            .ok (.wave min wave.Max wave.Period)
          | none => .error .unknownRateType

/-- The number of variants of a rate that are set. -/
def variantsSet (rate : parser.Rate α) : Nat :=
  (if rate.Constant.isSome then 1 else 0) + (if rate.Slope.isSome then 1 else 0) +
    (if rate.Wave.isSome then 1 else 0) + (if rate.Auto.isSome then 1 else 0)

/-- A rate with the variants `constant` and `slope` both set. -/
def twoVariantsExample : parser.Rate ℚ :=
  { Constant := some 10, Slope := some ⟨1, 2⟩, Wave := none, Auto := none }

/-- A rate with the variant `auto` only, without parameters. -/
def autoExample : parser.Rate ℚ :=
  { Constant := none, Slope := none, Wave := none, Auto := some ⟨none, none⟩ }

end shaper

/-! ## `driver`: validators, the external network -/

namespace parser

/-- Modelled from the spec: the struct `parser.Validator` of a validator group
`{name, instances?, imagename?, failing?}`; a missing instance count is a nil
pointer, a missing image name the empty string. -/
structure Validator where
  Name : String
  Failing : Bool
  Instances : Option Int
  ImageName : String
deriving DecidableEq, Repr

end parser

namespace driver

/-- The value of a Go `int` (64 bits) that an integer wraps to. -/
def int64 (x : Int) : Int := (x + 2 ^ 63) % 2 ^ 64 - 2 ^ 63

/-- The constant `DefaultClientDockerImageName`. -/
def DefaultClientDockerImageName : String := "sonic"

/-- The struct `driver.Validator`. -/
structure Validator where
  Name : String
  Failing : Bool
  Instances : Int
  ImageName : String
deriving DecidableEq, Repr

/-- The function `NewValidator`. -/
def NewValidator (v : parser.Validator) : Validator :=
  let instances := match v.Instances with
    | some n => n
    | none => 1
  let imageName := if v.ImageName ≠ "" then v.ImageName else DefaultClientDockerImageName
  { Name := v.Name, Failing := v.Failing, Instances := instances, ImageName := imageName }

/-- The type `Validators`. -/
abbrev Validators := List Validator

/-- The function `NewDefaultValidators`. -/
def NewDefaultValidators (instances : Int) : Validators :=
  [{ Name := "validator", Failing := false, Instances := instances,
     ImageName := DefaultClientDockerImageName }]

/-- The function `NewValidators`. -/
def NewValidators (v : List parser.Validator) : Validators :=
  if v.length = 0 then NewDefaultValidators 1
  else v.map NewValidator

/-- The method `Validators.GetNumValidators`; the additions are those of an
`int`. -/
def Validators.GetNumValidators (v : Validators) : Int :=
  v.foldl (fun num val => int64 (num + val.Instances)) 0

/-- The struct `driver.NodeConfig`. -/
structure NodeConfig where
  Name : String
  Failing : Bool
  Validator : Bool
  Cheater : Bool
  Image : String
  DataVolume : Option String
deriving DecidableEq, Repr

/-- The type `driver.NetworkRules`, a key value mapping. -/
abbrev NetworkRules := List (String × String)

end driver

namespace external

/-- The part of the struct `ExternalNetwork` the methods below could read. -/
structure ExternalNetwork where
  rpcEndpoints : List String
deriving DecidableEq, Repr

/-- The errors of the methods below, one per text. -/
inductive Error where
  /-- The text `creating nodes is not supported for external networks`. -/
  | createNodeUnsupported
  /-- The text `removing nodes is not supported for external networks`. -/
  | removeNodeUnsupported
deriving DecidableEq, Repr

/-- The method `ExternalNetwork.CreateNode`: the node and the error. -/
def ExternalNetwork.CreateNode (_n : ExternalNetwork) (_config : driver.NodeConfig) :
    Option checking.Node × Option Error :=
  (none, some .createNodeUnsupported)

/-- The method `ExternalNetwork.RemoveNode`. -/
def ExternalNetwork.RemoveNode (_n : ExternalNetwork) (_node : checking.Node) : Option Error :=
  some .removeNodeUnsupported

/-- The method `ExternalNetwork.ApplyNetworkRules`: the returned error and the
log after the call. -/
def ExternalNetwork.ApplyNetworkRules (_n : ExternalNetwork) (_rules : driver.NetworkRules)
    (log : List String) : Option Error × List String :=
  (none, log ++ ["Warning: ApplyNetworkRules not supported for external networks"])

end external


/-! ## `driver/monitoring/network`: the block metrics of the network -/

namespace monitoring

/-- Modelled from the spec: the part of the struct `monitoring.Block` of a
block event the metric sources read: height, number of transactions, gas used
and base fee. -/
structure Block where
  Height : Int
  Txs : Int
  GasUsed : Int
  GasBaseFee : Int
deriving DecidableEq, Repr

/-- Modelled from the spec: the error `OutOfOrder` of a series. -/
inductive SeriesError where
  | outOfOrder
deriving DecidableEq, Repr

/-- Modelled from the spec: a `monitoring.SyncedSeries`, the points in the
order of their appends. -/
abbrev SyncedSeries (K T : Type) := List (K × T)

/-- Modelled from the spec: `Append` fails with `OutOfOrder` if the position is
below the position of the last point, and adds the point otherwise. -/
def SyncedSeries.Append {K T : Type} [LinearOrder K] (s : SyncedSeries K T) (pos : K)
    (val : T) : Except SeriesError (SyncedSeries K T) :=
  match s.getLast? with
  | some last => if pos < last.1 then .error .outOfOrder else .ok (s ++ [(pos, val)])
  | none => .ok (s ++ [(pos, val)])

end monitoring

namespace netmon

open monitoring

/-- The struct `BlockNetworkMetricSource`: the series of the network, the
property it captures, the last block added and the lines written to the
log. -/
structure BlockNetworkMetricSource (T : Type) where
  series : SyncedSeries Int T
  getBlockProperty : Block → T
  lastBlock : Int
  log : List String

variable {T : Type}

/-- The function `newBlockNetworkMetricsSource`. -/
def newBlockNetworkMetricsSource (getBlockProperty : Block → T) : BlockNetworkMetricSource T :=
  { series := [], getBlockProperty := getBlockProperty, lastBlock := -1, log := [] }

/-- The method `BlockNetworkMetricSource.OnBlock`. -/
def BlockNetworkMetricSource.OnBlock (s : BlockNetworkMetricSource T) (_node : monitoring.Node)
    (block : Block) : BlockNetworkMetricSource T :=
  if block.Height > s.lastBlock then
    match s.series.Append block.Height (s.getBlockProperty block) with
    | .error _ =>
      { s with log := s.log ++ ["error to add to the series: out of order"],
               lastBlock := block.Height }
    | .ok series => { s with series := series, lastBlock := block.Height }
  else s

/-- The source after a sequence of `OnBlock` notifications. -/
def notified (getBlockProperty : Block → T) (notes : List (monitoring.Node × Block)) :
    BlockNetworkMetricSource T :=
  notes.foldl (fun s nb => s.OnBlock nb.1 nb.2) (newBlockNetworkMetricsSource getBlockProperty)

/-- Notifications of the blocks 1, 3, 2, 3, 4 from two nodes. -/
def notesExample : List (monitoring.Node × Block) :=
  [("A", ⟨1, 10, 0, 0⟩), ("B", ⟨3, 30, 0, 0⟩), ("A", ⟨2, 20, 0, 0⟩), ("A", ⟨3, 31, 0, 0⟩),
    ("B", ⟨4, 40, 0, 0⟩)]

/-- The state invariant of the source: the positions of the series are
strictly increasing and at most `lastBlock`, and nothing was logged. -/
structure Inv (s : BlockNetworkMetricSource T) : Prop where
  sorted : (s.series.map Prod.fst).Sorted (· < ·)
  bound : ∀ p ∈ s.series, p.1 ≤ s.lastBlock
  log : s.log = []

end netmon

/-! ## `driver/rpc`: waiting for a transaction receipt -/

namespace rpc

/-- The errors `WaitTransactionReceipt` builds with `fmt.Errorf`: a text
wrapping a cause (`%w`), or a plain text. -/
inductive Error (ε : Type) where
  | wrapped (text : String) (cause : ε)
  | plain (text : String)
deriving DecidableEq, Repr

/-- The environment of one call of `WaitTransactionReceipt`, times in
nanoseconds: the answer of `TransactionReceipt` to the query number `i`, the
test `errors.Is(err, ethereum.NotFound)`, the value of `time.Since(begin)` at
the first evaluation of the loop condition, the time the query number `i`
takes, and the time the sleep number `i` takes when asked for `d`. -/
structure World (ρ ε : Type) where
  answer : Nat → Except ε ρ
  isNotFound : ε → Bool
  start : Nat
  queryTime : Nat → Nat
  sleepTime : Nat → Int → Nat

/-- The constant `time.Millisecond`. -/
def Millisecond : Int := 1000000

/-- The constant `time.Second`. -/
def Second : Int := 1000 * Millisecond

/-- The constant `maxDelay` of `WaitTransactionReceipt`. -/
def maxDelay : Int := 5 * Second

/-- The update of `delay` after a sleep: doubled, capped at `maxDelay`. -/
def nextDelay (delay : Int) : Int :=
  if 2 * delay > maxDelay then maxDelay else 2 * delay

variable {ρ ε : Type}

/-- The loop of `WaitTransactionReceipt` from the query number `i` on, at the
time `now` since `begin` and with the current `delay`; the result comes with
the number of queries sent. `none` when the fuel runs out. -/
def waitLoop (w : World ρ ε) (txReceiptTimeout : Int) :
    Nat → Nat → Int → Int → Option (Except (Error ε) ρ × Nat)
  | 0, _, _, _ => none
  | fuel + 1, i, now, delay =>
    if now < txReceiptTimeout then
      match w.answer i with
      | .error err =>
        if w.isNotFound err then
          waitLoop w txReceiptTimeout fuel (i + 1)
            (now + w.queryTime i + w.sleepTime i delay) (nextDelay delay)
        else some (.error (.wrapped "failed to get transaction receipt: " err), i + 1)
      | .ok receipt => some (.ok receipt, i + 1)
    else some (.error (.plain "failed to get transaction receipt: timeout"), i)

/-- The method `Impl.WaitTransactionReceipt`. -/
def WaitTransactionReceipt (w : World ρ ε) (txReceiptTimeout : Int) (fuel : Nat) :
    Option (Except (Error ε) ρ × Nat) :=
  waitLoop w txReceiptTimeout fuel 0 w.start Millisecond

/-- The delay of the sleep number `i`. -/
def delayAt : Nat → Int
  | 0 => Millisecond
  | i + 1 => nextDelay (delayAt i)

/-- The time since `begin` at which the loop condition is evaluated before
the query number `i`, when all the answers before were `NotFound`. -/
def checkTime (w : World ρ ε) : Nat → Int
  | 0 => w.start
  | i + 1 => checkTime w i + w.queryTime i + w.sleepTime i (delayAt i)

/-- The time since `begin` at which the answer number `i` arrives. -/
def arrival (w : World ρ ε) (i : Nat) : Int :=
  checkTime w i + w.queryTime i

/-- The answer number `i` is `NotFound`. -/
def World.notFound (w : World ρ ε) (i : Nat) : Bool :=
  match w.answer i with
  | .error err => w.isNotFound err
  | .ok _ => false

/-- The result of `WaitTransactionReceipt` for an answer that is not
`NotFound`: the receipt, or the error wrapped. -/
def outcome (answer : Except ε ρ) : Except (Error ε) ρ :=
  match answer with
  | .error err => .error (.wrapped "failed to get transaction receipt: " err)
  | .ok receipt => .ok receipt

/-- A node that answers `NotFound` twice and then serves the receipt `7`;
a query takes 1 µs and a sleep as long as asked. -/
def receiptExample : World Nat String :=
  { answer := fun i => if i < 2 then .error "not found" else .ok 7,
    isNotFound := fun e => e == "not found",
    start := 100,
    queryTime := fun _ => 1000,
    sleepTime := fun _ d => d.toNat }

end rpc

/-! ## `genesis/genesis` and `genesis/app`: the genesis file -/

namespace strconv

/-- The loop of `ParseUint(s, base, bitSize)` with `maxVal = 1<<bitSize - 1`
over the bytes still to read. -/
def parseUintLoopBits (base maxVal : Nat) : List Char → Nat → Nat × Option ErrKind
  | [], n => (n, none)
  | c :: cs, n =>
    match digitVal c with
    | none => (0, some .ErrSyntax)
    | some d =>
      if d ≥ base then (0, some .ErrSyntax)
      else if n ≥ maxUint64 / base + 1 then (maxVal, some .ErrRange)
      else
        let n1 := n * base + d
        if n1 > maxUint64 ∨ n1 > maxVal then (maxVal, some .ErrRange)
        else parseUintLoopBits base maxVal cs n1

/-- The call `strconv.ParseUint(s, base, bitSize)` for an explicit base and
`1 <= bitSize <= 64`. -/
def ParseUintBits (s : String) (base bitSize : Nat) : Nat × Option NumError :=
  if s = "" then (0, some ⟨"ParseUint", s, .ErrSyntax⟩)
  else
    match parseUintLoopBits base (2 ^ bitSize - 1) s.data 0 with
    | (n, none) => (n, none)
    | (n, some k) => (n, some ⟨"ParseUint", s, k⟩)

/-- The call `strconv.ParseInt(s, base, bitSize)` for an explicit base and
`1 <= bitSize <= 64`. -/
def ParseIntBits (s : String) (base bitSize : Nat) : Int × Option NumError :=
  if s = "" then (0, some ⟨"ParseInt", s, .ErrSyntax⟩)
  else
    let (neg, rest) : Bool × List Char :=
      match s.data with
      | '+' :: cs => (false, cs)
      | '-' :: cs => (true, cs)
      | cs => (false, cs)
    let (un, err) := ParseUintBits (String.mk rest) base bitSize
    match err with
    | some ⟨_, _, .ErrSyntax⟩ => (0, some ⟨"ParseInt", s, .ErrSyntax⟩)
    | _ =>
      let cutoff : Nat := 2 ^ (bitSize - 1)
      if !neg ∧ un ≥ cutoff then ((cutoff : Int) - 1, some ⟨"ParseInt", s, .ErrRange⟩)
      else if neg ∧ un > cutoff then (-(cutoff : Int), some ⟨"ParseInt", s, .ErrRange⟩)
      else (if neg then -(un : Int) else (un : Int), none)

end strconv

namespace drivercall

/-- The struct `drivercall.Delegation`. -/
structure Delegation where
  Address : Nat
  ValidatorID : Nat
  Stake : Int
  LockedStake : Int
  LockupFromEpoch : Nat
  LockupEndTime : Nat
  LockupDuration : Nat
  EarlyUnlockPenalty : Int
  Rewards : Int
deriving DecidableEq, Repr

end drivercall

namespace makefakegenesis

/-- The fields of a `gpos.Validator` the generator reads. -/
structure Validator where
  ID : Nat
  Address : Nat
deriving DecidableEq, Repr

/-- The struct `makefakegenesis.Account`; a nil balance is `none`. -/
structure Account where
  Name : String
  Address : Nat
  Code : List Nat
  Nonce : Nat
  Balance : Option Int
deriving DecidableEq, Repr

/-- The struct `makefakegenesis.Transaction`. -/
structure Transaction where
  Name : String
  To : Nat
  Data : List Nat
deriving DecidableEq, Repr

/-- The struct `makefakegenesis.GenesisJson`; the time is in seconds of the
Unix epoch. -/
structure GenesisJson where
  Rules : opera.Rules
  BlockZeroTime : Int
  Accounts : List Account
  Txs : List Transaction
  GenesisCommittee : Option String
deriving DecidableEq, Repr

end makefakegenesis

namespace genesis

open opera makefakegenesis drivercall

/-- The run-time panics of `GenerateJsonGenesis`. -/
inductive RuntimePanic where
  | sliceBounds (high : Int) (capacity : Nat)
  | indexOutOfRange (index length : Nat)
  | divisionByZero
deriving DecidableEq, Repr

/-- The errors `GenerateJsonGenesis` returns. -/
inductive FileError where
  | encode (cause : String)
  | write (cause : String)
deriving DecidableEq, Repr

/-- The functions and constants of the libraries `GenerateJsonGenesis` calls:
the address and the code of the four contracts, the address of the EVM writer,
`futils.ToFtm`, `makefakegenesis.GetFakeValidators` with the elements of the
backing array of its result beyond the length (`spare`, empty when the
capacity is the length), `makefakegenesis.GetGenesisTxs` with the target and
the data of each transaction, the committee of the test key,
`json.MarshalIndent` and `os.WriteFile`. -/
structure Library where
  netinit : Nat × List Nat
  driver : Nat × List Nat
  driverauth : Nat × List Nat
  sfc : Nat × List Nat
  evmwriter : Nat
  ToFtm : Nat → Int
  GetFakeValidators : Nat → List Validator
  spare : Nat → List Validator
  GetGenesisTxs : Nat → List Validator → Int → List Delegation → Nat → List (Nat × List Nat)
  committee : String
  MarshalIndent : GenesisJson → Except String (List Nat)
  WriteFile : String → List Nat → Option String

/-- The constant `maxValidators` of `GenerateJsonGenesis`. -/
def maxValidators : Nat := 100

/-- The slice expression `s[0:high]` on a slice with the elements `s` and the
backing array continuing with `spare`: a panic unless `0 <= high <= cap(s)`. -/
def reslice {α : Type} (s spare : List α) (high : Int) : Except RuntimePanic (List α) :=
  if high < 0 ∨ (s.length + spare.length : Int) < high then
    .error (.sliceBounds high (s.length + spare.length))
  else .ok ((s ++ spare).take high.toNat)

/-- The infrastructure contracts `GenerateJsonGenesis` creates first. -/
def infrastructureAccounts (lib : Library) : List Account :=
  [ ⟨"NetworkInitializer", lib.netinit.1, lib.netinit.2, 1, none⟩,
    ⟨"NodeDriver", lib.driver.1, lib.driver.2, 1, none⟩,
    ⟨"NodeDriverAuth", lib.driverauth.1, lib.driverauth.2, 1, none⟩,
    ⟨"SFC", lib.sfc.1, lib.sfc.2, 1, none⟩,
    ⟨"ContractAddress", lib.evmwriter, [0], 1, none⟩ ]

/-- The loop of `GenerateJsonGenesis` that adds the account of each
validator. -/
def validatorAccounts (supplyEach : Int) (validators : List Validator) : List Account :=
  validators.map (fun validator =>
    ⟨"validator_" ++ toString validator.ID, validator.Address, [], 0, some supplyEach⟩)

/-- The loop of `GenerateJsonGenesis` that builds the delegations. -/
def delegationsOf (lib : Library) (validators : List Validator) : List Delegation :=
  validators.map (fun val =>
    { Address := val.Address, ValidatorID := val.ID, Stake := lib.ToFtm 5000000,
      LockedStake := 0, LockupFromEpoch := 0, LockupEndTime := 0, LockupDuration := 0,
      EarlyUnlockPenalty := 0, Rewards := 0 })

/-- The loop of `GenerateJsonGenesis` that names the genesis transactions. -/
def transactionsOf (genesisTxs : List (Nat × List Nat)) : List Transaction :=
  genesisTxs.enum.map (fun itx => ⟨"tx_" ++ toString itx.1, itx.2.1, itx.2.2⟩)

/-- The function `GenerateJsonGenesis`: a panic, or the genesis built with the
returned error. -/
def GenerateJsonGenesis (lib : Library) (jsonFile : String) (validatorsCount : Int)
    (rules : Rules) : Except RuntimePanic (GenesisJson × Option FileError) :=
  let totalSupply := lib.ToFtm 1000000000
  let validators := lib.GetFakeValidators maxValidators
  if validators.length = 0 then .error .divisionByZero
  else
    let supplyEach := totalSupply / (validators.length : Int)
    let accounts := infrastructureAccounts lib ++ validatorAccounts supplyEach validators
    match reslice validators (lib.spare maxValidators) validatorsCount with
    | .error p => .error p
    | .ok validators =>
      let delegations := delegationsOf lib validators
      match validators.head? with
      | none => .error (.indexOutOfRange 0 0)
      | some first =>
        let genesisTxs := lib.GetGenesisTxs 0 validators totalSupply delegations first.Address
        let jsonGenesis : GenesisJson :=
          { Rules := rules, BlockZeroTime := 100, Accounts := accounts,
            Txs := transactionsOf genesisTxs, GenesisCommittee := some lib.committee }
        match lib.MarshalIndent jsonGenesis with
        | .error err => .ok (jsonGenesis, some (.encode err))
        | .ok encoded =>
          match lib.WriteFile jsonFile encoded with
          | some err => .ok (jsonGenesis, some (.write err))
          | none => .ok (jsonGenesis, none)

/-- The loop of `ConfigureNetworkRulesEnv` over the registry entries still to
visit. -/
def configureEnvLoop (getenv : String → String) :
    List (String × ruleUpdater) → Rules → List (Option Error) → Rules × List (Option Error)
  | [], rules, errs => (rules, errs)
  | (k, v) :: rest, rules, errs =>
    let property := getenv k
    if property ≠ "" then
      let r := v property rules
      configureEnvLoop getenv rest r.1 (errs ++ [r.2])
    else configureEnvLoop getenv rest rules errs

/-- The function `ConfigureNetworkRulesEnv`, with the order in which `range`
visits the registry. -/
def ConfigureNetworkRulesEnv (order : List (String × ruleUpdater)) (getenv : String → String)
    (rules : Rules) : Rules × Option (List Error) :=
  let r := configureEnvLoop getenv order rules []
  (r.1, errors.Join r.2)

/-- A library with the validators `1, 2, ...` at the addresses `1001, 1002,
...`, a result of `GetFakeValidators` without spare capacity, one genesis
transaction per delegation, and no failure to encode or write. -/
def libraryExample : Library :=
  { netinit := (1, [1]), driver := (2, [2]), driverauth := (3, [3]), sfc := (4, [4]),
    evmwriter := 5,
    ToFtm := fun n => (n : Int) * 10 ^ 18,
    GetFakeValidators := fun num => (List.range num).map (fun i => ⟨i + 1, 1001 + i⟩),
    spare := fun _ => [],
    GetGenesisTxs := fun _ _ _ delegations _ => delegations.map (fun d => (d.Address, [])),
    committee := "committee",
    MarshalIndent := fun _ => .ok [],
    WriteFile := fun _ _ => none }

end genesis

namespace app

open opera makefakegenesis genesis

/-- The errors of `exportGenesis`. -/
inductive ExportError where
  | noFilePath
  | configure (errs : List genesis.Error)
  | parseCount (e : strconv.NumError)
  | invalidCount (count : Int)
  | file (e : FileError)
deriving DecidableEq, Repr

/-- The function `exportGenesis` on the program arguments and the environment:
a panic, or the genesis built, if any, with the returned error.
`fakeNetRules` is `opera.FakeNetRules(opera.AllegroFeatures)`. -/
def exportGenesis (lib : Library) (fakeNetRules : Rules) (order : List (String × ruleUpdater))
    (args : List String) (getenv : String → String) :
    Except RuntimePanic (Option GenesisJson × Option ExportError) :=
  match args with
  | [] => .ok (none, some .noFilePath)
  | filePath :: _ =>
    match ConfigureNetworkRulesEnv order getenv fakeNetRules with
    | (_, some errs) => .ok (none, some (.configure errs))
    | (rules, none) =>
      let validatorsCount := getenv "VALIDATORS_COUNT"
      match strconv.ParseIntBits validatorsCount 10 32 with
      | (_, some err) => .ok (none, some (.parseCount err))
      | (validatorsCountInt, none) =>
        if validatorsCountInt < 1 then .ok (none, some (.invalidCount validatorsCountInt))
        else
          match GenerateJsonGenesis lib filePath validatorsCountInt rules with
          | .error p => .error p
          | .ok (jsonGenesis, err) => .ok (some jsonGenesis, err.map .file)

/-- The environment with only `VALIDATORS_COUNT` set. -/
def countEnv (count : String) : String → String :=
  fun k => if k = "VALIDATORS_COUNT" then count else ""

end app

/-! ## `driver/monitoring/node`: sources that transform a series -/

namespace monitoring

/-- The part of the struct `monitoring.Metric` the monitor reads: the name. -/
structure Metric where
  Name : String
deriving DecidableEq, Repr

/-- The answers of a `monitoring.Source[Node, X]`: the subjects with data and
the data of a subject. -/
structure Source (X : Type) where
  GetSubjects : List Node
  GetData : Node → Option X

/-- The part of the struct `Monitor` the sources read: the map `sources` from
the name of a metric to its source. -/
structure Monitor (X : Type) where
  sources : List (String × Source X)

/-- The function `monitoring.GetSubjects`. -/
def GetSubjects {X : Type} (monitor : Monitor X) (metric : Metric) : List Node :=
  match monitor.sources.lookup metric.Name with
  | none => []
  | some source => source.GetSubjects

/-- The function `monitoring.GetData`. -/
def GetData {X : Type} (monitor : Monitor X) (subject : Node) (metric : Metric) : Option X :=
  match monitor.sources.lookup metric.Name with
  | none => none
  | some source => source.GetData subject

/-- Modelled from the spec: a `monitoring.Record`, (subject, position,
value). -/
structure Record (K T : Type) where
  Subject : Node
  Position : K
  Value : T
deriving DecidableEq, Repr

/-- The methods of the interface `monitoring.Series[K, T]` on a type `X`. -/
structure SeriesOps (X K T : Type) where
  GetLatest : X → Option (K × T)
  GetRange : X → K → K → List (K × T)

/-- Modelled from the spec: `GetLatest` is nil exactly on an empty series. -/
def SyncedSeries.GetLatest {K T : Type} (s : SyncedSeries K T) : Option (K × T) :=
  s.getLast?

/-- Modelled from the spec: `GetRange(lo, hi)` returns all points with
`lo <= pos < hi` in order. -/
def SyncedSeries.GetRange {K T : Type} [LinearOrder K] (s : SyncedSeries K T) (lo hi : K) :
    List (K × T) :=
  s.filter (fun p => decide (lo ≤ p.1) && decide (p.1 < hi))

/-- The methods of a series given by its points. -/
def SyncedSeries.ops (K T : Type) [LinearOrder K] : SeriesOps (SyncedSeries K T) K T :=
  { GetLatest := SyncedSeries.GetLatest, GetRange := SyncedSeries.GetRange }

/-- Modelled from the spec: the mean of the last `window` values up to the
index `i`, fewer at the start of the series. -/
def smaAt {T : Type} [Field T] (values : List T) (window i : Nat) : T :=
  ((values.take (i + 1)).drop (i + 1 - window)).sum /
    (((values.take (i + 1)).drop (i + 1 - window)).length : T)

/-- Modelled from the spec: `SMASeries(src, window)` has a point for each
point of `src`, at the same position, with the mean of the last `window`
values. -/
def NewSMASeries {K T : Type} [Field T] (input : SyncedSeries K T) (window : Nat) :
    SyncedSeries K T :=
  input.enum.map (fun ip => (ip.2.1, smaAt (input.map Prod.snd) window ip.1))

end monitoring

namespace nodemon

open monitoring

/-- The struct `NodeBlockSeriesTransformation`. -/
structure NodeBlockSeriesTransformation (X : Type) where
  metric : Metric
  source : Metric
  monitor : Monitor X
  series : List (Node × X)
  seriesFactory : X → X

variable {X K T : Type}

/-- The function `NewNodeSeriesTransformation`. -/
def NewNodeSeriesTransformation (monitor : Monitor X) (metric source : Metric)
    (seriesFactory : X → X) : NodeBlockSeriesTransformation X :=
  { metric := metric, source := source, seriesFactory := seriesFactory, monitor := monitor,
    series := [] }

/-- The method `NodeBlockSeriesTransformation.GetSubjects`. -/
def NodeBlockSeriesTransformation.GetSubjects (s : NodeBlockSeriesTransformation X) :
    List Node :=
  monitoring.GetSubjects s.monitor s.source

/-- The method `NodeBlockSeriesTransformation.GetData`: the result, `none` when
the data does not exist, and the source with its map of series after the
call. -/
def NodeBlockSeriesTransformation.GetData (s : NodeBlockSeriesTransformation X) (node : Node) :
    Option X × NodeBlockSeriesTransformation X :=
  match s.series.lookup node with
  | none =>
    match monitoring.GetData s.monitor node s.source with
    | some source =>
      let newSeries := s.seriesFactory source
      (some newSeries, { s with series := (node, newSeries) :: s.series })
    | none => (none, s)
  | some res => (some res, s)

/-- The loop of `ForEachRecord` over the subjects still to visit: the records
handed to the consumer, in order.  `first` is the zero value of `K`. -/
def forEachSubject (ops : SeriesOps X K T) (first : K) (s : NodeBlockSeriesTransformation X) :
    List Node → List (Record K T)
  | [] => []
  | subject :: rest =>
    match monitoring.GetData s.monitor subject s.source with
    | none => forEachSubject ops first s rest
    | some series =>
      match ops.GetLatest series with
      | none => forEachSubject ops first s rest
      | some latest =>
        let allData := ops.GetRange series first latest.1
        allData.map (fun point => ⟨subject, point.1, point.2⟩) ++
          [⟨subject, latest.1, latest.2⟩] ++ forEachSubject ops first s rest

/-- The method `NodeBlockSeriesTransformation.ForEachRecord`: the records
handed to the consumer, in order. -/
def NodeBlockSeriesTransformation.ForEachRecord (ops : SeriesOps X K T) (first : K)
    (s : NodeBlockSeriesTransformation X) : List (Record K T) :=
  forEachSubject ops first s (monitoring.GetSubjects s.monitor s.source)

/-- The records of the points of a series. -/
def recordsOf (subject : Node) (series : SyncedSeries K T) : List (Record K T) :=
  series.map (fun point => ⟨subject, point.1, point.2⟩)

/-- A monitor with the source metric `TransactionsThroughput` holding the
values 2 and 4 of the blocks 1 and 2 of the node `A`. -/
def throughputMonitor : Monitor (SyncedSeries Int ℚ) :=
  { sources := [("TransactionsThroughput",
      { GetSubjects := ["A"],
        GetData := fun node => if node = "A" then some [(1, 2), (2, 4)] else none })] }

/-- The moving average of window 2 over `throughputMonitor`. -/
def smaExample : NodeBlockSeriesTransformation (SyncedSeries Int ℚ) :=
  NewNodeSeriesTransformation throughputMonitor ⟨"TransactionsThroughputSMA_2"⟩
    ⟨"TransactionsThroughput"⟩ (fun input => NewSMASeries input 2)

end nodemon

/-! ## The diff of two trees as a patch -/

namespace genesis

open json

variable {ν : Type}

/-- The assignment `mergedMap[k] = v` on a map: the value of an existing key
is replaced, a new key is added. -/
def setKey (m : List (String × Any ν)) (k : String) (v : Any ν) : List (String × Any ν) :=
  match m with
  | [] => [(k, v)]
  | (key, value) :: rest => if key = k then (k, v) :: rest else (key, value) :: setKey rest k v

mutual
/-- The test helper `mergeMapsSimpleValuesOrNestedMap`, the deep merge of
`map2` into `map1`: the loop over the entries of `map2` still to visit, on the
merged map so far. -/
def mergeMapsSimpleValuesOrNestedMap :
    List (String × Any ν) → List (String × Any ν) → List (String × Any ν)
  | mergedMap, [] => mergedMap
  | mergedMap, (k, v2) :: rest =>
    mergeMapsSimpleValuesOrNestedMap (setKey mergedMap k (mergeValue (mergedMap.lookup k) v2))
      rest
/-- The body of the loop of `mergeMapsSimpleValuesOrNestedMap`: the value
stored under a key, from the value of the merged map so far, if any, and the
value of `map2`. -/
def mergeValue : Option (Any ν) → Any ν → Any ν
  | some (.object map1Nested), .object map2Nested =>
    .object (mergeMapsSimpleValuesOrNestedMap map1Nested map2Nested)
  | _, v2 => v2
end

/-- Two results of `getPath` agree: both paths are missing, both lead to a
map, or both lead to the same value that is no map. -/
def agree (x y : Option (Any ν)) : Prop :=
  match x, y with
  | none, none => True
  | some (.object _), some (.object _) => True
  | some a, some b => a.isObject = false ∧ b.isObject = false ∧ a = b
  | _, _ => False

/-- The tree `treeWithSlice` with another name. -/
def treeWithSliceRenamed : List (String × Any Int) :=
  [ ("Name", .string "test"), ("Validators", .array [.number 1, .number 2]) ]

end genesis

/-! ## The block queries of the block-hashes walk -/

namespace checking

namespace blocksHashesChecker

/-- The calls of `getBlockHashes` the fetching loop of `Check` makes for block
`blockNumber` on the nodes still to visit, in order: the loop stops after the
query that makes it return. -/
def fetchQueries (blockNumber : Nat) : List (Node × Client) → List (Node × Nat)
  | [] => []
  | (n, rpcClient) :: rest =>
    (n, blockNumber) ::
      (match getBlockHashes rpcClient blockNumber with
        | .error _ => []
        | .ok block =>
          if block = none ∧ blockNumber ≤ 2 then [] else fetchQueries blockNumber rest)

/-- The walk of `Check` as in `walk`, with the block queries it makes, in
order. -/
def walkQueries (nodes : List Node) (rpcClients : List Client)
    (expectedFailures : Finset String) :
    Nat → Nat → Finset String → Option (Option Error × List (Node × Nat))
  | 0, _, _ => none
  | fuel + 1, blockNumber, gotFailures =>
    let queries := fetchQueries blockNumber (nodes.zip rpcClients)
    match fetchBlocks blockNumber (nodes.zip rpcClients) with
    | .error err => some (some err, queries)
    | .ok (hashes, nodesLackingTheBlock) =>
      if nodesLackingTheBlock = nodes.length then
        if gotFailures ≠ expectedFailures then
          some (some (.unexpectedFailureSetHashes gotFailures expectedFailures), queries)
        else some (none, queries)
      else
        match compareBlocks (findReference (nodes.zip hashes)) blockNumber
            (nodes.zip hashes) gotFailures with
        | .error err => some (some err, queries)
        | .ok gotFailures =>
          match walkQueries nodes rpcClients expectedFailures fuel
              ((blockNumber + 1) % 2 ^ 64) gotFailures with
          | none => none
          | some (result, later) => some (result, queries ++ later)

/-- The method `blocksHashesChecker.Check` as in `Check`, with the block
queries it makes, in order. -/
def CheckQueries (fuel : Nat) (nodes : List Node) :
    Option (Option Error × List (Node × Nat)) :=
  match dialAll nodes ∅ with
  | .error err => some (some err, [])
  | .ok (rpcClients, expectedFailures) =>
    if expectedFailures.card = nodes.length then some (none, [])
    else walkQueries nodes rpcClients expectedFailures fuel 0 ∅

end blocksHashesChecker

/-- The queries of a walk that fetches the blocks `first, ..., first + count - 1`
from all nodes and then block `first + count` from the nodes `last`. -/
def queriesUpTo (nodes : List Node) (first count : Nat) (last : List Node) :
    List (Node × Nat) :=
  (List.range' first count).flatMap (fun b => nodes.map (fun n => (n, b))) ++
    last.map (fun n => (n, first + count))

end checking

/-! ## Theorems -/

namespace checking

theorem collectHeights_ok (nodes : List Node) :
    ∀ (m : Int) (ef : Finset String),
      (∀ n ∈ nodes, ∃ h, getBlockHeight n = .ok h ∧ 2 ≤ h) →
      blockHeightChecker.collectHeights nodes m ef =
        .ok (nodes.map heightOf, (nodes.map heightOf).foldl max m,
          ef ∪ labelsOf Node.IsExpectedFailure nodes) := by
  induction nodes with
  | nil => intro m ef _; simp [blockHeightChecker.collectHeights, labelsOf]
  | cons n rest ih =>
    intro m ef hall
    obtain ⟨h, hh, h2⟩ := hall n (List.mem_cons_self _ _)
    have hrest : ∀ x ∈ rest, ∃ h, getBlockHeight x = .ok h ∧ 2 ≤ h :=
      fun x hx => hall x (List.mem_cons_of_mem _ hx)
    have hn : heightOf n = h := by simp [heightOf, hh]
    have h1 : h ≠ 1 := by omega
    have h1' : ¬ h < 1 := by omega
    have hmax : (if m < h then h else m) = max m h := by
      rcases lt_or_le m h with hlt | hle
      · simp [hlt, max_eq_right (le_of_lt hlt)]
      · simp [not_lt.mpr hle, max_eq_left hle]
    simp only [blockHeightChecker.collectHeights, hh, h1, h1', if_false, hmax]
    rw [ih _ _ hrest]
    cases hef : n.IsExpectedFailure <;>
      simp [labelsOf, List.filter_cons, hef, hn, Finset.insert_eq, Finset.union_assoc,
        Finset.union_comm, Finset.union_left_comm]

theorem zip_map_eq {β : Type} (f : Node → β) (l : List Node) :
    l.zip (l.map f) = l.map (fun n => (n, f n)) := by
  induction l with
  | nil => rfl
  | cons a t ih => simp [ih]

theorem collectFailures_ok (M : Int) (l : List Node) :
    ∀ got : Finset String,
      (∀ n ∈ l, heightOf n < M - 1 → n.IsExpectedFailure = true) →
      blockHeightChecker.collectFailures M (l.map (fun n => (n, heightOf n))) got =
        .ok (got ∪ labelsOf (fun n => decide (heightOf n < M - 1)) l) := by
  induction l with
  | nil => intro got _; simp [blockHeightChecker.collectFailures, labelsOf]
  | cons a t ih =>
    intro got hall
    have ht : ∀ n ∈ t, heightOf n < M - 1 → n.IsExpectedFailure = true :=
      fun n hn => hall n (List.mem_cons_of_mem _ hn)
    by_cases hlag : heightOf a < M - 1
    · have hef := hall a (List.mem_cons_self _ _) hlag
      simp only [List.map_cons, blockHeightChecker.collectFailures, hlag, hef, if_true]
      rw [ih _ ht]
      simp [labelsOf, List.filter_cons, hlag, Finset.insert_eq, Finset.union_assoc,
        Finset.union_comm, Finset.union_left_comm]
    · simp only [List.map_cons, blockHeightChecker.collectFailures, hlag, if_false]
      rw [ih _ ht]
      simp [labelsOf, List.filter_cons, hlag]

theorem collectFailures_error (M : Int) (l : List Node) :
    ∀ got : Finset String,
      (∃ n ∈ l, heightOf n < M - 1 ∧ n.IsExpectedFailure = false) →
      ∃ n ∈ l, heightOf n < M - 1 ∧ n.IsExpectedFailure = false ∧
        blockHeightChecker.collectFailures M (l.map (fun n => (n, heightOf n))) got =
          .error (.tooOldBlock n.GetLabel (heightOf n) M) := by
  induction l with
  | nil => intro got h; obtain ⟨n, hn, _⟩ := h; simp at hn
  | cons a t ih =>
    intro got hex
    by_cases hlag : heightOf a < M - 1
    · cases hef : a.IsExpectedFailure
      · exact ⟨a, List.mem_cons_self _ _, hlag, hef, by
          simp [blockHeightChecker.collectFailures, hlag, hef]⟩
      · have hex' : ∃ n ∈ t, heightOf n < M - 1 ∧ n.IsExpectedFailure = false := by
          obtain ⟨n, hn, h1, h2⟩ := hex
          rcases List.mem_cons.mp hn with rfl | hn'
          · rw [hef] at h2; exact absurd h2 (by simp)
          · exact ⟨n, hn', h1, h2⟩
        obtain ⟨n, hn, h1, h2, h3⟩ := ih (insert a.GetLabel got) hex'
        exact ⟨n, List.mem_cons_of_mem _ hn, h1, h2, by
          simpa [blockHeightChecker.collectFailures, hlag, hef] using h3⟩
    · have hex' : ∃ n ∈ t, heightOf n < M - 1 ∧ n.IsExpectedFailure = false := by
        obtain ⟨n, hn, h1, h2⟩ := hex
        rcases List.mem_cons.mp hn with rfl | hn'
        · exact absurd h1 hlag
        · exact ⟨n, hn', h1, h2⟩
      obtain ⟨n, hn, h1, h2, h3⟩ := ih got hex'
      exact ⟨n, List.mem_cons_of_mem _ hn, h1, h2, by
        simpa [blockHeightChecker.collectFailures, hlag] using h3⟩

/-- With pairwise distinct labels two label sets agree exactly when the
predicates agree on the nodes. -/
theorem labelsOf_eq_iff (nodes : List Node) (p q : Node → Bool)
    (hlabels : (nodes.map Node.GetLabel).Nodup) :
    labelsOf p nodes = labelsOf q nodes ↔ ∀ n ∈ nodes, (p n = true ↔ q n = true) := by
  have hinj := List.inj_on_of_nodup_map hlabels
  constructor
  · intro h n hn
    have key : ∀ (p q : Node → Bool), labelsOf p nodes ⊆ labelsOf q nodes →
        p n = true → q n = true := by
      intro p q hsub hp
      have hmem : n.GetLabel ∈ labelsOf p nodes := by
        simp only [labelsOf, List.mem_toFinset, List.mem_map, List.mem_filter]
        exact ⟨n, ⟨hn, hp⟩, rfl⟩
      have hmem' := hsub hmem
      simp only [labelsOf, List.mem_toFinset, List.mem_map, List.mem_filter] at hmem'
      obtain ⟨x, ⟨hx, hqx⟩, hlx⟩ := hmem'
      have : x = n := hinj hx hn hlx
      rw [← this]; exact hqx
    exact ⟨key p q (by rw [h]), key q p (by rw [h])⟩
  · intro h
    unfold labelsOf
    have : nodes.filter p = nodes.filter q := by
      apply List.filter_congr
      intro x hx
      have := h x hx
      cases hp : p x <;> cases hq : q x <;> simp_all
    rw [this]

theorem check_eq (nodes : List Node)
    (hheights : ∀ n ∈ nodes, ∃ h, getBlockHeight n = .ok h ∧ 2 ≤ h) :
    blockHeightChecker.Check nodes =
      match blockHeightChecker.collectFailures (maxHeightOf nodes)
          (nodes.map (fun n => (n, heightOf n))) ∅ with
      | .error err => some err
      | .ok gotFailures =>
        if gotFailures ≠ labelsOf Node.IsExpectedFailure nodes then
          some (.unexpectedFailureSetHeight gotFailures
            (labelsOf Node.IsExpectedFailure nodes))
        else none := by
  unfold blockHeightChecker.Check
  rw [collectHeights_ok nodes 0 ∅ hheights]
  simp [zip_map_eq, maxHeightOf]

/-- The lagging node that is not expected to fail decides the outcome. -/
theorem check_of_unexpected_lagger (nodes : List Node)
    (hheights : ∀ n ∈ nodes, ∃ h, getBlockHeight n = .ok h ∧ 2 ≤ h)
    (hbad : ∃ n ∈ nodes, isLagger nodes n = true ∧ n.IsExpectedFailure = false) :
    ∃ n ∈ nodes, isLagger nodes n = true ∧ n.IsExpectedFailure = false ∧
      blockHeightChecker.Check nodes =
        some (.tooOldBlock n.GetLabel (heightOf n) (maxHeightOf nodes)) := by
  have hbad' : ∃ n ∈ nodes, heightOf n < maxHeightOf nodes - 1 ∧
      n.IsExpectedFailure = false := by
    obtain ⟨n, hn, h1, h2⟩ := hbad
    exact ⟨n, hn, by simpa [isLagger] using h1, h2⟩
  obtain ⟨n, hn, h1, h2, h3⟩ := collectFailures_error (maxHeightOf nodes) nodes ∅ hbad'
  refine ⟨n, hn, by simpa [isLagger] using h1, h2, ?_⟩
  rw [check_eq nodes hheights, h3]

/-- Without an unexpected lagger the outcome is the comparison of the two
label sets. -/
theorem check_of_no_unexpected_lagger (nodes : List Node)
    (hheights : ∀ n ∈ nodes, ∃ h, getBlockHeight n = .ok h ∧ 2 ≤ h)
    (hgood : ∀ n ∈ nodes, isLagger nodes n = true → n.IsExpectedFailure = true) :
    blockHeightChecker.Check nodes =
      if labelsOf (isLagger nodes) nodes ≠ labelsOf Node.IsExpectedFailure nodes then
        some (.unexpectedFailureSetHeight (labelsOf (isLagger nodes) nodes)
          (labelsOf Node.IsExpectedFailure nodes))
      else none := by
  have hgood' : ∀ n ∈ nodes, heightOf n < maxHeightOf nodes - 1 →
      n.IsExpectedFailure = true := by
    intro n hn h; exact hgood n hn (by simpa [isLagger] using h)
  rw [check_eq nodes hheights, collectFailures_ok (maxHeightOf nodes) nodes ∅ hgood']
  simp only [Finset.empty_union]
  rfl

/-- C1 (as amended): for nodes with pairwise distinct labels whose height
queries succeed with heights of at least 2, `blockHeightChecker.Check` returns
nil exactly when the laggers are the nodes marked expected-failure.  When an
expected-failure node keeps up, `Check` fails: with the unexpected-failure-set
error if every lagger is expected to fail, and with the too-old-block error of
a lagging node that is not expected to fail otherwise. -/
theorem blockHeight_check_nil_iff_laggers_eq_expected (nodes : List Node)
    (hlabels : (nodes.map Node.GetLabel).Nodup)
    (hheights : ∀ n ∈ nodes, ∃ h, getBlockHeight n = .ok h ∧ 2 ≤ h) :
    (blockHeightChecker.Check nodes = none ↔
      ∀ n ∈ nodes, (isLagger nodes n = true ↔ n.IsExpectedFailure = true)) ∧
    ((∃ n ∈ nodes, n.IsExpectedFailure = true ∧ isLagger nodes n = false) →
      ((∀ n ∈ nodes, isLagger nodes n = true → n.IsExpectedFailure = true) →
        blockHeightChecker.Check nodes =
          some (.unexpectedFailureSetHeight (labelsOf (isLagger nodes) nodes)
            (labelsOf Node.IsExpectedFailure nodes))) ∧
      ((∃ n ∈ nodes, isLagger nodes n = true ∧ n.IsExpectedFailure = false) →
        ∃ n ∈ nodes, isLagger nodes n = true ∧ n.IsExpectedFailure = false ∧
          blockHeightChecker.Check nodes =
            some (.tooOldBlock n.GetLabel (heightOf n) (maxHeightOf nodes)))) := by
  have hiff := labelsOf_eq_iff nodes (isLagger nodes) Node.IsExpectedFailure hlabels
  refine ⟨?_, ?_⟩
  · by_cases hbad : ∃ n ∈ nodes, isLagger nodes n = true ∧ n.IsExpectedFailure = false
    · obtain ⟨n, hn, h1, h2, h3⟩ := check_of_unexpected_lagger nodes hheights hbad
      constructor
      · intro h; rw [h3] at h; exact absurd h (by simp)
      · intro h
        have := (h n hn).mp h1
        rw [h2] at this; exact absurd this (by simp)
    · have hgood : ∀ n ∈ nodes, isLagger nodes n = true → n.IsExpectedFailure = true := by
        intro n hn hl
        by_contra hne
        exact hbad ⟨n, hn, hl, by simpa using hne⟩
      rw [check_of_no_unexpected_lagger nodes hheights hgood, ← hiff]
      by_cases heq : labelsOf (isLagger nodes) nodes = labelsOf Node.IsExpectedFailure nodes
      · simp [heq]
      · simp [heq]
  · intro hkeep
    refine ⟨?_, fun hbad => check_of_unexpected_lagger nodes hheights hbad⟩
    intro hgood
    rw [check_of_no_unexpected_lagger nodes hheights hgood]
    have hne : labelsOf (isLagger nodes) nodes ≠ labelsOf Node.IsExpectedFailure nodes := by
      intro heq
      obtain ⟨n, hn, h1, h2⟩ := hkeep
      have := (hiff.mp heq n hn).mpr h1
      rw [h2] at this; exact absurd this (by simp)
    simp [hne]

theorem expectedLaggerExample_heights :
    ∀ n ∈ expectedLaggerExample, ∃ h, getBlockHeight n = .ok h ∧ 2 ≤ h := by
  intro n hn
  simp only [expectedLaggerExample, List.mem_cons, List.mem_singleton, List.mem_nil_iff,
    or_false] at hn
  rcases hn with rfl | rfl
  · exact ⟨4096, by decide, by decide⟩
  · exact ⟨16, by decide, by decide⟩

/-- Witness of C1: the run of `TestBlockHeight_ExpectedFailingNode`. -/
theorem blockHeight_check_nil_iff_laggers_eq_expected_witness :
    (expectedLaggerExample.map Node.GetLabel).Nodup ∧
    (∀ n ∈ expectedLaggerExample, ∃ h, getBlockHeight n = .ok h ∧ 2 ≤ h) ∧
    (blockHeightChecker.Check expectedLaggerExample = none ↔
      ∀ n ∈ expectedLaggerExample,
        (isLagger expectedLaggerExample n = true ↔ n.IsExpectedFailure = true)) :=
  ⟨by decide, expectedLaggerExample_heights,
    (blockHeight_check_nil_iff_laggers_eq_expected expectedLaggerExample (by decide)
      expectedLaggerExample_heights).1⟩

/-- C1 (counterexample): the labels are distinct, every height is at least 2
and the expected-failure node `C` keeps up, yet `Check` does not fail with the
unexpected-failure-set error: it reports the lagging node `A`. -/
theorem blockHeight_keeping_up_counterexample :
    (laggingExample.map Node.GetLabel).Nodup ∧
    (∀ n ∈ laggingExample, ∃ h, getBlockHeight n = .ok h ∧ 2 ≤ h) ∧
    (∃ n ∈ laggingExample, n.IsExpectedFailure = true ∧ isLagger laggingExample n = false) ∧
    blockHeightChecker.Check laggingExample = some (.tooOldBlock "A" 16 4096) ∧
    ∀ got want,
      blockHeightChecker.Check laggingExample ≠ some (.unexpectedFailureSetHeight got want) := by
  have hcheck : blockHeightChecker.Check laggingExample = some (.tooOldBlock "A" 16 4096) := by
    decide
  refine ⟨by decide, ?_, ?_, hcheck, ?_⟩
  · intro n hn
    simp only [laggingExample, List.mem_cons, List.mem_singleton, List.mem_nil_iff,
      or_false] at hn
    rcases hn with rfl | rfl | rfl
    · exact ⟨16, by decide, by decide⟩
    · exact ⟨4096, by decide, by decide⟩
    · exact ⟨4096, by decide, by decide⟩
  · refine ⟨⟨"C", true, .ok ⟨.ok "0x1000", fun _ => .ok none⟩⟩, ?_, rfl, by decide⟩
    simp [laggingExample]
  · intro got want h
    rw [hcheck] at h
    cases h

end checking

/-! ### The block-hashes checker -/

namespace checking

theorem labelsOf_cons (p : Node → Bool) (a : Node) (t : List Node) :
    labelsOf p (a :: t) =
      if p a = true then insert a.GetLabel (labelsOf p t) else labelsOf p t := by
  cases h : p a <;> simp [labelsOf, List.filter_cons, h]

theorem mem_labelsOf (p : Node → Bool) (l : List Node) (s : String) :
    s ∈ labelsOf p l ↔ ∃ n ∈ l, p n = true ∧ n.GetLabel = s := by
  simp [labelsOf, and_assoc]

theorem dialAll_ok (nodes : List Node) :
    ∀ ef : Finset String, (∀ n ∈ nodes, rpcSucceeds n) →
      blocksHashesChecker.dialAll nodes ef =
        .ok (nodes.map clientOf, ef ∪ labelsOf Node.IsExpectedFailure nodes) := by
  induction nodes with
  | nil => intro ef _; simp [blocksHashesChecker.dialAll, labelsOf]
  | cons n rest ih =>
    intro ef hall
    obtain ⟨c, hc, _⟩ := hall n (List.mem_cons_self _ _)
    have hrest : ∀ x ∈ rest, rpcSucceeds x := fun x hx => hall x (List.mem_cons_of_mem _ hx)
    simp only [blocksHashesChecker.dialAll, hc]
    rw [ih _ hrest]
    cases hef : n.IsExpectedFailure <;>
      simp [labelsOf_cons, hef, clientOf, hc, Finset.insert_eq, Finset.union_assoc,
        Finset.union_comm, Finset.union_left_comm]

theorem getBlockHashes_clientOf (n : Node) (hn : rpcSucceeds n) (b : Nat) :
    blocksHashesChecker.getBlockHashes (clientOf n) b = .ok (blockOf n b) := by
  obtain ⟨c, hc, hall⟩ := hn
  obtain ⟨x, hx⟩ := hall b
  simp [blocksHashesChecker.getBlockHashes, clientOf, blockOf, hc, hx]

theorem fetchBlocks_ok (b : Nat) (l : List Node) (hrpc : ∀ n ∈ l, rpcSucceeds n)
    (hfirst : b ≤ 2 → ∀ n ∈ l, blockOf n b ≠ none) :
    blocksHashesChecker.fetchBlocks b (l.map (fun n => (n, clientOf n))) =
      .ok (l.map (fun n => blockOf n b), l.countP (fun n => decide (blockOf n b = none))) := by
  induction l with
  | nil => simp [blocksHashesChecker.fetchBlocks]
  | cons a t ih =>
    have ht := ih (fun n hn => hrpc n (List.mem_cons_of_mem _ hn))
      (fun hb n hn => hfirst hb n (List.mem_cons_of_mem _ hn))
    have hguard : ¬ (blockOf a b = none ∧ b ≤ 2) := by
      rintro ⟨h1, h2⟩
      exact hfirst h2 a (List.mem_cons_self _ _) h1
    simp only [List.map_cons, blocksHashesChecker.fetchBlocks,
      getBlockHashes_clientOf a (hrpc a (List.mem_cons_self _ _)) b, hguard, if_false, ht]
    by_cases hnone : blockOf a b = none
    · simp [hnone, List.countP_cons]
    · simp [hnone, List.countP_cons]

theorem findReference_eq (b : Nat) (l : List Node) :
    blocksHashesChecker.findReference (l.map (fun n => (n, blockOf n b))) =
      referenceOf l b := by
  induction l with
  | nil => simp [blocksHashesChecker.findReference, referenceOf]
  | cons a t ih =>
    simp only [List.map_cons]
    cases hblock : blockOf a b with
    | none =>
      simp only [blocksHashesChecker.findReference, ih]
      cases hef : a.IsExpectedFailure <;>
        simp [referenceOf, List.filter_cons, hef, List.filterMap_cons, hblock]
    | some x =>
      cases hef : a.IsExpectedFailure
      · simp [blocksHashesChecker.findReference, referenceOf, List.filter_cons, hef,
          List.filterMap_cons, hblock]
      · simp only [blocksHashesChecker.findReference, hef, ih]
        simp [referenceOf, List.filter_cons, hef]

theorem check_eq_none_iff (r x : blockHashes) (b : Nat) :
    blocksHashesChecker.check r x b = none ↔ x = r := by
  obtain ⟨h1, s1, r1⟩ := r
  obtain ⟨h2, s2, r2⟩ := x
  unfold blocksHashesChecker.check
  by_cases hs : s1 = s2 <;> by_cases hr : r1 = r2 <;> by_cases hh : h1 = h2 <;>
    simp [hs, hr, hh, eq_comm]

theorem compareBlocks_ok (nodes : List Node) (b : Nat) (l : List Node) :
    ∀ got : Finset String,
      (∀ n ∈ l, n.IsExpectedFailure = false →
        ∀ x, blockOf n b = some x → x = referenceOf nodes b) →
      blocksHashesChecker.compareBlocks (referenceOf nodes b) b
          (l.map (fun n => (n, blockOf n b))) got =
        .ok (got ∪ labelsOf (fun n => n.IsExpectedFailure && failsAt nodes b n) l) := by
  induction l with
  | nil => intro got _; simp [blocksHashesChecker.compareBlocks, labelsOf]
  | cons a t ih =>
    intro got hall
    have ht : ∀ n ∈ t, n.IsExpectedFailure = false →
        ∀ x, blockOf n b = some x → x = referenceOf nodes b :=
      fun n hn => hall n (List.mem_cons_of_mem _ hn)
    simp only [List.map_cons]
    cases hblock : blockOf a b with
    | none =>
      simp only [blocksHashesChecker.compareBlocks]
      rw [ih _ ht]
      cases hef : a.IsExpectedFailure <;>
        simp [labelsOf_cons, hef, failsAt, hblock, Finset.insert_eq, Finset.union_assoc,
          Finset.union_comm, Finset.union_left_comm]
    | some x =>
      cases hcheck : blocksHashesChecker.check (referenceOf nodes b) x b with
      | none =>
        have hx : x = referenceOf nodes b := (check_eq_none_iff _ _ _).mp hcheck
        simp only [blocksHashesChecker.compareBlocks, hcheck]
        rw [ih _ ht]
        simp [labelsOf_cons, failsAt, hblock, hx]
      | some e =>
        have hx : x ≠ referenceOf nodes b := by
          intro h
          rw [(check_eq_none_iff _ _ _).mpr h] at hcheck
          cases hcheck
        cases hef : a.IsExpectedFailure
        · exact absurd (hall a (List.mem_cons_self _ _) hef x hblock) hx
        · simp only [blocksHashesChecker.compareBlocks, hcheck, hef, if_true]
          rw [ih _ ht]
          simp [labelsOf_cons, hef, failsAt, hblock, hx, Finset.insert_eq, Finset.union_assoc,
            Finset.union_comm, Finset.union_left_comm]

/-- The comparison stops at the first mismatching node that is not expected
to fail, with the error of `check`. -/
theorem compareBlocks_error (r : blockHashes) (b : Nat) (pre post : List Node) (n : Node)
    (x : blockHashes) (e : Error)
    (hpre : ∀ m ∈ pre, m.IsExpectedFailure = false → ∀ y, blockOf m b = some y → y = r)
    (hef : n.IsExpectedFailure = false) (hblock : blockOf n b = some x)
    (hcheck : blocksHashesChecker.check r x b = some e) :
    ∀ got : Finset String,
      blocksHashesChecker.compareBlocks r b
          ((pre ++ n :: post).map (fun n => (n, blockOf n b))) got = .error e := by
  induction pre with
  | nil =>
    intro got
    simp [blocksHashesChecker.compareBlocks, hblock, hcheck, hef]
  | cons a t ih =>
    intro got
    have ht := ih (fun m hm => hpre m (List.mem_cons_of_mem _ hm))
    simp only [List.cons_append, List.map_cons]
    cases hb : blockOf a b with
    | none => simp only [blocksHashesChecker.compareBlocks]; exact ht _
    | some y =>
      cases hc : blocksHashesChecker.check r y b with
      | none => simp only [blocksHashesChecker.compareBlocks, hc]; exact ht _
      | some e' =>
        cases ha : a.IsExpectedFailure
        · have := hpre a (List.mem_cons_self _ _) ha y hb
          rw [(check_eq_none_iff _ _ _).mpr this] at hc
          cases hc
        · simp only [blocksHashesChecker.compareBlocks, hc, ha, if_true]; exact ht _

theorem compareBlocks_disagree (r : blockHashes) (b : Nat) (l : List Node) :
    ∀ got : Finset String,
      (∃ n ∈ l, n.IsExpectedFailure = false ∧ ∃ x, blockOf n b = some x ∧ x ≠ r) →
      ∃ e, blocksHashesChecker.compareBlocks r b
          (l.map (fun n => (n, blockOf n b))) got = .error e := by
  induction l with
  | nil => intro got h; obtain ⟨n, hn, _⟩ := h; simp at hn
  | cons a t ih =>
    intro got hex
    by_cases hbad : a.IsExpectedFailure = false ∧ ∃ x, blockOf a b = some x ∧ x ≠ r
    · obtain ⟨hef, x, hx, hne⟩ := hbad
      cases hc : blocksHashesChecker.check r x b with
      | none => exact absurd ((check_eq_none_iff _ _ _).mp hc) hne
      | some e =>
        exact ⟨e, compareBlocks_error r b [] t a x e (by simp) hef hx hc got⟩
    · have hex' : ∃ n ∈ t, n.IsExpectedFailure = false ∧ ∃ x, blockOf n b = some x ∧ x ≠ r := by
        obtain ⟨n, hn, h⟩ := hex
        rcases List.mem_cons.mp hn with rfl | hn'
        · exact absurd h hbad
        · exact ⟨n, hn', h⟩
      simp only [List.map_cons]
      cases hb : blockOf a b with
      | none => simp only [blocksHashesChecker.compareBlocks]; exact ih _ hex'
      | some y =>
        cases hc : blocksHashesChecker.check r y b with
        | none => simp only [blocksHashesChecker.compareBlocks, hc]; exact ih _ hex'
        | some e' =>
          cases ha : a.IsExpectedFailure
          · have hne : y ≠ r := by
              intro h
              rw [(check_eq_none_iff _ _ _).mpr h] at hc
              cases hc
            exact absurd ⟨ha, y, hb, hne⟩ hbad
          · simp only [blocksHashesChecker.compareBlocks, hc, ha, if_true]; exact ih _ hex'

theorem Served.gt_two {nodes : List Node} {N : Nat} (hS : Served nodes N)
    (hne : nodes ≠ []) : 2 < N := by
  by_contra hN
  obtain ⟨n, hn⟩ := List.exists_mem_of_ne_nil nodes hne
  exact hS.firstBlocks n hn N (by omega) (hS.unserved n hn)

theorem walk_end {nodes : List Node} {N : Nat} (hS : Served nodes N) (hne : nodes ≠ [])
    (ef got : Finset String) (fuel : Nat) :
    blocksHashesChecker.walk nodes (nodes.map clientOf) ef (fuel + 1) N got =
      if got ≠ ef then some (some (.unexpectedFailureSetHashes got ef)) else some none := by
  have hN := hS.gt_two hne
  have hfetch := fetchBlocks_ok N nodes hS.rpc (fun h => by omega)
  have hcount : nodes.countP (fun n => decide (blockOf n N = none)) = nodes.length := by
    rw [List.countP_eq_length]
    intro n hn
    simpa using hS.unserved n hn
  simp only [blocksHashesChecker.walk, zip_map_eq, hfetch, hcount, if_true]

theorem walk_step (nodes : List Node) (hrpc : ∀ n ∈ nodes, rpcSucceeds n)
    (hfirst : ∀ n ∈ nodes, ∀ b ≤ 2, blockOf n b ≠ none)
    (ef got : Finset String) (fuel b : Nat) (hb : ∃ n ∈ nodes, blockOf n b ≠ none) :
    blocksHashesChecker.walk nodes (nodes.map clientOf) ef (fuel + 1) b got =
      match blocksHashesChecker.compareBlocks (referenceOf nodes b) b
          (nodes.map (fun n => (n, blockOf n b))) got with
      | .error err => some (some err)
      | .ok got' =>
        blocksHashesChecker.walk nodes (nodes.map clientOf) ef fuel ((b + 1) % 2 ^ 64) got' := by
  have hfetch := fetchBlocks_ok b nodes hrpc (fun h n hn => hfirst n hn b h)
  have hcount : nodes.countP (fun n => decide (blockOf n b = none)) ≠ nodes.length := by
    intro h
    rw [List.countP_eq_length] at h
    obtain ⟨n, hn, hne⟩ := hb
    exact hne (by simpa using h n hn)
  simp only [blocksHashesChecker.walk, zip_map_eq, hfetch, hcount, if_false,
    findReference_eq]

/-- The walk from block `b` with the failures `got` gathered so far: it
returns, and it returns nil exactly when the remaining blocks agree and every
node marked expected-failure has failed, before or from `b` on. -/
theorem walk_spec {nodes : List Node} {N : Nat} (hS : Served nodes N) (hne : nodes ≠ [])
    (hlabels : (nodes.map Node.GetLabel).Nodup) :
    ∀ (k b fuel : Nat) (got : Finset String), b + k = N → k < fuel →
      got ⊆ labelsOf Node.IsExpectedFailure nodes →
      ∃ r, blocksHashesChecker.walk nodes (nodes.map clientOf)
          (labelsOf Node.IsExpectedFailure nodes) fuel b got = some r ∧
        (r = none ↔
          (∀ c, b ≤ c → c < N → agreeAt nodes c) ∧
          (∀ n ∈ nodes, n.IsExpectedFailure = true →
            n.GetLabel ∈ got ∨ ∃ c, b ≤ c ∧ c < N ∧ failsAt nodes c n = true)) := by
  have hinj := List.inj_on_of_nodup_map hlabels
  intro k
  induction k with
  | zero =>
    intro b fuel got hb hfuel hsub
    obtain ⟨f, rfl⟩ : ∃ f, fuel = f + 1 := ⟨fuel - 1, by omega⟩
    have hbN : b = N := by omega
    subst hbN
    rw [walk_end hS hne]
    by_cases heq : got = labelsOf Node.IsExpectedFailure nodes
    · refine ⟨none, by simp [heq], ?_⟩
      simp only [true_iff]
      refine ⟨fun c h1 h2 => by omega, fun n hn hef => Or.inl ?_⟩
      rw [heq, mem_labelsOf]
      exact ⟨n, hn, hef, rfl⟩
    · refine ⟨some (.unexpectedFailureSetHashes got (labelsOf Node.IsExpectedFailure nodes)),
        by simp only [ne_eq, heq, not_false_eq_true, if_true], ?_⟩
      simp only [false_iff, not_and, reduceCtorEq]
      intro _ hall
      apply heq
      apply Finset.Subset.antisymm hsub
      intro s hs
      rw [mem_labelsOf] at hs
      obtain ⟨n, hn, hef, rfl⟩ := hs
      rcases hall n hn hef with h | ⟨c, h1, h2, _⟩
      · exact h
      · omega
  | succ k ih =>
    intro b fuel got hb hfuel hsub
    obtain ⟨f, rfl⟩ : ∃ f, fuel = f + 1 := ⟨fuel - 1, by omega⟩
    have hbN : b < N := by omega
    have hmod : (b + 1) % 2 ^ 64 = b + 1 := Nat.mod_eq_of_lt (by have := hS.bound; omega)
    rw [walk_step nodes hS.rpc hS.firstBlocks _ _ _ _ (hS.minimal b hbN), hmod]
    by_cases hagree : agreeAt nodes b
    · rw [compareBlocks_ok nodes b nodes got hagree]
      have hsub' : got ∪ labelsOf (fun n => n.IsExpectedFailure && failsAt nodes b n) nodes ⊆
          labelsOf Node.IsExpectedFailure nodes := by
        apply Finset.union_subset hsub
        intro s hs
        rw [mem_labelsOf] at hs ⊢
        obtain ⟨n, hn, hp, rfl⟩ := hs
        exact ⟨n, hn, by simp at hp; exact hp.1, rfl⟩
      obtain ⟨r, hr, hiff⟩ := ih (b + 1) f _ (by omega) (by omega) hsub'
      refine ⟨r, hr, ?_⟩
      rw [hiff]
      constructor
      · rintro ⟨h1, h2⟩
        refine ⟨fun c hc1 hc2 => ?_, fun n hn hef => ?_⟩
        · rcases Nat.eq_or_lt_of_le hc1 with rfl | hlt
          · exact hagree
          · exact h1 c hlt hc2
        · rcases h2 n hn hef with h | ⟨c, hc1, hc2, hc3⟩
          · rcases Finset.mem_union.mp h with h | h
            · exact Or.inl h
            · rw [mem_labelsOf] at h
              obtain ⟨m, hm, hp, hl⟩ := h
              have hmn : m = n := hinj hm hn hl
              subst hmn
              simp at hp
              exact Or.inr ⟨b, le_refl _, hbN, hp.2⟩
          · exact Or.inr ⟨c, by omega, hc2, hc3⟩
      · rintro ⟨h1, h2⟩
        refine ⟨fun c hc1 hc2 => h1 c (by omega) hc2, fun n hn hef => ?_⟩
        rcases h2 n hn hef with h | ⟨c, hc1, hc2, hc3⟩
        · exact Or.inl (Finset.mem_union_left _ h)
        · rcases Nat.eq_or_lt_of_le hc1 with rfl | hlt
          · left
            apply Finset.mem_union_right
            rw [mem_labelsOf]
            exact ⟨n, hn, by simp [hef, hc3], rfl⟩
          · exact Or.inr ⟨c, hlt, hc2, hc3⟩
    · have hex : ∃ n ∈ nodes, n.IsExpectedFailure = false ∧
          ∃ x, blockOf n b = some x ∧ x ≠ referenceOf nodes b := by
        unfold agreeAt at hagree
        push_neg at hagree
        exact hagree
      obtain ⟨e, he⟩ := compareBlocks_disagree _ b nodes got hex
      rw [he]
      refine ⟨some e, rfl, ?_⟩
      simp only [reduceCtorEq, false_iff, not_and]
      intro h
      exact absurd (h b (le_refl _) hbN) hagree

theorem referenceOf_mem (nodes : List Node) (b : Nat)
    (h : ∃ n ∈ nodes, n.IsExpectedFailure = false ∧ blockOf n b ≠ none) :
    ∃ m ∈ nodes, m.IsExpectedFailure = false ∧ blockOf m b = some (referenceOf nodes b) := by
  obtain ⟨n, hn, hef, hblock⟩ := h
  obtain ⟨x, hx⟩ := Option.ne_none_iff_exists'.mp hblock
  have hxmem : x ∈ (nodes.filter (fun n => !n.IsExpectedFailure)).filterMap
      (fun n => blockOf n b) := by
    rw [List.mem_filterMap]
    exact ⟨n, List.mem_filter.mpr ⟨hn, by simp [hef]⟩, hx⟩
  cases hl : (nodes.filter (fun n => !n.IsExpectedFailure)).filterMap
      (fun n => blockOf n b) with
  | nil => rw [hl] at hxmem; simp at hxmem
  | cons y ys =>
    have hy : y ∈ (nodes.filter (fun n => !n.IsExpectedFailure)).filterMap
        (fun n => blockOf n b) := by rw [hl]; exact List.mem_cons_self _ _
    rw [List.mem_filterMap] at hy
    obtain ⟨m, hm, hmy⟩ := hy
    rw [List.mem_filter] at hm
    refine ⟨m, hm.1, by simpa using hm.2, ?_⟩
    simp [referenceOf, hl, hmy]

/-- Agreement with the reference is agreement of the nodes not marked
expected-failure among themselves. -/
theorem agreeAt_iff_pairwise (nodes : List Node) (b : Nat) :
    agreeAt nodes b ↔
      ∀ n ∈ nodes, ∀ m ∈ nodes, n.IsExpectedFailure = false → m.IsExpectedFailure = false →
        ∀ x y, blockOf n b = some x → blockOf m b = some y → x = y := by
  constructor
  · intro h n hn m hm hefn hefm x y hx hy
    rw [h n hn hefn x hx, h m hm hefm y hy]
  · intro h n hn hef x hx
    obtain ⟨m, hm, hefm, hblock⟩ := referenceOf_mem nodes b ⟨n, hn, hef, by simp [hx]⟩
    exact h n hn m hm hef hefm x _ hx hblock

theorem failsAt_iff (nodes : List Node) (b : Nat) (n : Node) :
    failsAt nodes b n = true ↔
      blockOf n b = none ∨ ∃ x, blockOf n b = some x ∧ x ≠ referenceOf nodes b := by
  unfold failsAt
  cases blockOf n b <;> simp

theorem check_eq_walk (nodes : List Node) (fuel : Nat)
    (hrpc : ∀ n ∈ nodes, rpcSucceeds n)
    (hnonEF : ∃ n ∈ nodes, n.IsExpectedFailure = false) :
    blocksHashesChecker.Check fuel nodes =
      blocksHashesChecker.walk nodes (nodes.map clientOf)
        (labelsOf Node.IsExpectedFailure nodes) fuel 0 ∅ := by
  have hcard : (labelsOf Node.IsExpectedFailure nodes).card ≠ nodes.length := by
    have h1 : (labelsOf Node.IsExpectedFailure nodes).card ≤
        ((nodes.filter Node.IsExpectedFailure).map Node.GetLabel).length :=
      List.toFinset_card_le _
    have h2 : (nodes.filter Node.IsExpectedFailure).length < nodes.length := by
      rw [List.length_filter_lt_length_iff_exists]
      obtain ⟨n, hn, hef⟩ := hnonEF
      exact ⟨n, hn, by simp [hef]⟩
    rw [List.length_map] at h1
    omega
  unfold blocksHashesChecker.Check
  rw [dialAll_ok nodes ∅ hrpc]
  simp only [Finset.empty_union, hcard, if_false]

/-- C2: for nodes with pairwise distinct labels, one of them not marked
expected-failure, all serving the blocks 0, 1 and 2, with every RPC call
succeeding and `N` the first block number that no node serves,
`blocksHashesChecker.Check` returns (with fuel for `N + 1` blocks), and it
returns nil exactly when (a) at every block number below `N` the nodes not
marked expected-failure that serve the block report the same triple and (b)
every expected-failure node, at a block number below `N`, lacks the block or
reports a triple different from the reference. -/
theorem blocksHashes_check_nil_iff (nodes : List Node) (N : Nat)
    (hlabels : (nodes.map Node.GetLabel).Nodup)
    (hnonEF : ∃ n ∈ nodes, n.IsExpectedFailure = false)
    (hrpc : ∀ n ∈ nodes, rpcSucceeds n)
    (hfirst : ∀ n ∈ nodes, ∀ b ≤ 2, blockOf n b ≠ none)
    (hbound : N < 2 ^ 64)
    (hunserved : ∀ n ∈ nodes, blockOf n N = none)
    (hminimal : ∀ b < N, ∃ n ∈ nodes, blockOf n b ≠ none) :
    ∀ fuel, N < fuel →
      ∃ r, blocksHashesChecker.Check fuel nodes = some r ∧
        (r = none ↔
          (∀ b < N, ∀ n ∈ nodes, ∀ m ∈ nodes,
            n.IsExpectedFailure = false → m.IsExpectedFailure = false →
            ∀ x y, blockOf n b = some x → blockOf m b = some y → x = y) ∧
          (∀ n ∈ nodes, n.IsExpectedFailure = true →
            ∃ b < N, blockOf n b = none ∨
              ∃ x, blockOf n b = some x ∧ x ≠ referenceOf nodes b)) := by
  intro fuel hfuel
  have hS : Served nodes N := ⟨hrpc, hfirst, hbound, hunserved, hminimal⟩
  have hne : nodes ≠ [] := by
    obtain ⟨n, hn, _⟩ := hnonEF
    exact List.ne_nil_of_mem hn
  obtain ⟨r, hr, hiff⟩ := walk_spec hS hne hlabels N 0 fuel ∅ (by omega) hfuel
    (Finset.empty_subset _)
  refine ⟨r, by rw [check_eq_walk nodes fuel hrpc hnonEF]; exact hr, ?_⟩
  rw [hiff]
  constructor
  · rintro ⟨h1, h2⟩
    refine ⟨fun b hb => (agreeAt_iff_pairwise nodes b).mp (h1 b (Nat.zero_le _) hb),
      fun n hn hef => ?_⟩
    rcases h2 n hn hef with h | ⟨c, _, hc, hf⟩
    · simp at h
    · exact ⟨c, hc, (failsAt_iff nodes c n).mp hf⟩
  · rintro ⟨h1, h2⟩
    refine ⟨fun b _ hb => (agreeAt_iff_pairwise nodes b).mpr (h1 b hb), fun n hn hef => ?_⟩
    obtain ⟨c, hc, hf⟩ := h2 n hn hef
    exact Or.inr ⟨c, Nat.zero_le _, hc, (failsAt_iff nodes c n).mpr hf⟩

theorem constantClient_rpcSucceeds (label : String) (ef : Bool) (height : Nat)
    (block : blockHashes) :
    rpcSucceeds ⟨label, ef, .ok (constantClient height block)⟩ :=
  ⟨constantClient height block, rfl, fun _ => ⟨_, rfl⟩⟩

theorem hashesExample_rpcSucceeds : ∀ n ∈ hashesExample, rpcSucceeds n := by
  intro n hn
  simp only [hashesExample, List.mem_cons, List.mem_singleton, List.mem_nil_iff,
    or_false] at hn
  rcases hn with rfl | rfl | rfl <;> exact constantClient_rpcSucceeds _ _ _ _

/-- Witness of C2: two agreeing nodes and an expected-failure node that stops
one block early; the first block served by no node is block 4. -/
theorem blocksHashes_check_nil_iff_witness :
    ∃ r, blocksHashesChecker.Check 5 hashesExample = some r ∧
      (r = none ↔
        (∀ b < 4, ∀ n ∈ hashesExample, ∀ m ∈ hashesExample,
          n.IsExpectedFailure = false → m.IsExpectedFailure = false →
          ∀ x y, blockOf n b = some x → blockOf m b = some y → x = y) ∧
        (∀ n ∈ hashesExample, n.IsExpectedFailure = true →
          ∃ b < 4, blockOf n b = none ∨
            ∃ x, blockOf n b = some x ∧ x ≠ referenceOf hashesExample b)) :=
  blocksHashes_check_nil_iff hashesExample 4 (by decide) (by decide)
    hashesExample_rpcSucceeds (by decide) (by decide) (by decide) (by decide) 5 (by decide)

theorem walk_reaches (nodes : List Node) (hrpc : ∀ n ∈ nodes, rpcSucceeds n)
    (hfirst : ∀ n ∈ nodes, ∀ b ≤ 2, blockOf n b ≠ none)
    (ef : Finset String) (b : Nat) (hb : b < 2 ^ 64)
    (hbefore : ∀ c < b, (∃ n ∈ nodes, blockOf n c ≠ none) ∧ agreeAt nodes c) :
    ∀ (k c fuel : Nat) (got : Finset String), c + k = b →
      ∃ got', blocksHashesChecker.walk nodes (nodes.map clientOf) ef (fuel + k) c got =
        blocksHashesChecker.walk nodes (nodes.map clientOf) ef fuel b got' := by
  intro k
  induction k with
  | zero =>
    intro c fuel got hc
    have : c = b := by omega
    subst this
    exact ⟨got, rfl⟩
  | succ k ih =>
    intro c fuel got hc
    have hcb : c < b := by omega
    have hmod : (c + 1) % 2 ^ 64 = c + 1 := Nat.mod_eq_of_lt (by omega)
    obtain ⟨got', hgot'⟩ := ih (c + 1) fuel
      (got ∪ labelsOf (fun n => n.IsExpectedFailure && failsAt nodes c n) nodes) (by omega)
    refine ⟨got', ?_⟩
    rw [← hgot', ← Nat.add_assoc, walk_step nodes hrpc hfirst _ _ _ _ (hbefore c hcb).1,
      compareBlocks_ok nodes c nodes got (hbefore c hcb).2, hmod]

/-- C3: the comparison of a block with the reference reports the state root
first, then the receipts root, then the hash, each as `<field> of the block n
does not match`, and no mismatch exactly when the three fields are equal.
When every RPC call succeeds, every node serves the blocks 0, 1 and 2 and the
walk reaches block `b` (the earlier blocks are served and agree), the first
mismatching node at block `b` that is not marked expected-failure makes
`Check` return exactly the error of the comparison (with fuel for `b + 1`
blocks). -/
theorem blocksHashes_check_reports_first_mismatch :
    (∀ (r x : blockHashes) (n : Nat),
      (r.StateRoot ≠ x.StateRoot →
        blocksHashesChecker.check r x n = some (.doesNotMatch "stateRoot" n)) ∧
      (r.StateRoot = x.StateRoot → r.ReceiptsRoot ≠ x.ReceiptsRoot →
        blocksHashesChecker.check r x n = some (.doesNotMatch "receiptsRoot" n)) ∧
      (r.StateRoot = x.StateRoot → r.ReceiptsRoot = x.ReceiptsRoot → r.Hash ≠ x.Hash →
        blocksHashesChecker.check r x n = some (.doesNotMatch "hash" n)) ∧
      (blocksHashesChecker.check r x n = none ↔
        r.StateRoot = x.StateRoot ∧ r.ReceiptsRoot = x.ReceiptsRoot ∧ r.Hash = x.Hash)) ∧
    (∀ (pre post : List Node) (n : Node) (x : blockHashes) (b : Nat),
      (∀ m ∈ pre ++ n :: post, rpcSucceeds m) →
      (∀ m ∈ pre ++ n :: post, ∀ c ≤ 2, blockOf m c ≠ none) →
      b < 2 ^ 64 →
      (∀ c < b, (∃ m ∈ pre ++ n :: post, blockOf m c ≠ none) ∧
        agreeAt (pre ++ n :: post) c) →
      (∀ m ∈ pre, m.IsExpectedFailure = false →
        ∀ y, blockOf m b = some y → y = referenceOf (pre ++ n :: post) b) →
      n.IsExpectedFailure = false →
      blockOf n b = some x →
      x ≠ referenceOf (pre ++ n :: post) b →
      ∀ fuel, b < fuel →
        blocksHashesChecker.check (referenceOf (pre ++ n :: post) b) x b ≠ none ∧
        blocksHashesChecker.Check fuel (pre ++ n :: post) =
          some (blocksHashesChecker.check (referenceOf (pre ++ n :: post) b) x b)) := by
  constructor
  · intro r x n
    unfold blocksHashesChecker.check
    refine ⟨fun h => by simp [h], fun h1 h2 => by simp [h1, h2],
      fun h1 h2 h3 => by simp [h1, h2, h3], ?_⟩
    by_cases h1 : r.StateRoot = x.StateRoot <;> by_cases h2 : r.ReceiptsRoot = x.ReceiptsRoot <;>
      by_cases h3 : r.Hash = x.Hash <;> simp [h1, h2, h3]
  · intro pre post n x b hrpc hfirst hb hbefore hpre hef hblock hne fuel hfuel
    have hnone : blocksHashesChecker.check (referenceOf (pre ++ n :: post) b) x b ≠ none :=
      fun h => hne ((check_eq_none_iff _ _ _).mp h)
    refine ⟨hnone, ?_⟩
    obtain ⟨e, he⟩ := Option.ne_none_iff_exists'.mp hnone
    obtain ⟨f, rfl⟩ : ∃ f, fuel = (f + 1) + b := ⟨fuel - 1 - b, by omega⟩
    rw [check_eq_walk _ _ hrpc ⟨n, by simp, hef⟩]
    obtain ⟨got', hgot'⟩ := walk_reaches _ hrpc hfirst
      (labelsOf Node.IsExpectedFailure (pre ++ n :: post)) b hb hbefore b 0 (f + 1) ∅
      (by omega)
    rw [hgot', walk_step _ hrpc hfirst _ _ _ _ ⟨n, by simp, by simp [hblock]⟩,
      compareBlocks_error _ b pre post n x e hpre hef hblock he, he]

theorem divergingExample_rpcSucceeds : ∀ n ∈ divergingExample, rpcSucceeds n := by
  intro n hn
  simp only [divergingExample, List.mem_cons, List.mem_singleton, List.mem_nil_iff,
    or_false] at hn
  rcases hn with rfl | rfl | rfl
  · exact constantClient_rpcSucceeds _ _ _ _
  · exact constantClient_rpcSucceeds _ _ _ _
  · exact ⟨_, rfl, fun _ => ⟨_, rfl⟩⟩

/-- Witness of C3: three nodes agree on the blocks 0 to 2, the second has no
block 3 and the third reports another receipts root for block 3. -/
theorem blocksHashes_check_reports_first_mismatch_witness :
    blocksHashesChecker.check (referenceOf divergingExample 3) ⟨0x11, 0x22, 0xFF⟩ 3
        = some (.doesNotMatch "receiptsRoot" 3) ∧
      blocksHashesChecker.Check 4 divergingExample =
        some (blocksHashesChecker.check (referenceOf divergingExample 3)
          ⟨0x11, 0x22, 0xFF⟩ 3) :=
  ⟨by decide,
    (blocksHashes_check_reports_first_mismatch.2
      [⟨"node1", false, .ok (constantClient 4 ⟨0x11, 0x22, 0x33⟩)⟩,
        ⟨"node2", false, .ok (constantClient 3 ⟨0x11, 0x22, 0x33⟩)⟩]
      []
      ⟨"node3", false, .ok ⟨.ok "0x0", fun blockNumber =>
        .ok (if blockNumber < 3 then some ⟨0x11, 0x22, 0x33⟩
          else if blockNumber < 4 then some ⟨0x11, 0x22, 0xFF⟩ else none)⟩⟩
      ⟨0x11, 0x22, 0xFF⟩ 3
      divergingExample_rpcSucceeds (by decide) (by decide) (by decide) (by decide)
      rfl (by decide) (by decide) 4 (by decide)).2⟩

end checking

/-! ### The rolling-blocks checker -/

namespace checking

theorem mod_ne_of_lt_window (w i j : Nat) (hji : j < i) (hiw : i < j + w) :
    j % w ≠ i % w := by
  intro h
  have h1 : (i - j) % w = 0 := Nat.sub_mod_eq_zero_of_mod_eq h.symm
  have h2 : (i - j) % w = i - j := Nat.mod_eq_of_lt (by omega)
  omega

theorem prev_index (w i : Nat) (hi : w ≤ i + 1) :
    (((i : Int) - (w : Int) + 1) % (w : Int)).toNat = (i + 1 - w) % w := by
  have h : (i : Int) - (w : Int) + 1 = ((i + 1 - w : Nat) : Int) := by omega
  rw [h, ← Int.natCast_mod, Int.toNat_natCast]

theorem scan_spec (w : Nat) (hw : 1 ≤ w) (pts : List monitoring.DataPoint) :
    ∀ (suf : List monitoring.DataPoint) (i : Nat) (window : List monitoring.BlockStatus),
      pts.drop i = suf → window.length = w →
      (∀ j, j < i → i ≤ j + w →
        (window.getD (j % w) default).BlockHeight =
          (pts.map (fun p => p.Value.BlockHeight)).getD j 0) →
      (blocksRollingChecker.scan w suf i window = true ↔
        ∀ k, i ≤ k → w ≤ k + 1 → k < pts.length →
          (pts.map (fun p => p.Value.BlockHeight)).getD (k + 1 - w) 0 <
            (pts.map (fun p => p.Value.BlockHeight)).getD k 0) := by
  intro suf
  induction suf with
  | nil =>
    intro i window hdrop _ _
    have hlen : pts.length ≤ i := List.drop_eq_nil_iff.mp hdrop
    simp only [blocksRollingChecker.scan, true_iff]
    intro k hk _ hk'
    omega
  | cons p rest ih =>
    intro i window hdrop hlen hinv
    have hi : i < pts.length := by
      by_contra hcon
      have : pts.drop i = [] := List.drop_eq_nil_iff.mpr (by omega)
      rw [this] at hdrop
      cases hdrop
    have hcons := List.drop_eq_getElem_cons hi
    rw [hdrop] at hcons
    have hp : pts[i] = p := by injection hcons with h1 h2; exact h1.symm
    have hrest : pts.drop (i + 1) = rest := by injection hcons with h1 h2; exact h2.symm
    have hHi : (pts.map (fun p => p.Value.BlockHeight)).getD i 0 = p.Value.BlockHeight := by
      rw [List.getD_eq_getElem _ _ (by simpa using hi)]
      simp [hp]
    have hmodlt : i % w < window.length := by rw [hlen]; exact Nat.mod_lt _ (by omega)
    have hlen' : (window.set (i % w) p.Value).length = w := by simp [hlen]
    have hinv' : ∀ j, j < i + 1 → i + 1 ≤ j + w →
        ((window.set (i % w) p.Value).getD (j % w) default).BlockHeight =
          (pts.map (fun p => p.Value.BlockHeight)).getD j 0 := by
      intro j hj1 hj2
      rcases Nat.lt_succ_iff_lt_or_eq.mp hj1 with hlt | heq
      · have hne := mod_ne_of_lt_window w i j hlt (by omega)
        rw [List.getD_eq_getElem?_getD, List.getElem?_set_ne (Ne.symm hne),
          ← List.getD_eq_getElem?_getD]
        exact hinv j hlt (by omega)
      · subst heq
        rw [List.getD_eq_getElem?_getD, List.getElem?_set_self hmodlt, hHi]
        rfl
    have hih := ih (i + 1) (window.set (i % w) p.Value) hrest hlen' hinv'
    by_cases hsmall : (i : Int) < (w : Int) - 1
    · simp only [blocksRollingChecker.scan, hsmall, if_true]
      rw [hih]
      constructor
      · intro h k hk1 hk2 hk3
        rcases Nat.eq_or_lt_of_le hk1 with rfl | hlt
        · omega
        · exact h k hlt hk2 hk3
      · intro h k hk1 hk2 hk3
        exact h k (by omega) hk2 hk3
    · have hwi : w ≤ i + 1 := by omega
      have hprev := hinv' (i + 1 - w) (by omega) (by omega)
      simp only [blocksRollingChecker.scan, hsmall, if_false, prev_index w i hwi, hprev]
      by_cases hcmp : (pts.map (fun p => p.Value.BlockHeight)).getD (i + 1 - w) 0 ≥
          p.Value.BlockHeight
      · simp only [hcmp, if_true]
        constructor
        · intro h; cases h
        · intro h
          have := h i (le_refl _) hwi hi
          rw [hHi] at this
          omega
      · simp only [hcmp, if_false]
        rw [hih]
        constructor
        · intro h k hk1 hk2 hk3
          rcases Nat.eq_or_lt_of_le hk1 with rfl | hlt
          · rw [hHi]; omega
          · exact h k hlt hk2 hk3
        · intro h k hk1 hk2 hk3
          exact h k (by omega) hk2 hk3

theorem nodeFunctional_iff (c : blocksRollingChecker) (hw : 1 ≤ c.toleranceSamples)
    (series : monitoring.Series) (last : monitoring.DataPoint)
    (hlast : series.GetLatest = some last) :
    blocksRollingChecker.nodeFunctional c series last = true ↔
      functional c.toleranceSamples (samples series) := by
  unfold blocksRollingChecker.nodeFunctional
  rw [scan_spec c.toleranceSamples hw (series.GetRange 0 last.Position ++ [last]) _ 0 _
    (by simp) (by simp) (fun j hj _ => by omega)]
  simp only [functional, samples, hlast]
  constructor
  · intro h
    refine ⟨by simp, fun i h1 h2 => h i (Nat.zero_le _) h1 (by simpa using h2)⟩
  · intro h k _ h1 h2
    exact h.2 k h1 (by simpa using h2)

theorem nodesLoop_iff (c : blocksRollingChecker) (hw : 1 ≤ c.toleranceSamples)
    (nodes : List monitoring.Node) :
    ∀ nf : Bool, blocksRollingChecker.nodesLoop c nodes nf = true ↔
      nf = true ∨
        ∃ node ∈ nodes, functional c.toleranceSamples (samples (c.monitor.GetData node)) := by
  induction nodes with
  | nil => intro nf; simp [blocksRollingChecker.nodesLoop]
  | cons node rest ih =>
    intro nf
    cases hlast : (c.monitor.GetData node).GetLatest with
    | none =>
      have hnot : ¬ functional c.toleranceSamples (samples (c.monitor.GetData node)) := by
        intro h
        exact h.1 (by simp [samples, hlast])
      simp only [blocksRollingChecker.nodesLoop, hlast, ih, List.exists_mem_cons_iff, hnot,
        false_or]
    | some last =>
      simp only [blocksRollingChecker.nodesLoop, hlast, ih, List.exists_mem_cons_iff,
        Bool.or_eq_true, nodeFunctional_iff c hw _ last hlast, or_assoc]

/-- C4: for every set of monitored nodes and every `toleranceSamples >= 1`,
`blocksRollingChecker.Check` returns the network-is-down error exactly when no
node is functional, and nil otherwise; a node is functional when its sample
list is not empty and `h[i-w+1] < h[i]` for every `i` with `w-1 <= i < n`. -/
theorem blocksRolling_check_iff (c : blocksRollingChecker) (hw : 1 ≤ c.toleranceSamples) :
    (c.Check = some .networkDown ↔
      ¬ ∃ node ∈ c.monitor.GetNodes,
        functional c.toleranceSamples (samples (c.monitor.GetData node))) ∧
    (c.Check = none ↔
      ∃ node ∈ c.monitor.GetNodes,
        functional c.toleranceSamples (samples (c.monitor.GetData node))) := by
  have h := nodesLoop_iff c hw c.monitor.GetNodes false
  simp only [Bool.false_eq_true, false_or] at h
  unfold blocksRollingChecker.Check
  cases hloop : blocksRollingChecker.nodesLoop c c.monitor.GetNodes false
  · rw [hloop] at h
    simp only [Bool.false_eq_true, false_iff] at h
    simp [h]
  · rw [hloop] at h
    simp only [true_iff] at h
    simp [h]

/-- Witness of C4: the series `monotonic-non-decreasing` of the tests, with the
window of 5 samples. -/
theorem blocksRolling_check_iff_witness :
    1 ≤ (rollingExample [1, 2, 3, 4, 5, 5, 5, 5, 6, 7, 8, 9]).toleranceSamples ∧
    ((rollingExample [1, 2, 3, 4, 5, 5, 5, 5, 6, 7, 8, 9]).Check = none ↔
      ∃ node ∈ (rollingExample [1, 2, 3, 4, 5, 5, 5, 5, 6, 7, 8, 9]).monitor.GetNodes,
        functional (rollingExample [1, 2, 3, 4, 5, 5, 5, 5, 6, 7, 8, 9]).toleranceSamples
          (samples ((rollingExample [1, 2, 3, 4, 5, 5, 5, 5, 6, 7, 8, 9]).monitor.GetData
            node))) :=
  ⟨by decide,
    (blocksRolling_check_iff (rollingExample [1, 2, 3, 4, 5, 5, 5, 5, 6, 7, 8, 9])
      (by decide)).2⟩

end checking

/-! ### The checker list -/

theorem errors_Join_eq_none_iff {ε : Type} (errs : List (Option ε)) :
    errors.Join errs = none ↔ ∀ e ∈ errs, e = none := by
  unfold errors.Join
  constructor
  · intro h e he
    by_cases hlen : (errs.filter Option.isSome).length = 0
    · have hnil : errs.filter Option.isSome = [] := List.length_eq_zero.mp hlen
      rw [List.filter_eq_nil_iff] at hnil
      have := hnil e he
      cases e <;> simp_all
    · simp [hlen] at h
  · intro h
    have hnil : errs.filter Option.isSome = [] := by
      rw [List.filter_eq_nil_iff]
      intro e he
      simp [h e he]
    simp [hnil]

namespace checking

theorem loop_length {σ ε : Type} (c : Checks σ ε) :
    ∀ s : σ, (Checks.loop c s).1.length = c.length := by
  induction c with
  | nil => intro s; rfl
  | cons a t ih => intro s; simp [Checks.loop, ih]

theorem loop_state {σ ε : Type} (c : Checks σ ε) :
    ∀ s : σ, (Checks.loop c s).2 = c.foldl (fun s checker => (checker.Check s).2) s := by
  induction c with
  | nil => intro s; rfl
  | cons a t ih => intro s; simp [Checks.loop, ih]

theorem loop_getElem {σ ε : Type} (c : Checks σ ε) :
    ∀ (s : σ) (i : Nat) (h : i < c.length),
      (Checks.loop c s).1[i]? = some ((c.get ⟨i, h⟩).Check (stateBefore c s i)).1 := by
  induction c with
  | nil => intro s i h; simp at h
  | cons a t ih =>
    intro s i h
    cases i with
    | zero => simp [Checks.loop, stateBefore]
    | succ j =>
      have hj : j < t.length := by simpa using h
      simpa [Checks.loop, stateBefore] using ih (a.Check s).2 j hj

theorem logged_loop {σ ε : Type} (c : Checks σ ε) :
    ∀ (i : Nat) (s : σ) (log : List Nat),
      Checks.loop (logged i c) (s, log) =
        ((Checks.loop c s).1, ((Checks.loop c s).2, log ++ List.range' i c.length)) := by
  induction c with
  | nil => intro i s log; simp [logged, Checks.loop]
  | cons a t ih =>
    intro i s log
    simp [logged, Checks.loop, ih, List.range'_succ]

/-- C5: `Checks.Check` invokes every checker of the list exactly once and in
list order, whatever the earlier checkers returned (the call log of the
logged checkers is `0, 1, ..., n-1`, and the error at index `i` is what
checker `i` returns in the state the earlier checkers left); it returns nil
exactly when every checker returned nil, and otherwise the join of the
non-nil errors in list order. -/
theorem checks_check_runs_all_and_joins {σ ε : Type} (c : Checks σ ε) (s : σ) :
    (Checks.Check (logged 0 c) (s, [])).2.2 = List.range c.length ∧
    (Checks.Check (logged 0 c) (s, [])).1 = (Checks.Check c s).1 ∧
    (Checks.loop c s).1.length = c.length ∧
    (∀ (i : Nat) (h : i < c.length),
      (Checks.loop c s).1[i]? = some ((c.get ⟨i, h⟩).Check (stateBefore c s i)).1) ∧
    (Checks.Check c s).2 = stateBefore c s c.length ∧
    ((Checks.Check c s).1 = none ↔ ∀ e ∈ (Checks.loop c s).1, e = none) ∧
    ((Checks.Check c s).1 ≠ none →
      (Checks.Check c s).1 = some ((Checks.loop c s).1.filterMap id)) := by
  refine ⟨?_, ?_, loop_length c s, loop_getElem c s, ?_, ?_, ?_⟩
  · simp [Checks.Check, logged_loop, List.range_eq_range']
  · simp [Checks.Check, logged_loop]
  · simp [Checks.Check, loop_state, stateBefore]
  · simp only [Checks.Check]
    exact errors_Join_eq_none_iff _
  · intro h
    simp only [Checks.Check] at h ⊢
    unfold errors.Join at h ⊢
    by_cases hlen : ((Checks.loop c s).1.filter Option.isSome).length = 0
    · simp [hlen] at h
    · simp [hlen]

end checking

/-! ### The slope shaper -/

namespace shaper

open intervalIntegral

theorem integral_affine (d k a b : ℝ) :
    (∫ t in a..b, (d + k * t)) = k / 2 * (b * b - a * a) + d * (b - a) := by
  have h1 : IntervalIntegrable (fun _ : ℝ => d) MeasureTheory.volume a b :=
    continuous_const.intervalIntegrable _ _
  have h2 : IntervalIntegrable (fun t : ℝ => k * t) MeasureTheory.volume a b :=
    (continuous_const.mul continuous_id).intervalIntegrable _ _
  rw [intervalIntegral.integral_add h1 h2, intervalIntegral.integral_const,
    intervalIntegral.integral_const_mul, integral_id]
  simp only [smul_eq_mul]
  ring

theorem integral_clip_eq_affine (d k a b : ℝ) (hab : a ≤ b)
    (h : ∀ t, a ≤ t → t ≤ b → 0 ≤ d + k * t) :
    (∫ t in a..b, max 0 (d + k * t)) = k / 2 * (b * b - a * a) + d * (b - a) := by
  rw [← integral_affine]
  apply intervalIntegral.integral_congr
  intro t ht
  rw [Set.uIcc_of_le hab] at ht
  exact max_eq_right (h t ht.1 ht.2)

theorem integral_clip_eq_zero (d k a b : ℝ) (hab : a ≤ b)
    (h : ∀ t, a ≤ t → t ≤ b → d + k * t ≤ 0) :
    (∫ t in a..b, max 0 (d + k * t)) = 0 := by
  have : (∫ t in a..b, max 0 (d + k * t)) = ∫ _t in a..b, (0 : ℝ) := by
    apply intervalIntegral.integral_congr
    intro t ht
    rw [Set.uIcc_of_le hab] at ht
    exact max_eq_left (h t ht.1 ht.2)
  rw [this]
  simp

theorem clip_intervalIntegrable (d k a b : ℝ) :
    IntervalIntegrable (fun t => max 0 (d + k * t)) MeasureTheory.volume a b :=
  (continuous_const.max (continuous_const.add (continuous_const.mul continuous_id))).intervalIntegrable
    _ _

/-- Outside the case of a constant negative frequency the slope shaper
returns the integral of `max(0, d + k*t)` over `[a, b]`. -/
theorem slope_integral (d k t0 a b : ℝ) (hab : a ≤ b) (h : k ≠ 0 ∨ 0 ≤ d) :
    (SlopeShaper.mk d k t0).GetNumMessagesInInterval (a + t0) (b - a) =
      ∫ t in a..b, max 0 (d + k * t) := by
  have ha : a + t0 - t0 = a := by ring
  have hb : a + (b - a) = b := by ring
  simp only [SlopeShaper.GetNumMessagesInInterval, ha, hb]
  by_cases hk : k = 0
  · have hd : 0 ≤ d := by
      rcases h with h | h
      · exact absurd hk h
      · exact h
    subst hk
    simp only [if_true]
    rw [integral_clip_eq_affine d 0 a b hab (by intro t _ _; simpa using hd)]
    ring
  · simp only [hk, if_false]
    have hz : k * (-d / k) = -d := by field_simp; ring
    by_cases hpos : k > 0
    · simp only [hpos, if_true]
      have hge : ∀ t, -d / k ≤ t → 0 ≤ d + k * t := by
        intro t ht
        have := mul_le_mul_of_nonneg_left ht (le_of_lt hpos)
        rw [hz] at this
        linarith
      have hle : ∀ t, t ≤ -d / k → d + k * t ≤ 0 := by
        intro t ht
        have := mul_le_mul_of_nonneg_left ht (le_of_lt hpos)
        rw [hz] at this
        linarith
      rcases le_total b (-d / k) with hbz | hzb
      · rw [max_eq_left hbz, max_eq_left (le_trans hab hbz),
          integral_clip_eq_zero d k a b hab (fun t _ htb => hle t (le_trans htb hbz))]
        ring
      · rcases le_total (-d / k) a with hza | haz
        · rw [max_eq_right hzb, max_eq_right hza,
            integral_clip_eq_affine d k a b hab (fun t hat _ => hge t (le_trans hza hat))]
        · rw [max_eq_right hzb, max_eq_left haz,
            ← intervalIntegral.integral_add_adjacent_intervals
              (clip_intervalIntegrable d k a (-d / k)) (clip_intervalIntegrable d k (-d / k) b),
            integral_clip_eq_zero d k a (-d / k) haz (fun t _ ht => hle t ht),
            integral_clip_eq_affine d k (-d / k) b hzb (fun t ht _ => hge t ht)]
          ring
    · simp only [hpos, if_false]
      have hneg : k < 0 := lt_of_le_of_ne (not_lt.mp hpos) hk
      have hge : ∀ t, t ≤ -d / k → 0 ≤ d + k * t := by
        intro t ht
        have := mul_le_mul_of_nonpos_left ht (le_of_lt hneg)
        rw [hz] at this
        linarith
      have hle : ∀ t, -d / k ≤ t → d + k * t ≤ 0 := by
        intro t ht
        have := mul_le_mul_of_nonpos_left ht (le_of_lt hneg)
        rw [hz] at this
        linarith
      rcases le_total b (-d / k) with hbz | hzb
      · rw [min_eq_right hbz, min_eq_right (le_trans hab hbz),
          integral_clip_eq_affine d k a b hab (fun t _ htb => hge t (le_trans htb hbz))]
      · rcases le_total (-d / k) a with hza | haz
        · rw [min_eq_left hzb, min_eq_left hza,
            integral_clip_eq_zero d k a b hab (fun t hat _ => hle t (le_trans hza hat))]
          ring
        · rw [min_eq_left hzb, min_eq_right haz,
            ← intervalIntegral.integral_add_adjacent_intervals
              (clip_intervalIntegrable d k a (-d / k)) (clip_intervalIntegrable d k (-d / k) b),
            integral_clip_eq_affine d k a (-d / k) haz (fun t _ ht => hge t ht),
            integral_clip_eq_zero d k (-d / k) b hzb (fun t ht _ => hle t ht)]
          ring

/-- C6 (failing input): the shaper with start frequency `-1` and increment
`0`, started at time 0, answers `-1` for the interval `[0, 1]`, although the
integral of `max(0, d + k*t)` over it is `0` (and the result of
`GetNumMessagesInInterval` is expected to be non-negative). -/
theorem slope_constant_negative_frequency :
    ((NewSlopeShaper (-1 : ℝ) 0).Start 0).GetNumMessagesInInterval 0 1 = -1 ∧
    (∫ t in (0 : ℝ)..1, max 0 ((-1 : ℝ) + 0 * t)) = 0 ∧
    ((NewSlopeShaper (-1 : ℚ) 0).Start 0).GetNumMessagesInInterval 0 1 = -1 := by
  refine ⟨?_, ?_, ?_⟩
  · norm_num [NewSlopeShaper, SlopeShaper.Start, SlopeShaper.GetNumMessagesInInterval]
  · simp
  · norm_num [NewSlopeShaper, SlopeShaper.Start, SlopeShaper.GetNumMessagesInInterval]

/-- C7: for every slope shaper and all times `a`, `b`, `c` (in particular
`a <= b <= c`), the message counts of the adjacent intervals `[a, b]` and
`[b, c]` add up to the message count of `[a, c]`, in exact arithmetic. -/
theorem slope_additive_over_adjacent_intervals {α : Type} [LinearOrderedField α]
    (s : SlopeShaper α) (a b c : α) :
    s.GetNumMessagesInInterval a (b - a) + s.GetNumMessagesInInterval b (c - b) =
      s.GetNumMessagesInInterval a (c - a) := by
  have hb : a - s.startTimeStamp + (b - a) = b - s.startTimeStamp := by ring
  have hc : b - s.startTimeStamp + (c - b) = c - s.startTimeStamp := by ring
  have hc' : a - s.startTimeStamp + (c - a) = c - s.startTimeStamp := by ring
  simp only [SlopeShaper.GetNumMessagesInInterval, hb, hc, hc']
  by_cases hk : s.incrementFrequency = 0
  · simp only [hk, if_true]; ring
  · simp only [hk, if_false]
    by_cases hpos : s.incrementFrequency > 0
    · simp only [hpos, if_true]; ring
    · simp only [hpos, if_false]; ring

end shaper

/-! ### Decimal rendering and the parsers -/

theorem digitChar_toNat (d : Nat) (hd : d < 10) :
    (Nat.digitChar d).toNat = 48 + d := by
  interval_cases d <;> rfl

theorem digitVal_digitChar (d : Nat) (hd : d < 10) :
    strconv.digitVal (Nat.digitChar d) = some d := by
  interval_cases d <;> rfl

theorem isDigit_digitChar (d : Nat) (hd : d < 10) :
    time.isDigit (Nat.digitChar d) = true := by
  interval_cases d <;> rfl

theorem foldl_digits_ge (xs : List Char) :
    ∀ acc : Nat, acc ≤ xs.foldl (fun a c => a * 10 + (c.toNat - 48)) acc := by
  induction xs with
  | nil => intro acc; exact le_refl _
  | cons c cs ih =>
    intro acc
    simp only [List.foldl_cons]
    exact le_trans (by omega) (ih _)

theorem toDigitsCore_spec :
    ∀ (fuel n : Nat) (ds : List Char), n < fuel →
      ∃ xs : List Char, Nat.toDigitsCore 10 fuel n ds = xs ++ ds ∧ xs ≠ [] ∧
        (∀ c ∈ xs, ∃ d, d < 10 ∧ c = Nat.digitChar d) ∧
        ∀ acc : Nat, xs.foldl (fun a c => a * 10 + (c.toNat - 48)) acc =
          acc * 10 ^ xs.length + n := by
  intro fuel
  induction fuel with
  | zero => intro n ds h; omega
  | succ f ih =>
    intro n ds hn
    by_cases h0 : n / 10 = 0
    · refine ⟨[Nat.digitChar (n % 10)], by simp [Nat.toDigitsCore, h0], by simp, ?_, ?_⟩
      · intro c hc
        simp only [List.mem_singleton] at hc
        exact ⟨n % 10, Nat.mod_lt _ (by decide), hc⟩
      · intro acc
        have hlt : n < 10 := by omega
        simp only [List.foldl_cons, List.foldl_nil, List.length_singleton, pow_one,
          digitChar_toNat (n % 10) (Nat.mod_lt _ (by decide))]
        omega
    · obtain ⟨xs, hxs, _, hdig, hval⟩ := ih (n / 10) (Nat.digitChar (n % 10) :: ds) (by omega)
      refine ⟨xs ++ [Nat.digitChar (n % 10)], ?_, by simp, ?_, ?_⟩
      · simp [Nat.toDigitsCore, h0, hxs]
      · intro c hc
        rcases List.mem_append.mp hc with hc | hc
        · exact hdig c hc
        · simp only [List.mem_singleton] at hc
          exact ⟨n % 10, Nat.mod_lt _ (by decide), hc⟩
      · intro acc
        simp only [List.foldl_append, List.foldl_cons, List.foldl_nil, hval,
          List.length_append, List.length_singleton,
          digitChar_toNat (n % 10) (Nat.mod_lt _ (by decide))]
        have := Nat.div_add_mod n 10
        rw [pow_succ]
        ring_nf
        omega

/-- The decimal digits of a number: not empty, all digits, with the number as
their value. -/
theorem toDigits_spec (n : Nat) :
    Nat.toDigits 10 n ≠ [] ∧
      (∀ c ∈ Nat.toDigits 10 n, ∃ d, d < 10 ∧ c = Nat.digitChar d) ∧
      (Nat.toDigits 10 n).foldl (fun a c => a * 10 + (c.toNat - 48)) 0 = n := by
  obtain ⟨xs, hxs, hne, hdig, hval⟩ := toDigitsCore_spec (n + 1) n [] (by omega)
  have : Nat.toDigits 10 n = xs := by simp [Nat.toDigits, hxs]
  rw [this]
  exact ⟨hne, hdig, by simpa using hval 0⟩

theorem parseUintLoop_digits (xs : List Char) :
    ∀ acc : Nat, (∀ c ∈ xs, ∃ d, d < 10 ∧ c = Nat.digitChar d) →
      xs.foldl (fun a c => a * 10 + (c.toNat - 48)) acc ≤ strconv.maxUint64 →
      strconv.parseUintLoop 10 xs acc =
        (xs.foldl (fun a c => a * 10 + (c.toNat - 48)) acc, none) := by
  induction xs with
  | nil => intro acc _ _; rfl
  | cons c cs ih =>
    intro acc hdig hle
    obtain ⟨d, hd, rfl⟩ := hdig _ (List.mem_cons_self _ _)
    have hcs : ∀ c ∈ cs, ∃ d, d < 10 ∧ c = Nat.digitChar d :=
      fun c hc => hdig c (List.mem_cons_of_mem _ hc)
    simp only [List.foldl_cons, digitChar_toNat d hd] at hle ⊢
    have hstep : acc * 10 + (48 + d - 48) = acc * 10 + d := by omega
    rw [hstep] at hle ⊢
    have hge := foldl_digits_ge cs (acc * 10 + d)
    have hmax : strconv.maxUint64 = 18446744073709551615 := by decide
    have h1 : ¬ d ≥ 10 := by omega
    have h2 : ¬ acc ≥ strconv.maxUint64 / 10 + 1 := by
      rw [hmax] at hle ⊢
      omega
    have h3 : ¬ acc * 10 + d > strconv.maxUint64 := by omega
    simp only [strconv.parseUintLoop, digitVal_digitChar d hd, h1, h2, h3, if_false]
    exact ih _ hcs hle

/-- Parsing the decimal rendering of a number below `2 ^ 64` gives the number
back, without error. -/
theorem ParseUint_repr (n : Nat) (hn : n < 2 ^ 64) :
    strconv.ParseUint (Nat.repr n) 10 = (n, none) := by
  obtain ⟨hne, hdig, hval⟩ := toDigits_spec n
  have hdata : (Nat.repr n).data = Nat.toDigits 10 n := rfl
  have hempty : Nat.repr n ≠ "" := by
    intro h
    have := congrArg String.data h
    rw [hdata] at this
    exact hne this
  have hmax : strconv.maxUint64 = 18446744073709551615 := by decide
  have hloop := parseUintLoop_digits (Nat.toDigits 10 n) 0 hdig (by rw [hval, hmax]; omega)
  rw [hval] at hloop
  simp only [strconv.ParseUint, hempty, if_false, hdata, hloop]

/-- The number `ParseUint` returns always fits 64 bits. -/
theorem parseUintLoop_lt (base : Nat) (xs : List Char) :
    ∀ acc : Nat, acc < 2 ^ 64 → (strconv.parseUintLoop base xs acc).1 < 2 ^ 64 := by
  induction xs with
  | nil => intro acc h; exact h
  | cons c cs ih =>
    intro acc hacc
    have hmax : strconv.maxUint64 = 18446744073709551615 := by decide
    simp only [strconv.parseUintLoop]
    split
    · norm_num
    · split
      · norm_num
      · split
        · rw [hmax]; norm_num
        · split
          · rw [hmax]; norm_num
          · apply ih
            rename_i h
            rw [hmax] at h
            simp only [gt_iff_lt, not_lt] at h
            omega

theorem ParseUint_lt (s : String) (base : Nat) : (strconv.ParseUint s base).1 < 2 ^ 64 := by
  unfold strconv.ParseUint
  split
  · norm_num
  · have h := parseUintLoop_lt base s.data 0 (by norm_num)
    split
    · rename_i n heq; rw [heq] at h; exact h
    · rename_i n k heq; rw [heq] at h; exact h

theorem scanDigits_digits (xs : List Char) :
    ∀ acc count : Nat, (∀ c ∈ xs, ∃ d, d < 10 ∧ c = Nat.digitChar d) →
      big.scanDigits xs acc count =
        (xs.foldl (fun a c => a * 10 + (c.toNat - 48)) acc, count + xs.length, []) := by
  induction xs with
  | nil => intro acc count _; rfl
  | cons c cs ih =>
    intro acc count hdig
    obtain ⟨d, hd, rfl⟩ := hdig _ (List.mem_cons_self _ _)
    have hcs : ∀ c ∈ cs, ∃ d, d < 10 ∧ c = Nat.digitChar d :=
      fun c hc => hdig c (List.mem_cons_of_mem _ hc)
    simp only [big.scanDigits, isDigit_digitChar d hd, if_true, List.foldl_cons,
      List.length_cons]
    rw [ih _ _ hcs]
    simp only [Prod.mk.injEq, and_true, true_and]
    omega

theorem digitChar_ne_sign (d : Nat) (hd : d < 10) :
    Nat.digitChar d ≠ '-' ∧ Nat.digitChar d ≠ '+' := by
  interval_cases d <;> exact ⟨by decide, by decide⟩

theorem SetString_repr_nat (n : Nat) : big.SetString (Nat.repr n) = some (n : Int) := by
  obtain ⟨hne, hdig, hval⟩ := toDigits_spec n
  have hdata : (Nat.repr n).data = Nat.toDigits 10 n := rfl
  cases hxs : Nat.toDigits 10 n with
  | nil => exact absurd hxs hne
  | cons c cs =>
    obtain ⟨d, hd, hc⟩ := hdig c (by rw [hxs]; exact List.mem_cons_self _ _)
    have hsign := digitChar_ne_sign d hd
    rw [← hc] at hsign
    have hscan := scanDigits_digits (c :: cs) 0 0 (by rw [← hxs]; exact hdig)
    rw [← hxs, hval] at hscan
    simp only [big.SetString, hdata, hxs, hsign.1, hsign.2, if_false]
    rw [← hxs, hscan]
    simp [hxs]

theorem SetString_neg_repr_nat (n : Nat) :
    big.SetString ("-" ++ Nat.repr n) = some (-(n : Int)) := by
  obtain ⟨hne, hdig, hval⟩ := toDigits_spec n
  have hdata : ("-" ++ Nat.repr n).data = '-' :: Nat.toDigits 10 n := rfl
  have hscan := scanDigits_digits (Nat.toDigits 10 n) 0 0 hdig
  rw [hval] at hscan
  have hlen : (Nat.toDigits 10 n).length ≠ 0 := by
    intro h; exact hne (List.length_eq_zero.mp h)
  simp only [big.SetString, hdata, if_true, hscan]
  simp [hlen]

/-- Parsing the decimal rendering of an integer gives the integer back. -/
theorem SetString_toString (x : Int) : big.SetString (toString x) = some x := by
  cases x with
  | ofNat n => exact SetString_repr_nat n
  | negSucc n =>
    have h := SetString_neg_repr_nat (n + 1)
    have hx : (Int.negSucc n) = -((n + 1 : Nat) : Int) := rfl
    rw [hx]
    exact h

/-! ### The rule configuration -/

namespace genesis

open opera

theorem registry_keys (frac : Nat → Nat → Nat → Nat) :
    (supportedNetworkRulesConfigurations frac).map Prod.fst = kindTable.map Prod.fst := rfl

theorem fieldTable_keys : fieldTable.map Prod.fst = kindTable.map Prod.fst := rfl

theorem kindTable_nodup : (kindTable.map Prod.fst).Nodup := by decide

/-- An updater leaves the fields of the other keys alone. -/
theorem updater_frame (frac : Nat → Nat → Nat → Nat) :
    ∀ e ∈ supportedNetworkRulesConfigurations frac, ∀ kf ∈ fieldTable, kf.1 ≠ e.1 →
      ∀ (v : String) (r : Rules), kf.2 (e.2 v r).1 = kf.2 r := by
  intro e he kf hkf hne v r
  simp only [supportedNetworkRulesConfigurations, List.mem_cons, List.mem_singleton,
    List.not_mem_nil, or_false] at he
  simp only [fieldTable, List.mem_cons, List.mem_singleton, List.not_mem_nil,
    or_false] at hkf
  rcases he with rfl | rfl | rfl | rfl | rfl | rfl | rfl | rfl | rfl | rfl | rfl | rfl | rfl | rfl | rfl | rfl | rfl | rfl | rfl | rfl | rfl | rfl | rfl | rfl | rfl | rfl | rfl | rfl | rfl | rfl | rfl | rfl | rfl | rfl <;>
    rcases hkf with rfl | rfl | rfl | rfl | rfl | rfl | rfl | rfl | rfl | rfl | rfl | rfl | rfl | rfl | rfl | rfl | rfl | rfl | rfl | rfl | rfl | rfl | rfl | rfl | rfl | rfl | rfl | rfl | rfl | rfl | rfl | rfl | rfl | rfl <;>
    first
    | exact absurd rfl hne
    | rfl
    | (simp only [maxEmptyBlockSkipPeriod, maxEpochDuration, emitterInterval,
        emitterStallThreshold, emitterStallInterval, shortMaxAllocPeriod,
        shortStartupAllocPeriod, longMaxAllocPeriod, longStartupAllocPeriod]
       split <;> rfl)

end genesis

namespace genesis
open opera

/-- Every updater writes the field of its key as its kind says, reports the
error of the parser of its kind, and keeps the name and the network id. -/
theorem updater_spec (frac : Nat → Nat → Nat → Nat) :
    ∀ e ∈ supportedNetworkRulesConfigurations frac,
      ∃ f kind, fieldTable.lookup e.1 = some f ∧ kindTable.lookup e.1 = some kind ∧
        ∀ (v : String) (r : Rules),
          f (e.2 v r).1 = applied frac kind v (f r) ∧
          (e.2 v r).2 = parseError frac kind v ∧
          (e.2 v r).1.Name = r.Name ∧ (e.2 v r).1.NetworkID = r.NetworkID := by
  intro e he
  simp only [supportedNetworkRulesConfigurations, List.mem_cons, List.mem_singleton,
    List.not_mem_nil, or_false] at he
  rcases he with rfl | rfl | rfl | rfl | rfl | rfl | rfl | rfl | rfl | rfl | rfl | rfl | rfl | rfl | rfl | rfl | rfl | rfl | rfl | rfl | rfl | rfl | rfl | rfl | rfl | rfl | rfl | rfl | rfl | rfl | rfl | rfl | rfl | rfl <;>
    refine ⟨_, _, rfl, rfl, fun v r => ?_⟩ <;>
    first
    | exact ⟨rfl, rfl, rfl, rfl⟩
    | exact ⟨by simp only [applied, maxBlockGas, maxEmptyBlockSkipPeriod, maxEpochGas, maxEpochDuration, emitterInterval, emitterStallThreshold, emitterStallInterval, upgradesBerlin, upgradesLondon, upgradesLlr, upgradesSonic, upgradesAllegro, minGasPrice, minBaseFee, blockMissedSlack, maxEventGas, eventGas, parentGas, extraDataGas, blockVotesBaseGas, blockVoteGas, epochVoteGas, misbehaviourProofGas, shortAllocPerSec, shortMaxAllocPeriod, shortStartupAllocPeriod, shortMinStartupGas, longAllocPerSec, longMaxAllocPeriod, longStartupAllocPeriod, longMinStartupGas, maxParents, maxFreeParents, maxExtraData, Nat.mod_eq_of_lt (ParseUint_lt v 10)],
        rfl, rfl, rfl⟩
    | (simp only [applied, parseError, maxEmptyBlockSkipPeriod, maxEpochDuration, emitterInterval, emitterStallThreshold, emitterStallInterval, shortMaxAllocPeriod, shortStartupAllocPeriod, longMaxAllocPeriod, longStartupAllocPeriod]
       split <;> exact ⟨rfl, rfl, rfl, rfl⟩)

end genesis
namespace genesis
open opera

theorem lookup_of_mem {β : Type} (l : List (String × β)) (hnodup : (l.map Prod.fst).Nodup)
    (k : String) (x : β) (h : (k, x) ∈ l) : l.lookup k = some x := by
  induction l with
  | nil => simp at h
  | cons a t ih =>
    obtain ⟨k0, x0⟩ := a
    simp only [List.map_cons, List.nodup_cons] at hnodup
    rcases List.mem_cons.mp h with heq | hmem
    · cases heq
      simp [List.lookup]
    · have hne : k ≠ k0 := by
        rintro rfl
        exact hnodup.1 (List.mem_map.mpr ⟨(k, x), hmem, rfl⟩)
      have hbeq : (k == k0) = false := by simpa using hne
      simp only [List.lookup, hbeq]
      exact ih hnodup.2 hmem

theorem mem_of_lookup {β : Type} (l : List (String × β)) (k : String) (x : β)
    (h : l.lookup k = some x) : (k, x) ∈ l := by
  induction l with
  | nil => simp at h
  | cons a t ih =>
    obtain ⟨k0, x0⟩ := a
    by_cases hk : k = k0
    · subst hk
      simp only [List.lookup, beq_self_eq_true, Option.some.injEq] at h
      subst h
      exact List.mem_cons_self _ _
    · have hbeq : (k == k0) = false := by simpa using hk
      simp only [List.lookup, hbeq] at h
      exact List.mem_cons_of_mem _ (ih h)

theorem lookup_eq_none_of_not_mem {β : Type} (l : List (String × β)) (k : String)
    (h : k ∉ l.map Prod.fst) : l.lookup k = none := by
  cases hl : l.lookup k with
  | none => rfl
  | some x => exact absurd (List.mem_map.mpr ⟨(k, x), mem_of_lookup l k x hl, rfl⟩) h

theorem getField_frame (frac : Nat → Nat → Nat → Nat) :
    ∀ e ∈ supportedNetworkRulesConfigurations frac, ∀ k : String, k ≠ e.1 →
      ∀ (v : String) (r : Rules), getField k (e.2 v r).1 = getField k r := by
  intro e he k hne v r
  unfold getField
  cases hl : fieldTable.lookup k with
  | none => rfl
  | some f =>
    have hf : f (e.2 v r).1 = f r :=
      updater_frame frac e he (k, f) (mem_of_lookup _ _ _ hl) hne v r
    simp only [Option.map_some', hf]

theorem getField_own (frac : Nat → Nat → Nat → Nat) :
    ∀ e ∈ supportedNetworkRulesConfigurations frac,
      ∃ kind, keyKind e.1 = some kind ∧
        ∀ (v : String) (r : Rules),
          (∃ old, getField e.1 r = some old ∧
            getField e.1 (e.2 v r).1 = some (applied frac kind v old)) ∧
          (e.2 v r).2 = parseError frac kind v := by
  intro e he
  obtain ⟨f, kind, hf, hkind, hspec⟩ := updater_spec frac e he
  refine ⟨kind, hkind, fun v r => ⟨⟨f r, ?_, ?_⟩, (hspec v r).2.1⟩⟩
  · simp [getField, hf]
  · simp [getField, hf, (hspec v r).1]

theorem getField_own_congr (frac : Nat → Nat → Nat → Nat) :
    ∀ e ∈ supportedNetworkRulesConfigurations frac, ∀ (v : String) (r r' : Rules),
      getField e.1 r = getField e.1 r' →
      getField e.1 (e.2 v r).1 = getField e.1 (e.2 v r').1 := by
  intro e he v r r' h
  obtain ⟨kind, _, hspec⟩ := getField_own frac e he
  obtain ⟨⟨old, h1, h2⟩, _⟩ := hspec v r
  obtain ⟨⟨old', h1', h2'⟩, _⟩ := hspec v r'
  rw [h1, h1'] at h
  cases h
  rw [h2, h2']

/-- The field of a key after the loop over a part of the registry: what the
updater of the key makes of it when the key is visited and present in the
updates, and the old value otherwise. -/
theorem configureLoop_getField (frac : Nat → Nat → Nat → Nat) (updates : NetworkRules)
    (order : List (String × ruleUpdater)) :
    (∀ e ∈ order, e ∈ supportedNetworkRulesConfigurations frac) →
    (order.map Prod.fst).Nodup →
    ∀ (r : Rules) (errs : List (Option Error)) (k : String),
      getField k (configureLoop updates order r errs).1 =
        match order.lookup k, updates.lookup k with
        | some upd, some v => getField k (upd v r).1
        | _, _ => getField k r := by
  induction order with
  | nil => intro _ _ r errs k; simp [configureLoop, List.lookup]
  | cons a rest ih =>
    intro hsub hnodup r errs k
    obtain ⟨k0, u0⟩ := a
    have ha : (k0, u0) ∈ supportedNetworkRulesConfigurations frac :=
      hsub _ (List.mem_cons_self _ _)
    have hrest : ∀ e ∈ rest, e ∈ supportedNetworkRulesConfigurations frac :=
      fun e he => hsub e (List.mem_cons_of_mem _ he)
    simp only [List.map_cons, List.nodup_cons] at hnodup
    by_cases hk : k = k0
    · subst hk
      have hnone : rest.lookup k = none := lookup_eq_none_of_not_mem rest k hnodup.1
      cases hu : updates.lookup k with
      | none =>
        simp only [configureLoop, hu, List.lookup, beq_self_eq_true]
        rw [ih hrest hnodup.2, hnone]
      | some v =>
        simp only [configureLoop, hu, List.lookup, beq_self_eq_true]
        rw [ih hrest hnodup.2, hnone]
    · have hbeq : (k == k0) = false := by simpa using hk
      cases hu0 : updates.lookup k0 with
      | none =>
        simp only [configureLoop, hu0, List.lookup, hbeq]
        exact ih hrest hnodup.2 r errs k
      | some v0 =>
        simp only [configureLoop, hu0, List.lookup, hbeq]
        rw [ih hrest hnodup.2]
        have hframe := getField_frame frac (k0, u0) ha k hk v0 r
        cases hl : rest.lookup k with
        | none => simpa using hframe
        | some upd =>
          cases hu : updates.lookup k with
          | none => simpa using hframe
          | some v =>
            have hmem : (k, upd) ∈ supportedNetworkRulesConfigurations frac :=
              hrest _ (mem_of_lookup rest k upd hl)
            exact getField_own_congr frac (k, upd) hmem v _ _ hframe

end genesis
namespace genesis
open opera

theorem configureLoop_errs (frac : Nat → Nat → Nat → Nat) (updates : NetworkRules)
    (order : List (String × ruleUpdater)) :
    (∀ e ∈ order, e ∈ supportedNetworkRulesConfigurations frac) →
    ∀ (r : Rules) (errs : List (Option Error)),
      (configureLoop updates order r errs).2 =
        errs ++ order.filterMap (fun e => (updates.lookup e.1).map (keyError frac e.1)) := by
  induction order with
  | nil => intro _ r errs; simp [configureLoop]
  | cons a rest ih =>
    intro hsub r errs
    obtain ⟨k0, u0⟩ := a
    have ha : (k0, u0) ∈ supportedNetworkRulesConfigurations frac :=
      hsub _ (List.mem_cons_self _ _)
    have hrest : ∀ e ∈ rest, e ∈ supportedNetworkRulesConfigurations frac :=
      fun e he => hsub e (List.mem_cons_of_mem _ he)
    obtain ⟨kind, hkind, hspec⟩ := getField_own frac (k0, u0) ha
    cases hu : updates.lookup k0 with
    | none =>
      simp only [configureLoop, hu, List.filterMap_cons, Option.map_none']
      exact ih hrest r errs
    | some v =>
      have herr : (u0 v r).2 = keyError frac k0 v := by
        rw [(hspec v r).2]
        simp only [keyError] at hkind ⊢
        rw [hkind]
        rfl
      simp only [configureLoop, hu, List.filterMap_cons, Option.map_some']
      rw [ih hrest, herr]
      simp

theorem configureLoop_name (frac : Nat → Nat → Nat → Nat) (updates : NetworkRules)
    (order : List (String × ruleUpdater)) :
    (∀ e ∈ order, e ∈ supportedNetworkRulesConfigurations frac) →
    ∀ (r : Rules) (errs : List (Option Error)),
      (configureLoop updates order r errs).1.Name = r.Name ∧
      (configureLoop updates order r errs).1.NetworkID = r.NetworkID := by
  induction order with
  | nil => intro _ r errs; simp [configureLoop]
  | cons a rest ih =>
    intro hsub r errs
    obtain ⟨k0, u0⟩ := a
    have ha : (k0, u0) ∈ supportedNetworkRulesConfigurations frac :=
      hsub _ (List.mem_cons_self _ _)
    have hrest : ∀ e ∈ rest, e ∈ supportedNetworkRulesConfigurations frac :=
      fun e he => hsub e (List.mem_cons_of_mem _ he)
    obtain ⟨f, kind, _, _, hspec⟩ := updater_spec frac (k0, u0) ha
    cases hu : updates.lookup k0 with
    | none =>
      simp only [configureLoop, hu]
      exact ih hrest r errs
    | some v =>
      simp only [configureLoop, hu]
      have h := ih hrest (u0 v r).1 (errs ++ [(u0 v r).2])
      rw [h.1, h.2]
      exact ⟨(hspec v r).2.2.1, (hspec v r).2.2.2⟩

theorem configureLoop_congr (updates updates' : NetworkRules)
    (order : List (String × ruleUpdater))
    (h : ∀ e ∈ order, updates.lookup e.1 = updates'.lookup e.1) :
    ∀ (r : Rules) (errs : List (Option Error)),
      configureLoop updates order r errs = configureLoop updates' order r errs := by
  induction order with
  | nil => intro r errs; rfl
  | cons a rest ih =>
    intro r errs
    obtain ⟨k0, u0⟩ := a
    have h0 : updates.lookup k0 = updates'.lookup k0 := h (k0, u0) (List.mem_cons_self _ _)
    have hrest := ih (fun e he => h e (List.mem_cons_of_mem _ he))
    simp only [configureLoop, ← h0]
    cases updates.lookup k0 with
    | none => exact hrest r errs
    | some v => exact hrest _ _

theorem perm_registry (frac : Nat → Nat → Nat → Nat) (order : List (String × ruleUpdater))
    (hperm : order.Perm (supportedNetworkRulesConfigurations frac)) :
    (∀ e, e ∈ order ↔ e ∈ supportedNetworkRulesConfigurations frac) ∧
      (order.map Prod.fst).Nodup := by
  refine ⟨fun e => hperm.mem_iff, ?_⟩
  have h := (hperm.map Prod.fst).nodup_iff
  rw [h, registry_keys]
  exact kindTable_nodup

theorem registry_nodup (frac : Nat → Nat → Nat → Nat) :
    ((supportedNetworkRulesConfigurations frac).map Prod.fst).Nodup := by
  rw [registry_keys]; exact kindTable_nodup

theorem lookup_perm (frac : Nat → Nat → Nat → Nat) (order : List (String × ruleUpdater))
    (hperm : order.Perm (supportedNetworkRulesConfigurations frac)) (k : String) :
    order.lookup k = (supportedNetworkRulesConfigurations frac).lookup k := by
  obtain ⟨hmem, hnodup⟩ := perm_registry frac order hperm
  cases hl : (supportedNetworkRulesConfigurations frac).lookup k with
  | none =>
    apply lookup_eq_none_of_not_mem
    intro hk
    obtain ⟨e, he, hek⟩ := List.mem_map.mp hk
    have he' := (hmem e).mp he
    have := lookup_of_mem _ (registry_nodup frac) e.1 e.2 he'
    rw [hek, hl] at this
    cases this
  | some upd =>
    exact lookup_of_mem order hnodup k upd ((hmem _).mpr (mem_of_lookup _ _ _ hl))

/-- A key has a kind exactly when it is registered. -/
theorem keyKind_iff_registered (frac : Nat → Nat → Nat → Nat) (k : String) :
    (∃ kind, keyKind k = some kind) ↔
      ∃ upd, (k, upd) ∈ supportedNetworkRulesConfigurations frac := by
  constructor
  · rintro ⟨kind, hk⟩
    have hmem : k ∈ kindTable.map Prod.fst :=
      List.mem_map.mpr ⟨(k, kind), mem_of_lookup _ _ _ hk, rfl⟩
    rw [← registry_keys frac] at hmem
    obtain ⟨e, he, hek⟩ := List.mem_map.mp hmem
    exact ⟨e.2, by rw [← hek]; exact he⟩
  · rintro ⟨upd, hmem⟩
    obtain ⟨kind, hkind, _⟩ := getField_own frac (k, upd) hmem
    exact ⟨kind, hkind⟩

theorem isSupported_iff (k : String) :
    IsSupportedNetworkRule k = true ↔ ∃ kind, keyKind k = some kind := by
  rw [keyKind_iff_registered (fun _ _ _ => 0)]
  unfold IsSupportedNetworkRule
  constructor
  · intro h
    obtain ⟨upd, hupd⟩ := Option.isSome_iff_exists.mp h
    exact ⟨upd, mem_of_lookup _ _ _ hupd⟩
  · rintro ⟨upd, hmem⟩
    rw [lookup_of_mem _ (registry_nodup _) k upd hmem]
    rfl

theorem parseError_isSome (frac : Nat → Nat → Nat → Nat) (kind : Kind) (v : String) :
    (parseError frac kind v).isSome = rejects frac kind v := by
  cases kind with
  | unsigned bits => simp [parseError, rejects]
  | duration =>
    simp only [parseError, rejects]
    cases time.ParseDuration frac v <;> rfl
  | bigInt =>
    simp only [parseError, rejects]
    cases big.SetString v <;> rfl
  | boolean => rfl

end genesis
namespace genesis
open opera

theorem configure_getField (frac : Nat → Nat → Nat → Nat) (order : List (String × ruleUpdater))
    (rules : Rules) (updates : NetworkRules)
    (hperm : order.Perm (supportedNetworkRulesConfigurations frac)) (k : String) :
    getField k (ConfigureNetworkRulesMap order rules updates).1 =
      match (supportedNetworkRulesConfigurations frac).lookup k, updates.lookup k with
      | some upd, some v => getField k (upd v rules).1
      | _, _ => getField k rules := by
  obtain ⟨hmem, hnodup⟩ := perm_registry frac order hperm
  have h := configureLoop_getField frac updates order (fun e he => (hmem e).mp he) hnodup
    rules [] k
  rw [lookup_perm frac order hperm] at h
  exact h

theorem configure_getField_present (frac : Nat → Nat → Nat → Nat)
    (order : List (String × ruleUpdater)) (rules : Rules) (updates : NetworkRules)
    (hperm : order.Perm (supportedNetworkRulesConfigurations frac))
    (k : String) (kind : Kind) (v : String)
    (hkind : keyKind k = some kind) (hv : updates.lookup k = some v) :
    ∃ old, getField k rules = some old ∧
      getField k (ConfigureNetworkRulesMap order rules updates).1 =
        some (applied frac kind v old) := by
  obtain ⟨upd, hupd⟩ := (keyKind_iff_registered frac k).mp ⟨kind, hkind⟩
  obtain ⟨kind', hkind', hspec⟩ := getField_own frac (k, upd) hupd
  have hkk : kind' = kind := by
    simp only at hkind'
    rw [hkind] at hkind'
    cases hkind'
    rfl
  subst hkk
  obtain ⟨⟨old, h1, h2⟩, _⟩ := hspec v rules
  refine ⟨old, h1, ?_⟩
  rw [configure_getField frac order rules updates hperm,
    lookup_of_mem _ (registry_nodup frac) k upd hupd, hv]
  exact h2

theorem configure_getField_absent (frac : Nat → Nat → Nat → Nat)
    (order : List (String × ruleUpdater)) (rules : Rules) (updates : NetworkRules)
    (hperm : order.Perm (supportedNetworkRulesConfigurations frac))
    (k : String) (hv : updates.lookup k = none) :
    getField k (ConfigureNetworkRulesMap order rules updates).1 = getField k rules := by
  rw [configure_getField frac order rules updates hperm, hv]
  cases (supportedNetworkRulesConfigurations frac).lookup k <;> rfl

theorem configure_error (frac : Nat → Nat → Nat → Nat) (order : List (String × ruleUpdater))
    (rules : Rules) (updates : NetworkRules)
    (hperm : order.Perm (supportedNetworkRulesConfigurations frac)) :
    (ConfigureNetworkRulesMap order rules updates).2 =
      errors.Join (order.filterMap
        (fun e => (updates.lookup e.1).map (keyError frac e.1))) := by
  obtain ⟨hmem, _⟩ := perm_registry frac order hperm
  unfold ConfigureNetworkRulesMap
  simp only
  rw [configureLoop_errs frac updates order (fun e he => (hmem e).mp he)]
  simp

theorem configure_error_ne_none_iff (frac : Nat → Nat → Nat → Nat)
    (order : List (String × ruleUpdater)) (rules : Rules) (updates : NetworkRules)
    (hperm : order.Perm (supportedNetworkRulesConfigurations frac)) :
    (ConfigureNetworkRulesMap order rules updates).2 ≠ none ↔
      ∃ k kind v, keyKind k = some kind ∧ updates.lookup k = some v ∧
        rejects frac kind v = true := by
  obtain ⟨hmem, _⟩ := perm_registry frac order hperm
  rw [configure_error frac order rules updates hperm, ne_eq, errors_Join_eq_none_iff]
  constructor
  · intro h
    by_contra hcon
    apply h
    intro x hx
    rw [List.mem_filterMap] at hx
    obtain ⟨e, he, hex⟩ := hx
    cases hu : updates.lookup e.1 with
    | none => rw [hu] at hex; cases hex
    | some v =>
      rw [hu] at hex
      simp only [Option.map_some', Option.some.injEq] at hex
      rw [← hex]
      obtain ⟨kind, hkind, _⟩ := getField_own frac e ((hmem e).mp he)
      cases herr : keyError frac e.1 v with
      | none => rfl
      | some err =>
        exfalso
        apply hcon
        refine ⟨e.1, kind, v, hkind, hu, ?_⟩
        rw [← parseError_isSome]
        simp only [keyError, hkind, Option.some_bind] at herr
        rw [herr]
        rfl
  · rintro ⟨k, kind, v, hkind, hu, hrej⟩ hall
    obtain ⟨upd, hupd⟩ := (keyKind_iff_registered frac k).mp ⟨kind, hkind⟩
    have hmem' : (k, upd) ∈ order := (hmem _).mpr hupd
    have hx : keyError frac k v ∈ order.filterMap
        (fun e => (updates.lookup e.1).map (keyError frac e.1)) := by
      rw [List.mem_filterMap]
      exact ⟨(k, upd), hmem', by simp [hu]⟩
    have hnone := hall _ hx
    rw [← parseError_isSome] at hrej
    simp only [keyError, hkind, Option.some_bind] at hnone
    rw [hnone] at hrej
    cases hrej

/-- C9: `ConfigureNetworkRulesMap`, for every order in which the registry is
visited, returns a non-nil error exactly when the updates hold a recognized
key whose value the parser of its kind rejects; the updaters of boolean keys
return nil; every recognized key present in the updates is applied, whatever
the other keys do; and the returned error joins the errors of all failing
keys, in the order of the visit. -/
theorem configure_error_iff_some_value_rejected (frac : Nat → Nat → Nat → Nat)
    (order : List (String × ruleUpdater)) (rules : Rules) (updates : NetworkRules)
    (hperm : order.Perm (supportedNetworkRulesConfigurations frac)) :
    ((ConfigureNetworkRulesMap order rules updates).2 ≠ none ↔
      ∃ k kind v, keyKind k = some kind ∧ updates.lookup k = some v ∧
        rejects frac kind v = true) ∧
    (∀ e ∈ supportedNetworkRulesConfigurations frac, keyKind e.1 = some .boolean →
      ∀ (v : String) (r : Rules), (e.2 v r).2 = none) ∧
    (∀ k kind v, keyKind k = some kind → updates.lookup k = some v →
      ∃ old, getField k rules = some old ∧
        getField k (ConfigureNetworkRulesMap order rules updates).1 =
          some (applied frac kind v old)) ∧
    (∀ errs, (ConfigureNetworkRulesMap order rules updates).2 = some errs →
      errs = order.filterMap (fun e => (updates.lookup e.1).bind (keyError frac e.1))) := by
  refine ⟨configure_error_ne_none_iff frac order rules updates hperm, ?_,
    fun k kind v => configure_getField_present frac order rules updates hperm k kind v, ?_⟩
  · intro e he hkind v r
    obtain ⟨kind, hkind', hspec⟩ := getField_own frac e he
    rw [hkind] at hkind'
    cases hkind'
    exact (hspec v r).2
  · intro errs herrs
    rw [configure_error frac order rules updates hperm] at herrs
    unfold errors.Join at herrs
    split at herrs
    · cases herrs
    · simp only [Option.some.injEq] at herrs
      rw [← herrs, List.filterMap_filterMap]
      congr 1
      funext e
      cases updates.lookup e.1 <;> rfl

/-- Witness of C9: the registry visited in the reverse order of its
registration, and an update with a rejected number, an unknown key and a valid
duration. -/
theorem configure_error_iff_some_value_rejected_witness :
    (ConfigureNetworkRulesMap (supportedNetworkRulesConfigurations exactFrac).reverse zeroRules
        [("MAX_BLOCK_GAS", "xxx"), ("INVALID_RULE", "1"), ("MAX_EPOCH_DURATION", "11s")]).2
        ≠ none ↔
      ∃ k kind v, keyKind k = some kind ∧
        List.lookup k
          [("MAX_BLOCK_GAS", "xxx"), ("INVALID_RULE", "1"), ("MAX_EPOCH_DURATION", "11s")]
          = some v ∧
        rejects exactFrac kind v = true :=
  (configure_error_iff_some_value_rejected exactFrac
    (supportedNetworkRulesConfigurations exactFrac).reverse zeroRules
    [("MAX_BLOCK_GAS", "xxx"), ("INVALID_RULE", "1"), ("MAX_EPOCH_DURATION", "11s")]
    (List.reverse_perm _)).1

end genesis
namespace genesis
open opera

theorem configure_single_error (frac : Nat → Nat → Nat → Nat)
    (order : List (String × ruleUpdater)) (rules : Rules)
    (hperm : order.Perm (supportedNetworkRulesConfigurations frac))
    (K : String) (kind : Kind) (v : String) (hkind : keyKind K = some kind)
    (hok : rejects frac kind v = false) :
    (ConfigureNetworkRulesMap order rules [(K, v)]).2 = none := by
  by_contra hne
  obtain ⟨k, kind', v', hk, hl, hrej⟩ :=
    (configure_error_ne_none_iff frac order rules [(K, v)] hperm).mp hne
  by_cases hkK : k = K
  · subst hkK
    simp only [List.lookup, beq_self_eq_true, Option.some.injEq] at hl
    subst hl
    rw [hkind] at hk
    cases hk
    rw [hok] at hrej
    cases hrej
  · have hbeq : (k == K) = false := by simpa using hkK
    simp [List.lookup, hbeq] at hl

/-- The kinds of the table: 64-bit numbers, and 32-bit numbers for the three
keys of the DAG rules. -/
theorem kindTable_widths :
    ∀ kk ∈ kindTable, ∀ bits, kk.2 = .unsigned bits →
      (bits = 64 ∧ kk.1 ∉ ["MAX_PARENTS", "MAX_FREE_PARENTS", "MAX_EXTRA_DATA"]) ∨
      (bits = 32 ∧ kk.1 ∈ ["MAX_PARENTS", "MAX_FREE_PARENTS", "MAX_EXTRA_DATA"]) := by
  intro kk hkk bits hb
  simp only [kindTable, List.mem_cons, List.mem_singleton, List.not_mem_nil, or_false] at hkk
  rcases hkk with rfl | rfl | rfl | rfl | rfl | rfl | rfl | rfl | rfl | rfl | rfl | rfl | rfl | rfl | rfl | rfl | rfl | rfl | rfl | rfl | rfl | rfl | rfl | rfl | rfl | rfl | rfl | rfl | rfl | rfl | rfl | rfl | rfl | rfl <;>
    first
    | (cases hb; decide)
    | cases hb

/-- A duration that `ParseDuration` returns and that is not negative fits 63
bits. -/
theorem ParseDuration_nonneg_lt (frac : Nat → Nat → Nat → Nat) (v : String) (d : Int)
    (h : time.ParseDuration frac v = .ok d) (hd : 0 ≤ d) : d < 2 ^ 63 := by
  unfold time.ParseDuration at h
  simp only at h
  split at h
  · cases h; norm_num
  · split at h
    · cases h
    · split at h
      · cases h
      · rename_i x hx
        split at h
        · cases h
          omega
        · split at h
          · cases h
          · cases h
            omega

/-- C8 (as amended): for every order in which the registry is visited, every
supported rule key `K` and every value of the kind of `K`,
`ConfigureNetworkRulesMap(rules, {K: render(x)})` returns nil and afterwards
the field of `K` holds: for an unsigned key and `n < 2 ^ 64` rendered in base
10, `n` reduced modulo `2 ^ bits` (`bits` is 64, and 32 for `MAX_PARENTS`,
`MAX_FREE_PARENTS` and `MAX_EXTRA_DATA`), hence `n` itself when
`n < 2 ^ bits`; for a duration key and a Go duration string, the duration in
nanoseconds converted to `uint64`, hence the duration itself when it is not
negative; for a big-integer key and an integer rendered in base 10, this
integer; for a boolean key, whether the value is the string `true`. -/
theorem configure_roundtrip (frac : Nat → Nat → Nat → Nat)
    (order : List (String × ruleUpdater)) (rules : Rules)
    (hperm : order.Perm (supportedNetworkRulesConfigurations frac))
    (K : String) (hK : IsSupportedNetworkRule K = true) :
    (∃ kind, keyKind K = some kind) ∧
    (∀ bits, keyKind K = some (.unsigned bits) →
      ((bits = 64 ∧ K ∉ ["MAX_PARENTS", "MAX_FREE_PARENTS", "MAX_EXTRA_DATA"]) ∨
        (bits = 32 ∧ K ∈ ["MAX_PARENTS", "MAX_FREE_PARENTS", "MAX_EXTRA_DATA"])) ∧
      ∀ n, n < 2 ^ 64 →
        (ConfigureNetworkRulesMap order rules [(K, Nat.repr n)]).2 = none ∧
        getField K (ConfigureNetworkRulesMap order rules [(K, Nat.repr n)]).1 =
          some (.uint (n % 2 ^ bits)) ∧
        (n < 2 ^ bits →
          getField K (ConfigureNetworkRulesMap order rules [(K, Nat.repr n)]).1 =
            some (.uint n))) ∧
    (keyKind K = some .duration →
      ∀ (v : String) (d : Int), time.ParseDuration frac v = .ok d →
        (ConfigureNetworkRulesMap order rules [(K, v)]).2 = none ∧
        getField K (ConfigureNetworkRulesMap order rules [(K, v)]).1 =
          some (.uint (toUint64 d)) ∧
        (0 ≤ d → ((toUint64 d : Nat) : Int) = d)) ∧
    (keyKind K = some .bigInt →
      ∀ x : Int,
        (ConfigureNetworkRulesMap order rules [(K, toString x)]).2 = none ∧
        getField K (ConfigureNetworkRulesMap order rules [(K, toString x)]).1 =
          some (.bigInt (some x))) ∧
    (keyKind K = some .boolean →
      ∀ v : String,
        (ConfigureNetworkRulesMap order rules [(K, v)]).2 = none ∧
        getField K (ConfigureNetworkRulesMap order rules [(K, v)]).1 =
          some (.bool (decide (v = "true")))) := by
  have hfield : ∀ kind v, keyKind K = some kind →
      ∃ old, getField K (ConfigureNetworkRulesMap order rules [(K, v)]).1 =
        some (applied frac kind v old) := by
    intro kind v hkind
    obtain ⟨old, _, h⟩ := configure_getField_present frac order rules [(K, v)] hperm K kind v
      hkind (by simp [List.lookup])
    exact ⟨old, h⟩
  refine ⟨(isSupported_iff K).mp hK, ?_, ?_, ?_, ?_⟩
  · intro bits hkind
    refine ⟨kindTable_widths (K, .unsigned bits) (mem_of_lookup _ _ _ hkind) bits rfl, ?_⟩
    intro n hn
    have hparse := ParseUint_repr n hn
    obtain ⟨old, hf⟩ := hfield _ (Nat.repr n) hkind
    have hval : getField K (ConfigureNetworkRulesMap order rules [(K, Nat.repr n)]).1 =
        some (.uint (n % 2 ^ bits)) := by
      rw [hf]
      simp only [applied, hparse]
    refine ⟨configure_single_error frac order rules hperm K _ _ hkind
      (by simp [rejects, hparse]), hval, fun hlt => ?_⟩
    rw [hval, Nat.mod_eq_of_lt hlt]
  · intro hkind v d hd
    obtain ⟨old, hf⟩ := hfield _ v hkind
    refine ⟨configure_single_error frac order rules hperm K _ _ hkind
      (by simp [rejects, hd, Except.toOption]), ?_, ?_⟩
    · rw [hf]
      simp only [applied, hd]
    · intro hd0
      unfold toUint64
      have hlt := ParseDuration_nonneg_lt frac v d hd hd0
      rw [Int.toNat_of_nonneg (Int.emod_nonneg _ (by norm_num))]
      exact Int.emod_eq_of_lt hd0 (by omega)
  · intro hkind x
    obtain ⟨old, hf⟩ := hfield _ (toString x) hkind
    have hparse := SetString_toString x
    refine ⟨configure_single_error frac order rules hperm K _ _ hkind
      (by simp [rejects, hparse]), ?_⟩
    rw [hf]
    simp only [applied, hparse]
  · intro hkind v
    obtain ⟨old, hf⟩ := hfield _ v hkind
    refine ⟨configure_single_error frac order rules hperm K _ _ hkind rfl, ?_⟩
    rw [hf]
    rfl

end genesis
namespace genesis
open opera

/-- Witness of C8: the key `MAX_BLOCK_GAS` and the value of the tests, with the
registry visited in the reverse order of its registration. -/
theorem configure_roundtrip_witness :
    IsSupportedNetworkRule "MAX_BLOCK_GAS" = true ∧
    (ConfigureNetworkRulesMap (supportedNetworkRulesConfigurations exactFrac).reverse
      zeroRules [("MAX_BLOCK_GAS", Nat.repr 2000000)]).2 = none ∧
    getField "MAX_BLOCK_GAS"
      (ConfigureNetworkRulesMap (supportedNetworkRulesConfigurations exactFrac).reverse
        zeroRules [("MAX_BLOCK_GAS", Nat.repr 2000000)]).1 = some (.uint 2000000) :=
  ⟨by decide,
    (((configure_roundtrip exactFrac (supportedNetworkRulesConfigurations exactFrac).reverse
      zeroRules (List.reverse_perm _) "MAX_BLOCK_GAS" (by decide)).2.1 64 (by decide)).2
        2000000 (by norm_num)).1,
    (((configure_roundtrip exactFrac (supportedNetworkRulesConfigurations exactFrac).reverse
      zeroRules (List.reverse_perm _) "MAX_BLOCK_GAS" (by decide)).2.1 64 (by decide)).2
        2000000 (by norm_num)).2.2 (by norm_num)⟩

/-- C8 (counterexample): `MAX_EXTRA_DATA` is a supported unsigned-integer key
and `4294967296 < 2 ^ 64`, yet after configuring it with `4294967296` the
field holds `0`; and the duration key `MAX_EPOCH_DURATION` configured with the
Go duration string `-1ns` (the duration `-1`) holds `2 ^ 64 - 1`. -/
theorem configure_roundtrip_counterexample :
    IsSupportedNetworkRule "MAX_EXTRA_DATA" = true ∧
    keyKind "MAX_EXTRA_DATA" = some (.unsigned 32) ∧
    Nat.repr 4294967296 = "4294967296" ∧
    (ConfigureNetworkRulesMap (supportedNetworkRulesConfigurations exactFrac) zeroRules
      [("MAX_EXTRA_DATA", "4294967296")]).2 = none ∧
    getField "MAX_EXTRA_DATA"
      (ConfigureNetworkRulesMap (supportedNetworkRulesConfigurations exactFrac) zeroRules
        [("MAX_EXTRA_DATA", "4294967296")]).1 = some (.uint 0) ∧
    time.ParseDuration exactFrac "-1ns" = .ok (-1) ∧
    getField "MAX_EPOCH_DURATION"
      (ConfigureNetworkRulesMap (supportedNetworkRulesConfigurations exactFrac) zeroRules
        [("MAX_EPOCH_DURATION", "-1ns")]).1 = some (.uint 18446744073709551615) := by
  refine ⟨by decide, by decide, by decide, by decide, by decide, by decide, by decide⟩

theorem configureLoop_absent (updates : NetworkRules) (order : List (String × ruleUpdater))
    (h : ∀ e ∈ order, updates.lookup e.1 = none) :
    ∀ (r : Rules) (errs : List (Option Error)),
      configureLoop updates order r errs = (r, errs) := by
  induction order with
  | nil => intro r errs; rfl
  | cons a rest ih =>
    intro r errs
    obtain ⟨k0, u0⟩ := a
    have h0 : updates.lookup k0 = none := h (k0, u0) (List.mem_cons_self _ _)
    simp only [configureLoop, h0]
    exact ih (fun e he => h e (List.mem_cons_of_mem _ he)) r errs

/-- C10: `ConfigureNetworkRulesMap`, for every order in which the registry is
visited, changes only the fields of the recognized keys present in the
updates: the field of a key that is not present keeps its value, as do the
name and the network id; a key outside the vocabulary has no field and adding
it to the updates changes neither the resulting rules nor the error; updates
without a recognized key leave the rules as they are and give no error; and a
single key changes no field other than its own. -/
theorem configure_changes_only_present_keys (frac : Nat → Nat → Nat → Nat)
    (order : List (String × ruleUpdater)) (rules : Rules) (updates : NetworkRules)
    (hperm : order.Perm (supportedNetworkRulesConfigurations frac)) :
    (∀ k, updates.lookup k = none →
      getField k (ConfigureNetworkRulesMap order rules updates).1 = getField k rules) ∧
    ((ConfigureNetworkRulesMap order rules updates).1.Name = rules.Name ∧
      (ConfigureNetworkRulesMap order rules updates).1.NetworkID = rules.NetworkID) ∧
    (∀ k v, IsSupportedNetworkRule k = false →
      getField k rules = none ∧
      ConfigureNetworkRulesMap order rules ((k, v) :: updates) =
        ConfigureNetworkRulesMap order rules updates) ∧
    ((∀ k, IsSupportedNetworkRule k = true → updates.lookup k = none) →
      ConfigureNetworkRulesMap order rules updates = (rules, none)) ∧
    (∀ K v k, k ≠ K →
      getField k (ConfigureNetworkRulesMap order rules [(K, v)]).1 = getField k rules) := by
  obtain ⟨hmem, _⟩ := perm_registry frac order hperm
  have hsupported : ∀ e ∈ order, IsSupportedNetworkRule e.1 = true := by
    intro e he
    rw [isSupported_iff, keyKind_iff_registered frac]
    exact ⟨e.2, (hmem e).mp he⟩
  refine ⟨fun k hk => configure_getField_absent frac order rules updates hperm k hk,
    configureLoop_name frac updates order (fun e he => (hmem e).mp he) rules [], ?_, ?_, ?_⟩
  · intro k v hk
    constructor
    · unfold getField
      have hnot : k ∉ fieldTable.map Prod.fst := by
        rw [fieldTable_keys]
        intro hin
        obtain ⟨kk, hkk, hkeq⟩ := List.mem_map.mp hin
        have : IsSupportedNetworkRule k = true := by
          rw [isSupported_iff]
          exact ⟨kk.2, by rw [← hkeq]; exact lookup_of_mem _ kindTable_nodup _ _ hkk⟩
        rw [hk] at this
        cases this
      rw [lookup_eq_none_of_not_mem _ _ hnot]
      rfl
    · unfold ConfigureNetworkRulesMap
      rw [configureLoop_congr ((k, v) :: updates) updates order]
      intro e he
      have hne : e.1 ≠ k := by
        intro heq
        have := hsupported e he
        rw [heq, hk] at this
        cases this
      have hbeq : (e.1 == k) = false := by simpa using hne
      simp only [List.lookup, hbeq]
  · intro hnone
    unfold ConfigureNetworkRulesMap
    rw [configureLoop_absent updates order (fun e he => hnone e.1 (hsupported e he))]
    rfl
  · intro K v k hne
    apply configure_getField_absent frac order rules [(K, v)] hperm k
    have hbeq : (k == K) = false := by simpa using hne
    simp only [List.lookup, hbeq]

/-- Witness of C10: the registry visited in the reverse order of its
registration; the update holds a recognized key and an unknown key. -/
theorem configure_changes_only_present_keys_witness :
    ConfigureNetworkRulesMap (supportedNetworkRulesConfigurations exactFrac).reverse zeroRules
        [("INVALID_RULE", "1"), ("MAX_BLOCK_GAS", "2000000")] =
      ConfigureNetworkRulesMap (supportedNetworkRulesConfigurations exactFrac).reverse
        zeroRules [("MAX_BLOCK_GAS", "2000000")] ∧
    getField "MAX_EPOCH_GAS"
      (ConfigureNetworkRulesMap (supportedNetworkRulesConfigurations exactFrac).reverse
        zeroRules [("INVALID_RULE", "1"), ("MAX_BLOCK_GAS", "2000000")]).1 =
      getField "MAX_EPOCH_GAS" zeroRules :=
  ⟨((configure_changes_only_present_keys exactFrac
      (supportedNetworkRulesConfigurations exactFrac).reverse zeroRules
      [("MAX_BLOCK_GAS", "2000000")] (List.reverse_perm _)).2.2.1
        "INVALID_RULE" "1" (by decide)).2,
    (configure_changes_only_present_keys exactFrac
      (supportedNetworkRulesConfigurations exactFrac).reverse zeroRules
      [("INVALID_RULE", "1"), ("MAX_BLOCK_GAS", "2000000")] (List.reverse_perm _)).1
        "MAX_EPOCH_GAS" (by decide)⟩

end genesis
namespace checking

theorem exists_first_split {α : Type} (p : α → Prop) (l : List α) (h : ∃ x ∈ l, p x) :
    ∃ pre n post, l = pre ++ n :: post ∧ p n ∧ ∀ m ∈ pre, ¬ p m := by
  classical
  induction l with
  | nil => obtain ⟨x, hx, _⟩ := h; simp at hx
  | cons a t ih =>
    by_cases ha : p a
    · exact ⟨[], a, t, rfl, ha, by simp⟩
    · have ht : ∃ x ∈ t, p x := by
        obtain ⟨x, hx, hp⟩ := h
        rcases List.mem_cons.mp hx with rfl | hx'
        · exact absurd hp ha
        · exact ⟨x, hx', hp⟩
      obtain ⟨pre, n, post, hl, hn, hpre⟩ := ih ht
      refine ⟨a :: pre, n, post, by rw [hl]; rfl, hn, ?_⟩
      intro m hm
      rcases List.mem_cons.mp hm with rfl | hm'
      · exact ha
      · exact hpre m hm'

theorem collectHeights_first_low (pre post : List Node) (n : Node) (h : Int)
    (hn : getBlockHeight n = .ok h) (hlow : h ≤ 1) :
    ∀ (m : Int) (ef : Finset String),
      (∀ x ∈ pre, ∃ hx, getBlockHeight x = .ok hx ∧ 2 ≤ hx) →
      blockHeightChecker.collectHeights (pre ++ n :: post) m ef =
        .error (if h = 1 then .onlyGenesis n.GetLabel else .invalidBlock n.GetLabel h) := by
  induction pre with
  | nil =>
    intro m ef _
    by_cases h1 : h = 1
    · simp [blockHeightChecker.collectHeights, hn, h1]
    · have h2 : h < 1 := by omega
      simp [blockHeightChecker.collectHeights, hn, h1, h2]
  | cons a t ih =>
    intro m ef hpre
    obtain ⟨ha, hha, ha2⟩ := hpre a (List.mem_cons_self _ _)
    have ht := ih (if m < ha then ha else m)
      (if a.IsExpectedFailure then insert a.GetLabel ef else ef)
      (fun x hx => hpre x (List.mem_cons_of_mem _ hx))
    have h1 : ha ≠ 1 := by omega
    have h1' : ¬ ha < 1 := by omega
    simp only [List.cons_append, blockHeightChecker.collectHeights, hha, h1, h1', if_false,
      List.append_eq, ht]

/-- C14 (as amended): when every height query succeeds and some node reports a
height of at most 1, `blockHeightChecker.Check` fails, and the error is that
of the first such node of the list: only-genesis if its height is exactly 1,
invalid-block if it is below 1, whether or not the node is marked
expected-failure. -/
theorem blockHeight_check_fails_on_low_height (nodes : List Node)
    (hrpc : ∀ n ∈ nodes, ∃ h, getBlockHeight n = .ok h)
    (hlow : ∃ n ∈ nodes, heightOf n ≤ 1) :
    blockHeightChecker.Check nodes ≠ none ∧
    ∃ pre n post, nodes = pre ++ n :: post ∧ (∀ m ∈ pre, 2 ≤ heightOf m) ∧
      heightOf n ≤ 1 ∧
      blockHeightChecker.Check nodes =
        some (if heightOf n = 1 then .onlyGenesis n.GetLabel
          else .invalidBlock n.GetLabel (heightOf n)) := by
  obtain ⟨pre, n, post, hl, hn, hpre⟩ := exists_first_split (fun x => heightOf x ≤ 1) nodes hlow
  have hmem : n ∈ nodes := by rw [hl]; simp
  obtain ⟨h, hh⟩ := hrpc n hmem
  have hheight : heightOf n = h := by simp [heightOf, hh]
  have hpre' : ∀ x ∈ pre, ∃ hx, getBlockHeight x = .ok hx ∧ 2 ≤ hx := by
    intro x hx
    obtain ⟨hx', hhx⟩ := hrpc x (by rw [hl]; exact List.mem_append_left _ hx)
    have := hpre x hx
    simp only [heightOf, hhx, not_le] at this
    exact ⟨hx', hhx, by omega⟩
  have hcheck : blockHeightChecker.Check nodes =
      some (if heightOf n = 1 then .onlyGenesis n.GetLabel
        else .invalidBlock n.GetLabel (heightOf n)) := by
    unfold blockHeightChecker.Check
    rw [hl, collectHeights_first_low pre post n h hh (by rw [← hheight]; exact hn) 0 ∅ hpre',
      hheight]
  refine ⟨by rw [hcheck]; simp, pre, n, post, hl, ?_, hn, hcheck⟩
  intro m hm
  have := hpre m hm
  simp only [not_le] at this
  omega

theorem lowHeightExample_rpc : ∀ n ∈ lowHeightExample, ∃ h, getBlockHeight n = .ok h := by
  intro n hn
  simp only [lowHeightExample, List.mem_cons, List.mem_singleton, List.mem_nil_iff,
    or_false] at hn
  rcases hn with rfl | rfl
  · exact ⟨0, by decide⟩
  · exact ⟨1, by decide⟩

/-- Witness of C14: the node `A` at height 0 precedes the node `B` at height
1. -/
theorem blockHeight_check_fails_on_low_height_witness :
    blockHeightChecker.Check lowHeightExample ≠ none :=
  (blockHeight_check_fails_on_low_height lowHeightExample lowHeightExample_rpc
    ⟨⟨"A", false, .ok ⟨.ok "0x0", fun _ => .ok none⟩⟩, by simp [lowHeightExample],
      by decide⟩).1

/-- C14 (counterexample): every height query succeeds and the node `B` reports
the height 1, yet `Check` does not report only-genesis for `B`: it reports the
invalid block 0 of the node `A`. -/
theorem blockHeight_low_height_counterexample :
    (∀ n ∈ lowHeightExample, ∃ h, getBlockHeight n = .ok h) ∧
    (∃ n ∈ lowHeightExample, n.GetLabel = "B" ∧ getBlockHeight n = .ok 1) ∧
    blockHeightChecker.Check lowHeightExample = some (.invalidBlock "A" 0) ∧
    blockHeightChecker.Check lowHeightExample ≠ some (.onlyGenesis "B") := by
  refine ⟨lowHeightExample_rpc, ?_, by decide, by decide⟩
  exact ⟨⟨"B", false, .ok ⟨.ok "0x1", fun _ => .ok none⟩⟩, by simp [lowHeightExample], rfl,
    by decide⟩

theorem maxHeightOf_perm (l l' : List Node) (h : l.Perm l') :
    maxHeightOf l = maxHeightOf l' := by
  unfold maxHeightOf
  have hp : (l.map heightOf).Perm (l'.map heightOf) := h.map _
  haveI : RightCommutative (max : Int → Int → Int) := ⟨fun a b c => by
    rw [max_assoc, max_comm b c, ← max_assoc]⟩
  exact hp.foldl_eq 0

theorem blockHeight_verdict_without_expected (nodes : List Node)
    (hnoEF : ∀ n ∈ nodes, n.IsExpectedFailure = false)
    (hheights : ∀ n ∈ nodes, ∃ h, getBlockHeight n = .ok h ∧ 2 ≤ h) :
    (blockHeightChecker.Check nodes = none ↔
      ¬ ∃ n ∈ nodes, heightOf n < maxHeightOf nodes - 1) ∧
    ((∃ label h m, blockHeightChecker.Check nodes = some (.tooOldBlock label h m)) ↔
      ∃ n ∈ nodes, heightOf n < maxHeightOf nodes - 1) := by
  by_cases hlag : ∃ n ∈ nodes, heightOf n < maxHeightOf nodes - 1
  · have hbad : ∃ n ∈ nodes, isLagger nodes n = true ∧ n.IsExpectedFailure = false := by
      obtain ⟨n, hn, h⟩ := hlag
      exact ⟨n, hn, by simpa [isLagger] using h, hnoEF n hn⟩
    obtain ⟨n, _, _, _, hcheck⟩ := check_of_unexpected_lagger nodes hheights hbad
    refine ⟨?_, ?_⟩
    · rw [hcheck]; simp [hlag]
    · exact ⟨fun _ => hlag, fun _ => ⟨_, _, _, hcheck⟩⟩
  · have hgood : ∀ n ∈ nodes, isLagger nodes n = true → n.IsExpectedFailure = true := by
      intro n hn hl
      exact absurd ⟨n, hn, by simpa [isLagger] using hl⟩ hlag
    have hcheck := check_of_no_unexpected_lagger nodes hheights hgood
    have h1 : labelsOf (isLagger nodes) nodes = ∅ := by
      ext s
      simp only [mem_labelsOf, Finset.not_mem_empty, iff_false, not_exists, not_and]
      intro n hn hl
      exact absurd ⟨n, hn, by simpa [isLagger] using hl⟩ hlag
    have h2 : labelsOf Node.IsExpectedFailure nodes = ∅ := by
      ext s
      simp only [mem_labelsOf, Finset.not_mem_empty, iff_false, not_exists, not_and]
      intro n hn hef
      rw [hnoEF n hn] at hef
      cases hef
    rw [h1, h2] at hcheck
    simp only [ne_eq, not_true_eq_false, if_false] at hcheck
    refine ⟨by simp [hcheck, hlag], ?_⟩
    constructor
    · rintro ⟨l, h, m, heq⟩
      rw [hcheck] at heq
      cases heq
    · intro h; exact absurd h hlag

/-- C15: for nodes none of which is marked expected-failure, all reporting
heights of at least 2, `blockHeightChecker.Check` fails with a too-old-block
error exactly when some node is below `maxHeight - 1`, and passes otherwise;
both verdicts are the same for every permutation of the list. -/
theorem blockHeight_check_too_old_iff_lagger (nodes : List Node)
    (hnoEF : ∀ n ∈ nodes, n.IsExpectedFailure = false)
    (hheights : ∀ n ∈ nodes, ∃ h, getBlockHeight n = .ok h ∧ 2 ≤ h) :
    ((∃ label h m, blockHeightChecker.Check nodes = some (.tooOldBlock label h m)) ↔
      ∃ n ∈ nodes, heightOf n < maxHeightOf nodes - 1) ∧
    ((¬ ∃ n ∈ nodes, heightOf n < maxHeightOf nodes - 1) →
      blockHeightChecker.Check nodes = none) ∧
    (∀ nodes' : List Node, nodes'.Perm nodes →
      (blockHeightChecker.Check nodes' = none ↔ blockHeightChecker.Check nodes = none) ∧
      ((∃ label h m, blockHeightChecker.Check nodes' = some (.tooOldBlock label h m)) ↔
        ∃ label h m, blockHeightChecker.Check nodes = some (.tooOldBlock label h m))) := by
  obtain ⟨hnone, hold⟩ := blockHeight_verdict_without_expected nodes hnoEF hheights
  refine ⟨hold, fun h => hnone.mpr h, ?_⟩
  intro nodes' hperm
  obtain ⟨hnone', hold'⟩ := blockHeight_verdict_without_expected nodes'
    (fun n hn => hnoEF n (hperm.mem_iff.mp hn))
    (fun n hn => hheights n (hperm.mem_iff.mp hn))
  have hmax := maxHeightOf_perm nodes' nodes hperm
  have hlag : (∃ n ∈ nodes', heightOf n < maxHeightOf nodes' - 1) ↔
      ∃ n ∈ nodes, heightOf n < maxHeightOf nodes - 1 := by
    rw [hmax]
    constructor
    · rintro ⟨n, hn, h⟩; exact ⟨n, hperm.mem_iff.mp hn, h⟩
    · rintro ⟨n, hn, h⟩; exact ⟨n, hperm.mem_iff.mpr hn, h⟩
  exact ⟨by rw [hnone', hnone, hlag], by rw [hold', hold, hlag]⟩

theorem tooOldExample_heights :
    ∀ n ∈ tooOldExample, ∃ h, getBlockHeight n = .ok h ∧ 2 ≤ h := by
  intro n hn
  simp only [tooOldExample, List.mem_cons, List.mem_singleton, List.mem_nil_iff,
    or_false] at hn
  rcases hn with rfl | rfl
  · exact ⟨0x1234, by decide, by decide⟩
  · exact ⟨0x42, by decide, by decide⟩

/-- Witness of C15: the heights `0x1234` and `0x42` of the tests. -/
theorem blockHeight_check_too_old_iff_lagger_witness :
    (∃ label h m, blockHeightChecker.Check tooOldExample = some (.tooOldBlock label h m)) ↔
      ∃ n ∈ tooOldExample, heightOf n < maxHeightOf tooOldExample - 1 :=
  (blockHeight_check_too_old_iff_lagger tooOldExample (by decide) tooOldExample_heights).1

end checking

namespace checking

theorem dialAll_of_dialable (nodes : List Node) :
    ∀ ef : Finset String, (∀ n ∈ nodes, ∃ c, n.DialRpc = .ok c) →
      blocksHashesChecker.dialAll nodes ef =
        .ok (nodes.map clientOf, ef ∪ labelsOf Node.IsExpectedFailure nodes) := by
  induction nodes with
  | nil => intro ef _; simp [blocksHashesChecker.dialAll, labelsOf]
  | cons n rest ih =>
    intro ef hall
    obtain ⟨c, hc⟩ := hall n (List.mem_cons_self _ _)
    have hrest : ∀ x ∈ rest, ∃ c, x.DialRpc = .ok c :=
      fun x hx => hall x (List.mem_cons_of_mem _ hx)
    simp only [blocksHashesChecker.dialAll, hc]
    rw [ih _ hrest]
    cases hef : n.IsExpectedFailure <;>
      simp [labelsOf_cons, hef, clientOf, hc, Finset.insert_eq, Finset.union_assoc,
        Finset.union_comm, Finset.union_left_comm]

theorem dialAll_of_undialable (nodes : List Node) :
    ∀ ef : Finset String, (∃ n ∈ nodes, ∀ c, n.DialRpc ≠ .ok c) →
      ∃ e, blocksHashesChecker.dialAll nodes ef = .error e := by
  induction nodes with
  | nil => intro ef h; obtain ⟨n, hn, _⟩ := h; simp at hn
  | cons a rest ih =>
    intro ef hex
    cases ha : a.DialRpc with
    | error err =>
      exact ⟨.failedToDialRpc a.GetLabel (.external err),
        by simp [blocksHashesChecker.dialAll, ha]⟩
    | ok c =>
      have hrest : ∃ n ∈ rest, ∀ c, n.DialRpc ≠ .ok c := by
        obtain ⟨n, hn, h⟩ := hex
        rcases List.mem_cons.mp hn with rfl | hn'
        · exact absurd ha (h c)
        · exact ⟨n, hn', h⟩
      obtain ⟨e, he⟩ := ih (if a.IsExpectedFailure then insert a.GetLabel ef else ef) hrest
      exact ⟨e, by simp [blocksHashesChecker.dialAll, ha, he]⟩

theorem fetchGood_blockOf (b : Nat) (n : Node) (h : fetchGood b n) :
    blocksHashesChecker.getBlockHashes (clientOf n) b = .ok (blockOf n b) ∧
      ¬ (blockOf n b = none ∧ b ≤ 2) := by
  obtain ⟨c, hc, x, hx, hguard⟩ := h
  have hb : blockOf n b = x := by simp [blockOf, hc, hx]
  refine ⟨by simp [blocksHashesChecker.getBlockHashes, clientOf, hc, hx, hb], ?_⟩
  rw [hb]; exact hguard

theorem not_fetchGood_cases (b : Nat) (n : Node) (h : ¬ fetchGood b n) :
    (∃ e, blocksHashesChecker.getBlockHashes (clientOf n) b = .error e) ∨
      (blocksHashesChecker.getBlockHashes (clientOf n) b = .ok none ∧ b ≤ 2) := by
  cases hd : n.DialRpc with
  | error err =>
    left
    exact ⟨.failedToGetBlockStateRoot (.external err),
      by simp [blocksHashesChecker.getBlockHashes, clientOf, hd]⟩
  | ok c =>
    cases hx : c.ethGetBlockByNumber b with
    | error err =>
      left
      exact ⟨.failedToGetBlockStateRoot (.external err),
        by simp [blocksHashesChecker.getBlockHashes, clientOf, hd, hx]⟩
    | ok x =>
      right
      have hguard : x = none ∧ b ≤ 2 := by
        by_contra hcon
        exact h ⟨c, hd, x, hx, hcon⟩
      refine ⟨by simp [blocksHashesChecker.getBlockHashes, clientOf, hd, hx, hguard.1],
        hguard.2⟩

theorem fetchBlocks_of_good (b : Nat) (l : List Node) (hgood : ∀ n ∈ l, fetchGood b n) :
    blocksHashesChecker.fetchBlocks b (l.map (fun n => (n, clientOf n))) =
      .ok (l.map (fun n => blockOf n b), l.countP (fun n => decide (blockOf n b = none))) := by
  induction l with
  | nil => simp [blocksHashesChecker.fetchBlocks]
  | cons a t ih =>
    have ht := ih (fun n hn => hgood n (List.mem_cons_of_mem _ hn))
    obtain ⟨hget, hguard⟩ := fetchGood_blockOf b a (hgood a (List.mem_cons_self _ _))
    simp only [List.map_cons, blocksHashesChecker.fetchBlocks, hget, hguard, if_false, ht]
    by_cases hnone : blockOf a b = none
    · simp [hnone, List.countP_cons]
    · simp [hnone, List.countP_cons]

/-- The fetch stops at the first node whose query fails or whose block is a
missing one of the blocks 0, 1 and 2. -/
theorem fetchBlocks_first_bad (b : Nat) (pre post : List Node) (n : Node)
    (hpre : ∀ m ∈ pre, fetchGood b m) (hn : ¬ fetchGood b n) :
    blocksHashesChecker.fetchBlocks b ((pre ++ n :: post).map (fun n => (n, clientOf n))) =
      match blocksHashesChecker.getBlockHashes (clientOf n) b with
      | .error err => .error (.failedToGetBlockDetail b n.GetLabel err)
      | .ok _ => .error (.blockDoesNotExist b n.GetLabel) := by
  induction pre with
  | nil =>
    rcases not_fetchGood_cases b n hn with ⟨e, he⟩ | ⟨hnil, hb⟩
    · simp [blocksHashesChecker.fetchBlocks, he]
    · simp [blocksHashesChecker.fetchBlocks, hnil, hb]
  | cons a t ih =>
    have ht := ih (fun m hm => hpre m (List.mem_cons_of_mem _ hm))
    obtain ⟨hget, hguard⟩ := fetchGood_blockOf b a (hpre a (List.mem_cons_self _ _))
    simp only [List.cons_append, List.map_cons, blocksHashesChecker.fetchBlocks, hget, hguard,
      if_false, List.append_eq, ht]
    cases blocksHashesChecker.getBlockHashes (clientOf n) b <;> rfl

theorem fetchBlocks_of_bad (b : Nat) (l : List Node) (hbad : ∃ n ∈ l, ¬ fetchGood b n) :
    ∃ e, blocksHashesChecker.fetchBlocks b (l.map (fun n => (n, clientOf n))) = .error e := by
  obtain ⟨pre, n, post, hl, hn, hpre⟩ := exists_first_split (fun n => ¬ fetchGood b n) l hbad
  have := fetchBlocks_first_bad b pre post n (fun m hm => by simpa using hpre m hm) hn
  rw [hl, this]
  cases blocksHashesChecker.getBlockHashes (clientOf n) b <;> exact ⟨_, rfl⟩

theorem walk_of_bad (nodes : List Node) (ef got : Finset String) (fuel b : Nat)
    (hbad : ∃ n ∈ nodes, ¬ fetchGood b n) :
    ∃ e, blocksHashesChecker.walk nodes (nodes.map clientOf) ef (fuel + 1) b got =
      some (some e) := by
  obtain ⟨e, he⟩ := fetchBlocks_of_bad b nodes hbad
  exact ⟨e, by simp only [blocksHashesChecker.walk, zip_map_eq, he]⟩

theorem walk_of_end (nodes : List Node) (ef got : Finset String) (fuel b : Nat)
    (hgood : ∀ n ∈ nodes, fetchGood b n) (hnone : ∀ n ∈ nodes, blockOf n b = none) :
    blocksHashesChecker.walk nodes (nodes.map clientOf) ef (fuel + 1) b got =
      if got ≠ ef then some (some (.unexpectedFailureSetHashes got ef)) else some none := by
  have hcount : nodes.countP (fun n => decide (blockOf n b = none)) = nodes.length := by
    rw [List.countP_eq_length]
    intro n hn
    simpa using hnone n hn
  simp only [blocksHashesChecker.walk, zip_map_eq, fetchBlocks_of_good b nodes hgood, hcount,
    if_true]

theorem walk_of_served (nodes : List Node) (ef got : Finset String) (fuel b : Nat)
    (hgood : ∀ n ∈ nodes, fetchGood b n) (hsome : ∃ n ∈ nodes, blockOf n b ≠ none) :
    blocksHashesChecker.walk nodes (nodes.map clientOf) ef (fuel + 1) b got =
      match blocksHashesChecker.compareBlocks (referenceOf nodes b) b
          (nodes.map (fun n => (n, blockOf n b))) got with
      | .error err => some (some err)
      | .ok got' =>
        blocksHashesChecker.walk nodes (nodes.map clientOf) ef fuel ((b + 1) % 2 ^ 64) got' := by
  have hcount : nodes.countP (fun n => decide (blockOf n b = none)) ≠ nodes.length := by
    intro h
    rw [List.countP_eq_length] at h
    obtain ⟨n, hn, hne⟩ := hsome
    exact hne (by simpa using h n hn)
  simp only [blocksHashesChecker.walk, zip_map_eq, fetchBlocks_of_good b nodes hgood, hcount,
    if_false, findReference_eq]

theorem not_agreeAt_iff (nodes : List Node) (b : Nat) :
    ¬ agreeAt nodes b ↔
      ∃ n ∈ nodes, n.IsExpectedFailure = false ∧
        ∃ x, blockOf n b = some x ∧ x ≠ referenceOf nodes b := by
  unfold agreeAt
  push_neg
  rfl

end checking

namespace checking

/-- C13: for nodes with pairwise distinct labels that are all marked
expected-failure and can be dialed, `blocksHashesChecker.Check` returns nil
for every fuel, also for none: the walk over the blocks is not entered,
whatever blocks the nodes serve. -/
theorem blocksHashes_check_all_expected (nodes : List Node)
    (hlabels : (nodes.map Node.GetLabel).Nodup)
    (hEF : ∀ n ∈ nodes, n.IsExpectedFailure = true)
    (hdial : ∀ n ∈ nodes, ∃ c, n.DialRpc = .ok c) :
    ∀ fuel, blocksHashesChecker.Check fuel nodes = some none := by
  intro fuel
  have hfilter : nodes.filter Node.IsExpectedFailure = nodes :=
    List.filter_eq_self.mpr hEF
  have hcard : (labelsOf Node.IsExpectedFailure nodes).card = nodes.length := by
    unfold labelsOf
    rw [hfilter, List.toFinset_card_of_nodup hlabels, List.length_map]
  unfold blocksHashesChecker.Check
  rw [dialAll_of_dialable nodes ∅ hdial]
  simp only [Finset.empty_union, hcard, if_true]

/-- Witness of C13: three expected-failure nodes with different chains, and no
fuel. -/
theorem blocksHashes_check_all_expected_witness :
    blocksHashesChecker.Check 0 allExpectedExample = some none :=
  blocksHashes_check_all_expected allExpectedExample (by decide) (by decide)
    (by
      intro n hn
      simp only [allExpectedExample, List.mem_cons, List.mem_singleton, List.mem_nil_iff,
        or_false] at hn
      rcases hn with rfl | rfl | rfl <;> exact ⟨_, rfl⟩) 0

theorem check_eq_walk_of_dialable (nodes : List Node) (fuel : Nat)
    (hdial : ∀ n ∈ nodes, ∃ c, n.DialRpc = .ok c)
    (hnonEF : ∃ n ∈ nodes, n.IsExpectedFailure = false) :
    blocksHashesChecker.Check fuel nodes =
      blocksHashesChecker.walk nodes (nodes.map clientOf)
        (labelsOf Node.IsExpectedFailure nodes) fuel 0 ∅ := by
  have hcard : (labelsOf Node.IsExpectedFailure nodes).card ≠ nodes.length := by
    have h1 : (labelsOf Node.IsExpectedFailure nodes).card ≤
        ((nodes.filter Node.IsExpectedFailure).map Node.GetLabel).length :=
      List.toFinset_card_le _
    have h2 : (nodes.filter Node.IsExpectedFailure).length < nodes.length := by
      rw [List.length_filter_lt_length_iff_exists]
      obtain ⟨n, hn, hef⟩ := hnonEF
      exact ⟨n, hn, by simp [hef]⟩
    rw [List.length_map] at h1
    omega
  unfold blocksHashesChecker.Check
  rw [dialAll_of_dialable nodes ∅ hdial]
  simp only [Finset.empty_union, hcard, if_false]

/-- The walk passes the blocks below `b` when their queries go through, some
node serves each of them and the nodes agree on them. -/
theorem walk_reaches_of_good (nodes : List Node) (ef : Finset String) (b : Nat)
    (hb : b < 2 ^ 64)
    (hbefore : ∀ c < b, (∀ m ∈ nodes, fetchGood c m) ∧
      (∃ m ∈ nodes, blockOf m c ≠ none) ∧ agreeAt nodes c) :
    ∀ (k c fuel : Nat) (got : Finset String), c + k = b →
      ∃ got', blocksHashesChecker.walk nodes (nodes.map clientOf) ef (fuel + k) c got =
        blocksHashesChecker.walk nodes (nodes.map clientOf) ef fuel b got' := by
  intro k
  induction k with
  | zero =>
    intro c fuel got hc
    have : c = b := by omega
    subst this
    exact ⟨got, rfl⟩
  | succ k ih =>
    intro c fuel got hc
    have hcb : c < b := by omega
    have hmod : (c + 1) % 2 ^ 64 = c + 1 := Nat.mod_eq_of_lt (by omega)
    obtain ⟨got', hgot'⟩ := ih (c + 1) fuel
      (got ∪ labelsOf (fun n => n.IsExpectedFailure && failsAt nodes c n) nodes) (by omega)
    refine ⟨got', ?_⟩
    rw [← hgot', ← Nat.add_assoc, walk_of_served nodes _ _ _ _ (hbefore c hcb).1
      (hbefore c hcb).2.1, compareBlocks_ok nodes c nodes got (hbefore c hcb).2.2, hmod]

end checking

namespace checking

theorem check_eq_some_doesNotMatch (r y : blockHashes) (b : Nat) (h : y ≠ r) :
    ∃ field, blocksHashesChecker.check r y b = some (.doesNotMatch field b) := by
  cases hc : blocksHashesChecker.check r y b with
  | none => exact absurd ((check_eq_none_iff r y b).mp hc) h
  | some e =>
    unfold blocksHashesChecker.check at hc
    split at hc
    · exact ⟨_, by rw [← hc]⟩
    · split at hc
      · exact ⟨_, by rw [← hc]⟩
      · split at hc
        · exact ⟨_, by rw [← hc]⟩
        · cases hc

theorem compareBlocks_mismatch_error (r : blockHashes) (b : Nat) (l : List Node)
    (got : Finset String)
    (h : ∃ n ∈ l, n.IsExpectedFailure = false ∧ ∃ x, blockOf n b = some x ∧ x ≠ r) :
    ∃ field, blocksHashesChecker.compareBlocks r b
        (l.map (fun n => (n, blockOf n b))) got = .error (.doesNotMatch field b) := by
  obtain ⟨pre, m, post, hl, hm, hpre⟩ := exists_first_split
    (fun n => n.IsExpectedFailure = false ∧ ∃ x, blockOf n b = some x ∧ x ≠ r) l h
  obtain ⟨hmef, y, hy, hyne⟩ := hm
  obtain ⟨field, hfield⟩ := check_eq_some_doesNotMatch r y b hyne
  refine ⟨field, ?_⟩
  rw [hl]
  exact compareBlocks_error r b pre post m y _ (by
    intro k hk hkef z hz
    by_contra hzne
    exact hpre k hk ⟨hkef, z, hz, hzne⟩) hmef hy hfield got

theorem compareBlocks_disagree_error (nodes : List Node) (b : Nat) (got : Finset String)
    (h : ¬ agreeAt nodes b) :
    ∃ field, blocksHashesChecker.compareBlocks (referenceOf nodes b) b
        (nodes.map (fun n => (n, blockOf n b))) got = .error (.doesNotMatch field b) :=
  compareBlocks_mismatch_error (referenceOf nodes b) b nodes got
    ((not_agreeAt_iff nodes b).mp h)

/-- C12 (as amended): in the block-hashes walk a missing block is fatal for the
block numbers 0, 1 and 2: when the walk reaches such a block `b` (the nodes
can be dialed, one of them is not marked expected-failure, the earlier blocks
are served and agree) and `n` is the first node that has no block `b`, `Check`
returns the error that names the block and the node.  For every block number
above 2 whose queries succeed a missing block is no error: the walk ends
with the comparison of the failure sets when all nodes lack the block, and
otherwise goes on with the nodes that have it, failing only through a
mismatch among them. -/
theorem blocksHashes_missing_block_fatal_below_three :
    (∀ (pre post : List Node) (n : Node) (b fuel : Nat),
      b ≤ 2 → b < fuel →
      (∃ m ∈ pre ++ n :: post, m.IsExpectedFailure = false) →
      (∀ m ∈ pre ++ n :: post, ∃ c, m.DialRpc = .ok c) →
      (∀ c < b, (∀ m ∈ pre ++ n :: post, fetchGood c m) ∧ agreeAt (pre ++ n :: post) c) →
      (∀ m ∈ pre, fetchGood b m) →
      (∃ c, n.DialRpc = .ok c ∧ c.ethGetBlockByNumber b = .ok none) →
      blocksHashesChecker.Check fuel (pre ++ n :: post) =
        some (some (.blockDoesNotExist b n.GetLabel))) ∧
    (∀ (nodes : List Node) (ef got : Finset String) (fuel b : Nat),
      2 < b →
      (∀ m ∈ nodes, ∃ c, m.DialRpc = .ok c ∧ ∃ x, c.ethGetBlockByNumber b = .ok x) →
      ((∀ m ∈ nodes, blockOf m b = none) →
        blocksHashesChecker.walk nodes (nodes.map clientOf) ef (fuel + 1) b got =
          if got ≠ ef then some (some (.unexpectedFailureSetHashes got ef)) else some none) ∧
      ((∃ m ∈ nodes, blockOf m b ≠ none) → agreeAt nodes b →
        blocksHashesChecker.walk nodes (nodes.map clientOf) ef (fuel + 1) b got =
          blocksHashesChecker.walk nodes (nodes.map clientOf) ef fuel ((b + 1) % 2 ^ 64)
            (got ∪ labelsOf (fun n => n.IsExpectedFailure && failsAt nodes b n) nodes)) ∧
      ((∃ m ∈ nodes, blockOf m b ≠ none) → ¬ agreeAt nodes b →
        ∃ field, blocksHashesChecker.walk nodes (nodes.map clientOf) ef (fuel + 1) b got =
          some (some (.doesNotMatch field b)))) := by
  constructor
  · intro pre post n b fuel hb2 hfuel hnonEF hdial hbefore hpre hn
    obtain ⟨c, hc, hnil⟩ := hn
    have hne : pre ++ n :: post ≠ [] := by simp
    have hbad : ¬ fetchGood b n := by
      rintro ⟨c', hc', x, hx, hguard⟩
      rw [hc] at hc'
      cases hc'
      rw [hnil] at hx
      cases hx
      exact hguard ⟨rfl, hb2⟩
    have hbefore' : ∀ c < b, (∀ m ∈ pre ++ n :: post, fetchGood c m) ∧
        (∃ m ∈ pre ++ n :: post, blockOf m c ≠ none) ∧ agreeAt (pre ++ n :: post) c := by
      intro c' hc'
      refine ⟨(hbefore c' hc').1, ?_, (hbefore c' hc').2⟩
      refine ⟨n, by simp, ?_⟩
      have := (fetchGood_blockOf c' n ((hbefore c' hc').1 n (by simp))).2
      intro hnone
      exact this ⟨hnone, by omega⟩
    obtain ⟨f, rfl⟩ : ∃ f, fuel = (f + 1) + b := ⟨fuel - 1 - b, by omega⟩
    rw [check_eq_walk_of_dialable _ _ hdial hnonEF]
    obtain ⟨got', hgot'⟩ := walk_reaches_of_good (pre ++ n :: post)
      (labelsOf Node.IsExpectedFailure (pre ++ n :: post)) b
      (by have : (2 : Nat) < 2 ^ 64 := by norm_num
          omega) hbefore' b 0 (f + 1) ∅ (by omega)
    rw [hgot']
    have hfetch := fetchBlocks_first_bad b pre post n hpre hbad
    have hget : blocksHashesChecker.getBlockHashes (clientOf n) b = .ok none := by
      simp [blocksHashesChecker.getBlockHashes, clientOf, hc, hnil]
    rw [hget] at hfetch
    simp only [blocksHashesChecker.walk, zip_map_eq, hfetch]
  · intro nodes ef got fuel b hb hrpc
    have hgood : ∀ m ∈ nodes, fetchGood b m := by
      intro m hm
      obtain ⟨c, hc, x, hx⟩ := hrpc m hm
      exact ⟨c, hc, x, hx, fun h => by omega⟩
    refine ⟨fun hnone => walk_of_end nodes ef got fuel b hgood hnone, ?_, ?_⟩
    · intro hsome hagree
      rw [walk_of_served nodes ef got fuel b hgood hsome,
        compareBlocks_ok nodes b nodes got hagree]
    · intro hsome hdis
      obtain ⟨field, hfield⟩ := compareBlocks_disagree_error nodes b got hdis
      exact ⟨field, by rw [walk_of_served nodes ef got fuel b hgood hsome, hfield]⟩

/-- Witness of C12: the second of two agreeing nodes has no block 2. -/
theorem blocksHashes_missing_block_fatal_below_three_witness :
    blocksHashesChecker.Check 3 missingThirdBlockExample =
      some (some (.blockDoesNotExist 2 "node2")) :=
  blocksHashes_missing_block_fatal_below_three.1
    [⟨"node1", false, .ok (constantClient 3 ⟨0x11, 0x22, 0x33⟩)⟩] []
    ⟨"node2", false, .ok (constantClient 2 ⟨0x11, 0x22, 0x33⟩)⟩ 2 3 (by decide) (by decide)
    (by decide)
    (by
      intro m hm
      simp only [List.singleton_append, List.mem_cons, List.mem_singleton, List.mem_nil_iff,
        or_false] at hm
      rcases hm with rfl | rfl <;> exact ⟨_, rfl⟩)
    (by decide) (by decide) ⟨_, rfl, rfl⟩

/-- C12 (counterexample): two nodes that can be dialed, are not marked
expected-failure and agree on every block they serve; the second has the
blocks 0 and 1 only.  Block 2 is a later block than the first two, yet its
absence on the second node makes `Check` fail. -/
theorem blocksHashes_missing_third_block_counterexample :
    (∀ n ∈ missingThirdBlockExample, rpcSucceeds n) ∧
    (∀ n ∈ missingThirdBlockExample, ∀ b < 2, blockOf n b ≠ none) ∧
    (∀ b, agreeAt missingThirdBlockExample b) ∧
    blocksHashesChecker.Check 4 missingThirdBlockExample =
      some (some (.blockDoesNotExist 2 "node2")) := by
  refine ⟨?_, by decide, ?_, by decide⟩
  · intro n hn
    simp only [missingThirdBlockExample, List.mem_cons, List.mem_singleton, List.mem_nil_iff,
      or_false] at hn
    rcases hn with rfl | rfl <;> exact constantClient_rpcSucceeds _ _ _ _
  · intro b
    rw [agreeAt_iff_pairwise]
    intro n hn m hm _ _ x y hx hy
    simp only [missingThirdBlockExample, List.mem_cons, List.mem_singleton, List.mem_nil_iff,
      or_false] at hn hm
    rcases hn with rfl | rfl <;> rcases hm with rfl | rfl <;>
      simp only [blockOf, constantClient] at hx hy <;>
      split at hx <;> split at hy <;> simp_all

end checking

namespace checking

theorem labelsOf_perm (p : Node → Bool) (l l' : List Node) (h : l.Perm l') :
    labelsOf p l = labelsOf p l' := by
  unfold labelsOf
  exact List.toFinset_eq_of_perm _ _ ((h.filter p).map _)

theorem referenceOf_eq_zero (l : List Node) (b : Nat)
    (h : ∀ n ∈ l, n.IsExpectedFailure = false → blockOf n b = none) :
    referenceOf l b = ⟨0, 0, 0⟩ := by
  have hnil : (l.filter (fun n => !n.IsExpectedFailure)).filterMap (fun n => blockOf n b) =
      [] := by
    rw [List.filterMap_eq_nil_iff]
    intro n hn
    rw [List.mem_filter] at hn
    exact h n hn.1 (by simpa using hn.2)
  simp [referenceOf, hnil]

theorem agreeAt_perm (l l' : List Node) (b : Nat) (h : l.Perm l') :
    agreeAt l b ↔ agreeAt l' b := by
  rw [agreeAt_iff_pairwise, agreeAt_iff_pairwise]
  constructor
  · intro hl n hn m hm
    exact hl n (h.mem_iff.mpr hn) m (h.mem_iff.mpr hm)
  · intro hl n hn m hm
    exact hl n (h.mem_iff.mp hn) m (h.mem_iff.mp hm)

theorem referenceOf_perm (l l' : List Node) (b : Nat) (h : l.Perm l')
    (hagree : agreeAt l b) : referenceOf l b = referenceOf l' b := by
  by_cases hs : ∃ n ∈ l, n.IsExpectedFailure = false ∧ blockOf n b ≠ none
  · obtain ⟨n, hn, hef, hblock⟩ := hs
    obtain ⟨m, hm, hmef, hmb⟩ := referenceOf_mem l' b ⟨n, h.mem_iff.mp hn, hef, hblock⟩
    exact (hagree m (h.mem_iff.mpr hm) hmef _ hmb).symm
  · have hz : ∀ n ∈ l, n.IsExpectedFailure = false → blockOf n b = none := by
      intro n hn hef
      by_contra hne
      exact hs ⟨n, hn, hef, hne⟩
    rw [referenceOf_eq_zero l b hz,
      referenceOf_eq_zero l' b (fun n hn => hz n (h.mem_iff.mpr hn))]

theorem failed_labels_perm (l l' : List Node) (b : Nat) (h : l.Perm l')
    (hagree : agreeAt l b) :
    labelsOf (fun n => n.IsExpectedFailure && failsAt l b n) l =
      labelsOf (fun n => n.IsExpectedFailure && failsAt l' b n) l' := by
  have hfun : (fun n : Node => n.IsExpectedFailure && failsAt l b n) =
      (fun n : Node => n.IsExpectedFailure && failsAt l' b n) := by
    funext n
    simp only [failsAt, referenceOf_perm l l' b h hagree]
  rw [hfun]
  exact labelsOf_perm _ l l' h

/-- The walks over a node list and over a permutation of it, from the same
block with the same failure sets, give the same verdict. -/
theorem walk_perm (l l' : List Node) (h : l.Perm l') (ef : Finset String) :
    ∀ (fuel b : Nat) (got : Finset String),
      (blocksHashesChecker.walk l (l.map clientOf) ef fuel b got = some none ↔
        blocksHashesChecker.walk l' (l'.map clientOf) ef fuel b got = some none) ∧
      (blocksHashesChecker.walk l (l.map clientOf) ef fuel b got = none ↔
        blocksHashesChecker.walk l' (l'.map clientOf) ef fuel b got = none) := by
  intro fuel
  induction fuel with
  | zero => intro b got; simp [blocksHashesChecker.walk]
  | succ fuel ih =>
    intro b got
    by_cases hgood : ∀ n ∈ l, fetchGood b n
    · have hgood' : ∀ n ∈ l', fetchGood b n := fun n hn => hgood n (h.mem_iff.mpr hn)
      by_cases hnone : ∀ n ∈ l, blockOf n b = none
      · have hnone' : ∀ n ∈ l', blockOf n b = none := fun n hn => hnone n (h.mem_iff.mpr hn)
        rw [walk_of_end l ef got fuel b hgood hnone,
          walk_of_end l' ef got fuel b hgood' hnone']
        exact ⟨Iff.rfl, Iff.rfl⟩
      · have hsome : ∃ n ∈ l, blockOf n b ≠ none := by
          by_contra hcon
          apply hnone
          intro n hn
          by_contra hne
          exact hcon ⟨n, hn, hne⟩
        have hsome' : ∃ n ∈ l', blockOf n b ≠ none := by
          obtain ⟨n, hn, hne⟩ := hsome
          exact ⟨n, h.mem_iff.mp hn, hne⟩
        rw [walk_of_served l ef got fuel b hgood hsome,
          walk_of_served l' ef got fuel b hgood' hsome']
        by_cases hagree : agreeAt l b
        · have hagree' : agreeAt l' b := (agreeAt_perm l l' b h).mp hagree
          rw [compareBlocks_ok l b l got hagree, compareBlocks_ok l' b l' got hagree',
            failed_labels_perm l l' b h hagree]
          exact ih _ _
        · have hagree' : ¬ agreeAt l' b := fun hc => hagree ((agreeAt_perm l l' b h).mpr hc)
          obtain ⟨f1, h1⟩ := compareBlocks_disagree_error l b got hagree
          obtain ⟨f2, h2⟩ := compareBlocks_disagree_error l' b got hagree'
          rw [h1, h2]
          simp
    · have hbad : ∃ n ∈ l, ¬ fetchGood b n := by
        by_contra hcon
        apply hgood
        intro n hn
        by_contra hne
        exact hcon ⟨n, hn, hne⟩
      have hbad' : ∃ n ∈ l', ¬ fetchGood b n := by
        obtain ⟨n, hn, hne⟩ := hbad
        exact ⟨n, h.mem_iff.mp hn, hne⟩
      obtain ⟨e1, h1⟩ := walk_of_bad l ef got fuel b hbad
      obtain ⟨e2, h2⟩ := walk_of_bad l' ef got fuel b hbad'
      rw [h1, h2]
      simp

/-- C16: for every list of nodes and every permutation of it,
`blocksHashesChecker.Check` returns nil on the permuted list exactly when it
returns nil on the original list, for every fuel; and it runs out of fuel on
the one exactly when it does on the other. -/
theorem blocksHashes_check_perm (l l' : List Node) (h : l.Perm l') (fuel : Nat) :
    (blocksHashesChecker.Check fuel l' = some none ↔
      blocksHashesChecker.Check fuel l = some none) ∧
    (blocksHashesChecker.Check fuel l' = none ↔ blocksHashesChecker.Check fuel l = none) := by
  by_cases hdial : ∀ n ∈ l, ∃ c, n.DialRpc = .ok c
  · have hdial' : ∀ n ∈ l', ∃ c, n.DialRpc = .ok c := fun n hn => hdial n (h.mem_iff.mpr hn)
    have hef := labelsOf_perm Node.IsExpectedFailure l l' h
    unfold blocksHashesChecker.Check
    rw [dialAll_of_dialable l ∅ hdial, dialAll_of_dialable l' ∅ hdial']
    simp only [Finset.empty_union, ← hef, h.length_eq]
    by_cases hcard : (labelsOf Node.IsExpectedFailure l).card = l'.length
    · simp [hcard]
    · simp only [hcard, if_false]
      have := walk_perm l l' h (labelsOf Node.IsExpectedFailure l) fuel 0 ∅
      exact ⟨this.1.symm, this.2.symm⟩
  · have hbad : ∃ n ∈ l, ∀ c, n.DialRpc ≠ .ok c := by
      by_contra hcon
      apply hdial
      intro n hn
      by_contra hne
      apply hcon
      exact ⟨n, hn, fun c hc => hne ⟨c, hc⟩⟩
    have hbad' : ∃ n ∈ l', ∀ c, n.DialRpc ≠ .ok c := by
      obtain ⟨n, hn, hne⟩ := hbad
      exact ⟨n, h.mem_iff.mp hn, hne⟩
    obtain ⟨e1, h1⟩ := dialAll_of_undialable l ∅ hbad
    obtain ⟨e2, h2⟩ := dialAll_of_undialable l' ∅ hbad'
    unfold blocksHashesChecker.Check
    rw [h1, h2]
    simp

/-- Witness of C16: the three nodes of the diverging run, reversed. -/
theorem blocksHashes_check_perm_witness :
    blocksHashesChecker.Check 5 divergingExample.reverse = some none ↔
      blocksHashesChecker.Check 5 divergingExample = some none :=
  (blocksHashes_check_perm divergingExample divergingExample.reverse
    (List.reverse_perm _).symm 5).1

end checking

namespace checking

theorem not_mem_failed_of_not_expected (nodes : List Node)
    (hlabels : (nodes.map Node.GetLabel).Nodup) (n : Node) (hn : n ∈ nodes)
    (hef : n.IsExpectedFailure = false) (b : Nat) :
    n.GetLabel ∉ labelsOf (fun m => m.IsExpectedFailure && failsAt nodes b m) nodes := by
  intro hmem
  rw [mem_labelsOf] at hmem
  obtain ⟨m, hm, hp, hlabel⟩ := hmem
  have hmn : m = n := List.inj_on_of_nodup_map hlabels hm hn hlabel
  subst hmn
  simp [hef] at hp

/-- C18: a node `n` that is not marked expected-failure and serves no block
from a height `H` on, while other nodes serve blocks up to `N`, is ignored
from `H` on (labels pairwise distinct, every RPC call succeeding, all nodes
serving the blocks 0, 1 and 2, so that `H ≥ 3`, fuel for `N + 1` blocks): (i) when the
blocks that the nodes not marked expected-failure do serve (those of `n`
below `H`, those of the others below `N`) equal the reference and every
expected-failure node fails at some block below `N`, `Check` returns nil;
(ii) when the first disagreement between two nodes not marked
expected-failure is at a block `b` with `H ≤ b < N`, `Check` reports the
mismatch at `b`; (iii) at every block `b` with `H ≤ b < N` on which the
serving nodes agree the walk goes on to the next block, and the label of `n`
is not among the labels it adds to the observed failures. -/
theorem blocksHashes_check_ignores_stopped_node (nodes : List Node) (n : Node) (H N : Nat)
    (hlabels : (nodes.map Node.GetLabel).Nodup)
    (hn : n ∈ nodes) (hef : n.IsExpectedFailure = false)
    (hrpc : ∀ m ∈ nodes, rpcSucceeds m)
    (hfirst : ∀ m ∈ nodes, ∀ b ≤ 2, blockOf m b ≠ none)
    (hbound : N < 2 ^ 64)
    (hunserved : ∀ m ∈ nodes, blockOf m N = none)
    (hminimal : ∀ b < N, ∃ m ∈ nodes, blockOf m b ≠ none)
    (hstop : ∀ b, H ≤ b → blockOf n b = none) :
    ∀ fuel, N < fuel →
      (((∀ b < N, ∀ m ∈ nodes, m ≠ n → m.IsExpectedFailure = false →
            ∀ x, blockOf m b = some x → x = referenceOf nodes b) ∧
          (∀ b < H, ∀ x, blockOf n b = some x → x = referenceOf nodes b) ∧
          (∀ m ∈ nodes, m.IsExpectedFailure = true →
            ∃ b < N, blockOf m b = none ∨
              ∃ x, blockOf m b = some x ∧ x ≠ referenceOf nodes b)) →
        blocksHashesChecker.Check fuel nodes = some none) ∧
      (∀ b, H ≤ b → b < N → (∀ c < b, agreeAt nodes c) →
        (∃ m1 ∈ nodes, ∃ m2 ∈ nodes, m1.IsExpectedFailure = false ∧
          m2.IsExpectedFailure = false ∧
          ∃ x y, blockOf m1 b = some x ∧ blockOf m2 b = some y ∧ x ≠ y) →
        ∃ field, blocksHashesChecker.Check fuel nodes = some (some (.doesNotMatch field b))) ∧
      (∀ (b k : Nat) (ef got : Finset String), H ≤ b → b < N → agreeAt nodes b →
        blocksHashesChecker.walk nodes (nodes.map clientOf) ef (k + 1) b got =
            blocksHashesChecker.walk nodes (nodes.map clientOf) ef k ((b + 1) % 2 ^ 64)
              (got ∪ labelsOf (fun m => m.IsExpectedFailure && failsAt nodes b m) nodes) ∧
          n.GetLabel ∉ labelsOf (fun m => m.IsExpectedFailure && failsAt nodes b m) nodes) := by
  intro fuel hfuel
  have hS : Served nodes N := ⟨hrpc, hfirst, hbound, hunserved, hminimal⟩
  have hne : nodes ≠ [] := List.ne_nil_of_mem hn
  have hcheck := check_eq_walk nodes fuel hrpc ⟨n, hn, hef⟩
  refine ⟨?_, ?_, ?_⟩
  · rintro ⟨hothers, hself, hexp⟩
    obtain ⟨r, hr, hiff⟩ := walk_spec hS hne hlabels N 0 fuel ∅ (by omega) hfuel
      (Finset.empty_subset _)
    have hnil : r = none := by
      rw [hiff]
      refine ⟨?_, ?_⟩
      · intro c _ hc m hm hmef x hx
        by_cases hmn : m = n
        · subst hmn
          by_cases hcH : c < H
          · exact hself c hcH x hx
          · rw [hstop c (by omega)] at hx
            cases hx
        · exact hothers c hc m hm hmn hmef x hx
      · intro m hm hmef
        obtain ⟨b, hb, hfail⟩ := hexp m hm hmef
        exact Or.inr ⟨b, Nat.zero_le _, hb, (failsAt_iff nodes b m).mpr hfail⟩
    rw [hcheck, hr, hnil]
  · intro b _ hbN hbefore hdiff
    obtain ⟨f, rfl⟩ : ∃ f, fuel = (f + 1) + b := ⟨fuel - b - 1, by omega⟩
    obtain ⟨got', hgot'⟩ := walk_reaches nodes hrpc hfirst
      (labelsOf Node.IsExpectedFailure nodes) b (by omega)
      (fun c hc => ⟨hminimal c (by omega), hbefore c hc⟩) b 0 (f + 1) ∅ (by omega)
    have hnot : ¬ agreeAt nodes b := by
      intro hagree
      rw [agreeAt_iff_pairwise] at hagree
      obtain ⟨m1, hm1, m2, hm2, he1, he2, x, y, hx, hy, hxy⟩ := hdiff
      exact hxy (hagree m1 hm1 m2 hm2 he1 he2 x y hx hy)
    obtain ⟨field, hfield⟩ := compareBlocks_disagree_error nodes b got' hnot
    refine ⟨field, ?_⟩
    rw [hcheck, hgot', walk_step nodes hrpc hfirst _ _ _ _ (hminimal b hbN), hfield]
  · intro b k ef got _ hbN hagree
    refine ⟨?_, not_mem_failed_of_not_expected nodes hlabels n hn hef b⟩
    rw [walk_step nodes hrpc hfirst _ _ _ _ (hminimal b hbN),
      compareBlocks_ok nodes b nodes got hagree]

theorem stoppedExample_rpcSucceeds : ∀ n ∈ stoppedExample, rpcSucceeds n := by
  intro n hn
  simp only [stoppedExample, List.mem_cons, List.mem_singleton, List.mem_nil_iff,
    or_false] at hn
  rcases hn with rfl | rfl | rfl <;>
    exact ⟨_, rfl, fun b => ⟨_, rfl⟩⟩

/-- Witness of C18: the second node stops after block 2 while the first serves
block 3; the run passes. -/
theorem blocksHashes_check_ignores_stopped_node_witness :
    blocksHashesChecker.Check 5 stoppedExample = some none :=
  have hagree : ∀ b < 4, agreeAt stoppedExample b := by decide
  have hfail : ∀ m ∈ stoppedExample, m.IsExpectedFailure = true →
      failsAt stoppedExample 3 m = true := by decide
  (blocksHashes_check_ignores_stopped_node stoppedExample
    ⟨"node2", false, .ok (constantClient 3 ⟨0x11, 0x22, 0x33⟩)⟩ 3 4
    (by decide) (by simp [stoppedExample]) rfl stoppedExample_rpcSucceeds (by decide)
    (by decide) (by decide) (by decide)
    (by
      intro b hb
      have : ¬ b < 3 := by omega
      simp [blockOf, constantClient, this]) 5 (by decide)).1
    ⟨fun b hb m hm _ hmef x hx => hagree b hb m hm hmef x hx,
      fun b hb x hx => hagree b (by omega) _ (by simp [stoppedExample]) rfl x hx,
      fun m hm hmef => ⟨3, by decide, (failsAt_iff stoppedExample 3 m).mp (hfail m hm hmef)⟩⟩

end checking

namespace checking

theorem sorted_getD_le (h : List Nat) (hs : h.Sorted (· ≤ ·)) (i j : Nat) (hij : i ≤ j)
    (hj : j < h.length) : h.getD i 0 ≤ h.getD j 0 := by
  have hi : i < h.length := by omega
  rw [List.getD_eq_getElem h 0 hi, List.getD_eq_getElem h 0 hj]
  rcases Nat.eq_or_lt_of_le hij with rfl | hlt
  · exact le_refl _
  · exact List.pairwise_iff_getElem.mp hs i j hi hj hlt

theorem functional_iff_no_run (w : Nat) (hw : 1 ≤ w) (h : List Nat) (hne : h ≠ [])
    (hs : h.Sorted (· ≤ ·)) : functional w h ↔ ¬ hasRun w h := by
  constructor
  · rintro ⟨_, hf⟩ ⟨i, hi, hrun⟩
    have h1 := hf (i + w - 1) (by omega) (by omega)
    have h2 := hrun (w - 1) (by omega)
    have e1 : i + w - 1 + 1 - w = i := by omega
    have e2 : i + (w - 1) = i + w - 1 := by omega
    rw [e1] at h1
    rw [e2] at h2
    omega
  · intro hno
    refine ⟨hne, fun i hi hlen => ?_⟩
    have hle := sorted_getD_le h hs (i + 1 - w) i (by omega) hlen
    rcases Nat.eq_or_lt_of_le hle with heq | hlt
    · exfalso
      apply hno
      refine ⟨i + 1 - w, by omega, fun j hj => ?_⟩
      have h1 := sorted_getD_le h hs (i + 1 - w) (i + 1 - w + j) (by omega) (by omega)
      have h2 := sorted_getD_le h hs (i + 1 - w + j) i (by omega) hlen
      omega
    · exact hlt

theorem check_single_node (c : blocksRollingChecker) (hw : 1 ≤ c.toleranceSamples)
    (node : monitoring.Node) (hnodes : c.monitor.GetNodes = [node]) :
    (c.Check = none ↔ functional c.toleranceSamples (samples (c.monitor.GetData node))) ∧
    (c.Check = some .networkDown ↔
      ¬ functional c.toleranceSamples (samples (c.monitor.GetData node))) := by
  have h := nodesLoop_iff c hw c.monitor.GetNodes false
  simp only [Bool.false_eq_true, false_or, hnodes, List.mem_singleton, exists_eq_left] at h
  unfold blocksRollingChecker.Check
  rw [hnodes]
  cases hloop : blocksRollingChecker.nodesLoop c [node] false
  · rw [hloop] at h
    simp only [Bool.false_eq_true, false_iff] at h
    simp [h]
  · rw [hloop] at h
    simp only [true_iff] at h
    simp [h]

/-- C17 (as amended): for a single monitored node whose sample list is not
empty and non-decreasing and for every `toleranceSamples = w ≥ 1`,
`blocksRollingChecker.Check` returns nil exactly when the samples contain no
run of `w` consecutive equal heights, and the network-is-down error
otherwise; every series shorter than `w` passes, every strictly increasing
series passes when `w ≥ 2`, a series all of whose runs of equal heights have
at most `w - 1` samples passes, and a constant series of length at least `w`
fails. -/
theorem blocksRolling_single_node_passes_iff_no_run (c : blocksRollingChecker)
    (node : monitoring.Node) (hnodes : c.monitor.GetNodes = [node])
    (hw : 1 ≤ c.toleranceSamples)
    (hne : samples (c.monitor.GetData node) ≠ [])
    (hs : (samples (c.monitor.GetData node)).Sorted (· ≤ ·)) :
    (c.Check = none ↔ ¬ hasRun c.toleranceSamples (samples (c.monitor.GetData node))) ∧
    (c.Check = some .networkDown ↔
      hasRun c.toleranceSamples (samples (c.monitor.GetData node))) ∧
    ((samples (c.monitor.GetData node)).length < c.toleranceSamples → c.Check = none) ∧
    (2 ≤ c.toleranceSamples → (samples (c.monitor.GetData node)).Sorted (· < ·) →
      c.Check = none) ∧
    ((∀ l, hasRun l (samples (c.monitor.GetData node)) → l ≤ c.toleranceSamples - 1) →
      c.Check = none) ∧
    (c.toleranceSamples ≤ (samples (c.monitor.GetData node)).length →
      (∀ x ∈ samples (c.monitor.GetData node), ∀ y ∈ samples (c.monitor.GetData node),
        x = y) →
      c.Check = some .networkDown) := by
  have hcheck := check_single_node c hw node hnodes
  have hiff := functional_iff_no_run c.toleranceSamples hw _ hne hs
  rw [hiff] at hcheck
  rw [not_not] at hcheck
  refine ⟨hcheck.1, hcheck.2, ?_, ?_, ?_, ?_⟩
  · intro hlen
    rw [hcheck.1]
    rintro ⟨i, hi, _⟩
    omega
  · intro hw2 hstrict
    rw [hcheck.1]
    rintro ⟨i, hi, hrun⟩
    have h1 := hrun 1 (by omega)
    have h2 := List.pairwise_iff_getElem.mp hstrict i (i + 1) (by omega) (by omega) (by omega)
    have hi0 : i < (samples (c.monitor.GetData node)).length := by omega
    have hi1 : i + 1 < (samples (c.monitor.GetData node)).length := by omega
    rw [List.getD_eq_getElem _ 0 hi1, List.getD_eq_getElem _ 0 hi0] at h1
    omega
  · intro hruns
    rw [hcheck.1]
    intro hrun
    have := hruns _ hrun
    omega
  · intro hlen hconst
    rw [hcheck.2]
    refine ⟨0, by omega, fun j hj => ?_⟩
    have hj0 : 0 + j < (samples (c.monitor.GetData node)).length := by omega
    have h00 : 0 < (samples (c.monitor.GetData node)).length := by omega
    rw [List.getD_eq_getElem _ 0 hj0, List.getD_eq_getElem _ 0 h00]
    exact hconst _ (List.getElem_mem _) _ (List.getElem_mem _)

/-- Witness of C17: the series `monotonic-non-decreasing` of the tests, whose
longest plateau has four samples, with the window of 5 samples. -/
theorem blocksRolling_single_node_passes_iff_no_run_witness :
    (rollingChecker 5 [1, 2, 3, 4, 5, 5, 5, 5, 6, 7, 8, 9]).Check = none ∧
    ¬ hasRun 5 (samples (createBlockSeries [1, 2, 3, 4, 5, 5, 5, 5, 6, 7, 8, 9])) :=
  have h := blocksRolling_single_node_passes_iff_no_run
    (rollingChecker 5 [1, 2, 3, 4, 5, 5, 5, 5, 6, 7, 8, 9]) "A" rfl (by decide) (by decide)
    (by decide)
  have hno : ¬ hasRun 5 (samples (createBlockSeries [1, 2, 3, 4, 5, 5, 5, 5, 6, 7, 8, 9])) := by
    decide
  ⟨h.1.mpr hno, hno⟩

/-- C17 (counterexample): with `toleranceSamples = 1` the strictly increasing
series 1, 2, 3 of a single node does not pass. -/
theorem blocksRolling_strictly_increasing_counterexample :
    1 ≤ (rollingChecker 1 [1, 2, 3]).toleranceSamples ∧
    samples (createBlockSeries [1, 2, 3]) = [1, 2, 3] ∧
    (samples (createBlockSeries [1, 2, 3])).Sorted (· < ·) ∧
    (rollingChecker 1 [1, 2, 3]).Check = some .networkDown := by
  decide

end checking

theorem strconv.parseUintLoop_error_value (base : Nat) (cs : List Char) :
    ∀ n, (strconv.parseUintLoop base cs n).2 ≠ none →
      (strconv.parseUintLoop base cs n).1 = 0 ∨
        (strconv.parseUintLoop base cs n).1 = strconv.maxUint64 := by
  induction cs with
  | nil => intro n h; simp [strconv.parseUintLoop] at h
  | cons c cs ih =>
    intro n h
    unfold strconv.parseUintLoop at h ⊢
    cases hd : strconv.digitVal c with
    | none => simp
    | some d =>
      simp only [hd] at h ⊢
      split_ifs with h1 h2 h3
      · simp
      · simp
      · simp
      · simp only [h1, h2, h3, if_false] at h
        exact ih _ h

theorem strconv.ParseUint_error_value (s : String) (base : Nat)
    (h : (strconv.ParseUint s base).2 ≠ none) :
    (strconv.ParseUint s base).1 = 0 ∨ (strconv.ParseUint s base).1 = strconv.maxUint64 := by
  unfold strconv.ParseUint at h ⊢
  by_cases hs : s = ""
  · simp [hs]
  · simp only [hs, if_false] at h ⊢
    have hl := strconv.parseUintLoop_error_value base s.data 0
    cases hp : strconv.parseUintLoop base s.data 0 with
    | mk n e =>
      rw [hp] at hl h
      cases e with
      | none => simp at h
      | some k => exact hl (by simp)

namespace genesis

open opera

/-- C20: when a present recognized key has a value that its parser rejects,
`ConfigureNetworkRulesMap` returns an error and the field of the key in the
rules it was given holds afterwards: its old value for a duration key; the
result of `ParseUint` (0 after a syntax error, the largest `uint64` after a
range error) reduced to the width of the field for an unsigned-integer key;
nil for a big-integer key. -/
theorem configure_rejected_value_field (frac : Nat → Nat → Nat → Nat)
    (order : List (String × ruleUpdater)) (rules : Rules) (updates : NetworkRules)
    (hperm : order.Perm (supportedNetworkRulesConfigurations frac))
    (k : String) (kind : Kind) (v : String)
    (hkind : keyKind k = some kind) (hv : updates.lookup k = some v)
    (hrej : rejects frac kind v = true) :
    (ConfigureNetworkRulesMap order rules updates).2 ≠ none ∧
    ∃ old new, getField k rules = some old ∧
      getField k (ConfigureNetworkRulesMap order rules updates).1 = some new ∧
      (kind = .duration → new = old) ∧
      (∀ bits, kind = .unsigned bits →
        new = .uint ((strconv.ParseUint v 10).1 % 2 ^ bits) ∧
        ((strconv.ParseUint v 10).1 = 0 ∨ (strconv.ParseUint v 10).1 = strconv.maxUint64)) ∧
      (kind = .bigInt → new = .bigInt none) ∧
      kind ≠ .boolean := by
  refine ⟨(configure_error_ne_none_iff frac order rules updates hperm).mpr
    ⟨k, kind, v, hkind, hv, hrej⟩, ?_⟩
  obtain ⟨old, hold, hnew⟩ :=
    configure_getField_present frac order rules updates hperm k kind v hkind hv
  refine ⟨old, _, hold, hnew, ?_, ?_, ?_, ?_⟩
  · intro hk
    subst hk
    simp only [rejects] at hrej
    simp only [applied]
    cases hp : time.ParseDuration frac v with
    | error e => rfl
    | ok d => rw [hp] at hrej; simp [Except.toOption] at hrej
  · intro bits hbits
    subst hbits
    simp only [rejects] at hrej
    refine ⟨rfl, strconv.ParseUint_error_value v 10 ?_⟩
    intro hnone
    rw [hnone] at hrej
    simp at hrej
  · intro hk
    subst hk
    simp only [rejects, Option.isNone_iff_eq_none] at hrej
    simp only [applied, hrej]
  · intro hk
    subst hk
    simp [rejects] at hrej

/-- Witness of C20: the value `xxx` for `MAX_BLOCK_GAS` on rules whose block
gas limit is 1000: the call returns an error and leaves the limit 0. -/
theorem configure_rejected_value_field_witness :
    (ConfigureNetworkRulesMap (supportedNetworkRulesConfigurations exactFrac) limitedRules
      [("MAX_BLOCK_GAS", "xxx")]).2 ≠ none ∧
    getField "MAX_BLOCK_GAS" limitedRules = some (.uint 1000) ∧
    getField "MAX_BLOCK_GAS"
      (ConfigureNetworkRulesMap (supportedNetworkRulesConfigurations exactFrac) limitedRules
        [("MAX_BLOCK_GAS", "xxx")]).1 = some (.uint 0) := by
  obtain ⟨herr, old, new, _, hnew, _, huint, _⟩ := configure_rejected_value_field exactFrac
    (supportedNetworkRulesConfigurations exactFrac) limitedRules [("MAX_BLOCK_GAS", "xxx")]
    (List.Perm.refl _) "MAX_BLOCK_GAS" (.unsigned 64) "xxx" (by decide) (by decide) (by decide)
  refine ⟨herr, by decide, ?_⟩
  rw [hnew, (huint 64 rfl).1]
  decide

/-- The values `xxx` for `MIN_GAS_PRICE` and `1x` for `EMITTER_INTERVAL`: both
calls return an error; the first leaves the minimum gas price nil, the second
leaves the emitter interval as it was. -/
theorem configure_rejected_value_examples :
    (ConfigureNetworkRulesMap (supportedNetworkRulesConfigurations exactFrac) zeroRules
      [("MIN_GAS_PRICE", "xxx")]).2 ≠ none ∧
    getField "MIN_GAS_PRICE" zeroRules = some (.bigInt (some 0)) ∧
    getField "MIN_GAS_PRICE"
      (ConfigureNetworkRulesMap (supportedNetworkRulesConfigurations exactFrac) zeroRules
        [("MIN_GAS_PRICE", "xxx")]).1 = some (.bigInt none) ∧
    (ConfigureNetworkRulesMap (supportedNetworkRulesConfigurations exactFrac) zeroRules
      [("EMITTER_INTERVAL", "1x")]).2 ≠ none ∧
    getField "EMITTER_INTERVAL"
      (ConfigureNetworkRulesMap (supportedNetworkRulesConfigurations exactFrac) zeroRules
        [("EMITTER_INTERVAL", "1x")]).1 = getField "EMITTER_INTERVAL" zeroRules := by
  decide

end genesis

namespace json

variable {ν : Type}

theorem notEqual_spec [DecidableEq ν] (a b : Any ν) (r : Bool) (h : notEqual a b = .ok r) :
    r = true ↔ a ≠ b := by
  cases a <;> cases b <;> simp only [notEqual] at h <;> cases h <;> simp

theorem notEqual_ok [DecidableEq ν] (a b : Any ν) (h : a.isArray = false)
    (hobj : a.isObject = false ∨ b.isObject = false) : ∃ r, notEqual a b = .ok r := by
  cases a with
  | array items => simp [Any.isArray] at h
  | object fields =>
    cases b with
    | object fields2 => simp [Any.isObject] at hobj
    | _ => exact ⟨_, rfl⟩
  | _ => cases b <;> exact ⟨_, rfl⟩

theorem notEqual_self [DecidableEq ν] (a : Any ν) (h : a.isArray = false)
    (hobj : a.isObject = false) : notEqual a a = .ok false := by
  cases a <;> simp [notEqual, Any.isArray, Any.isObject] at h hobj ⊢

theorem getPath_nil (a : Any ν) : getPath a [] = some a := by
  cases a <;> rfl

theorem getPath_object_cons (fields : List (String × Any ν)) (key : String)
    (path : List String) :
    getPath (.object fields) (key :: path) = (fields.lookup key).bind (fun v => getPath v path) := by
  rw [getPath]
  cases fields.lookup key <;> rfl

theorem getPath_leaf_cons (a : Any ν) (h : a.isObject = false) (key : String)
    (path : List String) : getPath a (key :: path) = none := by
  cases a <;> first | rfl | simp [Any.isObject] at h

theorem sizeOf_lookup_lt (m : List (String × Any ν)) (k : String) (a : Any ν)
    (h : m.lookup k = some a) : sizeOf a < sizeOf m := by
  induction m with
  | nil => simp at h
  | cons e rest ih =>
    obtain ⟨key, value⟩ := e
    rw [List.lookup_cons] at h
    cases hk : k == key
    · rw [hk] at h
      have := ih h
      simp only [List.cons.sizeOf_spec]
      omega
    · rw [hk] at h
      cases h
      simp only [List.cons.sizeOf_spec, Prod.mk.sizeOf_spec]
      omega

theorem scalarFields_lookup (m : List (String × Any ν)) (k : String) (a : Any ν)
    (hm : scalarFields m = true) (h : m.lookup k = some a) : scalarLeaves a = true := by
  induction m with
  | nil => simp at h
  | cons e rest ih =>
    obtain ⟨key, value⟩ := e
    rw [scalarFields, Bool.and_eq_true] at hm
    rw [List.lookup_cons] at h
    cases hk : k == key
    · rw [hk] at h
      exact ih hm.2 h
    · rw [hk] at h
      cases h
      exact hm.1

theorem wellFormedFields_lookup (m : List (String × Any ν)) (k : String) (a : Any ν)
    (hm : wellFormedFields m = true) (h : m.lookup k = some a) : wellFormed a = true := by
  induction m with
  | nil => simp at h
  | cons e rest ih =>
    obtain ⟨key, value⟩ := e
    rw [wellFormedFields, Bool.and_eq_true] at hm
    rw [List.lookup_cons] at h
    cases hk : k == key
    · rw [hk] at h
      exact ih hm.2 h
    · rw [hk] at h
      cases h
      exact hm.1

theorem sameFields_lookup (m1 m2 : List (String × Any ν)) (k : String) (a : Any ν)
    (hm : sameFields m1 m2 = true) (h : m1.lookup k = some a) :
    ∃ b, m2.lookup k = some b ∧ sameStructure a b = true := by
  induction m1 with
  | nil => simp at h
  | cons e rest ih =>
    obtain ⟨key, value⟩ := e
    rw [sameFields, Bool.and_eq_true] at hm
    rw [List.lookup_cons] at h
    cases hk : k == key
    · rw [hk] at h
      exact ih hm.2 h
    · rw [hk] at h
      cases h
      have hkk : k = key := by simpa using hk
      subst hkk
      cases hb : m2.lookup k with
      | none => rw [hb] at hm; simp at hm
      | some b => rw [hb] at hm; exact ⟨b, rfl, hm.1⟩

theorem sameStructure_object_left (fields : List (String × Any ν)) (b : Any ν)
    (h : sameStructure (.object fields) b = true) :
    ∃ fields2, b = .object fields2 ∧ sameFields fields fields2 = true := by
  cases b with
  | object fields2 =>
    rw [sameStructure, Bool.and_eq_true] at h
    exact ⟨fields2, rfl, h.1⟩
  | _ => simp [sameStructure] at h

theorem sameStructure_leaf_left (a b : Any ν) (ha : a.isObject = false)
    (h : sameStructure a b = true) : b.isObject = false := by
  cases b with
  | object fields => cases a <;> simp [sameStructure, Any.isObject] at h ha
  | _ => rfl

end json

namespace json

variable {ν : Type}

theorem wellFormed_object (m : List (String × Any ν)) (h : wellFormed (.object m) = true) :
    (m.map Prod.fst).Nodup ∧ wellFormedFields m = true := by
  rw [wellFormed, Bool.and_eq_true, decide_eq_true_eq] at h
  exact h

end json

namespace genesis

open json

variable {ν : Type} [DecidableEq ν]

theorem diffValue_leaf (a b : Any ν) (h : a.isObject = false ∨ b.isObject = false) :
    diffValue a b =
      match notEqual a b with
      | .error p => .error p
      | .ok differ => if differ then .ok (some b) else .ok none := by
  exact diffValue.eq_2 a b (fun n1 n2 ha hb => by
    subst ha hb
    simp [Any.isObject] at h)

theorem diffValue_leaf_ok (a b : Any ν) (h : a.isObject = false ∨ b.isObject = false)
    (e : Option (Any ν)) (he : diffValue a b = .ok e) :
    (a ≠ b → e = some b) ∧ (a = b → e = none) := by
  rw [diffValue_leaf a b h] at he
  cases hr : notEqual a b with
  | error p => rw [hr] at he; cases he
  | ok r =>
    have hspec := notEqual_spec a b r hr
    rw [hr] at he
    cases r with
    | true =>
      simp only [if_true, Except.ok.injEq] at he
      have hne : a ≠ b := hspec.mp rfl
      exact ⟨fun _ => he.symm, fun h => absurd h hne⟩
    | false =>
      simp only [Bool.false_eq_true, if_false, Except.ok.injEq] at he
      have heq : a = b := by
        by_contra hcon
        exact absurd (hspec.mpr hcon) (by simp)
      exact ⟨fun h => absurd heq h, fun _ => he.symm⟩

theorem diffValue_object_ok (n1 n2 : List (String × Any ν)) (e : Option (Any ν))
    (he : diffValue (.object n1) (.object n2) = .ok e) :
    ∃ nd, diffMapsSameStructure n1 n2 = .ok nd ∧
      ((nd ≠ [] → e = some (.object nd)) ∧ (nd = [] → e = none)) := by
  rw [diffValue] at he
  cases hd : diffMapsSameStructure n1 n2 with
  | error p => rw [hd] at he; cases he
  | ok nd =>
    rw [hd] at he
    refine ⟨nd, rfl, ?_⟩
    cases nd with
    | nil =>
      simp only [List.length_nil, gt_iff_lt, lt_self_iff_false, if_false,
        Except.ok.injEq] at he
      exact ⟨fun h => absurd rfl h, fun _ => he.symm⟩
    | cons x xs =>
      simp only [List.length_cons, gt_iff_lt, Nat.zero_lt_succ, if_true,
        Except.ok.injEq] at he
      exact ⟨fun _ => he.symm, fun h => by cases h⟩

/-- The entry of the result for a key: absent when the key is missing in one
of the maps, otherwise what `diffValue` gives for the two values. -/
theorem diff_lookup (m2 : List (String × Any ν)) :
    ∀ (m1 d : List (String × Any ν)), (m1.map Prod.fst).Nodup →
      diffMapsSameStructure m1 m2 = .ok d →
      ∀ k, d.lookup k =
        match m1.lookup k, m2.lookup k with
        | some a, some b => (diffValue a b).toOption.join
        | _, _ => none := by
  intro m1
  induction m1 with
  | nil =>
    intro d _ hd k
    rw [diffMapsSameStructure] at hd
    cases hd
    simp
  | cons e rest ih =>
    intro d hnodup hd k
    obtain ⟨key, value1⟩ := e
    rw [List.map_cons, List.nodup_cons] at hnodup
    have hrest : rest.lookup key = none := lookup_eq_none_of_not_mem rest key hnodup.1
    rw [diffMapsSameStructure] at hd
    rw [List.lookup_cons]
    cases hb : m2.lookup key with
    | none =>
      simp only [hb] at hd
      have h := ih d hnodup.2 hd k
      rw [h]
      cases hk : k == key
      · rfl
      · have hkk : k = key := by simpa using hk
        subst hkk
        rw [hrest, hb]
    | some value2 =>
      simp only [hb] at hd
      cases hv : diffValue value1 value2 with
      | error p => rw [hv] at hd; cases hd
      | ok entry =>
        rw [hv] at hd
        cases hr : diffMapsSameStructure rest m2 with
        | error p => rw [hr] at hd; cases hd
        | ok result =>
          rw [hr] at hd
          simp only [Except.ok.injEq] at hd
          subst hd
          have h := ih result hnodup.2 hr k
          cases hk : k == key
          · simp only
            cases entry with
            | none => simpa using h
            | some x =>
              simp only [Option.map_some', Option.toList_some, List.singleton_append,
                List.lookup_cons, hk]
              exact h
          · have hkk : k = key := by simpa using hk
            subst hkk
            simp only [hb, hv]
            cases entry with
            | none =>
              simp only [Option.map_none', Option.toList_none, List.nil_append]
              rw [h, hrest]
              rfl
            | some x =>
              simp [List.lookup_cons, Except.toOption]

theorem diff_value_ok (m2 : List (String × Any ν)) :
    ∀ (m1 d : List (String × Any ν)), diffMapsSameStructure m1 m2 = .ok d →
      ∀ k a b, (k, a) ∈ m1 → m2.lookup k = some b → ∃ e, diffValue a b = .ok e := by
  intro m1
  induction m1 with
  | nil => intro d _ k a b hmem; simp at hmem
  | cons e rest ih =>
    intro d hd k a b hmem hb
    obtain ⟨key, value1⟩ := e
    rw [diffMapsSameStructure] at hd
    cases hb2 : m2.lookup key with
    | none =>
      simp only [hb2] at hd
      rcases List.mem_cons.mp hmem with heq | hin
      · cases heq
        rw [hb2] at hb
        cases hb
      · exact ih d hd k a b hin hb
    | some value2 =>
      simp only [hb2] at hd
      cases hv : diffValue value1 value2 with
      | error p => rw [hv] at hd; cases hd
      | ok entry =>
        rw [hv] at hd
        cases hr : diffMapsSameStructure rest m2 with
        | error p => rw [hr] at hd; cases hd
        | ok result =>
          rcases List.mem_cons.mp hmem with heq | hin
          · cases heq
            rw [hb2] at hb
            cases hb
            exact ⟨entry, hv⟩
          · exact ih result hr k a b hin hb

/-- The entry of the result for a key of both maps is what `diffValue` gives
for the two values, which does not panic. -/
theorem diff_lookup_both (m1 m2 d : List (String × Any ν))
    (hnodup : (m1.map Prod.fst).Nodup) (hd : diffMapsSameStructure m1 m2 = .ok d)
    (k : String) (a b : Any ν) (ha : m1.lookup k = some a) (hb : m2.lookup k = some b) :
    ∃ e, diffValue a b = .ok e ∧ d.lookup k = e := by
  obtain ⟨e, he⟩ := diff_value_ok m2 m1 d hd k a b (mem_of_lookup m1 k a ha) hb
  refine ⟨e, he, ?_⟩
  rw [diff_lookup m2 m1 d hnodup hd k, ha, hb]
  simp only [he]
  rfl

/-- A key of the result is a key of both maps. -/
theorem diff_lookup_some (m1 m2 d : List (String × Any ν))
    (hnodup : (m1.map Prod.fst).Nodup) (hd : diffMapsSameStructure m1 m2 = .ok d)
    (k : String) (y : Any ν) (hy : d.lookup k = some y) :
    ∃ a b, m1.lookup k = some a ∧ m2.lookup k = some b ∧ diffValue a b = .ok (some y) := by
  have h := diff_lookup m2 m1 d hnodup hd k
  rw [hy] at h
  cases ha : m1.lookup k with
  | none => rw [ha] at h; cases h
  | some a =>
    cases hb : m2.lookup k with
    | none => rw [ha, hb] at h; cases h
    | some b =>
      obtain ⟨e, he, hl⟩ := diff_lookup_both m1 m2 d hnodup hd k a b ha hb
      rw [hy] at hl
      rw [← hl] at he
      exact ⟨a, b, rfl, rfl, he⟩

/-- The function returns for a first map without slices. -/
theorem diff_ok : ∀ (n : Nat) (m1 m2 : List (String × Any ν)), sizeOf m1 ≤ n →
    scalarFields m1 = true → ∃ d, diffMapsSameStructure m1 m2 = .ok d := by
  intro n
  induction n with
  | zero =>
    intro m1 m2 hsize
    cases m1 <;> simp at hsize
  | succ n ih =>
    intro m1
    induction m1 with
    | nil => intro m2 _ _; exact ⟨[], by rw [diffMapsSameStructure]⟩
    | cons e rest ihrest =>
      intro m2 hsize hscalar
      obtain ⟨key, value1⟩ := e
      rw [scalarFields, Bool.and_eq_true] at hscalar
      simp only [List.cons.sizeOf_spec, Prod.mk.sizeOf_spec] at hsize
      obtain ⟨result, hresult⟩ := ihrest m2 (by omega) hscalar.2
      rw [diffMapsSameStructure]
      cases hb : m2.lookup key with
      | none => exact ⟨result, by simp only [hresult]⟩
      | some value2 =>
        have hvalue : ∃ entry, diffValue value1 value2 = .ok entry := by
          by_cases hobj : value1.isObject = true ∧ value2.isObject = true
          · cases value1 with
            | object n1 =>
              cases value2 with
              | object n2 =>
                simp only [Any.object.sizeOf_spec] at hsize
                obtain ⟨nd, hnd⟩ := ih n1 n2 (by omega)
                  (by simpa [scalarLeaves] using hscalar.1)
                rw [diffValue, hnd]
                by_cases hlen : nd.length > 0
                · exact ⟨some (.object nd), by simp only [hlen, if_true]⟩
                · exact ⟨none, by simp only [hlen, if_false]⟩
              | _ => simp [Any.isObject] at hobj
            | _ => simp [Any.isObject] at hobj
          · have hor : value1.isObject = false ∨ value2.isObject = false := by
              by_contra hcon
              apply hobj
              simp only [not_or, Bool.not_eq_false] at hcon
              exact hcon
            have harr : value1.isArray = false := by
              cases value1 <;> first | rfl | simp [scalarLeaves] at hscalar
            obtain ⟨r, hr⟩ := notEqual_ok value1 value2 harr hor
            rw [diffValue_leaf value1 value2 hor, hr]
            cases r
            · exact ⟨none, by simp⟩
            · exact ⟨some value2, by simp⟩
        obtain ⟨entry, hentry⟩ := hvalue
        exact ⟨(entry.map (fun value => (key, value))).toList ++ result, by
          simp only [hentry, hresult]⟩

end genesis

namespace json

variable {ν : Type}

theorem getPath_object_nil_cons (key : String) (path : List String) :
    getPath (.object ([] : List (String × Any ν))) (key :: path) = none := by
  rw [getPath_object_cons]
  rfl

theorem getPath_cons_some (a v : Any ν) (key : String) (path : List String)
    (h : getPath a (key :: path) = some v) : ∃ fields, a = .object fields := by
  cases a with
  | object fields => exact ⟨fields, rfl⟩
  | _ => simp [getPath] at h

end json

namespace genesis

open json

variable {ν : Type} [DecidableEq ν]

theorem diffValue_self_leaf (a : Any ν) (harr : a.isArray = false)
    (hobj : a.isObject = false) : diffValue a a = .ok none := by
  rw [diffValue_leaf a a (Or.inl hobj), notEqual_self a harr hobj]
  rfl

/-- The diff of a map without slices with itself is empty. -/
theorem diff_self : ∀ (n : Nat) (m : List (String × Any ν)), sizeOf m ≤ n →
    wellFormed (.object m) = true → scalarFields m = true →
    ∀ s : List (String × Any ν), (∀ e ∈ s, m.lookup e.1 = some e.2) →
      diffMapsSameStructure s m = .ok [] := by
  intro n
  induction n with
  | zero =>
    intro m hsize
    cases m <;> simp at hsize
  | succ n ih =>
    intro m hsize hwf hscalar s
    induction s with
    | nil => intro _; rw [diffMapsSameStructure]
    | cons e rest ihrest =>
      intro hs
      obtain ⟨key, value1⟩ := e
      have hlook : m.lookup key = some value1 := hs (key, value1) (List.mem_cons_self _ _)
      have hrest := ihrest (fun e he => hs e (List.mem_cons_of_mem _ he))
      have hvalue : diffValue value1 value1 = .ok none := by
        cases value1 with
        | object n1 =>
          have hlt := sizeOf_lookup_lt m key _ hlook
          simp only [Any.object.sizeOf_spec] at hlt
          have hwf1 := wellFormedFields_lookup m key _ (wellFormed_object m hwf).2 hlook
          have hsc1 := scalarFields_lookup m key _ hscalar hlook
          rw [scalarLeaves] at hsc1
          have hself := ih n1 (by omega) hwf1 hsc1 n1 (fun e he =>
            lookup_of_mem n1 (wellFormed_object n1 hwf1).1 e.1 e.2 he)
          rw [diffValue, hself]
          rfl
        | array items =>
          have := scalarFields_lookup m key _ hscalar hlook
          simp [scalarLeaves] at this
        | _ => exact diffValue_self_leaf _ rfl rfl
      rw [diffMapsSameStructure]
      simp only [hlook, hvalue, hrest]
      rfl

/-- A leaf path of both maps is in the result exactly when the two values
differ, and then with the value of the second map. -/
theorem diff_leaf_path : ∀ (p : List String) (m1 m2 d : List (String × Any ν)),
    p ≠ [] → wellFormed (.object m1) = true → diffMapsSameStructure m1 m2 = .ok d →
    ∀ v1 v2, getPath (.object m1) p = some v1 → getPath (.object m2) p = some v2 →
      v1.isObject = false →
      (v1 ≠ v2 → getPath (.object d) p = some v2) ∧
      (v1 = v2 → getPath (.object d) p = none) := by
  intro p
  induction p with
  | nil => intro m1 m2 d hp; exact absurd rfl hp
  | cons k q ih =>
    intro m1 m2 d _ hwf hd v1 v2 h1 h2 hleaf
    obtain ⟨hnodup, hwff⟩ := wellFormed_object m1 hwf
    rw [getPath_object_cons] at h1 h2 ⊢
    cases ha : m1.lookup k with
    | none => rw [ha] at h1; cases h1
    | some a =>
      cases hb : m2.lookup k with
      | none => rw [hb] at h2; cases h2
      | some b =>
        rw [ha] at h1
        rw [hb] at h2
        simp only [Option.some_bind] at h1 h2
        obtain ⟨e, he, hl⟩ := diff_lookup_both m1 m2 d hnodup hd k a b ha hb
        rw [hl]
        cases q with
        | nil =>
          rw [getPath_nil] at h1 h2
          cases h1
          cases h2
          obtain ⟨hne, heq⟩ := diffValue_leaf_ok v1 v2 (Or.inl hleaf) e he
          constructor
          · intro h
            rw [hne h]
            simp [getPath_nil]
          · intro h
            rw [heq h]
            rfl
        | cons k2 q2 =>
          obtain ⟨n1, rfl⟩ := getPath_cons_some a v1 k2 q2 h1
          obtain ⟨n2, rfl⟩ := getPath_cons_some b v2 k2 q2 h2
          obtain ⟨nd, hnd, hsome, hnone⟩ := diffValue_object_ok n1 n2 e he
          have hwf1 := wellFormedFields_lookup m1 k _ hwff ha
          obtain ⟨hne, heq⟩ := ih n1 n2 nd (by simp) hwf1 hnd v1 v2 h1 h2 hleaf
          constructor
          · intro h
            have hpath := hne h
            have hnd0 : nd ≠ [] := by
              intro h0
              rw [h0, getPath_object_nil_cons] at hpath
              cases hpath
            rw [hsome hnd0]
            exact hpath
          · intro h
            have hpath := heq h
            by_cases hnd0 : nd = []
            · rw [hnone hnd0]
              rfl
            · rw [hsome hnd0]
              exact hpath

end genesis

namespace genesis

open json

variable {ν : Type} [DecidableEq ν]

/-- What the result holds under a key, for two maps of the same structure: a
non-empty nested diff of two nested maps, or the second of two differing
values that are no maps. -/
theorem diff_entry_cases (m1 m2 d : List (String × Any ν))
    (hwf : wellFormed (.object m1) = true) (hsame : sameFields m1 m2 = true)
    (hd : diffMapsSameStructure m1 m2 = .ok d) (k : String) (y : Any ν)
    (hy : d.lookup k = some y) :
    ∃ a b, m1.lookup k = some a ∧ m2.lookup k = some b ∧
      ((∃ n1 n2 nd, a = .object n1 ∧ b = .object n2 ∧ y = .object nd ∧ nd ≠ [] ∧
          wellFormed (.object n1) = true ∧ sameFields n1 n2 = true ∧
          diffMapsSameStructure n1 n2 = .ok nd) ∨
        (a.isObject = false ∧ b.isObject = false ∧ y = b ∧ a ≠ b)) := by
  obtain ⟨hnodup, hwff⟩ := wellFormed_object m1 hwf
  obtain ⟨a, b, ha, hb, he⟩ := diff_lookup_some m1 m2 d hnodup hd k y hy
  obtain ⟨b2, hb2, hsab⟩ := sameFields_lookup m1 m2 k a hsame ha
  rw [hb] at hb2
  cases hb2
  refine ⟨a, b, ha, hb, ?_⟩
  by_cases hobj : a.isObject = true
  · left
    cases a with
    | object n1 =>
      obtain ⟨n2, rfl, hsn⟩ := sameStructure_object_left n1 b hsab
      obtain ⟨nd, hnd, hsome, hnone⟩ := diffValue_object_ok n1 n2 _ he
      have hnd0 : nd ≠ [] := by
        intro h0
        cases hnone h0
      have hy2 := hsome hnd0
      cases hy2
      exact ⟨n1, n2, nd, rfl, rfl, rfl, hnd0, wellFormedFields_lookup m1 k _ hwff ha, hsn, hnd⟩
    | _ => simp [Any.isObject] at hobj
  · right
    have ha0 : a.isObject = false := by simpa using hobj
    have hb0 := sameStructure_leaf_left a b ha0 hsab
    obtain ⟨hne, heq⟩ := diffValue_leaf_ok a b (Or.inl ha0) _ he
    have hab : a ≠ b := by
      intro h
      cases heq h
    have hy2 := hne hab
    cases hy2
    exact ⟨ha0, hb0, rfl, hab⟩

/-- A value of the result that is no map sits at a leaf path of both maps
whose values differ, and is the value of the second map. -/
theorem diff_result_leaf : ∀ (p : List String) (m1 m2 d : List (String × Any ν)),
    wellFormed (.object m1) = true → sameFields m1 m2 = true →
    diffMapsSameStructure m1 m2 = .ok d →
    ∀ x, getPath (.object d) p = some x → x.isObject = false →
      ∃ v1, getPath (.object m1) p = some v1 ∧ v1.isObject = false ∧
        getPath (.object m2) p = some x ∧ v1 ≠ x := by
  intro p
  induction p with
  | nil =>
    intro m1 m2 d _ _ _ x hx hleaf
    rw [getPath_nil] at hx
    cases hx
    simp [Any.isObject] at hleaf
  | cons k q ih =>
    intro m1 m2 d hwf hsame hd x hx hleaf
    rw [getPath_object_cons] at hx
    cases hy : d.lookup k with
    | none => rw [hy] at hx; cases hx
    | some y =>
      rw [hy] at hx
      simp only [Option.some_bind] at hx
      obtain ⟨a, b, ha, hb, hcases⟩ := diff_entry_cases m1 m2 d hwf hsame hd k y hy
      rw [getPath_object_cons, getPath_object_cons, ha, hb]
      simp only [Option.some_bind]
      rcases hcases with ⟨n1, n2, nd, rfl, rfl, rfl, _, hwf1, hsame1, hnd⟩ | ⟨ha0, hb0, rfl, hab⟩
      · exact ih n1 n2 nd hwf1 hsame1 hnd x hx hleaf
      · cases q with
        | nil =>
          rw [getPath_nil] at hx
          cases hx
          exact ⟨a, getPath_nil a, ha0, getPath_nil _, hab⟩
        | cons k2 q2 =>
          rw [getPath_leaf_cons _ hb0] at hx
          cases hx

/-- A non-empty result holds a value that is no map. -/
theorem diff_nonempty_leaf : ∀ (n : Nat) (m1 m2 d : List (String × Any ν)),
    sizeOf m1 ≤ n → wellFormed (.object m1) = true → sameFields m1 m2 = true →
    diffMapsSameStructure m1 m2 = .ok d → d ≠ [] →
    ∃ q x, q ≠ [] ∧ getPath (.object d) q = some x ∧ x.isObject = false := by
  intro n
  induction n with
  | zero =>
    intro m1 m2 d hsize
    cases m1 <;> simp at hsize
  | succ n ih =>
    intro m1 m2 d hsize hwf hsame hd hne
    cases d with
    | nil => exact absurd rfl hne
    | cons e rest =>
      obtain ⟨k, y⟩ := e
      have hy : ((k, y) :: rest).lookup k = some y := by simp [List.lookup_cons]
      obtain ⟨a, b, ha, hb, hcases⟩ := diff_entry_cases m1 m2 _ hwf hsame hd k y hy
      rcases hcases with ⟨n1, n2, nd, rfl, rfl, rfl, hnd0, hwf1, hsame1, hnd⟩ | ⟨ha0, hb0, rfl, hab⟩
      · have hlt := sizeOf_lookup_lt m1 k _ ha
        simp only [Any.object.sizeOf_spec] at hlt
        obtain ⟨q, x, hq, hx, hleaf⟩ := ih n1 n2 nd (by omega) hwf1 hsame1 hnd hnd0
        refine ⟨k :: q, x, by simp, ?_, hleaf⟩
        rw [getPath_object_cons, hy]
        exact hx
      · refine ⟨[k], y, by simp, ?_, hb0⟩
        rw [getPath_object_cons, hy]
        exact getPath_nil y

/-- A nested map of the result holds, at some depth, a value that is no
map. -/
theorem diff_nested_leaf : ∀ (p : List String) (m1 m2 d : List (String × Any ν)),
    p ≠ [] → wellFormed (.object m1) = true → sameFields m1 m2 = true →
    diffMapsSameStructure m1 m2 = .ok d →
    ∀ fs, getPath (.object d) p = some (.object fs) →
      ∃ q x, q ≠ [] ∧ getPath (.object d) (p ++ q) = some x ∧ x.isObject = false := by
  intro p
  induction p with
  | nil => intro m1 m2 d hp; exact absurd rfl hp
  | cons k q ih =>
    intro m1 m2 d _ hwf hsame hd fs hfs
    rw [getPath_object_cons] at hfs
    cases hy : d.lookup k with
    | none => rw [hy] at hfs; cases hfs
    | some y =>
      rw [hy] at hfs
      simp only [Option.some_bind] at hfs
      obtain ⟨a, b, ha, hb, hcases⟩ := diff_entry_cases m1 m2 d hwf hsame hd k y hy
      rcases hcases with ⟨n1, n2, nd, rfl, rfl, rfl, hnd0, hwf1, hsame1, hnd⟩ | ⟨ha0, hb0, rfl, hab⟩
      · cases q with
        | nil =>
          obtain ⟨q2, x, hq2, hx, hleaf⟩ :=
            diff_nonempty_leaf (sizeOf n1) n1 n2 nd (le_refl _) hwf1 hsame1 hnd hnd0
          refine ⟨q2, x, hq2, ?_, hleaf⟩
          rw [List.cons_append, List.nil_append, getPath_object_cons, hy]
          exact hx
        | cons k2 q2 =>
          obtain ⟨q3, x, hq3, hx, hleaf⟩ := ih n1 n2 nd (by simp) hwf1 hsame1 hnd fs hfs
          refine ⟨q3, x, hq3, ?_, hleaf⟩
          rw [List.cons_append, getPath_object_cons, hy]
          exact hx
      · cases q with
        | nil =>
          rw [getPath_nil] at hfs
          cases hfs
          simp [Any.isObject] at hb0
        | cons k2 q2 =>
          rw [getPath_leaf_cons _ hb0] at hfs
          cases hfs

end genesis

namespace genesis

open json

variable {ν : Type} [DecidableEq ν]

/-- C11 (as amended): for two trees of nested maps `m1`, `m2` of the same
structure, the keys of each map of `m1` distinct and no value of `m1` a slice,
`diffMapsSameStructure m1 m2` returns a map `d` such that (1) a leaf path of
the two trees is in `d` exactly when its values in `m1` and `m2` differ, and
then holds the value of `m2`; (2) every value of `d` that is no map sits at
such a path; (3) every nested map of `d` holds, at some depth, a leaf whose
values in `m1` and `m2` differ; (4) the diff of `m1` with itself is empty. -/
theorem diffMapsSameStructure_minimal (m1 m2 : List (String × Any ν))
    (hwf : wellFormed (.object m1) = true) (hscalar : scalarLeaves (.object m1) = true)
    (hsame : sameStructure (.object m1) (.object m2) = true) :
    ∃ d, diffMapsSameStructure m1 m2 = .ok d ∧
      (∀ p v1 v2, getPath (.object m1) p = some v1 → getPath (.object m2) p = some v2 →
        v1.isObject = false →
        (getPath (.object d) p ≠ none ↔ v1 ≠ v2) ∧
        (v1 ≠ v2 → getPath (.object d) p = some v2)) ∧
      (∀ p x, getPath (.object d) p = some x → x.isObject = false →
        ∃ v1, getPath (.object m1) p = some v1 ∧ v1.isObject = false ∧
          getPath (.object m2) p = some x ∧ v1 ≠ x) ∧
      (∀ p fs, p ≠ [] → getPath (.object d) p = some (.object fs) →
        ∃ q v1 v2, q ≠ [] ∧ getPath (.object m1) (p ++ q) = some v1 ∧
          v1.isObject = false ∧ getPath (.object m2) (p ++ q) = some v2 ∧ v1 ≠ v2 ∧
          getPath (.object d) (p ++ q) = some v2) ∧
      diffMapsSameStructure m1 m1 = .ok [] := by
  have hsc : scalarFields m1 = true := by
    rw [scalarLeaves] at hscalar
    exact hscalar
  have hsf : sameFields m1 m2 = true := by
    rw [sameStructure, Bool.and_eq_true] at hsame
    exact hsame.1
  obtain ⟨d, hd⟩ := diff_ok (sizeOf m1) m1 m2 (le_refl _) hsc
  refine ⟨d, hd, ?_, ?_, ?_, ?_⟩
  · intro p v1 v2 h1 h2 hleaf
    have hp : p ≠ [] := by
      intro h0
      rw [h0, getPath_nil] at h1
      cases h1
      simp [Any.isObject] at hleaf
    obtain ⟨hne, heq⟩ := diff_leaf_path p m1 m2 d hp hwf hd v1 v2 h1 h2 hleaf
    refine ⟨⟨fun hpres hv => hpres (heq hv), fun hv => ?_⟩, hne⟩
    rw [hne hv]
    simp
  · intro p x hx hleaf
    exact diff_result_leaf p m1 m2 d hwf hsf hd x hx hleaf
  · intro p fs hp hfs
    obtain ⟨q, x, hq, hx, hleaf⟩ := diff_nested_leaf p m1 m2 d hp hwf hsf hd fs hfs
    obtain ⟨v1, h1, hl1, h2, hne⟩ := diff_result_leaf (p ++ q) m1 m2 d hwf hsf hd x hx hleaf
    exact ⟨q, v1, x, hq, h1, hl1, h2, hne, hx⟩
  · exact diff_self (sizeOf m1) m1 (le_refl _) hwf hsc m1 (fun e he =>
      lookup_of_mem m1 (wellFormed_object m1 hwf).1 e.1 e.2 he)

/-- Witness of C11: the block gas limit changes from 1000 to 2000; the result
holds the new limit at its path and not the unchanged skip period. -/
theorem diffMapsSameStructure_minimal_witness :
    ∃ d, diffMapsSameStructure treeBefore treeAfter = .ok d ∧
      getPath (.object d) ["Blocks", "MaxBlockGas"] = some (.number 2000) ∧
      ¬ getPath (.object d) ["Blocks", "MaxEmptyBlockSkipPeriod"] ≠ none := by
  obtain ⟨d, hd, hleaf, _⟩ := diffMapsSameStructure_minimal treeBefore treeAfter
    (by decide) (by decide) (by decide)
  refine ⟨d, hd, ?_, ?_⟩
  · exact (hleaf ["Blocks", "MaxBlockGas"] (.number 1000) (.number 2000) rfl rfl rfl).2
      (by simp)
  · rw [(hleaf ["Blocks", "MaxEmptyBlockSkipPeriod"] (.number 7) (.number 7) rfl rfl rfl).1]
    simp

/-- C11 (counterexample): a tree whose keys are distinct and that holds a
slice has the same structure as itself, and its diff with itself is no empty
map: the comparison of the two slices panics. -/
theorem diffMapsSameStructure_slice_counterexample :
    wellFormed (.object treeWithSlice) = true ∧
    sameStructure (.object treeWithSlice) (.object treeWithSlice) = true ∧
    diffMapsSameStructure treeWithSlice treeWithSlice =
      .error (.uncomparable "[]interface \x7b\x7d") ∧
    diffMapsSameStructure treeWithSlice treeWithSlice ≠ .ok [] := by
  refine ⟨by decide, by decide, rfl, ?_⟩
  intro h
  cases h

end genesis

namespace genesis

open json opera

variable {ν : Type}

theorem wellFormed_leaf (float64 : Int → ν) (v : Value) : wellFormed (leaf float64 v) = true := by
  cases v with
  | bigInt x => cases x <;> rfl
  | _ => rfl

theorem scalarLeaves_leaf (float64 : Int → ν) (v : Value) :
    scalarLeaves (leaf float64 v) = true := by
  cases v with
  | bigInt x => cases x <;> rfl
  | _ => rfl

theorem isObject_leaf (float64 : Int → ν) (v : Value) : (leaf float64 v).isObject = false := by
  cases v with
  | bigInt x => cases x <;> rfl
  | _ => rfl

theorem sameStructure_of_leaves (a b : Any ν) (ha : a.isObject = false)
    (hb : b.isObject = false) : sameStructure a b = true := by
  cases a with
  | object fields => simp [Any.isObject] at ha
  | _ =>
    cases b with
    | object fields => simp [Any.isObject] at hb
    | _ => rfl

theorem sameStructure_leaf (float64 : Int → ν) (v w : Value) :
    sameStructure (leaf float64 v) (leaf float64 w) = true := by
  exact sameStructure_of_leaves _ _ (isObject_leaf float64 v) (isObject_leaf float64 w)

theorem rulesTree_wellFormed (float64 : Int → ν) (rules : Rules) :
    wellFormed (.object (rulesTree float64 rules)) = true := by
  simp [rulesTree, wellFormed, wellFormedFields, wellFormed_leaf]

theorem rulesTree_scalar (float64 : Int → ν) (rules : Rules) :
    scalarLeaves (.object (rulesTree float64 rules)) = true := by
  simp [rulesTree, scalarLeaves, scalarFields, scalarLeaves_leaf]

theorem rulesTree_same (float64 : Int → ν) (r1 r2 : Rules) :
    sameStructure (.object (rulesTree float64 r1)) (.object (rulesTree float64 r2)) = true := by
  simp [rulesTree, sameStructure, sameFields, sameStructure_leaf, List.lookup]

theorem leaves_of_leaf (a : Any ν) (h : a.isObject = false) : leaves a = [([], a)] := by
  cases a with
  | object fields => simp [Any.isObject] at h
  | _ => rfl

theorem mem_leavesFields (m : List (String × Any ν)) (k : String) (y : Any ν)
    (q : List String) (v : Any ν) (hy : (k, y) ∈ m) (hq : (q, v) ∈ leaves y) :
    (k :: q, v) ∈ leavesFields m := by
  induction m with
  | nil => simp at hy
  | cons e rest ih =>
    obtain ⟨key, value⟩ := e
    rw [leavesFields, List.mem_append]
    rcases List.mem_cons.mp hy with heq | hin
    · cases heq
      left
      rw [List.mem_map]
      exact ⟨(q, v), hq, rfl⟩
    · exact Or.inr (ih hin)

/-- A value at a path of a tree that is no map is among its leaves. -/
theorem mem_leaves_of_getPath : ∀ (p : List String) (a v : Any ν),
    getPath a p = some v → v.isObject = false → (p, v) ∈ leaves a := by
  intro p
  induction p with
  | nil =>
    intro a v h hleaf
    rw [getPath_nil] at h
    cases h
    rw [leaves_of_leaf a hleaf]
    exact List.mem_singleton_self _
  | cons k q ih =>
    intro a v h hleaf
    obtain ⟨m, rfl⟩ := getPath_cons_some a v k q h
    rw [getPath_object_cons] at h
    cases hy : m.lookup k with
    | none => rw [hy] at h; cases h
    | some y =>
      rw [hy] at h
      rw [leaves]
      exact mem_leavesFields m k y q v (mem_of_lookup m k y hy) (ih y v h hleaf)

/-- The value of the tree of the rules at the path of a rule key is the
value of the field of the key. -/
theorem rulesTree_path (float64 : Int → ν) :
    ∀ e ∈ pathTable, ∃ f, fieldTable.lookup e.1 = some f ∧
      ∀ r : Rules, getPath (.object (rulesTree float64 r)) e.2 = some (leaf float64 (f r)) := by
  intro e he
  simp only [pathTable, List.mem_cons, List.mem_singleton, List.not_mem_nil, or_false] at he
  rcases he with rfl | rfl | rfl | rfl | rfl | rfl | rfl | rfl | rfl | rfl | rfl | rfl | rfl | rfl | rfl | rfl | rfl | rfl | rfl | rfl | rfl | rfl | rfl | rfl | rfl | rfl | rfl | rfl | rfl | rfl | rfl | rfl | rfl | rfl <;>
    exact ⟨_, rfl, fun r => rfl⟩

/-- The leaves of the tree of the rules: the name, the network identifier and
the fields of the rule keys at their paths. -/
theorem rulesTree_leaf (float64 : Int → ν) (r : Rules) (p : List String) (v : Any ν)
    (h : getPath (.object (rulesTree float64 r)) p = some v) (hleaf : v.isObject = false) :
    (p = ["Name"] ∧ v = .string r.Name) ∨
    (p = ["NetworkID"] ∧ v = .number (float64 r.NetworkID)) ∨
    ∃ K f, pathTable.lookup K = some p ∧ fieldTable.lookup K = some f ∧
      v = leaf float64 (f r) := by
  have hmem := mem_leaves_of_getPath p _ v h hleaf
  simp only [rulesTree, leaves, leavesFields, leaves_of_leaf _ (isObject_leaf float64 _),
    List.map_cons, List.map_nil, List.cons_append, List.nil_append, List.append_nil,
    List.mem_cons, List.mem_singleton, List.not_mem_nil, or_false, Prod.mk.injEq] at hmem
  rcases hmem with ⟨rfl, rfl⟩ | ⟨rfl, rfl⟩ | ⟨rfl, rfl⟩ | ⟨rfl, rfl⟩ | ⟨rfl, rfl⟩ | ⟨rfl, rfl⟩ | ⟨rfl, rfl⟩ | ⟨rfl, rfl⟩ | ⟨rfl, rfl⟩ | ⟨rfl, rfl⟩ | ⟨rfl, rfl⟩ | ⟨rfl, rfl⟩ | ⟨rfl, rfl⟩ | ⟨rfl, rfl⟩ | ⟨rfl, rfl⟩ | ⟨rfl, rfl⟩ | ⟨rfl, rfl⟩ | ⟨rfl, rfl⟩ | ⟨rfl, rfl⟩ | ⟨rfl, rfl⟩ | ⟨rfl, rfl⟩ | ⟨rfl, rfl⟩ | ⟨rfl, rfl⟩ | ⟨rfl, rfl⟩ | ⟨rfl, rfl⟩ | ⟨rfl, rfl⟩ | ⟨rfl, rfl⟩ | ⟨rfl, rfl⟩ | ⟨rfl, rfl⟩ | ⟨rfl, rfl⟩ | ⟨rfl, rfl⟩ | ⟨rfl, rfl⟩ | ⟨rfl, rfl⟩ | ⟨rfl, rfl⟩ | ⟨rfl, rfl⟩ | ⟨rfl, rfl⟩ <;>
    first
    | exact Or.inl ⟨rfl, rfl⟩
    | exact Or.inr (Or.inl ⟨rfl, rfl⟩)
    | exact Or.inr (Or.inr ⟨"MAX_BLOCK_GAS", _, rfl, rfl, rfl⟩)
    | exact Or.inr (Or.inr ⟨"MAX_EMPTY_BLOCK_SKIP_PERIOD", _, rfl, rfl, rfl⟩)
    | exact Or.inr (Or.inr ⟨"MAX_EPOCH_GAS", _, rfl, rfl, rfl⟩)
    | exact Or.inr (Or.inr ⟨"MAX_EPOCH_DURATION", _, rfl, rfl, rfl⟩)
    | exact Or.inr (Or.inr ⟨"EMITTER_INTERVAL", _, rfl, rfl, rfl⟩)
    | exact Or.inr (Or.inr ⟨"EMITTER_STALL_THRESHOLD", _, rfl, rfl, rfl⟩)
    | exact Or.inr (Or.inr ⟨"EMITTER_STALLED_INTERVAL", _, rfl, rfl, rfl⟩)
    | exact Or.inr (Or.inr ⟨"UPGRADES_BERLIN", _, rfl, rfl, rfl⟩)
    | exact Or.inr (Or.inr ⟨"UPGRADES_LONDON", _, rfl, rfl, rfl⟩)
    | exact Or.inr (Or.inr ⟨"UPGRADES_LLR", _, rfl, rfl, rfl⟩)
    | exact Or.inr (Or.inr ⟨"UPGRADES_SONIC", _, rfl, rfl, rfl⟩)
    | exact Or.inr (Or.inr ⟨"UPGRADES_ALLEGRO", _, rfl, rfl, rfl⟩)
    | exact Or.inr (Or.inr ⟨"MIN_GAS_PRICE", _, rfl, rfl, rfl⟩)
    | exact Or.inr (Or.inr ⟨"MIN_BASE_FEE", _, rfl, rfl, rfl⟩)
    | exact Or.inr (Or.inr ⟨"BLOCK_MISSED_SLACK", _, rfl, rfl, rfl⟩)
    | exact Or.inr (Or.inr ⟨"MAX_EVENT_GAS", _, rfl, rfl, rfl⟩)
    | exact Or.inr (Or.inr ⟨"EVENT_GAS", _, rfl, rfl, rfl⟩)
    | exact Or.inr (Or.inr ⟨"PARENT_GAS", _, rfl, rfl, rfl⟩)
    | exact Or.inr (Or.inr ⟨"EXTRA_DATA_GAS", _, rfl, rfl, rfl⟩)
    | exact Or.inr (Or.inr ⟨"BLOCK_VOTES_BASE_GAS", _, rfl, rfl, rfl⟩)
    | exact Or.inr (Or.inr ⟨"BLOCK_VOTE_GAS", _, rfl, rfl, rfl⟩)
    | exact Or.inr (Or.inr ⟨"EPOCH_VOTE_GAS", _, rfl, rfl, rfl⟩)
    | exact Or.inr (Or.inr ⟨"MISBEHAVIOUR_PROOF_GAS", _, rfl, rfl, rfl⟩)
    | exact Or.inr (Or.inr ⟨"SHORT_ALLOC_PER_SEC", _, rfl, rfl, rfl⟩)
    | exact Or.inr (Or.inr ⟨"SHORT_MAX_ALLOC_PERIOD", _, rfl, rfl, rfl⟩)
    | exact Or.inr (Or.inr ⟨"SHORT_STARTUP_ALLOC_PERIOD", _, rfl, rfl, rfl⟩)
    | exact Or.inr (Or.inr ⟨"SHORT_MIN_STARTUP_GAS", _, rfl, rfl, rfl⟩)
    | exact Or.inr (Or.inr ⟨"LONG_ALLOC_PER_SEC", _, rfl, rfl, rfl⟩)
    | exact Or.inr (Or.inr ⟨"LONG_MAX_ALLOC_PERIOD", _, rfl, rfl, rfl⟩)
    | exact Or.inr (Or.inr ⟨"LONG_STARTUP_ALLOC_PERIOD", _, rfl, rfl, rfl⟩)
    | exact Or.inr (Or.inr ⟨"LONG_MIN_STARTUP_GAS", _, rfl, rfl, rfl⟩)
    | exact Or.inr (Or.inr ⟨"MAX_PARENTS", _, rfl, rfl, rfl⟩)
    | exact Or.inr (Or.inr ⟨"MAX_FREE_PARENTS", _, rfl, rfl, rfl⟩)
    | exact Or.inr (Or.inr ⟨"MAX_EXTRA_DATA", _, rfl, rfl, rfl⟩)

end genesis

namespace genesis

open json opera

variable {ν : Type}

theorem unmarshalRules_of_fits (float64 : Int → ν) (rules : Rules) (h : fits rules = true) :
    unmarshalRules float64 rules = .ok (rulesTree float64 rules) := by
  rw [fits, Bool.and_eq_true, Option.isNone_iff_eq_none, Option.isNone_iff_eq_none] at h
  simp only [unmarshalRules, h.1, h.2]

theorem configure_no_error (frac : Nat → Nat → Nat → Nat)
    (order : List (String × ruleUpdater)) (rules : Rules) (updates : NetworkRules)
    (hperm : order.Perm (supportedNetworkRulesConfigurations frac))
    (haccept : ∀ K kind v, keyKind K = some kind → updates.lookup K = some v →
      rejects frac kind v = false) :
    (ConfigureNetworkRulesMap order rules updates).2 = none := by
  by_contra hne
  obtain ⟨k, kind, v, hk, hv, hrej⟩ :=
    (configure_error_ne_none_iff frac order rules updates hperm).mp hne
  rw [haccept k kind v hk hv] at hrej
  cases hrej

theorem keyKind_of_field (K : String) (f : Rules → Value)
    (h : fieldTable.lookup K = some f) : ∃ kind, keyKind K = some kind := by
  have hmem : K ∈ fieldTable.map Prod.fst :=
    List.mem_map.mpr ⟨(K, f), mem_of_lookup _ _ _ h, rfl⟩
  have hkeys : fieldTable.map Prod.fst = kindTable.map Prod.fst := by decide
  rw [hkeys] at hmem
  cases hk : kindTable.lookup K with
  | none =>
    exfalso
    obtain ⟨e, he, hek⟩ := List.mem_map.mp hmem
    have := List.lookup_eq_none_iff.mp hk e he
    simp [hek] at this
  | some kind => exact ⟨kind, hk⟩

theorem getField_of_field (K : String) (f : Rules → Value) (h : fieldTable.lookup K = some f)
    (r : Rules) : getField K r = some (f r) := by
  simp [getField, h]

end genesis

namespace genesis

open json opera

variable {ν : Type} [DecidableEq ν]

/-- The value `diff` of `GenerateJsonNetworkRulesUpdates` for updates whose
values are all accepted, the rules fitting `float64` before and after: its
leaves are the new values of the fields whose JSON value changes, at the
paths of their keys; its nested maps are not empty; it is empty exactly when
no JSON value changes. -/
theorem networkRulesDiff_spec (frac : Nat → Nat → Nat → Nat) (float64 : Int → ν)
    (order : List (String × ruleUpdater)) (rules : Rules) (updates : NetworkRules)
    (hperm : order.Perm (supportedNetworkRulesConfigurations frac))
    (haccept : ∀ K kind v, keyKind K = some kind → updates.lookup K = some v →
      rejects frac kind v = false)
    (hfit : fits rules = true)
    (hfit2 : fits (ConfigureNetworkRulesMap order rules updates).1 = true) :
    ∃ d, networkRulesDiff float64 order rules updates = .ok d ∧
      (∀ p x, x.isObject = false →
        (getPath (.object d) p = some x ↔
          ∃ K kind v old, keyKind K = some kind ∧ updates.lookup K = some v ∧
            getField K rules = some old ∧ pathTable.lookup K = some p ∧
            x = leaf float64 (applied frac kind v old) ∧ leaf float64 old ≠ x)) ∧
      (∀ p fs, p ≠ [] → getPath (.object d) p = some (.object fs) →
        ∃ q x, q ≠ [] ∧ getPath (.object d) (p ++ q) = some x ∧ x.isObject = false) ∧
      (d = [] ↔
        ∀ K kind v old, keyKind K = some kind → updates.lookup K = some v →
          getField K rules = some old →
          leaf float64 (applied frac kind v old) = leaf float64 old) := by
  have hwf := rulesTree_wellFormed float64 rules
  have hscalar := rulesTree_scalar float64 rules
  have hsame := rulesTree_same float64 rules (ConfigureNetworkRulesMap order rules updates).1
  rw [scalarLeaves] at hscalar
  rw [sameStructure, Bool.and_eq_true] at hsame
  obtain ⟨d, hd⟩ := diff_ok (sizeOf (rulesTree float64 rules)) (rulesTree float64 rules)
    (rulesTree float64 (ConfigureNetworkRulesMap order rules updates).1) (le_refl _) hscalar
  have hname := configureLoop_name frac updates order
    (fun e he => ((perm_registry frac order hperm).1 e).mp he) rules []
  have hleaves : ∀ p x, x.isObject = false →
      (getPath (.object d) p = some x ↔
        ∃ K kind v old, keyKind K = some kind ∧ updates.lookup K = some v ∧
          getField K rules = some old ∧ pathTable.lookup K = some p ∧
          x = leaf float64 (applied frac kind v old) ∧ leaf float64 old ≠ x) := by
    intro p x hleaf
    constructor
    · intro hx
      obtain ⟨v1, h1, hl1, h2, hne⟩ := diff_result_leaf p _ _ d hwf hsame.1 hd x hx hleaf
      rcases rulesTree_leaf float64 rules p v1 h1 hl1 with ⟨rfl, rfl⟩ | ⟨rfl, rfl⟩ | ⟨K, f, hp, hf, rfl⟩
      · exfalso
        apply hne
        have : getPath (.object (rulesTree float64
            (ConfigureNetworkRulesMap order rules updates).1)) ["Name"] =
            some (.string (ConfigureNetworkRulesMap order rules updates).1.Name) := rfl
        rw [this] at h2
        cases h2
        exact congrArg _ hname.1.symm
      · exfalso
        apply hne
        have : getPath (.object (rulesTree float64
            (ConfigureNetworkRulesMap order rules updates).1)) ["NetworkID"] =
            some (.number (float64 (ConfigureNetworkRulesMap order rules updates).1.NetworkID)) :=
          rfl
        rw [this] at h2
        cases h2
        have hid : (ConfigureNetworkRulesMap order rules updates).1.NetworkID =
          rules.NetworkID := hname.2
        rw [hid]
      · obtain ⟨f2, hf2, hpath⟩ := rulesTree_path float64 (K, p) (mem_of_lookup _ _ _ hp)
        simp only at hf2 hpath
        rw [hf] at hf2
        cases hf2
        rw [hpath] at h2
        cases h2
        obtain ⟨kind, hkind⟩ := keyKind_of_field K f hf
        cases hv : updates.lookup K with
        | none =>
          exfalso
          apply hne
          have habs := configure_getField_absent frac order rules updates hperm K hv
          rw [getField_of_field K f hf, getField_of_field K f hf] at habs
          rw [Option.some.inj habs]
        | some v =>
          obtain ⟨old, hold, hnew⟩ :=
            configure_getField_present frac order rules updates hperm K kind v hkind hv
          rw [getField_of_field K f hf] at hold hnew
          cases hold
          exact ⟨K, kind, v, f rules, hkind, hv, getField_of_field K f hf rules, hp,
            congrArg _ (Option.some.inj hnew), hne⟩
    · rintro ⟨K, kind, v, old, hkind, hv, hold, hp, rfl, hne⟩
      obtain ⟨f, hf, hpath⟩ := rulesTree_path float64 (K, p) (mem_of_lookup _ _ _ hp)
      simp only at hf hpath
      obtain ⟨old2, hold2, hnew⟩ :=
        configure_getField_present frac order rules updates hperm K kind v hkind hv
      rw [hold] at hold2
      cases hold2
      rw [getField_of_field K f hf] at hold hnew
      cases hold
      have hfnew : f (ConfigureNetworkRulesMap order rules updates).1 =
          applied frac kind v (f rules) := Option.some.inj hnew
      have hp0 : p ≠ [] := by
        intro h0
        have := hpath rules
        rw [h0, getPath_nil] at this
        have hobj := isObject_leaf float64 (f rules)
        rw [← Option.some.inj this] at hobj
        cases hobj
      have h2 := hpath (ConfigureNetworkRulesMap order rules updates).1
      rw [hfnew] at h2
      exact (diff_leaf_path p _ _ d hp0 hwf hd _ _ (hpath rules) h2
        (isObject_leaf float64 _)).1 hne
  refine ⟨d, ?_, hleaves, ?_, ?_⟩
  · have herr := configure_no_error frac order rules updates hperm haccept
    simp only [networkRulesDiff, herr, unmarshalRules_of_fits float64 rules hfit,
      unmarshalRules_of_fits float64 _ hfit2, hd]
  · intro p fs hp hfs
    exact diff_nested_leaf p _ _ d hp hwf hsame.1 hd fs hfs
  · constructor
    · intro hd0 K kind v old hkind hv hold
      by_contra hne
      obtain ⟨f, hf, hpath⟩ : ∃ f, fieldTable.lookup K = some f ∧ True := by
        cases hf : fieldTable.lookup K with
        | none => simp [getField, hf] at hold
        | some f => exact ⟨f, rfl, trivial⟩
      have hpmem : ∃ p, pathTable.lookup K = some p := by
        have hkeys : fieldTable.map Prod.fst = pathTable.map Prod.fst := by decide
        have hmem : K ∈ fieldTable.map Prod.fst :=
          List.mem_map.mpr ⟨(K, f), mem_of_lookup _ _ _ hf, rfl⟩
        rw [hkeys] at hmem
        cases hk : pathTable.lookup K with
        | none =>
          exfalso
          obtain ⟨e, he, hek⟩ := List.mem_map.mp hmem
          have := List.lookup_eq_none_iff.mp hk e he
          simp [hek] at this
        | some p => exact ⟨p, rfl⟩
      obtain ⟨p, hp⟩ := hpmem
      have hx := (hleaves p (leaf float64 (applied frac kind v old))
        (isObject_leaf float64 _)).mpr
        ⟨K, kind, v, old, hkind, hv, hold, hp, rfl, fun h => hne h.symm⟩
      rw [hd0] at hx
      cases p with
      | nil =>
        rw [getPath_nil] at hx
        have hobj := isObject_leaf float64 (applied frac kind v old)
        rw [← Option.some.inj hx] at hobj
        cases hobj
      | cons k q =>
        rw [getPath_object_nil_cons] at hx
        cases hx
    · intro hsame2
      by_contra hne
      obtain ⟨q, x, _, hx, hleaf⟩ := diff_nonempty_leaf _ _ _ d (le_refl _) hwf hsame.1 hd hne
      obtain ⟨K, kind, v, old, hkind, hv, hold, _, rfl, hdiff⟩ := (hleaves q x hleaf).mp hx
      exact hdiff (hsame2 K kind v old hkind hv hold).symm

end genesis

namespace genesis

open json opera

variable {ν : Type} [DecidableEq ν]

theorem lookup_single (K v K2 v2 : String) (h : List.lookup K2 [(K, v)] = some v2) :
    K2 = K ∧ v2 = v := by
  rw [List.lookup_cons] at h
  cases hk : K2 == K with
  | false => rw [hk] at h; simp at h
  | true =>
    rw [hk] at h
    exact ⟨by simpa using hk, (Option.some.inj h).symm⟩

theorem accept_single (frac : Nat → Nat → Nat → Nat) (K v : String) (kind : Kind)
    (hkind : keyKind K = some kind) (hok : rejects frac kind v = false) :
    ∀ K2 kind2 v2, keyKind K2 = some kind2 → List.lookup K2 [(K, v)] = some v2 →
      rejects frac kind2 v2 = false := by
  intro K2 kind2 v2 hk2 hl
  obtain ⟨rfl, rfl⟩ := lookup_single K v K2 v2 hl
  rw [hkind] at hk2
  cases hk2
  exact hok

theorem pathTable_of_kind (K : String) (kind : Kind) (h : keyKind K = some kind) :
    ∃ path, pathTable.lookup K = some path := by
  have hkeys : kindTable.map Prod.fst = pathTable.map Prod.fst := by decide
  have hmem : K ∈ kindTable.map Prod.fst :=
    List.mem_map.mpr ⟨(K, kind), mem_of_lookup _ _ _ h, rfl⟩
  rw [hkeys] at hmem
  cases hk : pathTable.lookup K with
  | none =>
    exfalso
    obtain ⟨e, he, hek⟩ := List.mem_map.mp hmem
    have := List.lookup_eq_none_iff.mp hk e he
    simp [hek] at this
  | some p => exact ⟨p, rfl⟩

/-- The rules fit `float64` after a single update of a set of updates when
they fit before the updates and after all of them. -/
theorem fits_single (frac : Nat → Nat → Nat → Nat) (order : List (String × ruleUpdater))
    (rules : Rules) (updates : NetworkRules)
    (hperm : order.Perm (supportedNetworkRulesConfigurations frac))
    (hfit : fits rules = true)
    (hfit2 : fits (ConfigureNetworkRulesMap order rules updates).1 = true)
    (K v : String) (kind : Kind) (hkind : keyKind K = some kind)
    (hv : updates.lookup K = some v) :
    fits (ConfigureNetworkRulesMap order rules [(K, v)]).1 = true := by
  have hone : List.lookup K [(K, v)] = some v := by simp [List.lookup_cons]
  have hfield : ∀ k : String,
      getField k (ConfigureNetworkRulesMap order rules [(K, v)]).1 = getField k rules ∨
      getField k (ConfigureNetworkRulesMap order rules [(K, v)]).1 =
        getField k (ConfigureNetworkRulesMap order rules updates).1 := by
    intro k
    by_cases hk : k = K
    · subst hk
      right
      obtain ⟨old, hold, hnew⟩ :=
        configure_getField_present frac order rules [(k, v)] hperm k kind v hkind hone
      obtain ⟨old2, hold2, hnew2⟩ :=
        configure_getField_present frac order rules updates hperm k kind v hkind hv
      rw [hold] at hold2
      cases hold2
      rw [hnew, hnew2]
    · left
      apply configure_getField_absent frac order rules [(K, v)] hperm k
      rw [List.lookup_cons]
      have : (k == K) = false := by simpa using hk
      rw [this]
      rfl
  have hprice : ∀ r : Rules, getField "MIN_GAS_PRICE" r = some (.bigInt r.Economy.MinGasPrice) :=
    fun _ => rfl
  have hfee : ∀ r : Rules, getField "MIN_BASE_FEE" r = some (.bigInt r.Economy.MinBaseFee) :=
    fun _ => rfl
  rw [fits, Bool.and_eq_true] at hfit hfit2 ⊢
  constructor
  · rcases hfield "MIN_GAS_PRICE" with h | h
    · rw [hprice, hprice] at h
      rw [Value.bigInt.inj (Option.some.inj h)]
      exact hfit.1
    · rw [hprice, hprice] at h
      rw [Value.bigInt.inj (Option.some.inj h)]
      exact hfit2.1
  · rcases hfield "MIN_BASE_FEE" with h | h
    · rw [hfee, hfee] at h
      rw [Value.bigInt.inj (Option.some.inj h)]
      exact hfit.2
    · rw [hfee, hfee] at h
      rw [Value.bigInt.inj (Option.some.inj h)]
      exact hfit2.2

end genesis

namespace genesis

open json opera

variable {ν : Type} [DecidableEq ν]

/-- C19 (as amended): for updates whose values are all accepted by the parsers
of their keys, the rules holding only numbers that fit `float64` before and
after, `GenerateJsonNetworkRulesUpdates` returns `json.Marshal` of a map `d`
such that: for a single update `K: v`, `d` has a leaf exactly when the JSON
value of the field of `K` changes, and then exactly one, at the path of `K`
in the rule tree, holding the new value of the field; for several updates
the leaves of `d` are those of the results of the single updates; every
nested map of `d` holds a leaf; updates that change no JSON value give the
empty map. -/
theorem generateJson_leaves (frac : Nat → Nat → Nat → Nat) (float64 : Int → ν)
    (order : List (String × ruleUpdater)) (rules : Rules) (updates : NetworkRules)
    (hperm : order.Perm (supportedNetworkRulesConfigurations frac))
    (haccept : ∀ K kind v, keyKind K = some kind → updates.lookup K = some v →
      rejects frac kind v = false)
    (hfit : fits rules = true)
    (hfit2 : fits (ConfigureNetworkRulesMap order rules updates).1 = true) :
    ∃ d, networkRulesDiff float64 order rules updates = .ok d ∧
      (∀ Marshal : List (String × Any ν) → Except json.Error String,
        GenerateJsonNetworkRulesUpdates float64 Marshal order rules updates =
          match Marshal d with
          | .error err => .error (.json err)
          | .ok b => .ok b) ∧
      (∀ K v kind old, updates = [(K, v)] → keyKind K = some kind →
        getField K rules = some old →
        ∃ path, pathTable.lookup K = some path ∧
          (∀ p x, x.isObject = false →
            (getPath (.object d) p = some x ↔
              p = path ∧ x = leaf float64 (applied frac kind v old) ∧
                leaf float64 old ≠ leaf float64 (applied frac kind v old))) ∧
          (leaf float64 old = leaf float64 (applied frac kind v old) → d = [])) ∧
      (∀ p x, x.isObject = false →
        (getPath (.object d) p = some x ↔
          ∃ K v dK, updates.lookup K = some v ∧ IsSupportedNetworkRule K = true ∧
            networkRulesDiff float64 order rules [(K, v)] = .ok dK ∧
            getPath (.object dK) p = some x)) ∧
      (∀ p fs, p ≠ [] → getPath (.object d) p = some (.object fs) →
        ∃ q x, q ≠ [] ∧ getPath (.object d) (p ++ q) = some x ∧ x.isObject = false) ∧
      ((∀ K kind v old, keyKind K = some kind → updates.lookup K = some v →
          getField K rules = some old →
          leaf float64 (applied frac kind v old) = leaf float64 old) → d = []) := by
  obtain ⟨d, hd, hleaves, hnested, hempty⟩ :=
    networkRulesDiff_spec frac float64 order rules updates hperm haccept hfit hfit2
  refine ⟨d, hd, ?_, ?_, ?_, hnested, hempty.mpr⟩
  · intro Marshal
    unfold GenerateJsonNetworkRulesUpdates
    rw [hd]
  · intro K v kind old hupd hkind hold
    subst hupd
    obtain ⟨path, hpath⟩ := pathTable_of_kind K kind hkind
    refine ⟨path, hpath, ?_, ?_⟩
    · intro p x hleaf
      rw [hleaves p x hleaf]
      constructor
      · rintro ⟨K2, kind2, v2, old2, hk2, hv2, hold2, hp2, rfl, hne⟩
        obtain ⟨rfl, rfl⟩ := lookup_single K v K2 v2 hv2
        rw [hkind] at hk2
        cases hk2
        rw [hold] at hold2
        cases hold2
        rw [hpath] at hp2
        cases hp2
        exact ⟨rfl, rfl, hne⟩
      · rintro ⟨rfl, rfl, hne⟩
        exact ⟨K, kind, v, old, hkind, by simp [List.lookup_cons], hold, hpath, rfl, hne⟩
    · intro hsame
      apply hempty.mpr
      intro K2 kind2 v2 old2 hk2 hv2 hold2
      obtain ⟨rfl, rfl⟩ := lookup_single K v K2 v2 hv2
      rw [hkind] at hk2
      cases hk2
      rw [hold] at hold2
      cases hold2
      exact hsame.symm
  · intro p x hleaf
    rw [hleaves p x hleaf]
    constructor
    · rintro ⟨K, kind, v, old, hkind, hv, hold, hp, rfl, hne⟩
      have hone : List.lookup K [(K, v)] = some v := by simp [List.lookup_cons]
      obtain ⟨dK, hdK, hleavesK, _⟩ := networkRulesDiff_spec frac float64 order rules [(K, v)]
        hperm (accept_single frac K v kind hkind (haccept K kind v hkind hv)) hfit
        (fits_single frac order rules updates hperm hfit hfit2 K v kind hkind hv)
      exact ⟨K, v, dK, hv, (isSupported_iff K).mpr ⟨kind, hkind⟩, hdK,
        (hleavesK p _ hleaf).mpr ⟨K, kind, v, old, hkind, hone, hold, hp, rfl, hne⟩⟩
    · rintro ⟨K, v, dK, hv, hsup, hdK, hx⟩
      obtain ⟨kind, hkind⟩ := (isSupported_iff K).mp hsup
      obtain ⟨dK2, hdK2, hleavesK, _⟩ := networkRulesDiff_spec frac float64 order rules [(K, v)]
        hperm (accept_single frac K v kind hkind (haccept K kind v hkind hv)) hfit
        (fits_single frac order rules updates hperm hfit hfit2 K v kind hkind hv)
      rw [hdK] at hdK2
      cases hdK2
      obtain ⟨K2, kind2, v2, old2, hk2, hv2, hold2, hp2, rfl, hne⟩ := (hleavesK p x hleaf).mp hx
      obtain ⟨rfl, rfl⟩ := lookup_single K v K2 v2 hv2
      exact ⟨K2, kind2, v2, old2, hk2, hv, hold2, hp2, rfl, hne⟩

/-- Witness of C19: the block gas limit of rules with every field zero is set
to 2000000; the result holds the new limit at the path of the key. -/
theorem generateJson_leaves_witness :
    ∃ d, networkRulesDiff exactFloat64 (supportedNetworkRulesConfigurations exactFrac)
        zeroRules [("MAX_BLOCK_GAS", "2000000")] = .ok d ∧
      getPath (.object d) ["Blocks", "MaxBlockGas"] = some (.number 2000000) := by
  obtain ⟨d, hd, _, hsingle, _⟩ := generateJson_leaves exactFrac exactFloat64
    (supportedNetworkRulesConfigurations exactFrac) zeroRules [("MAX_BLOCK_GAS", "2000000")]
    (List.Perm.refl _)
    (accept_single exactFrac "MAX_BLOCK_GAS" "2000000" (.unsigned 64) (by decide) (by decide))
    (by decide) (by decide)
  obtain ⟨path, hpath, hiff, _⟩ := hsingle "MAX_BLOCK_GAS" "2000000" (.unsigned 64) (.uint 0)
    rfl (by decide) (by decide)
  have hp : path = ["Blocks", "MaxBlockGas"] := by
    have h2 : pathTable.lookup "MAX_BLOCK_GAS" = some ["Blocks", "MaxBlockGas"] := by decide
    rw [hpath] at h2
    exact Option.some.inj h2
  refine ⟨d, hd, ?_⟩
  have hnew : leaf exactFloat64 (applied exactFrac (.unsigned 64) "2000000" (.uint 0)) =
      Any.number (2000000 : Int) := rfl
  have hold : leaf exactFloat64 (.uint 0) = Any.number (0 : Int) := rfl
  refine (hiff ["Blocks", "MaxBlockGas"] (.number 2000000) rfl).mpr ⟨hp.symm, hnew.symm, ?_⟩
  rw [hnew, hold]
  intro h
  exact absurd (Any.number.inj h) (by decide)

/-- C19 (counterexample): `MAX_EXTRA_DATA` is a supported key, its parser
accepts the value 4294967296, which differs from the current value 0 of the
field, and the result is the empty map: the field is 32 bits wide and stays
0. -/
theorem generateJson_truncated_value_counterexample :
    IsSupportedNetworkRule "MAX_EXTRA_DATA" = true ∧
    keyKind "MAX_EXTRA_DATA" = some (.unsigned 32) ∧
    rejects exactFrac (.unsigned 32) "4294967296" = false ∧
    (strconv.ParseUint "4294967296" 10).1 = 4294967296 ∧
    getField "MAX_EXTRA_DATA" zeroRules = some (.uint 0) ∧
    networkRulesDiff exactFloat64 (supportedNetworkRulesConfigurations exactFrac) zeroRules
      [("MAX_EXTRA_DATA", "4294967296")] = .ok [] :=
  ⟨by decide, by decide, by decide, by decide, by decide, rfl⟩

end genesis

namespace shaper

variable {α : Type} [LinearOrderedField α]

/-- C21 (as amended): for a non-nil rate `ParseRate` returns a shaper exactly
when at least one of the four variants is set and the error `unknown rate
type` exactly when none is set; the shaper is built from the first variant
that is set in the order constant, slope, auto, wave, so from the set variant
when exactly one is set, with auto defaulting to increase 1.0 and decrease
0.2 and wave defaulting to min 0. -/
theorem parseRate_first_set_variant (rate : parser.Rate α) :
    ((∃ s, ParseRate (some rate) = .ok s) ↔ 1 ≤ variantsSet rate) ∧
    (ParseRate (some rate) = .error .unknownRateType ↔ variantsSet rate = 0) ∧
    (∀ c, rate.Constant = some c → ParseRate (some rate) = .ok (.constant c)) ∧
    (rate.Constant = none → ∀ s, rate.Slope = some s →
      ParseRate (some rate) = .ok (.slope (NewSlopeShaper s.Start s.Increment))) ∧
    (rate.Constant = none → rate.Slope = none → ∀ a, rate.Auto = some a →
      ParseRate (some rate) =
        .ok (.auto (a.Increase.getD 1) (a.Decrease.getD (2 / 10)))) ∧
    (rate.Constant = none → rate.Slope = none → rate.Auto = none →
      ∀ w, rate.Wave = some w →
        ParseRate (some rate) = .ok (.wave (w.Min.getD 0) w.Max w.Period)) := by
  obtain ⟨c, s, w, a⟩ := rate
  refine ⟨?_, ?_, ?_, ?_, ?_, ?_⟩
  · cases c <;> cases s <;> cases w <;> cases a <;> simp [ParseRate, variantsSet]
  · cases c <;> cases s <;> cases w <;> cases a <;> simp [ParseRate, variantsSet]
  · intro c0 h
    simp only at h
    subst h
    rfl
  · intro hc s0 hs
    simp only at hc hs
    subst hc hs
    rfl
  · intro hc hs a0 ha
    simp only at hc hs ha
    subst hc hs ha
    obtain ⟨i, d⟩ := a0
    cases i <;> cases d <;> rfl
  · intro hc hs ha w0 hw
    simp only at hc hs ha hw
    subst hc hs ha hw
    obtain ⟨m, mx, p⟩ := w0
    cases m <;> rfl

/-- C21 (counterexample): a rate with the two variants `constant` and `slope`
set is no error: `ParseRate` returns the constant shaper. -/
theorem parseRate_two_variants_counterexample :
    variantsSet twoVariantsExample = 2 ∧
    ParseRate (some twoVariantsExample) = .ok (.constant 10) := by
  constructor
  · rfl
  · rfl

/-- Witness of C21: the variant `auto` without parameters gives the auto
shaper with increase 1 and decrease 0.2. -/
theorem parseRate_first_set_variant_witness :
    ParseRate (some autoExample) = .ok (.auto 1 (2 / 10)) :=
  (parseRate_first_set_variant autoExample).2.2.2.2.1 rfl rfl ⟨none, none⟩ rfl

end shaper

namespace driver

theorem int64_add_int64 (a b : Int) : int64 (int64 a + b) = int64 (a + b) := by
  unfold int64
  have h : (a + 2 ^ 63) % 2 ^ 64 - 2 ^ 63 + b + 2 ^ 63 = (a + 2 ^ 63) % 2 ^ 64 + b := by ring
  rw [h, Int.emod_add_emod]
  congr 2
  ring

theorem int64_of_range (x : Int) (h1 : -2 ^ 63 ≤ x) (h2 : x < 2 ^ 63) : int64 x = x := by
  unfold int64
  rw [Int.emod_eq_of_lt (by omega) (by omega)]
  ring

theorem int64_idem (x : Int) : int64 (int64 x) = int64 x := by
  have h := int64_add_int64 x 0
  simpa using h

theorem foldl_int64 (l : List Validator) :
    ∀ acc : Int, acc = int64 acc →
      l.foldl (fun num val => int64 (num + val.Instances)) acc =
        int64 (acc + (l.map Validator.Instances).sum) := by
  induction l with
  | nil => intro acc h; simpa using h
  | cons a t ih =>
    intro acc _
    rw [List.foldl_cons, ih _ (int64_idem _).symm, int64_add_int64, List.map_cons,
      List.sum_cons, add_assoc]

theorem getNumValidators_eq (l : Validators) :
    l.GetNumValidators = int64 (l.map Validator.Instances).sum := by
  unfold Validators.GetNumValidators
  rw [foldl_int64 l 0 (by decide), Int.zero_add]

/-- C24: `NewValidators` maps an empty list to the one default validator
(name `validator`, 1 instance, image `sonic`, not failing) and a non-empty
list element by element, in order, through `NewValidator`, which keeps name
and failing flag and replaces a missing instance count by 1 and an empty
image name by `sonic`; `GetNumValidators` of the result is 1 for the empty
list and otherwise the sum of the instance counts in `int` arithmetic, a
missing count counting as 1, which is the sum itself when it fits an `int`. -/
theorem newValidators_spec :
    NewValidators [] = [⟨"validator", false, 1, "sonic"⟩] ∧
    (∀ v : List parser.Validator, v ≠ [] → NewValidators v = v.map NewValidator) ∧
    (∀ v : List parser.Validator, v ≠ [] → (NewValidators v).length = v.length ∧
      ∀ i (h : i < v.length), (NewValidators v)[i]? = some (NewValidator (v.get ⟨i, h⟩))) ∧
    (∀ x : parser.Validator, NewValidator x =
      ⟨x.Name, x.Failing, x.Instances.getD 1, if x.ImageName = "" then "sonic" else x.ImageName⟩) ∧
    (NewValidators []).GetNumValidators = 1 ∧
    (∀ v : List parser.Validator, v ≠ [] →
      (NewValidators v).GetNumValidators = int64 (v.map (fun x => x.Instances.getD 1)).sum ∧
      (-2 ^ 63 ≤ (v.map (fun x => x.Instances.getD 1)).sum →
        (v.map (fun x => x.Instances.getD 1)).sum < 2 ^ 63 →
        (NewValidators v).GetNumValidators = (v.map (fun x => x.Instances.getD 1)).sum)) := by
  have hmap : ∀ v : List parser.Validator, v ≠ [] → NewValidators v = v.map NewValidator := by
    intro v hv
    unfold NewValidators
    rw [if_neg]
    intro h
    exact hv (List.length_eq_zero.mp h)
  have hnew : ∀ x : parser.Validator, NewValidator x =
      ⟨x.Name, x.Failing, x.Instances.getD 1,
        if x.ImageName = "" then "sonic" else x.ImageName⟩ := by
    intro x
    obtain ⟨name, failing, instances, image⟩ := x
    cases instances <;> by_cases himg : image = "" <;>
      simp [NewValidator, himg, DefaultClientDockerImageName]
  have hsum : ∀ v : List parser.Validator,
      (v.map NewValidator).map Validator.Instances = v.map (fun x => x.Instances.getD 1) := by
    intro v
    rw [List.map_map]
    apply List.map_congr_left
    intro x _
    simp only [Function.comp, hnew x]
  refine ⟨rfl, hmap, ?_, hnew, by decide, ?_⟩
  · intro v hv
    rw [hmap v hv]
    refine ⟨List.length_map _ _, fun i h => ?_⟩
    simp [List.getElem?_map, List.getElem?_eq_getElem h]
  · intro v hv
    have hnum : (NewValidators v).GetNumValidators =
        int64 (v.map (fun x => x.Instances.getD 1)).sum := by
      rw [hmap v hv, getNumValidators_eq, hsum]
    refine ⟨hnum, fun h1 h2 => ?_⟩
    rw [hnum, int64_of_range _ h1 h2]

/-- Witness of C24: two groups with 2 and 3 instances give 5 validators. -/
theorem newValidators_spec_witness :
    (NewValidators [⟨"validator1", false, some 2, ""⟩,
      ⟨"validator2", false, some 3, ""⟩]).GetNumValidators = 5 :=
  (newValidators_spec.2.2.2.2.2 [⟨"validator1", false, some 2, ""⟩,
    ⟨"validator2", false, some 3, ""⟩] (by simp)).2 (by decide) (by decide)

end driver

namespace external

/-- C22: on an external network `ApplyNetworkRules` returns nil for every rules
map, after writing a warning to the log, while `CreateNode` and `RemoveNode`
return an error. -/
theorem applyNetworkRules_returns_nil (n : ExternalNetwork) (rules : driver.NetworkRules)
    (log : List String) (config : driver.NodeConfig) (node : checking.Node) :
    (n.ApplyNetworkRules rules log).1 = none ∧
    (n.ApplyNetworkRules rules log).2 =
      log ++ ["Warning: ApplyNetworkRules not supported for external networks"] ∧
    (n.CreateNode config).1 = none ∧ (n.CreateNode config).2 ≠ none ∧
    n.RemoveNode node ≠ none := by
  refine ⟨rfl, rfl, rfl, ?_, ?_⟩
  · simp [ExternalNetwork.CreateNode]
  · simp [ExternalNetwork.RemoveNode]

end external

namespace genesis

open opera

/-- Rules with the same name, network identifier and fields of the rule keys
are equal. -/
theorem rules_ext (r r' : Rules) (hname : r.Name = r'.Name) (hid : r.NetworkID = r'.NetworkID)
    (h : ∀ k, getField k r = getField k r') : r = r' := by
  have hmap : fieldTable.map (fun e => e.2 r) = fieldTable.map (fun e => e.2 r') := by
    apply List.map_congr_left
    intro e he
    have hl := lookup_of_mem fieldTable (by rw [fieldTable_keys]; exact kindTable_nodup)
      e.1 e.2 he
    have := h e.1
    rw [getField_of_field e.1 e.2 hl, getField_of_field e.1 e.2 hl] at this
    exact Option.some.inj this
  obtain ⟨name, id, ⟨d1, d2, d3⟩, ⟨e1, e2, e3⟩, ⟨p1, p2⟩, ⟨b1, b2⟩,
    ⟨s, ⟨g1, g2, g3, g4, g5, g6, g7, g8⟩, mp, mf, ⟨sh1, sh2, sh3, sh4⟩, ⟨l1, l2, l3, l4⟩⟩,
    ⟨u1, u2, u3, u4, u5⟩⟩ := r
  obtain ⟨name', id', ⟨d1', d2', d3'⟩, ⟨e1', e2', e3'⟩, ⟨p1', p2'⟩, ⟨b1', b2'⟩,
    ⟨s', ⟨g1', g2', g3', g4', g5', g6', g7', g8'⟩, mp', mf', ⟨sh1', sh2', sh3', sh4'⟩,
      ⟨l1', l2', l3', l4'⟩⟩,
    ⟨u1', u2', u3', u4', u5'⟩⟩ := r'
  simp only [fieldTable, List.map_cons, List.map_nil, List.cons.injEq, Value.uint.injEq,
    Value.bool.injEq, Value.bigInt.injEq, and_true] at hmap
  simp only at hname hid
  obtain ⟨rfl, rfl, rfl, rfl, rfl, rfl, rfl, rfl, rfl, rfl, rfl, rfl, rfl, rfl, rfl, rfl, rfl,
    rfl, rfl, rfl, rfl, rfl, rfl, rfl, rfl, rfl, rfl, rfl, rfl, rfl, rfl, rfl, rfl, rfl⟩ := hmap
  subst hname hid
  rfl

theorem updaters_commute (frac : Nat → Nat → Nat → Nat) :
    ∀ e1 ∈ supportedNetworkRulesConfigurations frac,
    ∀ e2 ∈ supportedNetworkRulesConfigurations frac, e1.1 ≠ e2.1 →
      ∀ (v1 v2 : String) (r : Rules),
        (e2.2 v2 (e1.2 v1 r).1).1 = (e1.2 v1 (e2.2 v2 r).1).1 := by
  intro e1 he1 e2 he2 hne v1 v2 r
  obtain ⟨_, _, _, _, hs1⟩ := updater_spec frac e1 he1
  obtain ⟨_, _, _, _, hs2⟩ := updater_spec frac e2 he2
  apply rules_ext
  · rw [(hs2 v2 _).2.2.1, (hs1 v1 _).2.2.1, (hs1 v1 _).2.2.1, (hs2 v2 _).2.2.1]
  · rw [(hs2 v2 _).2.2.2, (hs1 v1 _).2.2.2, (hs1 v1 _).2.2.2, (hs2 v2 _).2.2.2]
  · intro k
    by_cases hk1 : k = e1.1
    · subst hk1
      rw [getField_frame frac e2 he2 e1.1 hne v2]
      exact getField_own_congr frac e1 he1 v1 r _ (getField_frame frac e2 he2 e1.1 hne v2 r).symm
    · by_cases hk2 : k = e2.1
      · subst hk2
        rw [getField_frame frac e1 he1 e2.1 hk1 v1]
        exact (getField_own_congr frac e2 he2 v2 r _
          (getField_frame frac e1 he1 e2.1 hk1 v1 r).symm).symm
      · rw [getField_frame frac e2 he2 k hk2, getField_frame frac e1 he1 k hk1,
          getField_frame frac e1 he1 k hk1, getField_frame frac e2 he2 k hk2]

/-- C29: the registry has 34 keys, pairwise distinct, each updater leaves the
fields of the other keys alone, and any two updaters of different keys
commute; for every updates map any two traversal orders of the registry give
the same final rules and the same nil / non-nil error status. -/
theorem configure_order_independent (frac : Nat → Nat → Nat → Nat)
    (order order2 : List (String × ruleUpdater))
    (hperm : order.Perm (supportedNetworkRulesConfigurations frac))
    (hperm2 : order2.Perm (supportedNetworkRulesConfigurations frac))
    (rules : Rules) (updates : NetworkRules) :
    (supportedNetworkRulesConfigurations frac).length = 34 ∧
    ((supportedNetworkRulesConfigurations frac).map Prod.fst).Nodup ∧
    (∀ e1 ∈ supportedNetworkRulesConfigurations frac,
      ∀ e2 ∈ supportedNetworkRulesConfigurations frac, e1.1 ≠ e2.1 →
        ∀ (v1 v2 : String) (r : Rules),
          getField e2.1 (e1.2 v1 r).1 = getField e2.1 r ∧
          (e2.2 v2 (e1.2 v1 r).1).1 = (e1.2 v1 (e2.2 v2 r).1).1) ∧
    (ConfigureNetworkRulesMap order rules updates).1 =
      (ConfigureNetworkRulesMap order2 rules updates).1 ∧
    ((ConfigureNetworkRulesMap order rules updates).2 = none ↔
      (ConfigureNetworkRulesMap order2 rules updates).2 = none) := by
  refine ⟨rfl, registry_nodup frac, ?_, ?_, ?_⟩
  · intro e1 he1 e2 he2 hne v1 v2 r
    exact ⟨getField_frame frac e1 he1 e2.1 (fun h => hne h.symm) v1 r,
      updaters_commute frac e1 he1 e2 he2 hne v1 v2 r⟩
  · have hname := configureLoop_name frac updates order
      (fun e he => ((perm_registry frac order hperm).1 e).mp he) rules []
    have hname2 := configureLoop_name frac updates order2
      (fun e he => ((perm_registry frac order2 hperm2).1 e).mp he) rules []
    apply rules_ext
    · exact hname.1.trans hname2.1.symm
    · exact hname.2.trans hname2.2.symm
    · intro k
      rw [configure_getField frac order rules updates hperm k,
        configure_getField frac order2 rules updates hperm2 k]
  · have h1 := configure_error_ne_none_iff frac order rules updates hperm
    have h2 := configure_error_ne_none_iff frac order2 rules updates hperm2
    constructor
    · intro h
      by_contra hcon
      exact (h1.mpr (h2.mp hcon)) h
    · intro h
      by_contra hcon
      exact (h2.mpr (h1.mp hcon)) h

/-- Witness of C29: the registry traversed in the order of its registration
and in the reverse order, with a good and a bad value. -/
theorem configure_order_independent_witness :
    (ConfigureNetworkRulesMap (supportedNetworkRulesConfigurations exactFrac) zeroRules
        [("MAX_BLOCK_GAS", "2000000"), ("EMITTER_INTERVAL", "5x")]).1 =
      (ConfigureNetworkRulesMap (supportedNetworkRulesConfigurations exactFrac).reverse
        zeroRules [("MAX_BLOCK_GAS", "2000000"), ("EMITTER_INTERVAL", "5x")]).1 :=
  (configure_order_independent exactFrac (supportedNetworkRulesConfigurations exactFrac)
    (supportedNetworkRulesConfigurations exactFrac).reverse (List.Perm.refl _)
    (List.reverse_perm _) zeroRules
    [("MAX_BLOCK_GAS", "2000000"), ("EMITTER_INTERVAL", "5x")]).2.2.2.1

end genesis

namespace netmon

open monitoring

variable {T : Type}

theorem append_ok (s : BlockNetworkMetricSource T) (h : Inv s) (pos : Int) (val : T)
    (hpos : s.lastBlock < pos) :
    s.series.Append pos val = .ok (s.series ++ [(pos, val)]) := by
  unfold SyncedSeries.Append
  cases hl : s.series.getLast? with
  | none => rfl
  | some last =>
    have hmem : last ∈ s.series := List.mem_of_getLast?_eq_some hl
    have := h.bound last hmem
    simp only
    rw [if_neg (by omega)]

theorem onBlock_eq (s : BlockNetworkMetricSource T) (h : Inv s) (node : monitoring.Node)
    (b : Block) :
    s.OnBlock node b =
      if s.lastBlock < b.Height then
        { s with series := s.series ++ [(b.Height, s.getBlockProperty b)],
                 lastBlock := b.Height }
      else s := by
  unfold BlockNetworkMetricSource.OnBlock
  by_cases hb : s.lastBlock < b.Height
  · have hgt : b.Height > s.lastBlock := hb
    rw [if_pos hgt, if_pos hb, append_ok s h _ _ hb]
  · have hgt : ¬ b.Height > s.lastBlock := hb
    rw [if_neg hgt, if_neg hb]

theorem onBlock_inv (s : BlockNetworkMetricSource T) (h : Inv s) (node : monitoring.Node)
    (b : Block) : Inv (s.OnBlock node b) := by
  rw [onBlock_eq s h]
  by_cases hb : s.lastBlock < b.Height
  · rw [if_pos hb]
    refine ⟨?_, ?_, h.log⟩
    · simp only [List.map_append, List.map_cons, List.map_nil]
      rw [List.Sorted, List.pairwise_append]
      refine ⟨h.sorted, List.pairwise_singleton _ _, ?_⟩
      intro x hx y hy
      rw [List.mem_singleton] at hy
      subst hy
      obtain ⟨p, hp, rfl⟩ := List.mem_map.mp hx
      have := h.bound p hp
      omega
    · intro p hp
      simp only [List.mem_append, List.mem_singleton] at hp
      rcases hp with hp | rfl
      · have := h.bound p hp
        simp only
        omega
      · exact le_refl _
  · rw [if_neg hb]
    exact h

theorem onBlock_property (s : BlockNetworkMetricSource T) (node : monitoring.Node) (b : Block) :
    (s.OnBlock node b).getBlockProperty = s.getBlockProperty := by
  unfold BlockNetworkMetricSource.OnBlock
  split
  · split <;> rfl
  · rfl

theorem notified_inv (f : Block → T) (notes : List (monitoring.Node × Block)) :
    Inv (notified f notes) ∧ (notified f notes).getBlockProperty = f ∧
      (notified f notes).lastBlock = (notes.map (fun nb => nb.2.Height)).foldl max (-1) := by
  unfold notified
  induction notes using List.reverseRecOn with
  | nil =>
    refine ⟨⟨?_, ?_, rfl⟩, rfl, rfl⟩
    · simp [newBlockNetworkMetricsSource]
    · intro p hp
      simp [newBlockNetworkMetricsSource] at hp
  | append_singleton pre nb ih =>
    obtain ⟨hinv, hprop, hlast⟩ := ih
    rw [List.foldl_append, List.foldl_cons, List.foldl_nil]
    refine ⟨onBlock_inv _ hinv _ _, ?_, ?_⟩
    · rw [onBlock_property, hprop]
    · rw [onBlock_eq _ hinv, List.map_append, List.foldl_append, List.map_cons, List.map_nil,
        List.foldl_cons, List.foldl_nil, ← hlast]
      by_cases hb : (List.foldl (fun s nb => s.OnBlock nb.1 nb.2)
          (newBlockNetworkMetricsSource f) pre).lastBlock < nb.2.Height
      · rw [if_pos hb]
        simp only
        rw [max_eq_right (le_of_lt hb)]
      · rw [if_neg hb, max_eq_left (not_lt.mp hb)]

theorem foldl_max_lt_iff (l : List Int) (a x : Int) :
    l.foldl max a < x ↔ a < x ∧ ∀ y ∈ l, y < x := by
  induction l generalizing a with
  | nil => simp
  | cons b t ih =>
    rw [List.foldl_cons, ih]
    simp only [List.mem_cons, forall_eq_or_imp, max_lt_iff]
    tauto

/-- C27: for every sequence of `OnBlock` notifications with block heights
(non-negative), from any nodes and in any order, the positions of the network
series are strictly increasing, hence without duplicates, no append was out of
order (nothing was logged), `lastBlock` is the largest height notified so far
(`-1` initially), and a notification is recorded exactly if its height exceeds
every height notified before, with the value of that notification. -/
theorem onBlock_series_strictly_increasing (f : Block → T)
    (notes : List (monitoring.Node × Block)) (hh : ∀ nb ∈ notes, 0 ≤ nb.2.Height) :
    ((notified f notes).series.map Prod.fst).Sorted (· < ·) ∧
      ((notified f notes).series.map Prod.fst).Nodup ∧
      (notified f notes).log = [] ∧
      (notified f notes).lastBlock = (notes.map (fun nb => nb.2.Height)).foldl max (-1) ∧
      (notified f []).lastBlock = -1 ∧ (notified f []).series = [] ∧
      ∀ pre nb post, notes = pre ++ nb :: post →
        (notified f (pre ++ [nb])).log = [] ∧
        (notified f (pre ++ [nb])).series =
          if ∀ x ∈ pre, x.2.Height < nb.2.Height then
            (notified f pre).series ++ [(nb.2.Height, f nb.2)]
          else (notified f pre).series := by
  obtain ⟨hinv, _, hlast⟩ := notified_inv f notes
  refine ⟨hinv.sorted, hinv.sorted.nodup, hinv.log, hlast, rfl, rfl, ?_⟩
  intro pre nb post hnotes
  obtain ⟨hpre, hprop, hlastPre⟩ := notified_inv f pre
  refine ⟨(notified_inv f (pre ++ [nb])).1.log, ?_⟩
  have hstep : notified f (pre ++ [nb]) = (notified f pre).OnBlock nb.1 nb.2 := by
    unfold notified
    rw [List.foldl_append, List.foldl_cons, List.foldl_nil]
  have hnb : 0 ≤ nb.2.Height := hh nb (by rw [hnotes]; simp)
  have hiff : (notified f pre).lastBlock < nb.2.Height ↔ ∀ x ∈ pre, x.2.Height < nb.2.Height := by
    rw [hlastPre, foldl_max_lt_iff]
    constructor
    · intro h x hx
      exact h.2 _ (List.mem_map.mpr ⟨x, hx, rfl⟩)
    · intro h
      refine ⟨by omega, ?_⟩
      intro y hy
      obtain ⟨x, hx, rfl⟩ := List.mem_map.mp hy
      exact h x hx
  rw [hstep, onBlock_eq _ hpre, hprop]
  by_cases hb : (notified f pre).lastBlock < nb.2.Height
  · rw [if_pos hb, if_pos (hiff.mp hb)]
  · rw [if_neg hb, if_neg (fun h => hb (hiff.mpr h))]

/-- Witness of C27: the notifications of the blocks 1, 3, 2, 3, 4 leave the
series with the blocks 1, 3, 4. -/
theorem onBlock_series_strictly_increasing_witness :
    (∀ nb ∈ notesExample, 0 ≤ nb.2.Height) ∧
      (notified (fun b => b.Txs) notesExample).series = [(1, 10), (3, 30), (4, 40)] ∧
      ((notified (fun b => b.Txs) notesExample).series.map Prod.fst).Sorted (· < ·) :=
  ⟨by decide, by decide,
    (onBlock_series_strictly_increasing (fun b => b.Txs) notesExample (by decide)).1⟩

end netmon

namespace rpc

variable {ρ ε : Type}

theorem delayAt_pos (i : Nat) : Millisecond ≤ delayAt i ∧ delayAt i ≤ maxDelay := by
  induction i with
  | zero => exact ⟨le_refl _, by decide⟩
  | succ n ih =>
    unfold delayAt nextDelay
    have hm : Millisecond = 1000000 := rfl
    have hx : maxDelay = 5000000000 := rfl
    split <;> omega

theorem checkTime_mono (w : World ρ ε) (i n : Nat) : checkTime w i ≤ checkTime w (i + n) := by
  induction n with
  | zero => exact le_refl _
  | succ n ih =>
    rw [← Nat.add_assoc]
    show _ ≤ checkTime w (i + n) + _ + _
    omega

theorem checkTime_lower (w : World ρ ε) (hsleep : ∀ i d, d ≤ w.sleepTime i d) (i : Nat) :
    (i : Int) * Millisecond ≤ checkTime w i := by
  induction i with
  | zero =>
    show _ ≤ (w.start : Int)
    simp
  | succ n ih =>
    show _ ≤ checkTime w n + _ + _
    have h1 := hsleep n (delayAt n)
    have h2 := (delayAt_pos n).1
    have hm : Millisecond = 1000000 := rfl
    push_cast
    rw [hm] at ih h2 ⊢
    omega

theorem waitLoop_found (w : World ρ ε) (timeout : Int) (n : Nat) :
    ∀ (i fuel : Nat), n + 1 ≤ fuel → (∀ j, i ≤ j → j < i + n → w.notFound j = true) →
      w.notFound (i + n) = false → checkTime w (i + n) < timeout →
      waitLoop w timeout fuel i (checkTime w i) (delayAt i) =
        some (outcome (w.answer (i + n)), i + n + 1) := by
  induction n with
  | zero =>
    intro i fuel hfuel _ hk ht
    obtain ⟨f, rfl⟩ : ∃ f, fuel = f + 1 := ⟨fuel - 1, by omega⟩
    simp only [Nat.add_zero] at hk ht ⊢
    unfold waitLoop
    rw [if_pos ht]
    unfold World.notFound at hk
    unfold outcome
    cases ha : w.answer i with
    | error err =>
      rw [ha] at hk
      simp only at hk ⊢
      rw [hk]
      rfl
    | ok r => rfl
  | succ n ih =>
    intro i fuel hfuel hnf hk ht
    obtain ⟨f, rfl⟩ : ∃ f, fuel = f + 1 := ⟨fuel - 1, by omega⟩
    have hi : checkTime w i < timeout := by
      have := checkTime_mono w i (n + 1)
      omega
    have hnfi := hnf i (le_refl _) (by omega)
    have hidx : i + (n + 1) = (i + 1) + n := by omega
    unfold waitLoop
    rw [if_pos hi]
    unfold World.notFound at hnfi
    cases ha : w.answer i with
    | ok r => rw [ha] at hnfi; exact absurd hnfi (by simp)
    | error err =>
      rw [ha] at hnfi
      simp only at hnfi ⊢
      rw [hnfi, if_pos rfl, hidx]
      exact ih (i + 1) f (by omega) (fun j h1 h2 => hnf j (by omega) (by omega))
        (by rw [← hidx]; exact hk) (by rw [← hidx]; exact ht)

theorem waitLoop_timeout (w : World ρ ε) (timeout : Int) (n : Nat) :
    ∀ (i fuel : Nat), n + 1 ≤ fuel → (∀ j, i ≤ j → j < i + n → w.notFound j = true) →
      (∀ j, i ≤ j → j < i + n → checkTime w j < timeout) → timeout ≤ checkTime w (i + n) →
      waitLoop w timeout fuel i (checkTime w i) (delayAt i) =
        some (.error (.plain "failed to get transaction receipt: timeout"), i + n) := by
  induction n with
  | zero =>
    intro i fuel hfuel _ _ ht
    obtain ⟨f, rfl⟩ : ∃ f, fuel = f + 1 := ⟨fuel - 1, by omega⟩
    simp only [Nat.add_zero] at ht ⊢
    unfold waitLoop
    rw [if_neg (by omega)]
  | succ n ih =>
    intro i fuel hfuel hnf hlt ht
    obtain ⟨f, rfl⟩ : ∃ f, fuel = f + 1 := ⟨fuel - 1, by omega⟩
    have hi : checkTime w i < timeout := hlt i (le_refl _) (by omega)
    have hnfi := hnf i (le_refl _) (by omega)
    have hidx : i + (n + 1) = (i + 1) + n := by omega
    unfold waitLoop
    rw [if_pos hi]
    unfold World.notFound at hnfi
    cases ha : w.answer i with
    | ok r => rw [ha] at hnfi; exact absurd hnfi (by simp)
    | error err =>
      rw [ha] at hnfi
      simp only at hnfi ⊢
      rw [hnfi, if_pos rfl, hidx]
      exact ih (i + 1) f (by omega) (fun j h1 h2 => hnf j (by omega) (by omega))
        (fun j h1 h2 => hlt j (by omega) (by omega)) (by rw [← hidx]; exact ht)

theorem exists_first_timeout (w : World ρ ε) (hsleep : ∀ i d, d ≤ w.sleepTime i d)
    (timeout : Int) :
    ∃ m, timeout ≤ checkTime w m ∧ ∀ j < m, checkTime w j < timeout := by
  have hex : ∃ m, timeout ≤ checkTime w m := by
    refine ⟨timeout.toNat, le_trans ?_ (checkTime_lower w hsleep _)⟩
    have hm : Millisecond = 1000000 := rfl
    rw [hm]
    have := Int.self_le_toNat timeout
    omega
  classical
  refine ⟨Nat.find hex, Nat.find_spec hex, ?_⟩
  intro j hj
  exact lt_of_not_le (Nat.find_min hex hj)

/-- C23: with a sleep that lasts at least as long as asked, if the first `k`
answers are `NotFound` and the next answer, not `NotFound`, arrives before the
timeout, `WaitTransactionReceipt` returns the outcome of that answer (the
receipt, or the query error wrapped) after exactly `k + 1` queries; if the
answer of every query sent before the timeout is `NotFound`, it returns the
error `failed to get transaction receipt: timeout`; and it always returns. -/
theorem waitTransactionReceipt_spec (w : World ρ ε) (hsleep : ∀ i d, d ≤ w.sleepTime i d)
    (timeout : Int) :
    (∀ k, (∀ j < k, w.notFound j = true) → w.notFound k = false → arrival w k < timeout →
      ∀ fuel, k + 1 ≤ fuel →
        WaitTransactionReceipt w timeout fuel = some (outcome (w.answer k), k + 1)) ∧
    ((∀ i, checkTime w i < timeout → w.notFound i = true) →
      ∃ m, ∀ fuel, m + 1 ≤ fuel →
        WaitTransactionReceipt w timeout fuel =
          some (.error (.plain "failed to get transaction receipt: timeout"), m)) ∧
    (∃ n result, ∀ fuel, n ≤ fuel → WaitTransactionReceipt w timeout fuel = some result) ∧
    (∀ err : ε, outcome (.error err : Except ε ρ) =
      .error (.wrapped "failed to get transaction receipt: " err)) ∧
    (∀ receipt : ρ, outcome (.ok receipt : Except ε ρ) = .ok receipt) := by
  have hfound : ∀ k, (∀ j < k, w.notFound j = true) → w.notFound k = false →
      checkTime w k < timeout → ∀ fuel, k + 1 ≤ fuel →
        WaitTransactionReceipt w timeout fuel = some (outcome (w.answer k), k + 1) := by
    intro k hnf hk ht fuel hfuel
    have := waitLoop_found w timeout k 0 fuel hfuel (fun j _ h => hnf j (by omega))
      (by rw [Nat.zero_add]; exact hk) (by rw [Nat.zero_add]; exact ht)
    rw [Nat.zero_add] at this
    exact this
  have htimeout : ∀ m, timeout ≤ checkTime w m → (∀ j < m, checkTime w j < timeout) →
      (∀ j < m, w.notFound j = true) → ∀ fuel, m + 1 ≤ fuel →
        WaitTransactionReceipt w timeout fuel =
          some (.error (.plain "failed to get transaction receipt: timeout"), m) := by
    intro m hm hlt hnf fuel hfuel
    have := waitLoop_timeout w timeout m 0 fuel hfuel (fun j _ h => hnf j (by omega))
      (fun j _ h => hlt j (by omega)) (by rw [Nat.zero_add]; exact hm)
    rw [Nat.zero_add] at this
    exact this
  obtain ⟨m, hm, hlt⟩ := exists_first_timeout w hsleep timeout
  refine ⟨?_, ?_, ?_, fun _ => rfl, fun _ => rfl⟩
  · intro k hnf hk ht
    have hq : (0 : Int) ≤ w.queryTime k := Int.ofNat_nonneg _
    exact hfound k hnf hk (by unfold arrival at ht; omega)
  · intro hall
    exact ⟨m, htimeout m hm hlt (fun j hj => hall j (hlt j hj))⟩
  · classical
    by_cases hex : ∃ k, k < m ∧ w.notFound k = false
    · have hk := Nat.find_spec hex
      refine ⟨Nat.find hex + 1, _, hfound (Nat.find hex) ?_ hk.2 (hlt _ hk.1)⟩
      intro j hj
      have := Nat.find_min hex hj
      by_contra hne
      exact this ⟨by omega, by simpa using hne⟩
    · refine ⟨m + 1, _, htimeout m hm hlt ?_⟩
      intro j hj
      by_contra hne
      exact hex ⟨j, hj, by simpa using hne⟩

/-- Witness of C23: after two `NotFound` answers the receipt `7` is returned,
with three queries sent. -/
theorem waitTransactionReceipt_spec_witness :
    (∀ i d, d ≤ receiptExample.sleepTime i d) ∧
      WaitTransactionReceipt receiptExample (600 * Second) 3 = some (.ok 7, 3) :=
  ⟨fun _ d => Int.self_le_toNat d,
    (waitTransactionReceipt_spec receiptExample (fun _ d => Int.self_le_toNat d)
      (600 * Second)).1 2 (by decide) (by decide) (by decide) 3 (le_refl _)⟩

end rpc

namespace genesis

open opera makefakegenesis drivercall

theorem reslice_of_le {α : Type} (s spare : List α) (n : Int) (h0 : 0 ≤ n)
    (hn : n ≤ s.length + spare.length) : reslice s spare n = .ok ((s ++ spare).take n.toNat) := by
  unfold reslice
  rw [if_neg (by omega)]

theorem reslice_of_gt {α : Type} (s spare : List α) (n : Int)
    (hn : (s.length + spare.length : Int) < n) :
    reslice s spare n = .error (.sliceBounds n (s.length + spare.length)) := by
  unfold reslice
  rw [if_pos (Or.inr hn)]

theorem generateJsonGenesis_of_reslice (lib : Library) (jsonFile : String) (n : Int)
    (rules : Rules) (hlen : (lib.GetFakeValidators maxValidators).length = 100)
    (used : List Validator) (first : Validator)
    (hre : reslice (lib.GetFakeValidators maxValidators) (lib.spare maxValidators) n = .ok used)
    (hfirst : used.head? = some first) :
    ∃ err, GenerateJsonGenesis lib jsonFile n rules =
      .ok ({ Rules := rules, BlockZeroTime := 100,
             Accounts := infrastructureAccounts lib ++
               validatorAccounts (lib.ToFtm 1000000000 / 100)
                 (lib.GetFakeValidators maxValidators),
             Txs := transactionsOf (lib.GetGenesisTxs 0 used (lib.ToFtm 1000000000)
               (delegationsOf lib used) first.Address),
             GenesisCommittee := some lib.committee }, err) := by
  unfold GenerateJsonGenesis
  simp only [hlen, hre, hfirst]
  rw [if_neg (by decide)]
  simp only [Nat.cast_ofNat]
  split
  · exact ⟨_, rfl⟩
  · split
    · exact ⟨_, rfl⟩
    · exact ⟨_, rfl⟩

/-- C25: `GenerateJsonGenesis` on a validators count `n >= 1`.  For
`n <= 100` it builds the genesis with the 5 infrastructure accounts followed by
the 100 validator accounts of balance `totalSupply / 100` and with the
delegations of the first `n` validators.  For `n > 100` it panics with slice
bounds out of range as soon as `n` exceeds the capacity of the slice of the
100 validators, and below the capacity it uses elements of the backing array
that are not among the 100 validators. -/
theorem generateJsonGenesis_count_above_maximum (lib : Library)
    (hlen : (lib.GetFakeValidators maxValidators).length = 100) (jsonFile : String)
    (rules : Rules) (n : Int) (h1 : 1 ≤ n) :
    (n ≤ 100 → ∃ first err,
      (lib.GetFakeValidators maxValidators).head? = some first ∧
      GenerateJsonGenesis lib jsonFile n rules =
        .ok ({ Rules := rules, BlockZeroTime := 100,
               Accounts := infrastructureAccounts lib ++
                 validatorAccounts (lib.ToFtm 1000000000 / 100)
                   (lib.GetFakeValidators maxValidators),
               Txs := transactionsOf (lib.GetGenesisTxs 0
                 ((lib.GetFakeValidators maxValidators).take n.toNat) (lib.ToFtm 1000000000)
                 (delegationsOf lib ((lib.GetFakeValidators maxValidators).take n.toNat))
                 first.Address),
               GenesisCommittee := some lib.committee }, err) ∧
      (infrastructureAccounts lib).length = 5 ∧
      (validatorAccounts (lib.ToFtm 1000000000 / 100)
        (lib.GetFakeValidators maxValidators)).length = 100 ∧
      (∀ a ∈ validatorAccounts (lib.ToFtm 1000000000 / 100)
        (lib.GetFakeValidators maxValidators), a.Balance = some (lib.ToFtm 1000000000 / 100)) ∧
      ((delegationsOf lib ((lib.GetFakeValidators maxValidators).take n.toNat)).length : Int)
        = n ∧
      (delegationsOf lib ((lib.GetFakeValidators maxValidators).take n.toNat)).map
          (fun d => d.ValidatorID) =
        ((lib.GetFakeValidators maxValidators).take n.toNat).map (fun v => v.ID)) ∧
    ((100 + (lib.spare maxValidators).length : Int) < n →
      GenerateJsonGenesis lib jsonFile n rules =
        .error (.sliceBounds n (100 + (lib.spare maxValidators).length))) ∧
    (100 < n → n ≤ (100 + (lib.spare maxValidators).length : Int) → ∃ first err,
      (lib.GetFakeValidators maxValidators).head? = some first ∧
      GenerateJsonGenesis lib jsonFile n rules =
        .ok ({ Rules := rules, BlockZeroTime := 100,
               Accounts := infrastructureAccounts lib ++
                 validatorAccounts (lib.ToFtm 1000000000 / 100)
                   (lib.GetFakeValidators maxValidators),
               Txs := transactionsOf (lib.GetGenesisTxs 0
                 (lib.GetFakeValidators maxValidators ++
                   (lib.spare maxValidators).take (n.toNat - 100)) (lib.ToFtm 1000000000)
                 (delegationsOf lib (lib.GetFakeValidators maxValidators ++
                   (lib.spare maxValidators).take (n.toNat - 100)))
                 first.Address),
               GenesisCommittee := some lib.committee }, err) ∧
      (lib.spare maxValidators).take (n.toNat - 100) ≠ []) := by
  obtain ⟨first, rest, hvals⟩ : ∃ first rest, lib.GetFakeValidators maxValidators = first :: rest := by
    cases hv : lib.GetFakeValidators maxValidators with
    | nil => rw [hv] at hlen; exact absurd hlen (by decide)
    | cons a t => exact ⟨a, t, rfl⟩
  have hhead : (lib.GetFakeValidators maxValidators).head? = some first := by rw [hvals]; rfl
  obtain ⟨m, rfl⟩ : ∃ m : Nat, n = ((m + 1 : Nat) : Int) := ⟨n.toNat - 1, by omega⟩
  have htoNat : (((m + 1 : Nat) : Int)).toNat = m + 1 := Int.toNat_natCast _
  refine ⟨?_, ?_, ?_⟩
  · intro hn
    have hre := reslice_of_le (lib.GetFakeValidators maxValidators) (lib.spare maxValidators)
      ((m + 1 : Nat) : Int) (by omega) (by rw [hlen]; omega)
    rw [htoNat, List.take_append_of_le_length (by rw [hlen]; omega)] at hre
    have hfirst : ((lib.GetFakeValidators maxValidators).take (m + 1)).head? = some first := by
      rw [hvals]; rfl
    obtain ⟨err, hG⟩ := generateJsonGenesis_of_reslice lib jsonFile _ rules hlen _ first hre hfirst
    refine ⟨first, err, hhead, ?_, rfl, ?_, ?_, ?_, ?_⟩
    · rw [htoNat]; exact hG
    · unfold validatorAccounts; rw [List.length_map, hlen]
    · intro a ha
      unfold validatorAccounts at ha
      obtain ⟨v, _, rfl⟩ := List.mem_map.mp ha
      rfl
    · rw [htoNat]
      unfold delegationsOf
      rw [List.length_map, List.length_take, hlen]
      have : min (m + 1) 100 = m + 1 := by omega
      rw [this]
    · unfold delegationsOf
      rw [List.map_map]
      rfl
  · intro hn
    unfold GenerateJsonGenesis
    have hre := reslice_of_gt (lib.GetFakeValidators maxValidators) (lib.spare maxValidators)
      ((m + 1 : Nat) : Int) (by rw [hlen]; exact hn)
    rw [hlen] at hre
    simp only [hlen, hre]
    rfl
  · intro hlo hhi
    have hre := reslice_of_le (lib.GetFakeValidators maxValidators) (lib.spare maxValidators)
      ((m + 1 : Nat) : Int) (by omega) (by rw [hlen]; exact hhi)
    rw [htoNat, List.take_append_eq_append_take, hlen,
      List.take_of_length_le (by rw [hlen]; omega)] at hre
    have hfirst : (lib.GetFakeValidators maxValidators ++
        (lib.spare maxValidators).take (m + 1 - 100)).head? = some first := by
      rw [hvals]; rfl
    obtain ⟨err, hG⟩ := generateJsonGenesis_of_reslice lib jsonFile _ rules hlen _ first hre hfirst
    refine ⟨first, err, hhead, ?_, ?_⟩
    · rw [htoNat]; exact hG
    · rw [htoNat]
      intro hnil
      have hl := congrArg List.length hnil
      rw [List.length_take, List.length_nil] at hl
      omega

/-- Witness of C25: with `VALIDATORS_COUNT=101` the exporter passes its checks
and `GenerateJsonGenesis` panics at the slice of the 100 validators; with 9 the
genesis is built. -/
theorem generateJsonGenesis_count_above_maximum_witness :
    (libraryExample.GetFakeValidators maxValidators).length = 100 ∧
      GenerateJsonGenesis libraryExample "genesis.json" 101 zeroRules =
        .error (.sliceBounds 101 100) ∧
      app.exportGenesis libraryExample zeroRules (supportedNetworkRulesConfigurations exactFrac)
        ["genesis.json"] (app.countEnv "101") = .error (.sliceBounds 101 100) ∧
      (app.exportGenesis libraryExample zeroRules (supportedNetworkRulesConfigurations exactFrac)
        ["genesis.json"] (app.countEnv "9")).toOption.map (fun r => r.2) = some none :=
  ⟨by decide,
    (generateJsonGenesis_count_above_maximum libraryExample (by decide) "genesis.json"
      zeroRules 101 (by decide)).2.1 (by decide),
    by decide, by decide⟩

end genesis

namespace nodemon

open monitoring

variable {X K T : Type}

theorem getRange_append_latest [LinearOrder K] (first : K) (series : SyncedSeries K T)
    (latest : K × T) (hsorted : (series.map Prod.fst).Sorted (· < ·))
    (hfirst : ∀ p ∈ series, first ≤ p.1) (hlatest : series.GetLatest = some latest) :
    series.GetRange first latest.1 ++ [latest] = series := by
  unfold SyncedSeries.GetLatest at hlatest
  induction series using List.reverseRecOn with
  | nil => simp at hlatest
  | append_singleton init x _ =>
    simp only [List.getLast?_append, List.getLast?_singleton, Option.or_some, Option.some.injEq,
      Option.getD_some] at hlatest
    subst hlatest
    unfold SyncedSeries.GetRange
    rw [List.filter_append]
    have hinit : init.filter (fun p => decide (first ≤ p.1) && decide (p.1 < x.1)) = init := by
      rw [List.filter_eq_self]
      intro p hp
      have h1 := hfirst p (List.mem_append_left _ hp)
      rw [List.map_append, List.Sorted, List.pairwise_append] at hsorted
      have h2 := hsorted.2.2 p.1 (List.mem_map_of_mem _ hp) x.1 (by simp)
      simp [h1, h2]
    have hx : [x].filter (fun p => decide (first ≤ p.1) && decide (p.1 < x.1)) = [] := by
      simp
    rw [hinit, hx, List.append_nil]

theorem forEachSubject_source [LinearOrder K] (first : K)
    (s : NodeBlockSeriesTransformation (SyncedSeries K T)) (subjects : List Node)
    (hdata : ∀ subject series, monitoring.GetData s.monitor subject s.source = some series →
      (series.map Prod.fst).Sorted (· < ·) ∧ ∀ p ∈ series, first ≤ p.1) :
    forEachSubject (SyncedSeries.ops K T) first s subjects =
      subjects.flatMap (fun subject =>
        recordsOf subject ((monitoring.GetData s.monitor subject s.source).getD [])) := by
  induction subjects with
  | nil => rfl
  | cons subject rest ih =>
    rw [forEachSubject, List.flatMap_cons, ← ih]
    cases hd : monitoring.GetData s.monitor subject s.source with
    | none => rfl
    | some series =>
      obtain ⟨hsorted, hfirst⟩ := hdata subject series hd
      cases hl : (SyncedSeries.ops K T).GetLatest series with
      | none =>
        have hnil : series = [] := by
          have : series.getLast? = none := hl
          exact List.getLast?_eq_none_iff.mp this
        subst hnil
        rfl
      | some latest =>
        have hrange := getRange_append_latest first series latest hsorted hfirst hl
        simp only [Option.getD_some]
        have hrec : recordsOf subject series =
            List.map (fun point => (⟨subject, point.1, point.2⟩ : Record K T))
              ((SyncedSeries.ops K T).GetRange series first latest.1) ++
              [⟨subject, latest.1, latest.2⟩] := by
          conv_lhs => rw [← hrange]
          unfold recordsOf
          rw [List.map_append]
          rfl
        rw [hrec, hl]

/-- C26: `ForEachRecord` reads the series of the source metric, so for source
series with strictly increasing positions from the zero position on it emits
exactly the points of the input series of each subject, one record per point
in position order, whatever the transformation is, while `GetData` returns the
series the factory makes of the input (or the one it made before). -/
theorem forEachRecord_emits_source_points [LinearOrder K] (first : K)
    (s : NodeBlockSeriesTransformation (SyncedSeries K T))
    (hdata : ∀ subject series, monitoring.GetData s.monitor subject s.source = some series →
      (series.map Prod.fst).Sorted (· < ·) ∧ ∀ p ∈ series, first ≤ p.1) :
    s.ForEachRecord (SyncedSeries.ops K T) first =
      (monitoring.GetSubjects s.monitor s.source).flatMap (fun subject =>
        recordsOf subject ((monitoring.GetData s.monitor subject s.source).getD [])) ∧
    (∀ node source, s.series.lookup node = none →
      monitoring.GetData s.monitor node s.source = some source →
        (s.GetData node).1 = some (s.seriesFactory source)) ∧
    (∀ node res, s.series.lookup node = some res → (s.GetData node).1 = some res) := by
  refine ⟨forEachSubject_source first s _ hdata, ?_, ?_⟩
  · intro node source hcache hsource
    unfold NodeBlockSeriesTransformation.GetData
    rw [hcache, hsource]
  · intro node res hcache
    unfold NodeBlockSeriesTransformation.GetData
    rw [hcache]

/-- Witness of C26: for the moving average of window 2 over the values 2 and 4
the records carry the raw values 2 and 4, while `GetData` returns the averages
2 and 3. -/
theorem forEachRecord_emits_source_points_witness :
    smaExample.ForEachRecord (SyncedSeries.ops Int ℚ) 0 = [⟨"A", 1, 2⟩, ⟨"A", 2, 4⟩] ∧
      (smaExample.GetData "A").1 = some [(1, 2), (2, 3)] ∧
      recordsOf "A" [(1, (2 : ℚ)), ((2 : Int), 3)] ≠
        smaExample.ForEachRecord (SyncedSeries.ops Int ℚ) 0 := by
  have hdata : ∀ subject series,
      monitoring.GetData smaExample.monitor subject smaExample.source = some series →
        (series.map Prod.fst).Sorted (· < ·) ∧ ∀ p ∈ series, (0 : Int) ≤ p.1 := by
    intro subject series h
    have hs : series = [(1, 2), (2, 4)] := by
      by_cases hA : subject = "A"
      · subst hA
        exact (Option.some.inj h).symm
      · have hnone : monitoring.GetData smaExample.monitor subject smaExample.source = none := by
          show (if subject = "A" then _ else none) = none
          rw [if_neg hA]
        rw [hnone] at h
        exact absurd h (by simp)
    subst hs
    exact ⟨by decide, by decide⟩
  have h := forEachRecord_emits_source_points 0 smaExample hdata
  have hsma : smaExample.seriesFactory [(1, 2), (2, 4)] = [(1, 2), (2, 3)] := by
    show NewSMASeries [((1 : Int), (2 : ℚ)), (2, 4)] 2 = [(1, 2), (2, 3)]
    norm_num [NewSMASeries, smaAt, List.enum, List.enumFrom]
  refine ⟨h.1, ?_, ?_⟩
  · rw [h.2.1 "A" [(1, 2), (2, 4)] rfl rfl, hsma]
  · rw [h.1]
    decide

end nodemon

namespace genesis
open json
variable {ν : Type}

theorem setKey_lookup_self (m : List (String × Any ν)) (k : String) (v : Any ν) :
    (setKey m k v).lookup k = some v := by
  induction m with
  | nil => simp [setKey, List.lookup]
  | cons e rest ih =>
    obtain ⟨key, value⟩ := e
    unfold setKey
    by_cases h : key = k
    · rw [if_pos h]
      simp [List.lookup]
    · rw [if_neg h]
      rw [List.lookup_cons]
      have : (k == key) = false := by simpa using fun h2 => h h2.symm
      rw [this]
      exact ih

theorem setKey_lookup_ne (m : List (String × Any ν)) (k k2 : String) (v : Any ν)
    (hne : k2 ≠ k) : (setKey m k v).lookup k2 = m.lookup k2 := by
  induction m with
  | nil =>
    have : (k2 == k) = false := by simpa using hne
    simp [setKey, List.lookup, this]
  | cons e rest ih =>
    obtain ⟨key, value⟩ := e
    unfold setKey
    by_cases h : key = k
    · rw [if_pos h]
      subst h
      have : (k2 == key) = false := by simpa using hne
      simp [List.lookup_cons, this]
    · rw [if_neg h]
      rw [List.lookup_cons, List.lookup_cons, ih]

theorem agree_refl (x : Option (Any ν)) : agree x x := by
  cases x with
  | none => trivial
  | some a => cases a <;> simp [agree, Any.isObject]

theorem agree_leaf (x : Option (Any ν)) (b : Any ν) (h : agree x (some b))
    (hb : b.isObject = false) : x = some b := by
  cases x with
  | none => cases b <;> exact absurd h (by simp [agree])
  | some a =>
    cases a <;> cases b <;> simp_all [agree, Any.isObject]

theorem sameStructure_objects (m1 m2 : List (String × Any ν))
    (h : sameStructure (.object m1) (.object m2) = true) :
    sameFields m1 m2 = true ∧ ∀ k, m1.lookup k = none → m2.lookup k = none := by
  rw [sameStructure, Bool.and_eq_true] at h
  refine ⟨h.1, ?_⟩
  intro k hk
  cases hb : m2.lookup k with
  | none => rfl
  | some b =>
    have hmem : k ∈ m2.map Prod.fst := List.mem_map.mpr ⟨(k, b), mem_of_lookup m2 k b hb, rfl⟩
    have := List.all_eq_true.mp h.2 k hmem
    rw [hk] at this
    simp at this

theorem merge_lookup (d : List (String × Any ν)) :
    ∀ (m : List (String × Any ν)), (d.map Prod.fst).Nodup → ∀ k,
      (mergeMapsSimpleValuesOrNestedMap m d).lookup k =
        match d.lookup k with
        | none => m.lookup k
        | some y => some (mergeValue (m.lookup k) y) := by
  induction d with
  | nil => intro m _ k; rfl
  | cons e rest ih =>
    intro m hnodup k
    obtain ⟨k0, v⟩ := e
    rw [List.map_cons, List.nodup_cons] at hnodup
    rw [mergeMapsSimpleValuesOrNestedMap, ih _ hnodup.2 k]
    by_cases hk : k = k0
    · subst hk
      have hrest : rest.lookup k = none := lookup_eq_none_of_not_mem rest k hnodup.1
      rw [hrest, setKey_lookup_self]
      simp [List.lookup_cons]
    · have hb : (k == k0) = false := by simpa using hk
      rw [List.lookup_cons, hb, setKey_lookup_ne _ _ _ _ hk]

end genesis

namespace genesis
open json
variable {ν : Type} [DecidableEq ν]

theorem diff_keys_sublist (m2 : List (String × Any ν)) :
    ∀ (m1 d : List (String × Any ν)), diffMapsSameStructure m1 m2 = .ok d →
      (d.map Prod.fst).Sublist (m1.map Prod.fst) := by
  intro m1
  induction m1 with
  | nil =>
    intro d hd
    rw [diffMapsSameStructure] at hd
    cases hd
    exact List.Sublist.refl _
  | cons e rest ih =>
    intro d hd
    obtain ⟨key, value1⟩ := e
    rw [diffMapsSameStructure] at hd
    cases hb2 : m2.lookup key with
    | none =>
      simp only [hb2] at hd
      exact (ih d hd).trans (List.sublist_cons_self _ _)
    | some value2 =>
      simp only [hb2] at hd
      cases hv : diffValue value1 value2 with
      | error p => rw [hv] at hd; cases hd
      | ok entry =>
        rw [hv] at hd
        cases hr : diffMapsSameStructure rest m2 with
        | error p => rw [hr] at hd; cases hd
        | ok result =>
          rw [hr] at hd
          simp only [Except.ok.injEq] at hd
          subst hd
          cases entry with
          | none => exact (ih result hr).trans (List.sublist_cons_self _ _)
          | some y => exact (ih result hr).cons₂ _

end genesis

namespace genesis
open json
variable {ν : Type} [DecidableEq ν]

theorem merge_diff_path : ∀ (p : List String) (m1 m2 d : List (String × Any ν)),
    wellFormed (.object m1) = true → sameStructure (.object m1) (.object m2) = true →
    diffMapsSameStructure m1 m2 = .ok d →
    agree (getPath (.object (mergeMapsSimpleValuesOrNestedMap m1 d)) p)
      (getPath (.object m2) p) := by
  intro p
  induction p with
  | nil =>
    intro m1 m2 d _ _ _
    rw [getPath_nil, getPath_nil]
    trivial
  | cons k q ih =>
    intro m1 m2 d hwf hsame hd
    obtain ⟨hnodup, hwff⟩ := wellFormed_object m1 hwf
    obtain ⟨hsf, hcover⟩ := sameStructure_objects m1 m2 hsame
    have hdnodup : (d.map Prod.fst).Nodup := (diff_keys_sublist m2 m1 d hd).nodup hnodup
    rw [getPath_object_cons, getPath_object_cons, merge_lookup d m1 hdnodup k]
    cases ha : m1.lookup k with
    | none =>
      have hdk : d.lookup k = none := by
        rw [diff_lookup m2 m1 d hnodup hd k, ha]
      rw [hdk, hcover k ha]
      simp only [ha]
      trivial
    | some a =>
      obtain ⟨b, hb, hab⟩ := sameFields_lookup m1 m2 k a hsf ha
      obtain ⟨e, he, hdk⟩ := diff_lookup_both m1 m2 d hnodup hd k a b ha hb
      rw [hb, hdk]
      by_cases hao : a.isObject = false
      · have hbo : b.isObject = false := sameStructure_leaf_left a b hao hab
        obtain ⟨hne, heq⟩ := diffValue_leaf_ok a b (Or.inl hao) e he
        by_cases hv : a = b
        · rw [heq hv]
          simp only
          rw [hv]
          exact agree_refl _
        · rw [hne hv]
          have hm : mergeValue (some a) b = b := by
            cases a <;> cases b <;> first | rfl | simp [Any.isObject] at hao hbo
          simp only
          rw [hm]
          exact agree_refl _
      · obtain ⟨n1, rfl⟩ : ∃ n1, a = .object n1 := by
          cases a with
          | object n1 => exact ⟨n1, rfl⟩
          | _ => exact absurd rfl hao
        obtain ⟨n2, hn2, _⟩ := sameStructure_object_left n1 b hab
        subst hn2
        obtain ⟨nd, hnd, hsome, hnone⟩ := diffValue_object_ok n1 n2 e he
        have hwf1 : wellFormed (.object n1) = true := wellFormedFields_lookup m1 k _ hwff ha
        have hrec := ih n1 n2 nd hwf1 hab hnd
        by_cases hnil : nd = []
        · rw [hnone hnil]
          simp only
          rw [hnil] at hrec
          exact hrec
        · rw [hsome hnil]
          simp only
          exact hrec

/-- C28 (as amended): for two trees of nested maps `m1`, `m2` of the same
structure, the keys of each map of `m1` distinct and no value of `m1` a slice,
`diffMapsSameStructure m1 m2` returns a map `d`, and the deep merge of `d`
into `m1` is `m2`: at every path of keys both trees are missing, both hold a
map, or both hold the same value. -/
theorem diffMapsSameStructure_patch (m1 m2 : List (String × Any ν))
    (hwf : wellFormed (.object m1) = true) (hscalar : scalarLeaves (.object m1) = true)
    (hsame : sameStructure (.object m1) (.object m2) = true) :
    ∃ d, diffMapsSameStructure m1 m2 = .ok d ∧
      ∀ p, agree (getPath (.object (mergeMapsSimpleValuesOrNestedMap m1 d)) p)
        (getPath (.object m2) p) := by
  have hsc : scalarFields m1 = true := by
    rw [scalarLeaves] at hscalar
    exact hscalar
  obtain ⟨d, hd⟩ := diff_ok (sizeOf m1) m1 m2 (le_refl _) hsc
  exact ⟨d, hd, fun p => merge_diff_path p m1 m2 d hwf hsame hd⟩

/-- Witness of C28: merging the diff of `treeBefore` and `treeAfter` into
`treeBefore` gives the block gas limit of `treeAfter`. -/
theorem diffMapsSameStructure_patch_witness :
    ∃ d, diffMapsSameStructure treeBefore treeAfter = .ok d ∧
      getPath (.object (mergeMapsSimpleValuesOrNestedMap treeBefore d))
        ["Blocks", "MaxBlockGas"] = some (.number 2000) := by
  obtain ⟨d, hd, h⟩ := diffMapsSameStructure_patch treeBefore treeAfter
    (by decide) (by decide) (by decide)
  exact ⟨d, hd, agree_leaf _ _ (h ["Blocks", "MaxBlockGas"]) rfl⟩

/-- C28 (counterexample): the trees `treeWithSlice` and `treeWithSliceRenamed`
have the same structure and hold a slice under the key `Validators`; their
diff does not return, as the comparison of the two slices panics, so there is
no diff to merge. -/
theorem diffMapsSameStructure_patch_slice_counterexample :
    wellFormed (.object treeWithSlice) = true ∧
    sameStructure (.object treeWithSlice) (.object treeWithSliceRenamed) = true ∧
    diffMapsSameStructure treeWithSlice treeWithSliceRenamed =
      .error (.uncomparable "[]interface \x7b\x7d") ∧
    ∀ d, diffMapsSameStructure treeWithSlice treeWithSliceRenamed ≠ .ok d := by
  refine ⟨by decide, by decide, rfl, ?_⟩
  intro d h
  cases h

end genesis

namespace checking

open blocksHashesChecker

theorem walkQueries_erase (nodes : List Node) (rpcClients : List Client)
    (ef : Finset String) : ∀ (fuel b : Nat) (got : Finset String),
    (walkQueries nodes rpcClients ef fuel b got).map Prod.fst =
      walk nodes rpcClients ef fuel b got := by
  intro fuel
  induction fuel with
  | zero => intro b got; rfl
  | succ fuel ih =>
    intro b got
    unfold walkQueries walk
    cases hf : fetchBlocks b (nodes.zip rpcClients) with
    | error err => rfl
    | ok r =>
      obtain ⟨hashes, lacking⟩ := r
      simp only
      by_cases hl : lacking = nodes.length
      · rw [if_pos hl, if_pos hl]
        by_cases hg : got ≠ ef
        · rw [if_pos hg, if_pos hg]; rfl
        · rw [if_neg hg, if_neg hg]; rfl
      · rw [if_neg hl, if_neg hl]
        cases hc : compareBlocks (findReference (nodes.zip hashes)) b (nodes.zip hashes) got with
        | error err => rfl
        | ok got2 =>
          simp only
          rw [← ih ((b + 1) % 2 ^ 64) got2]
          cases walkQueries nodes rpcClients ef fuel ((b + 1) % 2 ^ 64) got2 with
          | none => rfl
          | some r => rfl

theorem checkQueries_erase (fuel : Nat) (nodes : List Node) :
    (CheckQueries fuel nodes).map Prod.fst = Check fuel nodes := by
  unfold CheckQueries Check
  cases dialAll nodes ∅ with
  | error err => rfl
  | ok r =>
    obtain ⟨rpcClients, ef⟩ := r
    simp only
    by_cases hc : ef.card = nodes.length
    · rw [if_pos hc, if_pos hc]; rfl
    · rw [if_neg hc, if_neg hc]
      exact walkQueries_erase nodes rpcClients ef fuel 0 ∅

/-- The queries of the fetching loop go to a prefix of the nodes, to all of
them when the loop does not return early. -/
theorem fetchQueries_prefix (b : Nat) (l : List Node) :
    ∃ pre, pre <+: l ∧
      fetchQueries b (l.map (fun n => (n, clientOf n))) = pre.map (fun n => (n, b)) ∧
      (∀ r, fetchBlocks b (l.map (fun n => (n, clientOf n))) = .ok r → pre = l) := by
  induction l with
  | nil => exact ⟨[], List.prefix_refl _, rfl, fun _ _ => rfl⟩
  | cons a t ih =>
    obtain ⟨pre, hpre, hq, hall⟩ := ih
    simp only [List.map_cons]
    unfold fetchQueries fetchBlocks
    cases hg : getBlockHashes (clientOf a) b with
    | error err =>
      refine ⟨[a], ⟨t, rfl⟩, rfl, ?_⟩
      intro r hr; cases hr
    | ok block =>
      simp only
      by_cases hguard : block = none ∧ b ≤ 2
      · rw [if_pos hguard, if_pos hguard]
        refine ⟨[a], ⟨t, rfl⟩, rfl, ?_⟩
        intro r hr; cases hr
      · rw [if_neg hguard, if_neg hguard]
        refine ⟨a :: pre, ?_, ?_, ?_⟩
        · obtain ⟨s, hs⟩ := hpre
          exact ⟨s, by rw [List.cons_append, hs]⟩
        · rw [hq]; rfl
        · intro r hr
          cases hrest : fetchBlocks b (t.map (fun n => (n, clientOf n))) with
          | error err => rw [hrest] at hr; cases hr
          | ok r2 => rw [hall r2 hrest]

theorem getBlockHashes_ok_blockOf (n : Node) (b : Nat) (block : Option blockHashes)
    (h : getBlockHashes (clientOf n) b = .ok block) : blockOf n b = block := by
  unfold getBlockHashes clientOf at h
  unfold blockOf
  cases hd : n.DialRpc with
  | error err =>
    rw [hd] at h
    simp only at h
    cases h
  | ok c =>
    rw [hd] at h
    simp only at h ⊢
    cases hx : c.ethGetBlockByNumber b with
    | error err => rw [hx] at h; cases h
    | ok x =>
      rw [hx] at h
      simp only at h ⊢
      exact Except.ok.inj h

theorem fetchBlocks_lacking (b : Nat) (l : List Node) :
    ∀ hashes lacking, fetchBlocks b (l.map (fun n => (n, clientOf n))) = .ok (hashes, lacking) →
      (∀ n ∈ l, blockOf n b = none) → lacking = l.length := by
  induction l with
  | nil =>
    intro hashes lacking h _
    unfold fetchBlocks at h
    simp only [List.map_nil, Except.ok.injEq, Prod.mk.injEq] at h
    exact h.2.symm
  | cons a t ih =>
    intro hashes lacking h hnone
    simp only [List.map_cons] at h
    unfold fetchBlocks at h
    cases hg : getBlockHashes (clientOf a) b with
    | error err => rw [hg] at h; cases h
    | ok block =>
      have hblock : block = none := by
        rw [← getBlockHashes_ok_blockOf a b block hg]
        exact hnone a (List.mem_cons_self _ _)
      subst hblock
      rw [hg] at h
      simp only [true_and] at h
      by_cases hb : b ≤ 2
      · rw [if_pos hb] at h; cases h
      · rw [if_neg hb] at h
        cases hrest : fetchBlocks b (t.map (fun n => (n, clientOf n))) with
        | error err => rw [hrest] at h; cases h
        | ok r =>
          obtain ⟨hs, lk⟩ := r
          rw [hrest] at h
          simp only [if_true, Except.ok.injEq, Prod.mk.injEq] at h
          have := ih hs lk hrest (fun n hn => hnone n (List.mem_cons_of_mem _ hn))
          rw [List.length_cons, ← h.2, this]

theorem queriesUpTo_succ (nodes : List Node) (first count : Nat) (last : List Node) :
    queriesUpTo nodes first (count + 1) last =
      nodes.map (fun n => (n, first)) ++ queriesUpTo nodes (first + 1) count last := by
  unfold queriesUpTo
  have h : first + (count + 1) = first + 1 + count := by omega
  rw [List.range'_succ, List.flatMap_cons, List.append_assoc, h]

theorem queriesUpTo_length (nodes : List Node) (count : Nat) (last : List Node) :
    ∀ first, (queriesUpTo nodes first count last).length =
      count * nodes.length + last.length := by
  induction count with
  | zero =>
    intro first
    simp [queriesUpTo]
  | succ c ih =>
    intro first
    rw [queriesUpTo_succ, List.length_append, List.length_map, ih]
    ring

theorem dialAll_clients (nodes : List Node) :
    ∀ (ef : Finset String) (cs : List Client) (ef2 : Finset String),
      dialAll nodes ef = .ok (cs, ef2) → cs = nodes.map clientOf := by
  induction nodes with
  | nil =>
    intro ef cs ef2 h
    unfold dialAll at h
    simp only [Except.ok.injEq, Prod.mk.injEq] at h
    rw [← h.1]
    rfl
  | cons n rest ih =>
    intro ef cs ef2 h
    unfold dialAll at h
    cases hd : n.DialRpc with
    | error err => rw [hd] at h; cases h
    | ok c =>
      rw [hd] at h
      simp only at h
      cases hr : dialAll rest (if n.IsExpectedFailure = true then insert n.GetLabel ef else ef) with
      | error err => rw [hr] at h; cases h
      | ok r =>
        obtain ⟨cs2, ef3⟩ := r
        rw [hr] at h
        simp only [Except.ok.injEq, Prod.mk.injEq] at h
        rw [← h.1, ih _ cs2 ef3 hr, List.map_cons]
        congr 1
        unfold clientOf
        rw [hd]

/-- One round of the walk: it stops at the block with the queries of a prefix
of the nodes, or fetched the block from all nodes and goes on. -/
theorem walkQueries_step (nodes : List Node) (ef : Finset String) (b : Nat)
    (got : Finset String) :
    (∃ result last, last <+: nodes ∧ ∀ fuel,
      walkQueries nodes (nodes.map clientOf) ef (fuel + 1) b got =
        some (result, last.map (fun n => (n, b)))) ∨
    ((∃ n ∈ nodes, blockOf n b ≠ none) ∧ ∃ got2, ∀ fuel,
      walkQueries nodes (nodes.map clientOf) ef (fuel + 1) b got =
        match walkQueries nodes (nodes.map clientOf) ef fuel ((b + 1) % 2 ^ 64) got2 with
        | none => none
        | some (result, later) => some (result, nodes.map (fun n => (n, b)) ++ later)) := by
  obtain ⟨pre, hpre, hq, hall⟩ := fetchQueries_prefix b nodes
  cases hf : fetchBlocks b (nodes.map (fun n => (n, clientOf n))) with
  | error err =>
    left
    refine ⟨some err, pre, hpre, fun fuel => ?_⟩
    unfold walkQueries
    rw [zip_map_eq, hf, hq]
  | ok r =>
    obtain ⟨hashes, lacking⟩ := r
    have hpre2 : pre = nodes := hall _ hf
    subst hpre2
    by_cases hl : lacking = pre.length
    · left
      by_cases hg : got ≠ ef
      · refine ⟨some (.unexpectedFailureSetHashes got ef), pre, hpre, fun fuel => ?_⟩
        unfold walkQueries
        rw [zip_map_eq, hf, hq]
        simp only
        rw [if_pos hl, if_pos hg]
      · refine ⟨none, pre, hpre, fun fuel => ?_⟩
        unfold walkQueries
        rw [zip_map_eq, hf, hq]
        simp only
        rw [if_pos hl, if_neg hg]
    · cases hc : compareBlocks (findReference (pre.zip hashes)) b (pre.zip hashes) got with
      | error err =>
        left
        refine ⟨some err, pre, hpre, fun fuel => ?_⟩
        unfold walkQueries
        rw [zip_map_eq, hf, hq]
        simp only
        rw [if_neg hl, hc]
      | ok got2 =>
        right
        refine ⟨?_, got2, fun fuel => ?_⟩
        · by_contra hcon
          refine hl (fetchBlocks_lacking b pre hashes lacking hf ?_)
          intro n hn
          by_contra hne
          exact hcon ⟨n, hn, hne⟩
        · conv_lhs => unfold walkQueries
          rw [zip_map_eq, hf, hq]
          simp only
          rw [if_neg hl, hc]

theorem walkQueries_terminates (nodes : List Node) (ef : Finset String) (N : Nat)
    (hN : N < 2 ^ 64) (hnone : ∀ n ∈ nodes, blockOf n N = none) :
    ∀ (k b : Nat), b + k = N → ∀ got : Finset String,
      ∃ result count last, b + count ≤ N ∧ last <+: nodes ∧
        ∀ fuel, k + 1 ≤ fuel →
          walkQueries nodes (nodes.map clientOf) ef fuel b got =
            some (result, queriesUpTo nodes b count last) := by
  intro k
  induction k with
  | zero =>
    intro b hb got
    rw [Nat.add_zero] at hb
    subst hb
    rcases walkQueries_step nodes ef b got with ⟨result, last, hlast, hstop⟩ | ⟨⟨n, hn, hne⟩, _⟩
    · refine ⟨result, 0, last, le_refl _, hlast, fun fuel hfuel => ?_⟩
      obtain ⟨f, rfl⟩ : ∃ f, fuel = f + 1 := ⟨fuel - 1, by omega⟩
      rw [hstop f]
      simp [queriesUpTo]
    · exact absurd (hnone n hn) hne
  | succ k ih =>
    intro b hb got
    rcases walkQueries_step nodes ef b got with ⟨result, last, hlast, hstop⟩ | ⟨_, got2, hgo⟩
    · refine ⟨result, 0, last, by omega, hlast, fun fuel hfuel => ?_⟩
      obtain ⟨f, rfl⟩ : ∃ f, fuel = f + 1 := ⟨fuel - 1, by omega⟩
      rw [hstop f]
      simp [queriesUpTo]
    · obtain ⟨result, count, last, hcount, hlast, hrun⟩ := ih (b + 1) (by omega) got2
      refine ⟨result, count + 1, last, by omega, hlast, fun fuel hfuel => ?_⟩
      obtain ⟨f, rfl⟩ : ∃ f, fuel = f + 1 := ⟨fuel - 1, by omega⟩
      rw [hgo f, Nat.mod_eq_of_lt (by omega), hrun f (by omega), queriesUpTo_succ]

/-- C30: if from the block number `L` on no node serves a block,
`blocksHashesChecker.Check` returns with every fuel above `L`, after fetching
the blocks `0, ..., count - 1` from every node, in this order and the nodes in
the order of the list, and block `count` from a prefix of the nodes; `count` is
at most `L` and at most any block number that no node serves, and the number
of block queries is at most `(L + 1) * (number of nodes)`. -/
theorem blocksHashes_check_terminates (nodes : List Node) (L : Nat) (hL : L < 2 ^ 64)
    (hfinite : ∀ n ∈ nodes, ∀ b, L ≤ b → blockOf n b = none) :
    ∃ result count last, count ≤ L ∧ last <+: nodes ∧
      (∀ N, (∀ n ∈ nodes, blockOf n N = none) → count ≤ N) ∧
      (∀ fuel, L + 1 ≤ fuel →
        CheckQueries fuel nodes = some (result, queriesUpTo nodes 0 count last) ∧
        Check fuel nodes = some result) ∧
      (queriesUpTo nodes 0 count last).length ≤ (L + 1) * nodes.length := by
  classical
  have hex : ∃ N, ∀ n ∈ nodes, blockOf n N = none := ⟨L, fun n hn => hfinite n hn L (le_refl _)⟩
  have hmin : Nat.find hex ≤ L := Nat.find_min' hex (fun n hn => hfinite n hn L (le_refl _))
  have hkey : ∃ result count last, count ≤ Nat.find hex ∧ last <+: nodes ∧
      ∀ fuel, L + 1 ≤ fuel →
        CheckQueries fuel nodes = some (result, queriesUpTo nodes 0 count last) := by
    cases hd : dialAll nodes ∅ with
    | error err =>
      refine ⟨some err, 0, [], Nat.zero_le _, List.nil_prefix, fun fuel _ => ?_⟩
      unfold CheckQueries
      rw [hd]
      rfl
    | ok r =>
      obtain ⟨cs, ef⟩ := r
      have hcs := dialAll_clients nodes ∅ cs ef hd
      subst hcs
      by_cases hc : ef.card = nodes.length
      · refine ⟨none, 0, [], Nat.zero_le _, List.nil_prefix, fun fuel _ => ?_⟩
        unfold CheckQueries
        rw [hd]
        simp only
        rw [if_pos hc]
        rfl
      · obtain ⟨result, count, last, hcount, hlast, hrun⟩ :=
          walkQueries_terminates nodes ef (Nat.find hex) (by omega) (Nat.find_spec hex)
            (Nat.find hex) 0 (Nat.zero_add _) ∅
        refine ⟨result, count, last, by omega, hlast, fun fuel hfuel => ?_⟩
        unfold CheckQueries
        rw [hd]
        simp only
        rw [if_neg hc]
        exact hrun fuel (by omega)
  obtain ⟨result, count, last, hcount, hlast, hrun⟩ := hkey
  refine ⟨result, count, last, by omega, hlast, ?_, ?_, ?_⟩
  · intro N hNone
    exact le_trans hcount (Nat.find_min' hex hNone)
  · intro fuel hfuel
    refine ⟨hrun fuel hfuel, ?_⟩
    rw [← checkQueries_erase, hrun fuel hfuel]
    rfl
  · rw [queriesUpTo_length]
    have h1 : last.length ≤ nodes.length := hlast.length_le
    have h2 : count * nodes.length ≤ L * nodes.length :=
      Nat.mul_le_mul_right _ (by omega)
    rw [Nat.add_mul, Nat.one_mul]
    omega

theorem hashesExample_finite :
    ∀ n ∈ hashesExample, ∀ b, 4 ≤ b → blockOf n b = none := by
  intro n hn b hb
  simp only [hashesExample, List.mem_cons, List.mem_singleton, List.mem_nil_iff,
    or_false] at hn
  have h4 : ¬ b < 4 := by omega
  have h3 : ¬ b < 3 := by omega
  rcases hn with rfl | rfl | rfl <;> simp [blockOf, constantClient, h4, h3]

/-- Witness of C30: the three nodes of `hashesExample` serve no block from
block 4 on; `Check` returns with fuel 5 after at most 15 block queries. -/
theorem blocksHashes_check_terminates_witness :
    (∀ n ∈ hashesExample, ∀ b, 4 ≤ b → blockOf n b = none) ∧
      ∃ result count last, count ≤ 4 ∧
        CheckQueries 5 hashesExample =
          some (result, queriesUpTo hashesExample 0 count last) ∧
        Check 5 hashesExample = some result ∧
        (queriesUpTo hashesExample 0 count last).length ≤ 15 := by
  obtain ⟨result, count, last, hcount, _, _, hrun, hlen⟩ :=
    blocksHashes_check_terminates hashesExample 4 (by decide) hashesExample_finite
  exact ⟨hashesExample_finite, result, count, last, hcount, (hrun 5 (le_refl _)).1,
    (hrun 5 (le_refl _)).2, hlen⟩

end checking

